import Mathlib

/-!
# The `sjtu::map` and `sjtu::deque` containers

A shallow embedding of `src/include/map.hpp` (the red-black tree `RB_Tree` with
order statistics and the `map` facade over it) and of `src/include/deque.hpp`
(the doubly linked list behind `deque`), together with the properties proved
about them.

Conventions of the embedding:

* a pointer is a natural number, `0` being the null pointer; the heap is a
  partial function from addresses to records, and `new` hands out the next
  address of a counter;
* a method is a function of the state in `Except Fault`: the three exceptions
  of `exceptions.hpp` that the containers throw, `bad_pointer` for a
  dereference of a null or dangling pointer, and `out_of_fuel` for a loop that
  has used up the fuel it was given (a loop of the source is a recursion on a
  fuel argument);
* the counters of type `int` and `size_t` are unbounded integers and naturals
  (`size_n--` of `deque::erase` is reached only after a value node has been
  read; on `0` the model keeps `0`);
* `Compare` is `std::less<Key>` over a linear order;
* an object knows its own address (`self`), which its iterators record as
  their owner.
-/

/-! ## Definitions -/

namespace sjtu

/-- Outcomes other than a normal return: the three exceptions of
`exceptions.hpp` that the containers throw, a dereference of an invalid
pointer, and exhaustion of the loop fuel of the embedding. -/
inductive Fault where
  | invalid_iterator
  | index_out_of_bound
  | container_is_empty
  | bad_pointer
  | out_of_fuel
  deriving DecidableEq

/-- Result of `map::cmp(k1, k2)` with `Compare = std::less<Key>`:
`1` when `k1 < k2`, `0` when `k2 < k1`, `-1` when neither. -/
def cmp {K : Type} [LinearOrder K] (k1 k2 : K) : Int :=
  if k1 < k2 then 1 else if k2 < k1 then 0 else -1

/-- Record `map::Node`: `value` is `none` for a null `value` pointer (the
sentinel), `color` is `true` for red, `left` is `ch[0]`, `right` is `ch[1]`. -/
structure Node (K V : Type) where
  value : Option (K × V)
  size : Int
  color : Bool
  left : Nat
  right : Nat
  parent : Nat

/-- Field `ch[d]` of a node, the index being given as a boolean
(`false` for `0`, `true` for `1`). -/
def Node.ch {K V : Type} (n : Node K V) (d : Bool) : Nat :=
  if d then n.right else n.left

/-- Assignment `ch[d] = p`. -/
def Node.setCh {K V : Type} (n : Node K V) (d : Bool) (p : Nat) : Node K V :=
  if d then { n with right := p } else { n with left := p }

/-- Class `map::RB_Tree` together with the store its nodes live in:
`mem` is the store, `brk` the next address `new` hands out. -/
structure RB_Tree (K V : Type) where
  mem : Nat → Option (Node K V)
  brk : Nat
  root : Nat
  null : Nat

namespace RB_Tree

variable {K V : Type}

/-- Dereference of a node pointer for reading. -/
def rd (t : RB_Tree K V) (p : Nat) : Except Fault (Node K V) :=
  if p = 0 then .error .bad_pointer
  else match t.mem p with
    | some n => .ok n
    | none => .error .bad_pointer

/-- The store with the record at address `p` replaced by `n`. -/
def set (t : RB_Tree K V) (p : Nat) (n : Node K V) : RB_Tree K V :=
  { t with mem := fun q => if q = p then some n else t.mem q }

/-- Assignment through a node pointer: `f` is applied to the record at `p`. -/
def wr (t : RB_Tree K V) (p : Nat) (f : Node K V → Node K V) :
    Except Fault (RB_Tree K V) :=
  match t.rd p with
  | .ok n => .ok (t.set p (f n))
  | .error e => .error e

/-- Allocation `new Node(...)`: the record is stored at the fresh address. -/
def alloc (t : RB_Tree K V) (n : Node K V) : Nat × RB_Tree K V :=
  (t.brk, { t.set t.brk n with brk := t.brk + 1 })

/-- Statement `delete p`. -/
def free (t : RB_Tree K V) (p : Nat) : Except Fault (RB_Tree K V) :=
  match t.rd p with
  | .ok _ => .ok { t with mem := fun q => if q = p then none else t.mem q }
  | .error e => .error e

/-- Constructor `RB_Tree()`: `root = (null = new Node())`.  The first address
handed out is `1`. -/
def empty : RB_Tree K V :=
  { mem := fun q => if q = 1 then some ⟨none, 0, false, 0, 0, 0⟩ else none,
    brk := 2, root := 1, null := 1 }

/-- Method `update(o)`: `o->size = o->left->size + o->right->size + 1`. -/
def update (t : RB_Tree K V) (o : Nat) : Except Fault (RB_Tree K V) := do
  let n ← t.rd o
  let l ← t.rd n.left
  let r ← t.rd n.right
  t.wr o (fun m => { m with size := l.size + r.size + 1 })

/-- Method `rotate(o, d)`. -/
def rotate (t : RB_Tree K V) (o : Nat) (d : Bool) : Except Fault (RB_Tree K V) := do
  let no ← t.rd o
  let p := no.ch (!d)
  let np ← t.rd p
  let t ← t.wr o (fun m => m.setCh (!d) (np.ch d))
  let np ← t.rd p
  let t ← t.wr (np.ch d) (fun m => { m with parent := o })
  let no ← t.rd o
  let t ← t.wr p (fun m => { m with parent := no.parent })
  let no ← t.rd o
  let t ← (if no.parent = t.null then pure { t with root := p }
    else do
      let npar ← t.rd no.parent
      if o = npar.left then t.wr no.parent (fun m => { m with left := p })
      else t.wr no.parent (fun m => { m with right := p }))
  let t ← t.wr p (fun m => m.setCh d o)
  let t ← t.wr o (fun m => { m with parent := p })
  let t ← t.update o
  t.update p

/-- Method `rank(Node* o)`: `o->left->size + 1`. -/
def rankNode (t : RB_Tree K V) (o : Nat) : Except Fault Int := do
  let n ← t.rd o
  let l ← t.rd n.left
  pure (l.size + 1)

/-- Loop of `kth(k)`, started at `o`. -/
def kthLoop (t : RB_Tree K V) : Nat → Nat → Int → Except Fault Nat
  | 0, _, _ => .error .out_of_fuel
  | fuel + 1, o, k =>
    if o = t.null then pure o
    else do
      let r ← t.rankNode o
      if k = r then pure o
      else do
        let n ← t.rd o
        if k < r then kthLoop t fuel n.left k
        else kthLoop t fuel n.right (k - r)

/-- Method `kth(k)`. -/
def kth (t : RB_Tree K V) (fuel : Nat) (k : Int) : Except Fault Nat :=
  t.kthLoop fuel t.root k

/-- Key of a node that holds a value: `o->value->first`. -/
def key (t : RB_Tree K V) (o : Nat) : Except Fault K := do
  let n ← t.rd o
  match n.value with
  | some kv => pure kv.1
  | none => .error .bad_pointer

variable [LinearOrder K]

/-- Loop of `rank(key)`, at node `o` with accumulator `k`. -/
def rankLoop (t : RB_Tree K V) (key : K) : Nat → Nat → Int → Except Fault Int
  | 0, _, _ => .error .out_of_fuel
  | fuel + 1, o, k =>
    if o = t.null then pure (-0x3f3f3f3f)
    else do
      let ko ← t.key o
      let d := cmp ko key
      let r ← t.rankNode o
      if d = -1 then pure (k + r)
      else do
        let n ← t.rd o
        rankLoop t key fuel (n.ch (d != 0)) (if d = 1 then k + r else k)

/-- Method `rank(key)`. -/
def rank (t : RB_Tree K V) (fuel : Nat) (key : K) : Except Fault Int :=
  t.rankLoop key fuel t.root 0

/-- Loop of `find(key)`, at node `o`. -/
def findLoop (t : RB_Tree K V) (key : K) : Nat → Nat → Except Fault Nat
  | 0, _ => .error .out_of_fuel
  | fuel + 1, o =>
    if o = t.null then pure o
    else do
      let ko ← t.key o
      if cmp ko key = -1 then pure o
      else do
        let n ← t.rd o
        findLoop t key fuel (n.ch (cmp ko key != 0))

/-- Method `find(key)`. -/
def find (t : RB_Tree K V) (fuel : Nat) (key : K) : Except Fault Nat :=
  t.findLoop key fuel t.root

/-- Descent loop of `insert`: the result is `inl cur` when the key was found
at `cur`, and `inr (parent, d)` when the loop ran off the tree. -/
def insertDescend (t : RB_Tree K V) (key : K) :
    Nat → Nat → Nat → Int → Except Fault (Nat ⊕ (Nat × Int))
  | 0, _, _, _ => .error .out_of_fuel
  | fuel + 1, cur, parent, d =>
    if cur = t.null then pure (.inr (parent, d))
    else do
      let kc ← t.key cur
      let d := cmp kc key
      if d = -1 then pure (.inl cur)
      else do
        let n ← t.rd cur
        insertDescend t key fuel (n.ch (d != 0)) cur d

/-- Loop `while (parent != null) { update(parent); parent = parent->parent; }`
of `insert`, also the loop over `z` of `erase`. -/
def updatePath (t : RB_Tree K V) : Nat → Nat → Except Fault (RB_Tree K V)
  | 0, _ => .error .out_of_fuel
  | fuel + 1, parent =>
    if parent = t.null then pure t
    else do
      let t1 ← t.update parent
      let n ← t1.rd parent
      updatePath t1 fuel n.parent

/-- Loop of `insert_fixup(o)`, without the final `root->color = 0`. -/
def insertFixupLoop : Nat → RB_Tree K V → Nat → Except Fault (RB_Tree K V)
  | 0, _, _ => .error .out_of_fuel
  | fuel + 1, t, o => do
    let no ← t.rd o
    let np ← t.rd no.parent
    if np.color = true then do
      let ng ← t.rd np.parent
      let d : Bool := decide (no.parent = ng.right)
      let uncle := ng.ch (!d)
      let nu ← t.rd uncle
      if nu.color = true then do
        let t ← t.wr no.parent (fun m => { m with color := false })
        let t ← t.wr uncle (fun m => { m with color := false })
        let no ← t.rd o
        let np ← t.rd no.parent
        let t ← t.wr np.parent (fun m => { m with color := true })
        let no ← t.rd o
        let np ← t.rd no.parent
        insertFixupLoop fuel t np.parent
      else do
        let (t, o) ← (if o = np.right then do
            let o := no.parent
            let t ← t.rotate o false
            pure (t, o)
          else pure (t, o))
        let no ← t.rd o
        let t ← t.wr no.parent (fun m => { m with color := false })
        let no ← t.rd o
        let np ← t.rd no.parent
        let t ← t.wr np.parent (fun m => { m with color := true })
        let no ← t.rd o
        let np ← t.rd no.parent
        let t ← t.rotate np.parent (!d)
        insertFixupLoop fuel t o
    else pure t

/-- Method `insert_fixup(o)`. -/
def insert_fixup (t : RB_Tree K V) (fuel : Nat) (o : Nat) :
    Except Fault (RB_Tree K V) := do
  let t ← insertFixupLoop fuel t o
  t.wr t.root (fun m => { m with color := false })

/-- Method `insert(value)`: the node returned and the tree afterwards. -/
def insert (t : RB_Tree K V) (fuel : Nat) (value : K × V) :
    Except Fault (Nat × RB_Tree K V) := do
  let r ← t.insertDescend value.1 fuel t.root t.null 0
  match r with
  | .inl cur => pure (cur, t)
  | .inr (parent, d) =>
    let (new_node, t) := t.alloc ⟨some value, 1, true, t.null, t.null, parent⟩
    let t ← (if parent = t.null then pure { t with root := new_node }
      else t.wr parent (fun m => m.setCh (d != 0) new_node))
    let t ← t.updatePath fuel parent
    let t ← t.insert_fixup fuel new_node
    pure (new_node, t)

/-- Inner loop of `neighbour`: `while (o->ch[d ^ 1] != null) o = o->ch[d ^ 1]`. -/
def descendLoop (t : RB_Tree K V) (d : Bool) : Nat → Nat → Except Fault Nat
  | 0, _ => .error .out_of_fuel
  | fuel + 1, o => do
    let n ← t.rd o
    if n.ch (!d) ≠ t.null then descendLoop t d fuel (n.ch (!d))
    else pure o

/-- Climbing loop of `neighbour`:
`while (parent != null && o == parent->ch[d]) { o = parent; parent = parent->parent; }`. -/
def climbLoop (t : RB_Tree K V) (d : Bool) : Nat → Nat → Nat → Except Fault Nat
  | 0, _, _ => .error .out_of_fuel
  | fuel + 1, o, parent =>
    if parent = t.null then pure parent
    else do
      let np ← t.rd parent
      if o = np.ch d then climbLoop t d fuel parent np.parent
      else pure parent

/-- Method `neighbour(o, d)`. -/
def neighbour (t : RB_Tree K V) (fuel : Nat) (o : Nat) (d : Bool) :
    Except Fault Nat := do
  let n ← t.rd o
  if n.ch d ≠ t.null then t.descendLoop d fuel (n.ch d)
  else t.climbLoop d fuel o n.parent

/-- Loop of `delete_fixup(o)`, without the final `o->color = 0`; the result is
the tree and the node `o` the loop stopped at. -/
def deleteFixupLoop : Nat → RB_Tree K V → Nat → Except Fault (RB_Tree K V × Nat)
  | 0, _, _ => .error .out_of_fuel
  | fuel + 1, t, o => do
    let no ← t.rd o
    if o ≠ t.root ∧ no.color = false then do
      let np ← t.rd no.parent
      let d : Bool := decide (np.right = o)
      let brother := np.ch (!d)
      let nb ← t.rd brother
      let (t, brother) ← (if nb.color = true then do
          let t ← t.wr brother (fun m => { m with color := false })
          let no ← t.rd o
          let t ← t.wr no.parent (fun m => { m with color := true })
          let no ← t.rd o
          let t ← t.rotate no.parent d
          let no ← t.rd o
          let np ← t.rd no.parent
          pure (t, np.ch (!d))
        else pure (t, brother))
      let nb ← t.rd brother
      let n1 ← t.rd (nb.ch d)
      let n2 ← t.rd (nb.ch (!d))
      if n1.color = false ∧ n2.color = false then do
        let t ← t.wr brother (fun m => { m with color := true })
        let nb ← t.rd brother
        deleteFixupLoop fuel t nb.parent
      else do
        let (t, brother) ← (if n2.color = false then do
            let t ← t.wr (nb.ch d) (fun m => { m with color := false })
            let t ← t.wr brother (fun m => { m with color := true })
            let t ← t.rotate brother (!d)
            let nb ← t.rd brother
            pure (t, nb.parent)
          else pure (t, brother))
        let nb ← t.rd brother
        let np ← t.rd nb.parent
        let t ← t.wr brother (fun m => { m with color := np.color })
        let nb ← t.rd brother
        let t ← t.wr nb.parent (fun m => { m with color := false })
        let nb ← t.rd brother
        let t ← t.wr (nb.ch (!d)) (fun m => { m with color := false })
        let nb ← t.rd brother
        let t ← t.rotate nb.parent d
        deleteFixupLoop fuel t t.root
    else pure (t, o)

/-- Method `delete_fixup(o)`. -/
def delete_fixup (t : RB_Tree K V) (fuel : Nat) (o : Nat) :
    Except Fault (RB_Tree K V) := do
  let (t, o) ← deleteFixupLoop fuel t o
  t.wr o (fun m => { m with color := false })

/-- Method `erase(key)`. -/
def erase (t : RB_Tree K V) (fuel : Nat) (key : K) : Except Fault (RB_Tree K V) := do
  let o ← t.find fuel key
  let no ← t.rd o
  let y ← (if no.left = t.null ∨ no.right = t.null then pure o else t.neighbour fuel o true)
  let ny ← t.rd y
  let x := if ny.left ≠ t.null then ny.left else ny.right
  let t ← t.wr x (fun m => { m with parent := ny.parent })
  let ny ← t.rd y
  let t ← (if ny.parent = t.null then pure { t with root := x }
    else do
      let np ← t.rd ny.parent
      if y = np.left then t.wr ny.parent (fun m => { m with left := x })
      else t.wr ny.parent (fun m => { m with right := x }))
  let t ← (if y ≠ o then do
      let ny ← t.rd y
      t.wr o (fun m => { m with value := ny.value })
    else pure t)
  let nx ← t.rd x
  let t ← t.updatePath fuel nx.parent
  let ny ← t.rd y
  let t ← (if ny.color = false then t.delete_fixup fuel x else pure t)
  t.free y

/-- Method `size()`: `root == null ? 0 : root->size`. -/
def size (t : RB_Tree K V) : Except Fault Int :=
  if t.root = t.null then pure 0
  else do
    let n ← t.rd t.root
    pure n.size

end RB_Tree

end sjtu

namespace sjtu

/-- Abstract view of the nodes reachable from a pointer: a binary tree whose
nodes carry the address, the `size` field, the colour and the stored pair. -/
inductive PT (K V : Type) where
  | nil : PT K V
  | node (a : Nat) (sz : Int) (c : Bool) (l : PT K V) (kv : K × V) (r : PT K V) : PT K V

namespace PT

variable {K V : Type}

/-- Pointer to the root of an abstract tree: the sentinel for the empty tree. -/
def ptr (null : Nat) : PT K V → Nat
  | nil => null
  | node a _ _ _ _ _ => a

/-- The `size` field found at the root pointer (the sentinel stores `0`). -/
def rsz : PT K V → Int
  | nil => 0
  | node _ sz _ _ _ _ => sz

/-- The `color` field found at the root pointer (the sentinel is black). -/
def col : PT K V → Bool
  | nil => false
  | node _ _ c _ _ _ => c

/-- Addresses of the nodes of a tree. -/
def addrs : PT K V → List Nat
  | nil => []
  | node a _ _ l _ r => a :: (l.addrs ++ r.addrs)

/-- In-order sequence of the stored pairs. -/
def toList : PT K V → List (K × V)
  | nil => []
  | node _ _ _ l kv r => l.toList ++ kv :: r.toList

/-- Number of nodes. -/
def card : PT K V → Nat
  | nil => 0
  | node _ _ _ l _ r => l.card + r.card + 1

/-- Height. -/
def height : PT K V → Nat
  | nil => 0
  | node _ _ _ l _ r => max l.height r.height + 1

/-- Node whose child `ch[d]` is `x` and whose child `ch[!d]` is `y`. -/
def mk (d : Bool) (a : Nat) (sz : Int) (c : Bool) (x : PT K V) (kv : K × V) (y : PT K V) :
    PT K V :=
  if d then node a sz c y kv x else node a sz c x kv y

/-- The stored sizes are consistent: every node has
`size = size(left) + size(right) + 1`. -/
def SizeOK : PT K V → Prop
  | nil => True
  | node _ sz _ l _ r => sz = l.rsz + r.rsz + 1 ∧ l.SizeOK ∧ r.SizeOK

end PT

/-- One step of a path from a node up to the root: the node `a` above the
hole, the hole being its child `ch[d]` and `sib` its child `ch[!d]`. -/
structure Frame (K V : Type) where
  d : Bool
  a : Nat
  sz : Int
  c : Bool
  kv : K × V
  sib : PT K V

variable {K V : Type}

/-- The tree obtained by putting `x` in the hole of a frame. -/
def Frame.fill (f : Frame K V) (x : PT K V) : PT K V :=
  PT.mk f.d f.a f.sz f.c x f.kv f.sib

/-- The tree obtained by putting `x` in the hole of a path (innermost frame first). -/
def plug : List (Frame K V) → PT K V → PT K V
  | [], x => x
  | f :: Φ, x => plug Φ (f.fill x)

/-- Address of the node just above the hole, the sentinel for the empty path. -/
def ctxPar (null : Nat) : List (Frame K V) → Nat
  | [] => null
  | f :: _ => f.a

/-- Addresses of the nodes of a path, its siblings included. -/
def ctxAddrs : List (Frame K V) → List Nat
  | [] => []
  | f :: Φ => f.a :: (f.sib.addrs ++ ctxAddrs Φ)

/-- The store `mem` holds the tree `T` below a node (or sentinel) `par`:
every node of `T` is allocated at its address with the fields the tree gives
it, its parent pointer included. -/
def Rep (mem : Nat → Option (Node K V)) (null : Nat) : PT K V → Nat → Prop
  | .nil, _ => True
  | .node a sz c l kv r, par =>
      mem a = some ⟨some kv, sz, c, l.ptr null, r.ptr null, par⟩ ∧
      Rep mem null l a ∧ Rep mem null r a

/-- The store holds the nodes of a path whose hole is filled by pointer `q`. -/
def RepCtx (mem : Nat → Option (Node K V)) (null : Nat) : List (Frame K V) → Nat → Prop
  | [], _ => True
  | f :: Φ, q =>
      mem f.a = some ⟨some f.kv, f.sz, f.c,
        if f.d then f.sib.ptr null else q, if f.d then q else f.sib.ptr null,
        ctxPar null Φ⟩ ∧
      Rep mem null f.sib f.a ∧ RepCtx mem null Φ f.a

/-- Pointer to the root of the tree a path leads to, when the hole holds `q`. -/
def ctxRoot : List (Frame K V) → Nat → Nat
  | [], q => q
  | f :: Φ, _ => ctxRoot Φ f.a

/-- A state of the embedding holds the abstract tree `T`, the sentinel's
parent field being `np`. -/
structure Models (t : RB_Tree K V) (T : PT K V) (np : Nat) : Prop where
  null_ne : t.null ≠ 0
  null_mem : t.mem t.null = some ⟨none, 0, false, 0, 0, np⟩
  root : t.root = T.ptr t.null
  rep : Rep t.mem t.null T t.null
  nodup : (t.null :: 0 :: T.addrs).Nodup
  null_lt : t.null < t.brk
  fresh : ∀ a ∈ T.addrs, a < t.brk

end sjtu

namespace sjtu

open RB_Tree

variable {K V : Type}

/-- Zipper form of `Models`: the tree is a path `Γ` with the subtree `S`
in its hole. -/
structure MZ (t : RB_Tree K V) (Γ : List (Frame K V)) (S : PT K V) (np : Nat) : Prop where
  null_ne : t.null ≠ 0
  null_mem : t.mem t.null = some ⟨none, 0, false, 0, 0, np⟩
  root : t.root = ctxRoot Γ (S.ptr t.null)
  repc : RepCtx t.mem t.null Γ (S.ptr t.null)
  reps : Rep t.mem t.null S (ctxPar t.null Γ)
  nodup : (t.null :: 0 :: (ctxAddrs Γ ++ S.addrs)).Nodup
  null_lt : t.null < t.brk
  fresh : ∀ a ∈ ctxAddrs Γ ++ S.addrs, a < t.brk

/-- What every mutation of the tree guarantees about the rest of the state:
the sentinel pointer and the allocation pointer are kept, and so is every
record outside the tree (the sentinel apart). -/
structure Same (t t2 : RB_Tree K V) (T T2 : PT K V) : Prop where
  null : t2.null = t.null
  brk : t2.brk = t.brk
  out : ∀ a, a ∉ T.addrs → a ≠ t.null → t2.mem a = t.mem a
  perm : T2.addrs.Perm T.addrs

/-- Frame for the left child of the node in focus. -/
abbrev frameL (a : Nat) (sz : Int) (c : Bool) (kv : K × V) (r : PT K V) : Frame K V :=
  ⟨false, a, sz, c, kv, r⟩

/-- Frame for the right child of the node in focus. -/
abbrev frameR (a : Nat) (sz : Int) (c : Bool) (l : PT K V) (kv : K × V) : Frame K V :=
  ⟨true, a, sz, c, kv, l⟩

end sjtu

namespace sjtu

open RB_Tree

variable {K V : Type}

/-- The pointer assignments of `rotate(o, d)`, `p` being `o->ch[d ^ 1]`. -/
def RB_Tree.relink (t : RB_Tree K V) (o p : Nat) (d : Bool) : Except Fault (RB_Tree K V) := do
  let np ← t.rd p
  let t ← t.wr o (fun m => m.setCh (!d) (np.ch d))
  let np ← t.rd p
  let t ← t.wr (np.ch d) (fun m => { m with parent := o })
  let no ← t.rd o
  let t ← t.wr p (fun m => { m with parent := no.parent })
  let no ← t.rd o
  let t ← (if no.parent = t.null then pure { t with root := p }
    else do
      let npar ← t.rd no.parent
      if o = npar.left then t.wr no.parent (fun m => { m with left := p })
      else t.wr no.parent (fun m => { m with right := p }))
  let t ← t.wr p (fun m => m.setCh d o)
  t.wr o (fun m => { m with parent := p })

/-- The sentinel's parent field after a rotation that moves subtree `B`. -/
def npAfter (B : PT K V) (o np : Nat) : Nat :=
  match B with
  | .nil => o
  | .node _ _ _ _ _ _ => np

end sjtu

namespace sjtu

open RB_Tree

variable {K V : Type}

/-- The subtree produced by `rotate(o, d)` from the subtree rooted at `o`
whose child `ch[d ^ 1]` is `p`: `A` is `o->ch[d]`, `B` is `p->ch[d]`, `C` is
`p->ch[d ^ 1]`; the sizes are those `update(o); update(p)` store. -/
def rotT (d : Bool) (o : Nat) (co : Bool) (A : PT K V) (kvo : K × V) (p : Nat) (cp : Bool)
    (B : PT K V) (kvp : K × V) (C : PT K V) : PT K V :=
  PT.mk d p (A.rsz + B.rsz + 1 + C.rsz + 1) cp (PT.mk d o (A.rsz + B.rsz + 1) co A kvo B) kvp C

end sjtu

namespace sjtu

variable {K V : Type}

/-- Keys of a tree, in order. -/
def PT.keys (T : PT K V) : List K := T.toList.map Prod.fst

/-- Pairs stored to the left of the hole of a path, in order. -/
def ctxL : List (Frame K V) → List (K × V)
  | [] => []
  | f :: Φ => ctxL Φ ++ (if f.d then f.sib.toList ++ [f.kv] else [])

/-- Pairs stored to the right of the hole of a path, in order. -/
def ctxR : List (Frame K V) → List (K × V)
  | [] => []
  | f :: Φ => (if f.d then [] else f.kv :: f.sib.toList) ++ ctxR Φ

section order

variable [LinearOrder K]

/-- The keys of the tree increase strictly in order. -/
def PT.Ord (T : PT K V) : Prop := T.keys.Pairwise (· < ·)

/-- Every key left of the hole is below `k` and every key right of it is above. -/
def Bounds (Γ : List (Frame K V)) (k : K) : Prop :=
  (∀ x ∈ ctxL Γ, x.1 < k) ∧ (∀ x ∈ ctxR Γ, k < x.1)

/-- The search path of `k`: the path to the node holding `k`, or to the
empty position where the search for `k` leaves the tree. -/
def zoom (k : K) : PT K V → List (Frame K V) → List (Frame K V) × PT K V
  | .nil, Γ => (Γ, .nil)
  | .node a sz c l kv r, Γ =>
    if kv.1 < k then zoom k r (frameR a sz c l kv :: Γ)
    else if k < kv.1 then zoom k l (frameL a sz c kv r :: Γ)
    else (Γ, .node a sz c l kv r)

end order

end sjtu

namespace sjtu

open RB_Tree

variable {K V : Type}

section order

variable [LinearOrder K]

/-- What the descent loop of `insert` returns for a search path. -/
def DescendOut (null : Nat) (res : Nat ⊕ (Nat × Int)) (Γ : List (Frame K V)) (S : PT K V) :
    Prop :=
  match S with
  | .nil => ∃ d : Int, res = .inr (ctxPar null Γ, d) ∧
      ∀ f Φ, Γ = f :: Φ → (d != 0) = f.d
  | .node a _ _ _ _ _ => res = .inl a

end order

end sjtu

namespace sjtu

open RB_Tree

variable {K V : Type}

/-- Allocation of the new node of `insert` and its attachment below `parent`. -/
def RB_Tree.attach (t : RB_Tree K V) (parent : Nat) (d : Int) (value : K × V) :
    Except Fault (Nat × RB_Tree K V) :=
  let (new_node, t) := t.alloc ⟨some value, 1, true, t.null, t.null, parent⟩
  (if parent = t.null then pure { t with root := new_node }
    else t.wr parent (fun m => m.setCh (d != 0) new_node)) >>= fun t => pure (new_node, t)

/-- Sizes of the nodes of a path recomputed bottom-up, the hole holding a
subtree whose root stores size `s`. -/
def resize : List (Frame K V) → Int → List (Frame K V)
  | [], _ => []
  | f :: Φ, s =>
    let s2 := (if f.d then f.sib.rsz + s else s + f.sib.rsz) + 1
    { f with sz := s2 } :: resize Φ s2

end sjtu

namespace sjtu

variable {K V : Type}

/-- Number of black nodes on the leftmost path (the sentinel not counted). -/
def PT.bh : PT K V → Nat
  | .nil => 0
  | .node _ _ c l _ _ => l.bh + (if c then 0 else 1)

/-- Red-black balance: no red node has a red child, and on every node the
two subtrees have the same black height. -/
def PT.Bal : PT K V → Prop
  | .nil => True
  | .node _ _ c l _ r => l.Bal ∧ r.Bal ∧ l.bh = r.bh ∧ (c = true → l.col = false ∧ r.col = false)

/-- Balance of a path: the hole expects a subtree of black height `h` whose
root has colour `c`. -/
def CtxBal : List (Frame K V) → Nat → Bool → Prop
  | [], _, _ => True
  | f :: Φ, h, c =>
    f.sib.Bal ∧ f.sib.bh = h ∧ (f.c = true → c = false ∧ f.sib.col = false) ∧
      CtxBal Φ (h + if f.c then 0 else 1) f.c

/-- Colour of the root of the tree a path leads to, the hole holding a
subtree whose root has colour `c`. -/
def rootCol : List (Frame K V) → Bool → Bool
  | [], c => c
  | f :: Φ, _ => rootCol Φ f.c

/-- Size consistency of a path, the hole holding a subtree whose root stores
size `s`. -/
def CtxSize : List (Frame K V) → Int → Prop
  | [], _ => True
  | f :: Φ, s =>
    f.sz = (if f.d then f.sib.rsz + s else s + f.sib.rsz) + 1 ∧ f.sib.SizeOK ∧ CtxSize Φ f.sz

/-- Every sibling subtree of the path has consistent sizes. -/
def CtxSibOK : List (Frame K V) → Prop
  | [] => True
  | f :: Φ => f.sib.SizeOK ∧ CtxSibOK Φ

/-- The `size` field at the root of the tree a path leads to, the hole
holding a subtree whose root stores size `s`. -/
def ctxRsz : List (Frame K V) → Int → Int
  | [], s => s
  | f :: Φ, _ => ctxRsz Φ f.sz

/-- A subtree may stand for another below any path: same sequence of pairs,
same addresses, and consistent sizes with the same root size when the
original has consistent sizes. -/
structure LEquiv (S S2 : PT K V) : Prop where
  toList : S2.toList = S.toList
  perm : S2.addrs.Perm S.addrs
  size : S.SizeOK → S2.SizeOK ∧ S2.rsz = S.rsz

end sjtu

namespace sjtu

open RB_Tree

variable {K V : Type}

/-- The frame seen from the sibling: the hole and the sibling exchanged. -/
def Frame.flip (f : Frame K V) (S : PT K V) : Frame K V :=
  ⟨!f.d, f.a, f.sz, f.c, f.kv, S⟩

end sjtu

namespace sjtu

open RB_Tree

variable {K V : Type}

/-- Invariant of the loop of `insert_fixup` at a red node with children `l`
and `r` below the path `Γ`: the only possible violation is a red parent. -/
structure FixInv (Γ : List (Frame K V)) (l r : PT K V) : Prop where
  bl : l.Bal
  br : r.Bal
  hh : l.bh = r.bh
  cl : l.col = false
  cr : r.col = false
  cb : CtxBal Γ l.bh false
  rc : rootCol Γ false = false

end sjtu

namespace sjtu

open RB_Tree

variable {K V : Type}

/-- Well-formedness of the abstract tree: strictly increasing keys,
red-black balance with a black root, consistent sizes. -/
structure PT.WF [LinearOrder K] (T : PT K V) : Prop where
  ord : T.Ord
  bal : T.Bal
  black : T.col = false
  size : T.SizeOK

end sjtu

namespace sjtu

open RB_Tree

variable {K V : Type}

/-- The unlinking step of `erase`: `x` is the child of `y` that takes its
place (`y->left` when that is not the sentinel, else `y->right`). -/
def RB_Tree.spliceOut (t : RB_Tree K V) (y : Nat) : Except Fault (RB_Tree K V × Nat) := do
  let ny ← t.rd y
  let x := if ny.left ≠ t.null then ny.left else ny.right
  let t ← t.wr x (fun m => { m with parent := ny.parent })
  let ny ← t.rd y
  let t ← (if ny.parent = t.null then pure { t with root := x }
    else do
      let np ← t.rd ny.parent
      if y = np.left then t.wr ny.parent (fun m => { m with left := x })
      else t.wr ny.parent (fun m => { m with right := x }))
  pure (t, x)

/-- The sentinel's parent field after `x->parent = y->parent`. -/
def npSplice (X : PT K V) (par np : Nat) : Nat :=
  match X with
  | .nil => par
  | .node _ _ _ _ _ _ => np

/-- The child that replaces a node with at most one child. -/
def onlyChild (L R : PT K V) : PT K V :=
  match L with
  | .nil => R
  | .node _ _ _ _ _ _ => L

end sjtu

namespace sjtu

open RB_Tree

variable {K V : Type}

/-- Second half of the body of the loop of `delete_fixup`, from the test on
the colours of the brother's children on. -/
def RB_Tree.deleteFixupRest (fuel : Nat) (t : RB_Tree K V) (d : Bool) (brother : Nat) :
    Except Fault (RB_Tree K V × Nat) := do
  let nb ← t.rd brother
  let n1 ← t.rd (nb.ch d)
  let n2 ← t.rd (nb.ch (!d))
  if n1.color = false ∧ n2.color = false then do
    let t ← t.wr brother (fun m => { m with color := true })
    let nb ← t.rd brother
    deleteFixupLoop fuel t nb.parent
  else do
    let (t, brother) ← (if n2.color = false then do
        let t ← t.wr (nb.ch d) (fun m => { m with color := false })
        let t ← t.wr brother (fun m => { m with color := true })
        let t ← t.rotate brother (!d)
        let nb ← t.rd brother
        pure (t, nb.parent)
      else pure (t, brother))
    let nb ← t.rd brother
    let np ← t.rd nb.parent
    let t ← t.wr brother (fun m => { m with color := np.color })
    let nb ← t.rd brother
    let t ← t.wr nb.parent (fun m => { m with color := false })
    let nb ← t.rd brother
    let t ← t.wr (nb.ch (!d)) (fun m => { m with color := false })
    let nb ← t.rd brother
    let t ← t.rotate nb.parent d
    deleteFixupLoop fuel t t.root

/-- First half of the body of the loop of `delete_fixup`: a red brother is
made black and rotated above the parent. -/
def RB_Tree.deleteFixupRed (t : RB_Tree K V) (o : Nat) (d : Bool) (brother : Nat) :
    Except Fault (RB_Tree K V × Nat) := do
  let t ← t.wr brother (fun m => { m with color := false })
  let no ← t.rd o
  let t ← t.wr no.parent (fun m => { m with color := true })
  let no ← t.rd o
  let t ← t.rotate no.parent d
  let no ← t.rd o
  let np ← t.rd no.parent
  pure (t, np.ch (!d))

/-- The tree with its root made black. -/
def PT.blacken : PT K V → PT K V
  | .nil => .nil
  | .node a sz _ l kv r => .node a sz false l kv r

end sjtu

namespace sjtu

open RB_Tree

variable {K V : Type}

/-- What `delete_fixup` achieves, stated on the result `res` of its loop
followed by the final `o->color = 0`. -/
def DFixGoal (t : RB_Tree K V) (T : PT K V) (res : Except Fault (RB_Tree K V × Nat)) : Prop :=
  ∃ t2 o2 t3 T2 np2, res = .ok (t2, o2) ∧
    t2.wr o2 (fun m => { m with color := false }) = .ok t3 ∧
    Models t3 T2 np2 ∧ Same t t3 T T2 ∧ LEquiv T T2 ∧ T2.Bal ∧ T2.col = false

end sjtu

namespace sjtu

open RB_Tree

variable {K V : Type}

/-- The path to the leftmost node of a subtree, pushed on `Γ`, and that node. -/
def zoomMin : PT K V → List (Frame K V) → List (Frame K V) × PT K V
  | .nil, Γ => (Γ, .nil)
  | .node a sz c .nil kv r, Γ => (Γ, .node a sz c .nil kv r)
  | .node a sz c (.node la lsz lc ll lkv lr) kv r, Γ =>
    zoomMin (.node la lsz lc ll lkv lr) (frameL a sz c kv r :: Γ)

end sjtu

namespace sjtu

open RB_Tree

variable {K V : Type}

/-- Last part of `erase`: sizes along the path from `x`, the repair when the
removed node `y` was black, and `delete y`. -/
def RB_Tree.eraseTail (t : RB_Tree K V) (fuel : Nat) (x y : Nat) :
    Except Fault (RB_Tree K V) := do
  let nx ← t.rd x
  let t ← t.updatePath fuel nx.parent
  let ny ← t.rd y
  let t ← (if ny.color = false then t.delete_fixup fuel x else pure t)
  t.free y

/-- The copy of the value of `y` into `o` in `erase`, when they differ. -/
def RB_Tree.copyValue (t : RB_Tree K V) (o y : Nat) : Except Fault (RB_Tree K V) :=
  if y ≠ o then do
    let ny ← t.rd y
    t.wr o (fun m => { m with value := ny.value })
  else pure t

/-- The body of `erase` once the node `y` to unlink is known. -/
def RB_Tree.eraseAt (t : RB_Tree K V) (fuel : Nat) (o y : Nat) :
    Except Fault (RB_Tree K V) := do
  let (t, x) ← t.spliceOut y
  let t ← t.copyValue o y
  t.eraseTail fuel x y

end sjtu

namespace sjtu

open RB_Tree

variable {K V : Type}

/-- In-order sequence of the nodes: address and stored pair. -/
def PT.nodes : PT K V → List (Nat × K × V)
  | .nil => []
  | .node a _ _ l kv r => l.nodes ++ (a, kv) :: r.nodes

/-- The node that `kth(k)` designates: the `k`-th in order, counted from 1, or
the sentinel when there is none. -/
def PT.kthPtr (null : Nat) (S : PT K V) (k : Int) : Nat :=
  if 1 ≤ k then ((S.nodes[(k - 1).toNat]?).map Prod.fst).getD null else null

/-- The result of `rank(key)` started with the accumulator `acc`. -/
def PT.rankOf [DecidableEq K] (S : PT K V) (key : K) (acc : Int) : Int :=
  if key ∈ S.keys then acc + (S.keys.indexOf key + 1) else -0x3f3f3f3f

end sjtu

namespace sjtu

open RB_Tree

variable {K V : Type}

/-- Nodes to the left of the hole of a path, in order. -/
def ctxLn : List (Frame K V) → List (Nat × K × V)
  | [] => []
  | f :: Φ => ctxLn Φ ++ (if f.d then f.sib.nodes ++ [(f.a, f.kv)] else [])

/-- Nodes to the right of the hole of a path, in order. -/
def ctxRn : List (Frame K V) → List (Nat × K × V)
  | [] => []
  | f :: Φ => (if f.d then [] else (f.a, f.kv) :: f.sib.nodes) ++ ctxRn Φ

end sjtu

namespace sjtu

variable {K V : Type}

/-- Class `map::iterator`: the node pointer and the address of the owning
map, `0` standing for `nullptr` in both. -/
structure map.iterator where
  pointer : Nat
  belong : Nat
deriving DecidableEq

/-- Class `map`: the member `rb_tree` and the address of the object (`this`). -/
structure map (K V : Type) where
  rb_tree : RB_Tree K V
  self : Nat

namespace map

/-- Constructor `map()` of an object at address `self`. -/
def empty (self : Nat) : map K V := ⟨RB_Tree.empty, self⟩

/-- Method `end()`: `iterator(rb_tree.null, this)`. -/
def «end» (m : map K V) : iterator := ⟨m.rb_tree.null, m.self⟩

/-- Method `begin()`: `iterator(rb_tree.kth(1), this)`. -/
def «begin» (m : map K V) (fuel : Nat) : Except Fault iterator := do
  let p ← m.rb_tree.kth fuel 1
  pure ⟨p, m.self⟩

/-- Method `size()`. -/
def size (m : map K V) : Except Fault Int := m.rb_tree.size

section order

variable [LinearOrder K]

/-- Method `count(key)`: `rb_tree.rank(key) > 0 ? 1 : 0`. -/
def count (m : map K V) (fuel : Nat) (key : K) : Except Fault Nat := do
  let r ← m.rb_tree.rank fuel key
  pure (if r > 0 then 1 else 0)

/-- Method `find(key)`: `iterator(rb_tree.find(key), this)`. -/
def find (m : map K V) (fuel : Nat) (key : K) : Except Fault iterator := do
  let p ← m.rb_tree.find fuel key
  pure ⟨p, m.self⟩

/-- Method `at(key)`. -/
def «at» (m : map K V) (fuel : Nat) (key : K) : Except Fault V := do
  let p ← m.rb_tree.find fuel key
  let n ← m.rb_tree.rd p
  match n.value with
  | some kv => pure kv.2
  | none => .error .index_out_of_bound

/-- Method `insert(value)`: the pair is built from the raw node pointer, so
the iterator of the result is `iterator(ptr)` with `belong == nullptr`. -/
def insert (m : map K V) (fuel : Nat) (value : K × V) :
    Except Fault ((iterator × Bool) × map K V) := do
  let cnt ← m.count fuel value.1
  let (p, t) ← m.rb_tree.insert fuel value
  pure ((⟨p, 0⟩, cnt == 0), { m with rb_tree := t })

/-- Method `erase(pos)`. -/
def erase (m : map K V) (fuel : Nat) (pos : iterator) : Except Fault (map K V) :=
  if pos.belong ≠ m.self ∨ pos.pointer = 0 then .error .invalid_iterator
  else do
    let n ← m.rb_tree.rd pos.pointer
    match n.value with
    | none => .error .invalid_iterator
    | some kv => do
      let t ← m.rb_tree.erase fuel kv.1
      pure { m with rb_tree := t }

/-- Prefix `operator++` of an iterator, `m` being the map found at the
address `belong`; the dereference of `belong` faults when it is `nullptr` or
not the address of `m`. -/
def inc (m : map K V) (fuel : Nat) (it : iterator) : Except Fault iterator :=
  if it.pointer = 0 then .error .invalid_iterator
  else do
    let n ← m.rb_tree.rd it.pointer
    match n.value with
    | none => .error .invalid_iterator
    | some kv =>
      if it.belong = 0 ∨ it.belong ≠ m.self then .error .bad_pointer
      else do
        let o ← m.rb_tree.find fuel kv.1
        let p ← m.rb_tree.neighbour fuel o true
        pure { it with pointer := p }

/-- The keys met by stepping an iterator with `++` until it equals `end()`,
in at most `n` steps. -/
def walk (m : map K V) (fuel : Nat) : Nat → iterator → Except Fault (List K)
  | 0, it => if it = m.end then pure [] else .error .out_of_fuel
  | n + 1, it =>
    if it = m.end then pure []
    else do
      let nd ← m.rb_tree.rd it.pointer
      match nd.value with
      | none => .error .bad_pointer
      | some kv => do
        let it2 ← m.inc fuel it
        let rest ← walk m fuel n it2
        pure (kv.1 :: rest)

/-- The keys met from `begin()` by `++` up to `end()`. -/
def traverse (m : map K V) (fuel : Nat) : Except Fault (List K) := do
  let b ← m.begin fuel
  m.walk fuel fuel b

/-- The pairs of a list inserted one after the other. -/
def insertAll (fuel : Nat) : List (K × V) → map K V → Except Fault (map K V)
  | [], m => pure m
  | kv :: rest, m => do
    let r ← m.insert fuel kv
    insertAll fuel rest r.2

end order

end map

/-- The maps obtained from an empty map by `insert` and by `erase` at the
position `find` gives for a key that is present. -/
inductive Reachable [LinearOrder K] : map K V → Prop
  | empty (self : Nat) (h : self ≠ 0) : Reachable (map.empty self)
  | insert {m : map K V} (h : Reachable m) (fuel : Nat) (value : K × V)
      (r : (map.iterator × Bool) × map K V) (hr : m.insert fuel value = .ok r) : Reachable r.2
  | erase {m : map K V} (h : Reachable m) (fuel fuel2 : Nat) (key : K) (pos : map.iterator)
      (m2 : map K V) (hf : m.find fuel key = .ok pos) (hp : pos ≠ m.end)
      (hr : m.erase fuel2 pos = .ok m2) : Reachable m2

/-- The map object `m` holds the well-formed tree `T`. -/
def Holds [LinearOrder K] (m : map K V) (T : PT K V) : Prop :=
  m.self ≠ 0 ∧ ∃ np, Models m.rb_tree T np ∧ T.WF

end sjtu

namespace sjtu

open RB_Tree

variable {K V : Type}

/-- The pointer of the first node of a sequence of nodes, the sentinel for
the empty sequence. -/
def headPtr (null : Nat) (l : List (Nat × K × V)) : Nat :=
  (l.head?.map Prod.fst).getD null

end sjtu

namespace sjtu

/-- Record `deque::Node`: `data` is `none` for a null `data` pointer, `prev`
and `next` are addresses, `0` standing for `NULL`. -/
structure DNode (T : Type) where
  data : Option T
  prev : Nat
  next : Nat

/-- Class `deque::iterator`: the node pointer and the address of the owning
deque, `0` standing for `NULL` in both. -/
structure deque.iterator where
  pointer : Nat
  belong : Nat
deriving DecidableEq

/-- A `deque` object at address `self` with the store of its nodes: `mem`
holds the allocated nodes, `brk` is the next fresh address, `leak` is the
global `memory_leak_detector`.  The counter `size_n` is kept unbounded. -/
structure deque (T : Type) where
  mem : Nat → Option (DNode T)
  brk : Nat
  leak : Int
  self : Nat
  size_n : Nat
  head : deque.iterator
  tail : deque.iterator

namespace deque

variable {T : Type}

/-- Constructor `deque()` of an object at address `self`. -/
def init (self : Nat) : deque T :=
  { mem := fun _ => none, brk := 1, leak := 0, self := self, size_n := 0,
    head := ⟨0, self⟩, tail := ⟨0, self⟩ }

/-- Dereference of a node pointer for reading. -/
def rd (d : deque T) (p : Nat) : Except Fault (DNode T) :=
  if p = 0 then .error .bad_pointer
  else match d.mem p with
    | some n => .ok n
    | none => .error .bad_pointer

/-- The store with the record at address `p` replaced by `n`. -/
def set (d : deque T) (p : Nat) (n : DNode T) : deque T :=
  { d with mem := fun q => if q = p then some n else d.mem q }

/-- Assignment through a node pointer: `f` is applied to the record at `p`. -/
def wr (d : deque T) (p : Nat) (f : DNode T → DNode T) : Except Fault (deque T) :=
  match d.rd p with
  | .ok n => .ok (d.set p (f n))
  | .error e => .error e

/-- Allocation `new Node(...)` of the record `n` at the fresh address. -/
def alloc (d : deque T) (n : DNode T) : Nat × deque T :=
  (d.brk, { d.set d.brk n with brk := d.brk + 1 })

/-- Statement `delete p` on a node: `~Node()` decrements the counter when
the node has data, then the record is released. -/
def free (d : deque T) (p : Nat) : Except Fault (deque T) :=
  match d.rd p with
  | .ok n => .ok { d with mem := fun q => if q = p then none else d.mem q,
                          leak := if n.data.isSome then d.leak - 1 else d.leak }
  | .error e => .error e

/-- Loop `for (i = 0; i < n; i++) { ptr = ptr->next; if (ptr == NULL) throw }`
of `operator+`. -/
def stepNext (d : deque T) : Nat → Nat → Except Fault Nat
  | 0, ptr => pure ptr
  | n + 1, ptr => do
    let nd ← d.rd ptr
    if nd.next = 0 then .error .invalid_iterator
    else stepNext d n nd.next

/-- Loop `for (i = 0; i < n; i++) { ptr = ptr->prev; if (ptr == NULL) throw }`
of `operator-`. -/
def stepPrev (d : deque T) : Nat → Nat → Except Fault Nat
  | 0, ptr => pure ptr
  | n + 1, ptr => do
    let nd ← d.rd ptr
    if nd.prev = 0 then .error .invalid_iterator
    else stepPrev d n nd.prev

/-- Negation of an `int`: `-n` wraps for the least value. -/
def negInt (n : Int) : Int := if n = -2147483648 then n else -n

/-- Method `iterator::operator+(n)`.  For the least `int` the operators `+`
and `-` call each other without end, which the model reports as
`out_of_fuel`. -/
def iterator.add (d : deque T) (it : iterator) (n : Int) : Except Fault iterator :=
  if n < 0 then
    (if negInt n < 0 then .error .out_of_fuel
     else do
      let p ← d.stepPrev (negInt n).toNat it.pointer
      pure ⟨p, it.belong⟩)
  else do
    let p ← d.stepNext n.toNat it.pointer
    pure ⟨p, it.belong⟩

/-- Method `iterator::operator-(n)`. -/
def iterator.sub (d : deque T) (it : iterator) (n : Int) : Except Fault iterator :=
  if n < 0 then
    (if negInt n < 0 then .error .out_of_fuel
     else do
      let p ← d.stepNext (negInt n).toNat it.pointer
      pure ⟨p, it.belong⟩)
  else do
    let p ← d.stepPrev n.toNat it.pointer
    pure ⟨p, it.belong⟩

/-- Method `empty()`. -/
def empty (d : deque T) : Bool := d.size_n == 0

/-- Method `size()`. -/
def size (d : deque T) : Nat := d.size_n

/-- Method `begin()`. -/
def «begin» (d : deque T) : iterator := d.head

/-- Method `end()`. -/
def «end» (d : deque T) : iterator := d.tail

/-- Method `initialize(value)`. -/
def initialize_ (d : deque T) (value : T) : Except Fault (deque T) := do
  let d := { d with size_n := 1 }
  let d ← (if d.head.pointer ≠ 0 then d.free d.head.pointer else pure d)
  let (h, d) := d.alloc ⟨none, 0, 0⟩
  let d := { d with head := { d.head with pointer := h } }
  let (t, d) := d.alloc ⟨none, 0, 0⟩
  let d := { d with tail := { d.tail with pointer := t } }
  let d ← d.wr d.head.pointer (fun m => { m with data := some value })
  let d := { d with leak := d.leak + 1 }
  let d ← d.wr d.head.pointer (fun m => { m with next := d.tail.pointer })
  d.wr d.tail.pointer (fun m => { m with prev := d.head.pointer })

/-- Method `insert(pos, value)` once the deque is known not to be empty. -/
def insertAt (d : deque T) (pos : iterator) (value : T) : Except Fault (iterator × deque T) :=
  if pos.pointer = 0 then .error .invalid_iterator
  else do
    let np ← d.rd pos.pointer
    let (new_node, d) := d.alloc ⟨some value, np.prev, pos.pointer⟩
    let d := { d with leak := d.leak + 1 }
    let np ← d.rd pos.pointer
    let d ← (if np.prev ≠ 0 then d.wr np.prev (fun m => { m with next := new_node })
      else pure d)
    let d ← d.wr pos.pointer (fun m => { m with prev := new_node })
    let d := { d with size_n := d.size_n + 1 }
    let d ← (if pos = d.head then do
        let h ← iterator.sub d d.head 1
        pure { d with head := h }
      else pure d)
    pure (⟨new_node, d.self⟩, d)

/-- Method `push_back(value)`; the call `insert(tail, value)`, made on a deque
that is not empty, is unfolded to its owner test and `insertAt`. -/
def push_back (d : deque T) (value : T) : Except Fault (deque T) :=
  if d.empty then d.initialize_ value
  else do
    if d.tail.belong ≠ d.self then .error .invalid_iterator
    else do
      let r ← d.insertAt d.tail value
      pure r.2

/-- Method `insert(pos, value)`. -/
def insert (d : deque T) (pos : iterator) (value : T) : Except Fault (iterator × deque T) :=
  if pos.belong ≠ d.self then .error .invalid_iterator
  else if d.empty then do
    let d ← d.push_back value
    pure (d.head, d)
  else d.insertAt pos value

/-- Method `push_front(value)`. -/
def push_front (d : deque T) (value : T) : Except Fault (deque T) :=
  if d.empty then d.initialize_ value
  else do
    let r ← d.insert d.head value
    pure r.2

/-- Method `erase(pos)`, whose guard is
`!pos.pointer || !pos.pointer->data || pos.belong != this`.  The store of `d`
holds the nodes of `d` alone.  The node of an iterator of another owner is a
record of the store of that owner: there the read `pos.pointer->data` of the
guard returns, and whatever it returns the disjunct `pos.belong != this` makes
the guard throw `invalid_iterator`.  For an iterator of `d` the read is made
in the store of `d`. -/
def erase (d : deque T) (pos : iterator) : Except Fault (iterator × deque T) :=
  if pos.pointer = 0 then .error .invalid_iterator
  else if pos.belong ≠ d.self then .error .invalid_iterator
  else do
    let np ← d.rd pos.pointer
    if np.data.isNone then .error .invalid_iterator
    else do
      let ptr := pos.pointer
      let nxt := np.next
      let d ← (if np.prev ≠ 0 then d.wr np.prev (fun m => { m with next := np.next })
        else pure d)
      let np ← d.rd ptr
      let d ← (if np.next ≠ 0 then d.wr np.next (fun m => { m with prev := np.prev })
        else pure d)
      let d ← (if pos = d.head then do
          let h ← iterator.add d d.head 1
          pure { d with head := h }
        else pure d)
      let d ← d.free ptr
      let d := { d with size_n := d.size_n - 1 }
      pure (⟨nxt, d.self⟩, d)

/-- Method `pop_back()`: `tail = erase(tail - 1)`. -/
def pop_back (d : deque T) : Except Fault (deque T) := do
  let pos ← iterator.sub d d.tail 1
  let (r, d) ← d.erase pos
  pure { d with tail := r }

/-- Method `pop_front()`: `head = erase(head)`. -/
def pop_front (d : deque T) : Except Fault (deque T) := do
  let (r, d) ← d.erase d.head
  pure { d with head := r }

/-- Method `front()`. -/
def front (d : deque T) : Except Fault T :=
  if d.empty then .error .container_is_empty
  else do
    let n ← d.rd d.head.pointer
    match n.data with
    | some v => pure v
    | none => .error .bad_pointer

/-- Method `back()`. -/
def back (d : deque T) : Except Fault T :=
  if d.empty then .error .container_is_empty
  else do
    let nt ← d.rd d.tail.pointer
    let n ← d.rd nt.prev
    match n.data with
    | some v => pure v
    | none => .error .bad_pointer

end deque

end sjtu

namespace sjtu

variable {T : Type}

/-- Address of the first cell of a sequence of cells, `e` when there is none. -/
def hdPtr (e : Nat) (l : List (Nat × Option T)) : Nat :=
  (l.head?.map Prod.fst).getD e

/-- Address of the last cell of a sequence of cells, `p` when there is none. -/
def lastPtr (p : Nat) (l : List (Nat × Option T)) : Nat :=
  (l.getLast?.map Prod.fst).getD p

/-- The store holds the cells of `l` as a doubly linked chain entered from the
node `p` and left to the node `e`. -/
def DChain (mem : Nat → Option (DNode T)) : Nat → List (Nat × Option T) → Nat → Prop
  | _, [], _ => True
  | p, c :: rest, e => mem c.1 = some ⟨c.2, p, hdPtr e rest⟩ ∧ DChain mem c.1 rest e

/-- The cells of a deque holding `xs`: one node per element, then the tail
sentinel `tl` without data. -/
def cellsOf (xs : List (Nat × T)) (tl : Nat) : List (Nat × Option T) :=
  xs.map (fun p => (p.1, some p.2)) ++ [(tl, none)]

/-- The store of a deque that has been populated holds exactly the cells
`ys`, linked front to back, `head` pointing at the first of them. -/
structure DPop (d : deque T) (ys : List (Nat × Option T)) : Prop where
  head : d.head.pointer = hdPtr 0 ys
  chain : DChain d.mem 0 ys 0
  nodup : (ys.map Prod.fst).Nodup
  nz : 0 ∉ ys.map Prod.fst
  clean : ∀ q, q ∉ ys.map Prod.fst → d.mem q = none
  fresh : ∀ q ∈ ys.map Prod.fst, q < d.brk

/-- Representation invariant of a deque object holding the elements `xs`
(address and value of each node, front to back): either the object is as the
constructor left it, or the store holds the nodes of `xs` and the tail
sentinel. -/
structure DInv (d : deque T) (xs : List (Nat × T)) : Prop where
  self_ne : d.self ≠ 0
  hb : d.head.belong = d.self
  tb : d.tail.belong = d.self
  size : d.size_n = xs.length
  brk_pos : 0 < d.brk
  shape : (xs = [] ∧ d = deque.init d.self) ∨ DPop d (cellsOf xs d.tail.pointer)

end sjtu

namespace sjtu

open deque

variable {T : Type}

/-- The deques obtained from `deque()` by pushes, pops, `insert` and `erase`
that return. -/
inductive DReach : deque T → Prop
  | init (self : Nat) (h : self ≠ 0) : DReach (deque.init self)
  | push_back {d : deque T} (h : DReach d) (value : T) (d2 : deque T)
      (hr : d.push_back value = .ok d2) : DReach d2
  | push_front {d : deque T} (h : DReach d) (value : T) (d2 : deque T)
      (hr : d.push_front value = .ok d2) : DReach d2
  | pop_back {d : deque T} (h : DReach d) (d2 : deque T) (hr : d.pop_back = .ok d2) : DReach d2
  | pop_front {d : deque T} (h : DReach d) (d2 : deque T) (hr : d.pop_front = .ok d2) :
      DReach d2
  | insert {d : deque T} (h : DReach d) (pos : deque.iterator) (value : T)
      (r : deque.iterator × deque T) (hr : d.insert pos value = .ok r) : DReach r.2
  | erase {d : deque T} (h : DReach d) (pos : deque.iterator)
      (r : deque.iterator × deque T) (hr : d.erase pos = .ok r) : DReach r.2

end sjtu

namespace sjtu

variable {K V : Type}

/-- No red node has a red child. -/
def PT.NoRedRed : PT K V → Prop
  | .nil => True
  | .node _ _ c l _ r => (c = true → l.col = false ∧ r.col = false) ∧ l.NoRedRed ∧ r.NoRedRed

/-- For each path from the root down to the sentinel, the number of black
nodes on it (the sentinel not counted). -/
def PT.blackCounts : PT K V → List Nat
  | .nil => [0]
  | .node _ _ c l _ r => (l.blackCounts ++ r.blackCounts).map (· + (if c then 0 else 1))

end sjtu

namespace sjtu

variable {K V : Type}

/-- Example: the map at address `1` after the keys 5, 3, 8, 1, 4 have been
inserted into it, in this order. -/
def demoMap : map Nat Nat :=
  match map.insertAll 8 [(5, 50), (3, 30), (8, 80), (1, 10), (4, 40)] (map.empty 1) with
  | .ok m => m
  | .error _ => map.empty 1

end sjtu

namespace sjtu

/-- Example: the deque at address `1` after `push_back(10)`. -/
def demoDequeOne : deque Nat :=
  match (deque.init 1 : deque Nat).push_back 10 with
  | .ok d => d
  | .error _ => deque.init 1

/-- Example: the deque at address `1` after `push_back(10)` and `pop_back()`,
empty again. -/
def demoDeque : deque Nat :=
  match demoDequeOne.pop_back with
  | .ok d => d
  | .error _ => deque.init 1

end sjtu

namespace sjtu

variable {T : Type}

namespace deque

/-- Loop `for (int i = 0; i < pos; i++) pointer = pointer->next` of `at`. -/
def advance (d : deque T) : Nat → Nat → Except Fault Nat
  | 0, pointer => pure pointer
  | n + 1, pointer => do
    let nd ← d.rd pointer
    advance d n nd.next

/-- Method `at(pos)`, which `operator[]` calls; `pos < 0` never holds for a
`size_t`. -/
def «at» (d : deque T) (pos : Nat) : Except Fault T :=
  if pos ≥ d.size_n then .error .index_out_of_bound
  else do
    let pointer ← d.advance pos d.head.pointer
    let n ← d.rd pointer
    match n.data with
    | some v => pure v
    | none => .error .bad_pointer

/-- Method `iterator::operator*`. -/
def iterator.deref (d : deque T) (it : iterator) : Except Fault T :=
  if it.pointer = 0 then .error .invalid_iterator
  else do
    let n ← d.rd it.pointer
    match n.data with
    | none => .error .invalid_iterator
    | some v => pure v

/-- The values that the loop
`for (ptr = head.pointer; ptr && ptr->data; ptr = ptr->next)` of `operator=`
meets from `ptr` on, front to back. -/
def valuesFrom (d : deque T) : Nat → Nat → Except Fault (List T)
  | 0, _ => .error .out_of_fuel
  | fuel + 1, ptr =>
    if ptr = 0 then pure []
    else do
      let n ← d.rd ptr
      match n.data with
      | none => pure []
      | some v => do
        let rest ← valuesFrom d fuel n.next
        pure (v :: rest)

/-- The elements of a deque, front to back: the values met from
`head.pointer`, the walk being given one step more than `size()`. -/
def toList (d : deque T) : Except Fault (List T) :=
  d.valuesFrom (d.size_n + 1) d.head.pointer

/-- First loop of `iterator::operator-(rhs)`:
`for (...; ptr != NULL && ptr != rhs.pointer; ptr = ptr->prev, ans++)`. -/
def backLoop (d : deque T) (target : Nat) : Nat → Nat → Int → Except Fault (Nat × Int)
  | 0, _, _ => .error .out_of_fuel
  | fuel + 1, ptr, ans =>
    if ptr ≠ 0 ∧ ptr ≠ target then do
      let n ← d.rd ptr
      backLoop d target fuel n.prev (ans + 1)
    else pure (ptr, ans)

/-- Second loop of `iterator::operator-(rhs)`:
`for (...; ptr != NULL && ptr != rhs.pointer; ptr = ptr->next, ans--)`. -/
def forthLoop (d : deque T) (target : Nat) : Nat → Nat → Int → Except Fault (Nat × Int)
  | 0, _, _ => .error .out_of_fuel
  | fuel + 1, ptr, ans =>
    if ptr ≠ 0 ∧ ptr ≠ target then do
      let n ← d.rd ptr
      forthLoop d target fuel n.next (ans - 1)
    else pure (ptr, ans)

/-- Method `iterator::operator-(rhs)`, the distance of two iterators. -/
def iterator.diff (d : deque T) (fuel : Nat) (it rhs : iterator) : Except Fault Int :=
  if it.belong ≠ rhs.belong then .error .invalid_iterator
  else do
    let r ← d.backLoop rhs.pointer fuel it.pointer 0
    if r.1 = rhs.pointer then pure r.2
    else do
      let r ← d.forthLoop rhs.pointer fuel it.pointer 0
      if r.1 = rhs.pointer then pure r.2
      else .error .invalid_iterator

end deque

end sjtu

namespace sjtu

open deque

variable {T : Type}

/-- Address of the cell of index `k` in a sequence of cells, `0` past its end. -/
def ptrAt (ys : List (Nat × Option T)) (k : Nat) : Nat :=
  ((ys[k]?).map Prod.fst).getD 0

end sjtu

namespace sjtu

open deque

/-- Example: the deque at address `1` after `push_back(10)` and
`push_back(20)`. -/
def demoDequeTwo : deque Nat :=
  match demoDequeOne.push_back 20 with
  | .ok d => d
  | .error _ => deque.init 1

/-- Example: the deque at address `1` after `push_back(10)`, `push_back(20)`
and `push_front(5)`; its nodes are at the addresses 4, 1, 3 and the tail
sentinel at 2. -/
def demoDequeThree : deque Nat :=
  match demoDequeTwo.push_front 5 with
  | .ok d => d
  | .error _ => deque.init 1

variable {T : Type}

end sjtu

namespace sjtu

open RB_Tree

variable {K V : Type}

namespace map

/-- Prefix `operator++` on an iterator object, `m` being the map found at the
address `belong`: the iterator after the call, and the exception raised if
there is one.  The assignment to `pointer` comes last. -/
def incr [LinearOrder K] (m : map K V) (fuel : Nat) (it : iterator) : iterator × Option Fault :=
  if it.pointer = 0 then (it, some .invalid_iterator)
  else
    match m.rb_tree.rd it.pointer with
    | .error e => (it, some e)
    | .ok n =>
      match n.value with
      | none => (it, some .invalid_iterator)
      | some kv =>
        if it.belong = 0 ∨ it.belong ≠ m.self then (it, some .bad_pointer)
        else
          match (do
            let o ← m.rb_tree.find fuel kv.1
            m.rb_tree.neighbour fuel o true) with
          | .error e => (it, some e)
          | .ok p => ({ it with pointer := p }, none)

/-- Prefix `operator--` on an iterator object, `m` being the map found at the
address `belong`: the iterator after the call, and the exception raised if
there is one.  The assignment to `pointer` comes before the test
`pointer->value == nullptr`. -/
def decr [LinearOrder K] (m : map K V) (fuel : Nat) (it : iterator) : iterator × Option Fault :=
  if it.belong = 0 then (it, some .invalid_iterator)
  else if it.belong ≠ m.self then (it, some .bad_pointer)
  else
    match (do
      let value ← (if it.pointer = 0 then pure none
        else do
          let n ← m.rb_tree.rd it.pointer
          pure n.value)
      match value with
      | some kv => do
        let o ← m.rb_tree.find fuel kv.1
        m.rb_tree.neighbour fuel o false
      | none => do
        let s ← m.rb_tree.size
        m.rb_tree.kth fuel s) with
    | .error e => (it, some e)
    | .ok p =>
      match m.rb_tree.rd p with
      | .error e => ({ it with pointer := p }, some e)
      | .ok n =>
        match n.value with
        | none => ({ it with pointer := p }, some .invalid_iterator)
        | some _ => ({ it with pointer := p }, none)

end map

end sjtu

namespace sjtu

open RB_Tree

variable {K V : Type}

/-- Example: the map at address `1` after the keys 1 and 2 have been
inserted; the node of the key 1 is the root, at address 2, and the node of
the key 2 its right child, red, at address 3. -/
def demoMapTwo : map Nat Nat :=
  match map.insertAll 8 [(1, 10), (2, 20)] (map.empty 1) with
  | .ok m => m
  | .error _ => map.empty 1

/-- Example: the tree that `demoMapTwo` stores. -/
def demoTreeTwo : PT Nat Nat :=
  .node 2 2 false .nil (1, 10) (.node 3 1 true .nil (2, 20) .nil)

end sjtu

namespace sjtu

open RB_Tree

/-- Example: the deque at address `2` after `push_back(7)`. -/
def demoDequeOther : deque Nat :=
  match (deque.init 2 : deque Nat).push_back 7 with
  | .ok d => d
  | .error _ => deque.init 2

end sjtu

/-! ## Theorems -/

namespace sjtu

@[simp] theorem ok_bind {ε α β : Type} (a : α) (f : α → Except ε β) :
    (Except.ok a >>= f) = f a := rfl

@[simp] theorem error_bind {ε α β : Type} (e : ε) (f : α → Except ε β) :
    (Except.error e >>= f) = Except.error e := rfl

@[simp] theorem pure_eq_ok {ε α : Type} (a : α) : (pure a : Except ε α) = Except.ok a := rfl

namespace PT

variable {K V : Type}

@[simp] theorem ptr_nil (null : Nat) : (nil : PT K V).ptr null = null := rfl

@[simp] theorem ptr_node (null a : Nat) (sz : Int) (c : Bool) (l : PT K V) (kv : K × V)
    (r : PT K V) : (node a sz c l kv r).ptr null = a := rfl

@[simp] theorem rsz_nil : (nil : PT K V).rsz = 0 := rfl

@[simp] theorem rsz_node (a : Nat) (sz : Int) (c : Bool) (l : PT K V) (kv : K × V)
    (r : PT K V) : (node a sz c l kv r).rsz = sz := rfl

@[simp] theorem col_nil : (nil : PT K V).col = false := rfl

@[simp] theorem col_node (a : Nat) (sz : Int) (c : Bool) (l : PT K V) (kv : K × V)
    (r : PT K V) : (node a sz c l kv r).col = c := rfl

@[simp] theorem addrs_nil : (nil : PT K V).addrs = [] := rfl

@[simp] theorem addrs_node (a : Nat) (sz : Int) (c : Bool) (l : PT K V) (kv : K × V)
    (r : PT K V) : (node a sz c l kv r).addrs = a :: (l.addrs ++ r.addrs) := rfl

@[simp] theorem toList_nil : (nil : PT K V).toList = [] := rfl

@[simp] theorem toList_node (a : Nat) (sz : Int) (c : Bool) (l : PT K V) (kv : K × V)
    (r : PT K V) : (node a sz c l kv r).toList = l.toList ++ kv :: r.toList := rfl

@[simp] theorem mk_false (a : Nat) (sz : Int) (c : Bool) (x : PT K V) (kv : K × V) (y : PT K V) :
    mk false a sz c x kv y = node a sz c x kv y := rfl

@[simp] theorem mk_true (a : Nat) (sz : Int) (c : Bool) (x : PT K V) (kv : K × V) (y : PT K V) :
    mk true a sz c x kv y = node a sz c y kv x := rfl

theorem rsz_eq_card : ∀ {T : PT K V}, T.SizeOK → T.rsz = T.card
  | nil, _ => rfl
  | node _ _ _ l _ r, h => by
    obtain ⟨h1, h2, h3⟩ := h
    have e1 := rsz_eq_card h2
    have e2 := rsz_eq_card h3
    show _ = ((l.card + r.card + 1 : Nat) : Int)
    rw [show ∀ a sz c kv, (node a sz c l kv r).rsz = sz from fun _ _ _ _ => rfl, h1, e1, e2]
    push_cast
    ring

theorem card_eq_length : ∀ (T : PT K V), T.card = T.toList.length
  | nil => rfl
  | node _ _ _ l _ r => by
    simp [card, toList, card_eq_length l, card_eq_length r]; omega

end PT

variable {K V : Type}

@[simp] theorem ctxPar_nil (null : Nat) : ctxPar null ([] : List (Frame K V)) = null := rfl

@[simp] theorem ctxPar_cons (null : Nat) (f : Frame K V) (Φ : List (Frame K V)) :
    ctxPar null (f :: Φ) = f.a := rfl

theorem PT.ptr_ne {null a : Nat} {S : PT K V} (h1 : a ≠ null) (h2 : a ∉ S.addrs) :
    a ≠ S.ptr null := by
  cases S with
  | nil => exact h1
  | node b _ _ _ _ _ =>
    intro e
    apply h2
    simp [PT.addrs] at e ⊢
    exact Or.inl e

theorem addrs_plug_perm : ∀ (Γ : List (Frame K V)) (x : PT K V),
    (plug Γ x).addrs.Perm (ctxAddrs Γ ++ x.addrs)
  | [], x => by simp [plug, ctxAddrs]
  | f :: Φ, x => by
    refine (addrs_plug_perm Φ (f.fill x)).trans ?_
    rw [List.perm_iff_count]
    intro a
    cases hd : f.d <;>
      simp [Frame.fill, hd, PT.addrs, ctxAddrs, List.count_append, List.count_cons] <;> omega

theorem mem_addrs_plug {Γ : List (Frame K V)} {x : PT K V} {a : Nat} :
    a ∈ (plug Γ x).addrs ↔ a ∈ ctxAddrs Γ ∨ a ∈ x.addrs := by
  rw [(addrs_plug_perm Γ x).mem_iff]; simp

theorem nodup_addrs_plug {Γ : List (Frame K V)} {x : PT K V} :
    (plug Γ x).addrs.Nodup ↔ (ctxAddrs Γ ++ x.addrs).Nodup :=
  (addrs_plug_perm Γ x).nodup_iff

theorem Rep.congr_store {mem mem2 : Nat → Option (Node K V)} {null : Nat} :
    ∀ {T : PT K V} {par : Nat}, Rep mem null T par → (∀ a ∈ T.addrs, mem2 a = mem a) →
      Rep mem2 null T par
  | .nil, _, _, _ => trivial
  | .node a sz c l kv r, par, h, he => by
    obtain ⟨h1, h2, h3⟩ := h
    refine ⟨?_, Rep.congr_store h2 ?_, Rep.congr_store h3 ?_⟩
    · rw [he a (by simp [PT.addrs]), h1]
    · intro b hb; exact he b (by simp [PT.addrs, hb])
    · intro b hb; exact he b (by simp [PT.addrs, hb])

theorem RepCtx.congr_path_store {mem mem2 : Nat → Option (Node K V)} {null : Nat} :
    ∀ {Γ : List (Frame K V)} {q : Nat}, RepCtx mem null Γ q →
      (∀ a ∈ ctxAddrs Γ, mem2 a = mem a) → RepCtx mem2 null Γ q
  | [], _, _, _ => trivial
  | f :: Φ, q, h, he => by
    obtain ⟨h1, h2, h3⟩ := h
    refine ⟨?_, Rep.congr_store h2 ?_, RepCtx.congr_path_store h3 ?_⟩
    · rw [he f.a (by simp [ctxAddrs]), h1]
    · intro b hb; exact he b (by simp [ctxAddrs, hb])
    · intro b hb; exact he b (by simp [ctxAddrs, hb])

theorem Rep_plug {mem : Nat → Option (Node K V)} {null : Nat} :
    ∀ {Γ : List (Frame K V)} {x : PT K V},
      Rep mem null (plug Γ x) null ↔
        RepCtx mem null Γ (x.ptr null) ∧ Rep mem null x (ctxPar null Γ)
  | [], x => by simp [plug, RepCtx, ctxPar]
  | f :: Φ, x => by
    rw [plug, Rep_plug (Γ := Φ)]
    cases hd : f.d <;>
      simp [Frame.fill, hd, RepCtx, Rep, ctxPar, PT.ptr] <;> tauto

theorem ptr_plug (null : Nat) : ∀ (Γ : List (Frame K V)) (x : PT K V),
    (plug Γ x).ptr null = ctxRoot Γ (x.ptr null)
  | [], x => rfl
  | f :: Φ, x => by
    rw [plug, ptr_plug null Φ]
    cases hd : f.d <;> simp [Frame.fill, hd, PT.ptr, ctxRoot]

theorem toList_plug : ∀ (Γ : List (Frame K V)) (x y : PT K V),
    x.toList = y.toList → (plug Γ x).toList = (plug Γ y).toList
  | [], _, _, h => h
  | f :: Φ, x, y, h => by
    apply toList_plug Φ
    cases hd : f.d <;> simp [Frame.fill, hd, PT.toList, h]

end sjtu

namespace sjtu

namespace RB_Tree

variable {K V : Type}

@[simp] theorem set_mem (t : RB_Tree K V) (p q : Nat) (n : Node K V) :
    (t.set p n).mem q = if q = p then some n else t.mem q := rfl

@[simp] theorem set_null (t : RB_Tree K V) (p : Nat) (n : Node K V) :
    (t.set p n).null = t.null := rfl

@[simp] theorem set_root (t : RB_Tree K V) (p : Nat) (n : Node K V) :
    (t.set p n).root = t.root := rfl

@[simp] theorem set_brk (t : RB_Tree K V) (p : Nat) (n : Node K V) :
    (t.set p n).brk = t.brk := rfl

theorem rd_eq {t : RB_Tree K V} {p : Nat} {n : Node K V} (h0 : p ≠ 0) (h : t.mem p = some n) :
    t.rd p = .ok n := by
  simp [rd, h0, h]

theorem wr_eq {t : RB_Tree K V} {p : Nat} {n : Node K V} (f : Node K V → Node K V)
    (h0 : p ≠ 0) (h : t.mem p = some n) :
    t.wr p f = .ok (t.set p (f n)) := by
  simp [wr, rd, h0, h]

end RB_Tree

open RB_Tree

variable {K V : Type}

theorem nodup_sym {l : List Nat} (h : l.Nodup) : l.Pairwise (fun a b => a ≠ b ∧ b ≠ a) :=
  List.Pairwise.imp (fun h => ⟨h, Ne.symm h⟩) h

theorem Rep_set {t : RB_Tree K V} {q : Nat} {n : Node K V} {nl : Nat} {T : PT K V} {par : Nat}
    (hq : q ∉ T.addrs) : Rep (t.set q n).mem nl T par ↔ Rep t.mem nl T par := by
  constructor
  · intro h
    refine Rep.congr_store h ?_
    intro a ha
    have : a ≠ q := fun e => hq (e ▸ ha)
    simp [this]
  · intro h
    refine Rep.congr_store h ?_
    intro a ha
    have : a ≠ q := fun e => hq (e ▸ ha)
    simp [this]

theorem RepCtx_set {t : RB_Tree K V} {q : Nat} {n : Node K V} {nl : Nat}
    {Γ : List (Frame K V)} {x : Nat}
    (hq : q ∉ ctxAddrs Γ) : RepCtx (t.set q n).mem nl Γ x ↔ RepCtx t.mem nl Γ x := by
  constructor
  · intro h
    refine RepCtx.congr_path_store h ?_
    intro a ha
    have : a ≠ q := fun e => hq (e ▸ ha)
    simp [this]
  · intro h
    refine RepCtx.congr_path_store h ?_
    intro a ha
    have : a ≠ q := fun e => hq (e ▸ ha)
    simp [this]

theorem models_plug {t : RB_Tree K V} {Γ : List (Frame K V)} {S : PT K V} {np : Nat} :
    Models t (plug Γ S) np ↔ MZ t Γ S np := by
  constructor
  · rintro ⟨h1, h2, h3, h4, h5, h6, h7⟩
    refine ⟨h1, h2, ?_, (Rep_plug.1 h4).1, (Rep_plug.1 h4).2, ?_, h6, ?_⟩
    · rw [h3, ptr_plug]
    · refine (List.Perm.nodup_iff ?_).1 h5
      exact ((addrs_plug_perm Γ S).cons 0).cons _
    · intro a ha
      exact h7 a ((addrs_plug_perm Γ S).mem_iff.2 ha)
  · rintro ⟨h1, h2, h3, h4, h5, h6, h7, h8⟩
    refine ⟨h1, h2, ?_, Rep_plug.2 ⟨h4, h5⟩, ?_, h7, ?_⟩
    · rw [h3, ptr_plug]
    · refine (List.Perm.nodup_iff ?_).2 h6
      exact ((addrs_plug_perm Γ S).cons 0).cons _
    · intro a ha
      exact h8 a ((addrs_plug_perm Γ S).mem_iff.1 ha)

theorem read_focus {t : RB_Tree K V} {Γ : List (Frame K V)} {a : Nat} {sz : Int} {c : Bool}
    {l : PT K V} {kv : K × V} {r : PT K V} {np : Nat}
    (hM : Models t (plug Γ (.node a sz c l kv r)) np) :
    t.rd a = .ok ⟨some kv, sz, c, l.ptr t.null, r.ptr t.null, ctxPar t.null Γ⟩ := by
  have h := models_plug.1 hM
  have hn := h.nodup
  have hr := h.reps
  simp only [Rep] at hr
  simp [PT.addrs] at hn
  exact rd_eq (fun e => hn.2.1.2.1 e.symm) hr.1

theorem read_null {t : RB_Tree K V} {T : PT K V} {np : Nat} (hM : Models t T np) :
    t.rd t.null = .ok ⟨none, 0, false, 0, 0, np⟩ :=
  rd_eq hM.null_ne hM.null_mem

theorem addrs_plug_congr (Γ : List (Frame K V)) {x y : PT K V} (h : x.addrs.Perm y.addrs) :
    (plug Γ x).addrs.Perm (plug Γ y).addrs :=
  (addrs_plug_perm Γ x).trans (((List.Perm.refl _).append h).trans (addrs_plug_perm Γ y).symm)

theorem Same.same_refl (t : RB_Tree K V) (T : PT K V) : Same t t T T :=
  ⟨rfl, rfl, fun _ _ _ => rfl, List.Perm.refl _⟩

theorem Same.same_trans {t t1 t2 : RB_Tree K V} {T T1 T2 : PT K V} (h1 : Same t t1 T T1)
    (h2 : Same t1 t2 T1 T2) : Same t t2 T T2 := by
  refine ⟨h2.null.trans h1.null, h2.brk.trans h1.brk, ?_, h2.perm.trans h1.perm⟩
  intro a ha hn
  rw [h2.out a (fun h => ha (h1.perm.mem_iff.1 h)) (by rw [h1.null]; exact hn), h1.out a ha hn]

theorem write_focus {t : RB_Tree K V} {Γ : List (Frame K V)} {a : Nat} {sz : Int} {c : Bool}
    {l : PT K V} {kv : K × V} {r : PT K V} {np : Nat}
    (hM : Models t (plug Γ (.node a sz c l kv r)) np)
    (f : Node K V → Node K V) (sz2 : Int) (c2 : Bool) (kv2 : K × V)
    (hf : ∀ x y z, f ⟨some kv, sz, c, x, y, z⟩ = ⟨some kv2, sz2, c2, x, y, z⟩) :
    ∃ t2, t.wr a f = .ok t2 ∧ Models t2 (plug Γ (.node a sz2 c2 l kv2 r)) np ∧
      Same t t2 (plug Γ (.node a sz c l kv r)) (plug Γ (.node a sz2 c2 l kv2 r)) ∧
      t2.root = t.root := by
  have h := models_plug.1 hM
  have hn := h.nodup
  have hr := h.reps
  simp only [Rep] at hr
  simp [PT.addrs] at hn
  obtain ⟨⟨hn0, hnc, hna, hnl, hnr⟩, ⟨h0c, h0a, h0l, h0r⟩, hnd⟩ := hn
  rw [List.nodup_append] at hnd
  obtain ⟨hndc, hnds, hdisj⟩ := hnd
  simp [List.nodup_append] at hnds
  simp [List.disjoint_cons_right] at hdisj
  refine ⟨_, wr_eq f (fun e => h0a e.symm) hr.1, ?_,
    ⟨rfl, rfl, ?_, addrs_plug_congr Γ (by simp)⟩, rfl⟩
  · rw [models_plug]
    refine ⟨h.null_ne, ?_, h.root, ?_, ?_, ?_, h.null_lt, ?_⟩
    · simp [hna, h.null_mem]
    · exact (RepCtx_set hdisj.1).2 h.repc
    · refine ⟨?_, (Rep_set hnds.1.1).2 hr.2.1, (Rep_set hnds.1.2).2 hr.2.2⟩
      simp [hf]
    · exact h.nodup
    · exact h.fresh
  · intro b hb _
    have : b ≠ a := by
      rintro rfl
      exact hb (mem_addrs_plug.2 (Or.inr (by simp [PT.addrs])))
    simp [this]

/-- Reading the record at the root pointer of any subtree in focus: its
colour and size fields are those of the abstract tree. -/
theorem read_any {t : RB_Tree K V} {Γ : List (Frame K V)} {S : PT K V} {np : Nat}
    (hM : Models t (plug Γ S) np) :
    ∃ n, t.rd (S.ptr t.null) = .ok n ∧ n.color = S.col ∧ n.size = S.rsz := by
  cases S with
  | nil => exact ⟨_, read_null hM, rfl, rfl⟩
  | node a sz c l kv r => exact ⟨_, read_focus hM, rfl, rfl⟩

theorem plug_frameL (Γ : List (Frame K V)) (a : Nat) (sz : Int) (c : Bool) (l : PT K V)
    (kv : K × V) (r : PT K V) :
    plug (frameL a sz c kv r :: Γ) l = plug Γ (.node a sz c l kv r) := rfl

theorem plug_frameR (Γ : List (Frame K V)) (a : Nat) (sz : Int) (c : Bool) (l : PT K V)
    (kv : K × V) (r : PT K V) :
    plug (frameR a sz c l kv :: Γ) r = plug Γ (.node a sz c l kv r) := rfl

theorem update_focus {t : RB_Tree K V} {Γ : List (Frame K V)} {a : Nat} {sz : Int} {c : Bool}
    {l : PT K V} {kv : K × V} {r : PT K V} {np : Nat}
    (hM : Models t (plug Γ (.node a sz c l kv r)) np) :
    ∃ t2, t.update a = .ok t2 ∧
      Models t2 (plug Γ (.node a (l.rsz + r.rsz + 1) c l kv r)) np ∧
      Same t t2 (plug Γ (.node a sz c l kv r))
        (plug Γ (.node a (l.rsz + r.rsz + 1) c l kv r)) ∧ t2.root = t.root := by
  obtain ⟨nl, hl1, -, hl2⟩ := read_any (S := l) (Γ := frameL a sz c kv r :: Γ) hM
  obtain ⟨nr, hr1, -, hr2⟩ := read_any (S := r) (Γ := frameR a sz c l kv :: Γ) hM
  obtain ⟨t2, h1, h2⟩ := write_focus hM (fun m => { m with size := nl.size + nr.size + 1 })
    (l.rsz + r.rsz + 1) c kv (by intro x y z; simp [hl2, hr2])
  refine ⟨t2, ?_, h2⟩
  simp [update, read_focus hM, hl1, hr1, h1]

end sjtu

namespace sjtu

open RB_Tree

variable {K V : Type}

theorem rotate_eq (t : RB_Tree K V) (o : Nat) (d : Bool) :
    t.rotate o d = (do
      let no ← t.rd o
      let t ← t.relink o (no.ch (!d)) d
      let t ← t.update o
      t.update (no.ch (!d))) := by
  simp only [rotate, relink, bind_assoc]

end sjtu

namespace sjtu

open RB_Tree

variable {K V : Type}

theorem relink_perm (Γ : List (Frame K V)) (d : Bool) (o : Nat) (so : Int)
    (co : Bool) (A : PT K V) (kvo : K × V) (p : Nat) (sp : Int) (cp : Bool) (B : PT K V)
    (kvp : K × V) (C : PT K V) :
    (ctxAddrs Γ ++ (PT.mk d p sp cp (PT.mk d o so co A kvo B) kvp C).addrs).Perm
      (ctxAddrs Γ ++ (PT.mk d o so co A kvo (PT.mk d p sp cp B kvp C)).addrs) := by
  rw [List.perm_iff_count]; intro a
  cases d <;> simp [List.count_append, List.count_cons] <;> omega

set_option maxHeartbeats 1600000 in
theorem relink_focus_nil (t : RB_Tree K V) (d : Bool) (o : Nat) (so : Int)
    (co : Bool) (A : PT K V) (kvo : K × V) (p : Nat) (sp : Int) (cp : Bool) (B : PT K V)
    (kvp : K × V) (C : PT K V) (np : Nat)
    (hM : Models t (plug [] (PT.mk d o so co A kvo (PT.mk d p sp cp B kvp C))) np) :
    ∃ t2, t.relink o p d = .ok t2 ∧
      Models t2 (plug [] (PT.mk d p sp cp (PT.mk d o so co A kvo B) kvp C)) (npAfter B o np) ∧
      Same t t2 (plug [] (PT.mk d o so co A kvo (PT.mk d p sp cp B kvp C)))
        (plug [] (PT.mk d p sp cp (PT.mk d o so co A kvo B) kvp C)) := by
  have hperm := relink_perm [] d o so co A kvo p sp cp B kvp C
  obtain ⟨h0, hnull, hroot, hrepc, hreps, hnd, hlt, hfresh⟩ := models_plug.1 hM
  have hnd0 := hnd
  have hperm2 := ((addrs_plug_perm _ _).trans hperm).trans (addrs_plug_perm _ _).symm
  have hpw := nodup_sym hnd
  cases d <;> cases B
  all_goals
    simp only [PT.mk_false, PT.mk_true, Rep, PT.ptr_nil, PT.ptr_node, PT.addrs_nil,
      PT.addrs_node, ctxAddrs, ctxPar_nil, ctxPar_cons, ctxRoot, RepCtx, Bool.false_eq_true,
      if_true, if_false, List.nil_append, List.append_nil] at hreps hnd hroot hrepc hpw
    simp only [List.nodup_append, List.nodup_cons, List.mem_append, List.mem_cons, not_or,
      List.cons_append, List.disjoint_cons_right, List.disjoint_append_right,
      List.disjoint_cons_left, List.disjoint_append_left,
      List.not_mem_nil, not_false_eq_true, List.nodup_nil, true_and, and_true,
      List.disjoint_nil_right, List.disjoint_nil_left, List.nil_append] at hnd
    simp only [List.pairwise_cons, List.pairwise_append, List.mem_cons, List.mem_append,
      forall_eq_or_imp, List.not_mem_nil, List.cons_append, List.nil_append,
      List.mem_singleton, forall_eq, or_imp, forall_and, ne_eq, false_implies, implies_true,
      and_true, true_and, List.Pairwise.nil] at hpw
    simp [relink, rd, wr, Node.ch, Node.setCh, hreps, hrepc, hnull, hpw]
    refine ⟨models_plug.2 ⟨?_, ?_, ?_, ?_, ?_, ?_, ?_, ?_⟩, ⟨rfl, rfl, ?_, hperm2⟩⟩
    · simpa using h0
    · simp [hnull, npAfter, hpw]
    · simp [ctxRoot, hroot]
    · simp [RepCtx, Rep_set, RepCtx_set, hnd, hrepc, hpw]
    · simp [Rep, Rep_set, hnd, hreps, hpw]
    · exact (List.Perm.nodup_iff ((hperm.cons 0).cons _)).2 hnd0
    · simpa using hlt
    · intro a ha
      exact hfresh a (hperm.mem_iff.1 ha)
    · intro a ha1 ha2
      simp [mem_addrs_plug, ctxAddrs] at ha1
      simp [ha1, ha2]

set_option maxHeartbeats 3200000 in
theorem relink_focus_cons (t : RB_Tree K V) (fd : Bool) (fa : Nat) (fsz : Int) (fc : Bool)
    (fkv : K × V) (fsib : PT K V) (Φ : List (Frame K V)) (d : Bool) (o : Nat) (so : Int)
    (co : Bool) (A : PT K V) (kvo : K × V) (p : Nat) (sp : Int) (cp : Bool) (B : PT K V)
    (kvp : K × V) (C : PT K V) (np : Nat)
    (hM : Models t (plug (⟨fd, fa, fsz, fc, fkv, fsib⟩ :: Φ)
      (PT.mk d o so co A kvo (PT.mk d p sp cp B kvp C))) np) :
    ∃ t2, t.relink o p d = .ok t2 ∧
      Models t2 (plug (⟨fd, fa, fsz, fc, fkv, fsib⟩ :: Φ)
        (PT.mk d p sp cp (PT.mk d o so co A kvo B) kvp C)) (npAfter B o np) ∧
      Same t t2 (plug (⟨fd, fa, fsz, fc, fkv, fsib⟩ :: Φ)
        (PT.mk d o so co A kvo (PT.mk d p sp cp B kvp C)))
        (plug (⟨fd, fa, fsz, fc, fkv, fsib⟩ :: Φ)
        (PT.mk d p sp cp (PT.mk d o so co A kvo B) kvp C)) := by
  have hperm := relink_perm (⟨fd, fa, fsz, fc, fkv, fsib⟩ :: Φ) d o so co A kvo p sp cp B kvp C
  obtain ⟨h0, hnull, hroot, hrepc, hreps, hnd, hlt, hfresh⟩ := models_plug.1 hM
  have hnd0 := hnd
  have hperm2 := ((addrs_plug_perm _ _).trans hperm).trans (addrs_plug_perm _ _).symm
  have hpw := nodup_sym hnd
  cases fd <;> cases d <;> cases B
  all_goals
    simp only [PT.mk_false, PT.mk_true, Rep, PT.ptr_nil, PT.ptr_node, PT.addrs_nil,
      PT.addrs_node, ctxAddrs, ctxPar_nil, ctxPar_cons, ctxRoot, RepCtx, Bool.false_eq_true,
      if_true, if_false, List.nil_append, List.append_nil] at hreps hnd hroot hrepc hpw
    simp only [List.nodup_append, List.nodup_cons, List.mem_append, List.mem_cons, not_or,
      List.cons_append, List.disjoint_cons_right, List.disjoint_append_right,
      List.disjoint_cons_left, List.disjoint_append_left,
      List.not_mem_nil, not_false_eq_true, List.nodup_nil, true_and, and_true,
      List.disjoint_nil_right, List.disjoint_nil_left, List.nil_append] at hnd
    simp only [List.pairwise_cons, List.pairwise_append, List.mem_cons, List.mem_append,
      forall_eq_or_imp, List.not_mem_nil, List.cons_append, List.nil_append,
      List.mem_singleton, forall_eq, or_imp, forall_and, ne_eq, false_implies, implies_true,
      and_true, true_and, List.Pairwise.nil] at hpw
    have hsib : ¬ o = fsib.ptr t.null := PT.ptr_ne (by simp [hpw]) (by simp [hnd])
    simp [relink, rd, wr, Node.ch, Node.setCh, hreps, hrepc, hnull, hpw, hsib]
    refine ⟨models_plug.2 ⟨?_, ?_, ?_, ?_, ?_, ?_, ?_, ?_⟩, ⟨rfl, rfl, ?_, hperm2⟩⟩
    · simpa using h0
    · simp [hnull, npAfter, hpw]
    · simp [ctxRoot, hroot]
    · simp [RepCtx, Rep_set, RepCtx_set, hnd, hrepc, hpw]
    · simp [Rep, Rep_set, hnd, hreps, hpw]
    · exact (List.Perm.nodup_iff ((hperm.cons 0).cons _)).2 hnd0
    · simpa using hlt
    · intro a ha
      exact hfresh a (hperm.mem_iff.1 ha)
    · intro a ha1 ha2
      simp [mem_addrs_plug, ctxAddrs] at ha1
      simp [ha1, ha2]

theorem relink_focus (t : RB_Tree K V) (Γ : List (Frame K V)) (d : Bool) (o : Nat) (so : Int)
    (co : Bool) (A : PT K V) (kvo : K × V) (p : Nat) (sp : Int) (cp : Bool) (B : PT K V)
    (kvp : K × V) (C : PT K V) (np : Nat)
    (hM : Models t (plug Γ (PT.mk d o so co A kvo (PT.mk d p sp cp B kvp C))) np) :
    ∃ t2, t.relink o p d = .ok t2 ∧
      Models t2 (plug Γ (PT.mk d p sp cp (PT.mk d o so co A kvo B) kvp C)) (npAfter B o np) ∧
      Same t t2 (plug Γ (PT.mk d o so co A kvo (PT.mk d p sp cp B kvp C)))
        (plug Γ (PT.mk d p sp cp (PT.mk d o so co A kvo B) kvp C)) := by
  cases Γ with
  | nil => exact relink_focus_nil t d o so co A kvo p sp cp B kvp C np hM
  | cons f Φ =>
    obtain ⟨fd, fa, fsz, fc, fkv, fsib⟩ := f
    exact relink_focus_cons t fd fa fsz fc fkv fsib Φ d o so co A kvo p sp cp B kvp C np hM

end sjtu

namespace sjtu

open RB_Tree

variable {K V : Type}

theorem rotate_focus (t : RB_Tree K V) (Γ : List (Frame K V)) (d : Bool) (o : Nat) (so : Int)
    (co : Bool) (A : PT K V) (kvo : K × V) (p : Nat) (sp : Int) (cp : Bool) (B : PT K V)
    (kvp : K × V) (C : PT K V) (np : Nat)
    (hM : Models t (plug Γ (PT.mk d o so co A kvo (PT.mk d p sp cp B kvp C))) np) :
    ∃ t2, t.rotate o d = .ok t2 ∧
      Models t2 (plug Γ (rotT d o co A kvo p cp B kvp C)) (npAfter B o np) ∧
      Same t t2 (plug Γ (PT.mk d o so co A kvo (PT.mk d p sp cp B kvp C)))
        (plug Γ (rotT d o co A kvo p cp B kvp C)) := by
  obtain ⟨t1, h1, hM1, hS1⟩ := relink_focus t Γ d o so co A kvo p sp cp B kvp C np hM
  rw [rotate_eq]
  cases d
  · rw [read_focus hM]
    simp only [ok_bind, Node.ch, Bool.not_false, if_true, PT.ptr_node, PT.mk_false] at h1 ⊢
    rw [h1]
    simp only [ok_bind, PT.mk_false] at hM1 hS1 ⊢
    obtain ⟨t2, h2, hM2, hS2, -⟩ :=
      update_focus (Γ := frameL p sp cp kvp C :: Γ) (a := o) hM1
    rw [h2]
    simp only [ok_bind]
    have hM2b : Models t2 (plug Γ (.node p sp cp (.node o (A.rsz + B.rsz + 1) co A kvo B)
      kvp C)) (npAfter B o np) := hM2
    have hS2b : Same t1 t2 (plug Γ (.node p sp cp (.node o so co A kvo B) kvp C))
      (plug Γ (.node p sp cp (.node o (A.rsz + B.rsz + 1) co A kvo B) kvp C)) := hS2
    obtain ⟨t3, h3, hM3, hS3, -⟩ := update_focus (Γ := Γ) (a := p) hM2b
    refine ⟨t3, h3, ?_, ?_⟩
    · simpa [rotT] using hM3
    · simpa [rotT] using (hS1.same_trans hS2b).same_trans hS3
  · rw [read_focus hM]
    simp only [ok_bind, Node.ch, Bool.not_true, if_false, PT.ptr_node, PT.mk_true,
      Bool.false_eq_true] at h1 ⊢
    rw [h1]
    simp only [ok_bind, PT.mk_true] at hM1 hS1 ⊢
    obtain ⟨t2, h2, hM2, hS2, -⟩ :=
      update_focus (Γ := frameR p sp cp C kvp :: Γ) (a := o) hM1
    rw [h2]
    simp only [ok_bind]
    have hM2b : Models t2 (plug Γ (.node p sp cp C kvp (.node o (B.rsz + A.rsz + 1) co B kvo A)))
      (npAfter B o np) := hM2
    have hS2b : Same t1 t2 (plug Γ (.node p sp cp C kvp (.node o so co B kvo A)))
      (plug Γ (.node p sp cp C kvp (.node o (B.rsz + A.rsz + 1) co B kvo A))) := hS2
    obtain ⟨t3, h3, hM3, hS3, -⟩ := update_focus (Γ := Γ) (a := p) hM2b
    refine ⟨t3, h3, ?_, ?_⟩
    · have e1 : B.rsz + A.rsz + 1 = A.rsz + B.rsz + 1 := by ring
      have e2 : C.rsz + (A.rsz + B.rsz + 1) + 1 = A.rsz + B.rsz + 1 + C.rsz + 1 := by ring
      simpa [rotT, e1, e2] using hM3
    · have e1 : B.rsz + A.rsz + 1 = A.rsz + B.rsz + 1 := by ring
      have e2 : C.rsz + (A.rsz + B.rsz + 1) + 1 = A.rsz + B.rsz + 1 + C.rsz + 1 := by ring
      simpa [rotT, e1, e2] using (hS1.same_trans hS2b).same_trans hS3

end sjtu

namespace sjtu

variable {K V : Type}

theorem toList_plug_eq : ∀ (Γ : List (Frame K V)) (S : PT K V),
    (plug Γ S).toList = ctxL Γ ++ S.toList ++ ctxR Γ
  | [], S => by simp [plug, ctxL, ctxR]
  | f :: Φ, S => by
    rw [plug, toList_plug_eq Φ]
    cases hd : f.d <;> simp [Frame.fill, hd, ctxL, ctxR]

section order

variable [LinearOrder K]

theorem zoom_plug (k : K) : ∀ (S : PT K V) (Γ : List (Frame K V)),
    plug (zoom k S Γ).1 (zoom k S Γ).2 = plug Γ S
  | .nil, Γ => rfl
  | .node a sz c l kv r, Γ => by
    unfold zoom
    split
    · rw [zoom_plug k r]; rfl
    · split
      · rw [zoom_plug k l]; rfl
      · rfl

theorem zoom_key (k : K) : ∀ (S : PT K V) (Γ : List (Frame K V)) (a : Nat) (sz : Int)
    (c : Bool) (l : PT K V) (kv : K × V) (r : PT K V),
    (zoom k S Γ).2 = .node a sz c l kv r → kv.1 = k
  | .nil, Γ, _, _, _, _, _, _, h => by simp [zoom] at h
  | .node a sz c l kv r, Γ, a2, sz2, c2, l2, kv2, r2, h => by
    unfold zoom at h
    split at h
    · exact zoom_key k r _ _ _ _ _ _ _ h
    · split at h
      · exact zoom_key k l _ _ _ _ _ _ _ h
      · rename_i h1 h2
        simp at h
        rw [← h.2.2.2.2.1]
        exact le_antisymm (not_lt.1 h2) (not_lt.1 h1)

theorem ord_node {a : Nat} {sz : Int} {c : Bool} {l : PT K V} {kv : K × V} {r : PT K V} :
    (PT.node a sz c l kv r).Ord ↔
      l.Ord ∧ r.Ord ∧ (∀ x ∈ l.toList, x.1 < kv.1) ∧ (∀ y ∈ r.toList, kv.1 < y.1) ∧
        (∀ x ∈ l.toList, ∀ y ∈ r.toList, x.1 < y.1) := by
  simp only [PT.Ord, PT.keys, PT.toList_node, List.map_append, List.map_cons,
    List.pairwise_append, List.pairwise_cons, List.mem_map, List.mem_cons,
    forall_exists_index, and_imp, forall_apply_eq_imp_iff₂, forall_eq_or_imp]
  constructor
  · rintro ⟨h1, ⟨h2, h3⟩, h4⟩
    exact ⟨h1, h3, fun x hx => (h4 x hx).1, h2, fun x hx y hy => (h4 x hx).2 y hy⟩
  · rintro ⟨h1, h2, h3, h4, h5⟩
    exact ⟨h1, ⟨h4, h2⟩, fun x hx => ⟨h3 x hx, fun y hy => h5 x hx y hy⟩⟩

theorem ord_plug {Γ : List (Frame K V)} {S : PT K V} :
    (plug Γ S).Ord ↔ ((ctxL Γ ++ S.toList ++ ctxR Γ).map Prod.fst).Pairwise (· < ·) := by
  rw [PT.Ord, PT.keys, toList_plug_eq]

theorem zoom_bounds (k : K) : ∀ (S : PT K V) (Γ : List (Frame K V)),
    (plug Γ S).Ord → Bounds Γ k → Bounds (zoom k S Γ).1 k
  | .nil, Γ, _, hb => hb
  | .node a sz c l kv r, Γ, ho, hb => by
    unfold zoom
    split
    · rename_i h1
      refine zoom_bounds k r _ ho ?_
      rw [ord_plug] at ho
      simp only [Bounds, ctxL, ctxR, frameR, if_true, List.mem_append, List.nil_append,
        List.mem_singleton] at hb ⊢
      simp only [PT.toList_node, List.map_append, List.map_cons, List.pairwise_append,
        List.pairwise_cons, List.mem_map, List.mem_append, List.mem_cons] at ho
      refine ⟨?_, hb.2⟩
      rintro x (hx | hx | rfl)
      · exact hb.1 x hx
      · refine lt_trans ?_ h1
        exact (ho.1.2.1.2.2 x.1 ⟨x, hx, rfl⟩ kv.1 (Or.inl rfl))
      · exact h1
    · split
      · rename_i h1 h2
        refine zoom_bounds k l _ ho ?_
        rw [ord_plug] at ho
        simp only [Bounds, ctxL, ctxR, frameL, if_false, List.mem_append, List.append_nil,
          List.mem_cons, Bool.false_eq_true] at hb ⊢
        simp only [PT.toList_node, List.map_append, List.map_cons, List.pairwise_append,
          List.pairwise_cons, List.mem_map, List.mem_append, List.mem_cons] at ho
        refine ⟨hb.1, ?_⟩
        rintro x ((rfl | hx) | hx)
        · exact h2
        · refine lt_trans h2 ?_
          exact ho.1.2.1.2.1.1 x.1 ⟨x, hx, rfl⟩
        · exact hb.2 x hx
      · exact hb

theorem bounds_nil (k : K) : Bounds ([] : List (Frame K V)) k := by
  simp [Bounds, ctxL, ctxR]

end order

end sjtu

namespace sjtu

open RB_Tree

variable {K V : Type}

theorem focus_ne {t : RB_Tree K V} {Γ : List (Frame K V)} {a : Nat} {sz : Int} {c : Bool}
    {l : PT K V} {kv : K × V} {r : PT K V} {np : Nat}
    (hM : Models t (plug Γ (.node a sz c l kv r)) np) : a ≠ t.null ∧ a ≠ 0 := by
  have hn := (models_plug.1 hM).nodup
  simp at hn
  exact ⟨fun e => hn.1.2.2.1 e.symm, fun e => hn.2.1.2.1 e.symm⟩

theorem key_focus {t : RB_Tree K V} {Γ : List (Frame K V)} {a : Nat} {sz : Int} {c : Bool}
    {l : PT K V} {kv : K × V} {r : PT K V} {np : Nat}
    (hM : Models t (plug Γ (.node a sz c l kv r)) np) : t.key a = .ok kv.1 := by
  simp [key, read_focus hM]

section order

variable [LinearOrder K]

theorem cmp_lt {a b : K} (h : a < b) : cmp a b = 1 := by simp [cmp, h]

theorem cmp_gt {a b : K} (h1 : ¬ a < b) (h2 : b < a) : cmp a b = 0 := by simp [cmp, h1, h2]

theorem cmp_eq {a b : K} (h1 : ¬ a < b) (h2 : ¬ b < a) : cmp a b = -1 := by simp [cmp, h1, h2]

theorem findLoop_spec (k : K) : ∀ (S : PT K V) (t : RB_Tree K V) (Γ : List (Frame K V))
    (np : Nat) (fuel : Nat), Models t (plug Γ S) np → S.height < fuel →
    t.findLoop k fuel (S.ptr t.null) = .ok ((zoom k S Γ).2.ptr t.null)
  | .nil, t, Γ, np, fuel, _, hf => by
    obtain ⟨f, rfl⟩ : ∃ f, fuel = f + 1 := ⟨fuel - 1, by omega⟩
    simp [findLoop, zoom]
  | .node a sz c l kv r, t, Γ, np, fuel, hM, hf => by
    obtain ⟨f, rfl⟩ : ∃ f, fuel = f + 1 := ⟨fuel - 1, by omega⟩
    simp only [PT.height] at hf
    have hne := (focus_ne hM).1
    simp only [findLoop, PT.ptr_node, hne, if_false, key_focus hM, ok_bind, read_focus hM]
    unfold zoom
    by_cases h1 : kv.1 < k
    · simp only [cmp_lt h1, h1, if_true]
      have := findLoop_spec k r t (frameR a sz c l kv :: Γ) np f hM (by omega)
      simpa [Node.ch] using this
    · by_cases h2 : k < kv.1
      · simp only [cmp_gt h1 h2, h1, h2, if_true, if_false]
        have := findLoop_spec k l t (frameL a sz c kv r :: Γ) np f hM (by omega)
        simpa [Node.ch] using this
      · simp [cmp_eq h1 h2, h1, h2]

theorem find_spec (k : K) {T : PT K V} {t : RB_Tree K V} {np : Nat} {fuel : Nat}
    (hM : Models t T np) (hf : T.height < fuel) :
    t.find fuel k = .ok ((zoom k T []).2.ptr t.null) := by
  have := findLoop_spec k T t [] np fuel hM hf
  rw [find, hM.root]
  exact this

theorem insertDescend_spec (k : K) : ∀ (S : PT K V) (t : RB_Tree K V) (Γ : List (Frame K V))
    (np : Nat) (fuel : Nat) (d0 : Int), Models t (plug Γ S) np → S.height < fuel →
    (∀ f Φ, Γ = f :: Φ → (d0 != 0) = f.d) →
    ∃ res, t.insertDescend k fuel (S.ptr t.null) (ctxPar t.null Γ) d0 = .ok res ∧
      DescendOut t.null res (zoom k S Γ).1 (zoom k S Γ).2
  | .nil, t, Γ, np, fuel, d0, _, hf, hd => by
    obtain ⟨f, rfl⟩ : ∃ f, fuel = f + 1 := ⟨fuel - 1, by omega⟩
    refine ⟨.inr (ctxPar t.null Γ, d0), by simp [insertDescend], ?_⟩
    exact ⟨d0, rfl, hd⟩
  | .node a sz c l kv r, t, Γ, np, fuel, d0, hM, hf, hd => by
    obtain ⟨f, rfl⟩ : ∃ f, fuel = f + 1 := ⟨fuel - 1, by omega⟩
    simp only [PT.height] at hf
    have hne := (focus_ne hM).1
    simp only [insertDescend, PT.ptr_node, hne, if_false, key_focus hM, ok_bind, read_focus hM]
    unfold zoom
    by_cases h1 : kv.1 < k
    · simp only [cmp_lt h1, h1, if_true]
      have := insertDescend_spec k r t (frameR a sz c l kv :: Γ) np f 1 hM (by omega)
        (by intro g gs hg; simp at hg; simp [← hg.1, frameR])
      simpa [Node.ch] using this
    · by_cases h2 : k < kv.1
      · simp only [cmp_gt h1 h2, h1, h2, if_true, if_false]
        have := insertDescend_spec k l t (frameL a sz c kv r :: Γ) np f 0 hM (by omega)
          (by intro g gs hg; simp at hg; simp [← hg.1, frameL])
        simpa [Node.ch] using this
      · simp [cmp_eq h1 h2, h1, h2, DescendOut]

end order

end sjtu

namespace sjtu

open RB_Tree

variable {K V : Type}

set_option maxHeartbeats 1600000 in
theorem attach_focus (t : RB_Tree K V) (Γ : List (Frame K V)) (np : Nat) (d : Int)
    (kv : K × V) (hM : Models t (plug Γ .nil) np)
    (hd : ∀ f Φ, Γ = f :: Φ → (d != 0) = f.d) :
    ∃ t2, t.attach (ctxPar t.null Γ) d kv = .ok (t.brk, t2) ∧
      Models t2 (plug Γ (.node t.brk 1 true .nil kv .nil)) np ∧
      t2.null = t.null ∧ t2.brk = t.brk + 1 := by
  obtain ⟨h0, hnull, hroot, hrepc, hreps, hnd, hlt, hfresh⟩ := models_plug.1 hM
  have hb0 : t.brk ≠ 0 := by omega
  have hbn : t.brk ≠ t.null := by omega
  have hbc : t.brk ∉ ctxAddrs Γ := by
    intro h
    have := hfresh _ (List.mem_append_left _ h)
    omega
  have hpw := nodup_sym hnd
  obtain _ | ⟨⟨fd, fa, fsz, fc, fkv, fsib⟩, Φ⟩ := Γ
  · simp [attach, alloc]
    refine models_plug.2 ⟨?_, ?_, ?_, ?_, ?_, ?_, ?_, ?_⟩
    · simpa using h0
    · simp [hnull, hbn.symm]
    · simp [ctxRoot]
    · simp [RepCtx]
    · simp [Rep]
    · simpa [ctxAddrs, hbn, hbn.symm, hb0, hb0.symm] using h0
    · simp; omega
    · simp [ctxAddrs]
  · have hfd := hd _ _ rfl
    simp only at hfd
    simp only [Rep, PT.ptr_nil, PT.ptr_node, PT.addrs_nil,
      PT.addrs_node, ctxAddrs, ctxPar_nil, ctxPar_cons, ctxRoot, RepCtx,
      List.nil_append, List.append_nil] at hreps hnd hroot hrepc hpw hbc
    simp only [List.nodup_append, List.nodup_cons, List.mem_append, List.mem_cons, not_or,
      List.cons_append, List.disjoint_cons_right, List.disjoint_append_right,
      List.disjoint_cons_left, List.disjoint_append_left,
      List.not_mem_nil, not_false_eq_true, List.nodup_nil, true_and, and_true,
      List.disjoint_nil_right, List.disjoint_nil_left, List.nil_append] at hnd hbc
    simp only [List.pairwise_cons, List.pairwise_append, List.mem_cons, List.mem_append,
      forall_eq_or_imp, List.not_mem_nil, List.cons_append, List.nil_append,
      List.mem_singleton, forall_eq, or_imp, forall_and, ne_eq, false_implies, implies_true,
      and_true, true_and, List.Pairwise.nil] at hpw
    have hfa : fa ≠ t.brk := fun e => hbc.1 e.symm
    cases fd
    all_goals
      simp [attach, alloc, wr, rd, hpw, hfd, hrepc, hfa, Node.setCh]
      refine models_plug.2 ⟨?_, ?_, ?_, ?_, ?_, ?_, ?_, ?_⟩
      · simpa using h0
      · simp [hnull, hbn.symm, hpw]
      · simp [ctxRoot, hroot]
      · simp [RepCtx, Rep_set, RepCtx_set, hnd, hrepc, hpw, hbc, hfa, hfa.symm]
      · simp [Rep, hfa, hfa.symm]
      · simp [ctxAddrs, List.nodup_append, hbn, hbn.symm, hb0, hb0.symm, hnd, hbc, hfa,
          hfa.symm, h0]
      · simp; omega
      · intro a ha
        simp [ctxAddrs] at ha
        have : a = t.brk ∨ a < t.brk := by
          rcases ha with rfl | ha | ha | rfl
          · exact Or.inr (hfresh _ (by simp [ctxAddrs]))
          · exact Or.inr (hfresh _ (by simp [ctxAddrs, ha]))
          · exact Or.inr (hfresh _ (by simp [ctxAddrs, ha]))
          · exact Or.inl rfl
        simp
        omega

theorem ctxPar_resize (null : Nat) : ∀ (Γ : List (Frame K V)) (s : Int),
    ctxPar null (resize Γ s) = ctxPar null Γ
  | [], _ => rfl
  | _ :: _, _ => rfl

theorem addrs_resize : ∀ (Γ : List (Frame K V)) (s : Int),
    ctxAddrs (resize Γ s) = ctxAddrs Γ
  | [], _ => rfl
  | f :: Φ, s => by simp [resize, ctxAddrs, addrs_resize Φ]

theorem length_resize : ∀ (Γ : List (Frame K V)) (s : Int),
    (resize Γ s).length = Γ.length
  | [], _ => rfl
  | f :: Φ, s => by simp [resize, length_resize Φ]

theorem updatePath_spec : ∀ (Γ : List (Frame K V)) (S : PT K V) (t : RB_Tree K V) (np : Nat)
    (fuel : Nat), Models t (plug Γ S) np → Γ.length < fuel →
    ∃ t2, t.updatePath fuel (ctxPar t.null Γ) = .ok t2 ∧
      Models t2 (plug (resize Γ S.rsz) S) np ∧
      Same t t2 (plug Γ S) (plug (resize Γ S.rsz) S)
  | [], S, t, np, fuel, hM, hf => by
    obtain ⟨f, rfl⟩ : ∃ f, fuel = f + 1 := ⟨fuel - 1, by omega⟩
    exact ⟨t, by simp [updatePath], hM, Same.same_refl _ _⟩
  | g :: Φ, S, t, np, fuel, hM, hf => by
    obtain ⟨f, rfl⟩ : ∃ f, fuel = f + 1 := ⟨fuel - 1, by omega⟩
    obtain ⟨gd, ga, gsz, gc, gkv, gsib⟩ := g
    simp only [List.length_cons] at hf
    cases gd
    · have hM1 : Models t (plug Φ (.node ga gsz gc S gkv gsib)) np := hM
      have hne := (focus_ne hM1).1
      obtain ⟨t1, h1, hM2, hS2, -⟩ := update_focus hM1
      obtain ⟨t2, h2, hM3, hS3⟩ := updatePath_spec Φ _ t1 np f hM2 (by omega)
      refine ⟨t2, ?_, ?_, ?_⟩
      · simp only [updatePath, ctxPar_cons, hne, if_false, h1, ok_bind, read_focus hM2]
        exact h2
      · exact hM3
      · exact hS2.same_trans hS3
    · have hM1 : Models t (plug Φ (.node ga gsz gc gsib gkv S)) np := hM
      have hne := (focus_ne hM1).1
      obtain ⟨t1, h1, hM2, hS2, -⟩ := update_focus hM1
      obtain ⟨t2, h2, hM3, hS3⟩ := updatePath_spec Φ _ t1 np f hM2 (by omega)
      refine ⟨t2, ?_, ?_, ?_⟩
      · simp only [updatePath, ctxPar_cons, hne, if_false, h1, ok_bind, read_focus hM2]
        exact h2
      · exact hM3
      · exact hS2.same_trans hS3

end sjtu

namespace sjtu

variable {K V : Type}

@[simp] theorem PT.bh_nil : (PT.nil : PT K V).bh = 0 := rfl

@[simp] theorem PT.bh_node (a : Nat) (sz : Int) (c : Bool) (l : PT K V) (kv : K × V)
    (r : PT K V) : (PT.node a sz c l kv r).bh = l.bh + (if c then 0 else 1) := rfl

@[simp] theorem PT.bal_nil : (PT.nil : PT K V).Bal := trivial

@[simp] theorem PT.bal_node (a : Nat) (sz : Int) (c : Bool) (l : PT K V) (kv : K × V)
    (r : PT K V) : (PT.node a sz c l kv r).Bal ↔
      l.Bal ∧ r.Bal ∧ l.bh = r.bh ∧ (c = true → l.col = false ∧ r.col = false) := Iff.rfl

@[simp] theorem PT.sizeOK_nil : (PT.nil : PT K V).SizeOK := trivial

@[simp] theorem PT.sizeOK_node (a : Nat) (sz : Int) (c : Bool) (l : PT K V) (kv : K × V)
    (r : PT K V) : (PT.node a sz c l kv r).SizeOK ↔
      sz = l.rsz + r.rsz + 1 ∧ l.SizeOK ∧ r.SizeOK := Iff.rfl

theorem bal_plug : ∀ {Γ : List (Frame K V)} {S : PT K V},
    (plug Γ S).Bal ↔ S.Bal ∧ CtxBal Γ S.bh S.col
  | [], S => by simp [plug, CtxBal]
  | f :: Φ, S => by
    rw [plug, bal_plug (Γ := Φ)]
    cases hd : f.d <;> simp [Frame.fill, hd, CtxBal]
    · constructor
      · rintro ⟨⟨h1, h2, h3, h4⟩, h5⟩
        exact ⟨h1, h2, h3.symm, fun h => ⟨(h4 h).1, (h4 h).2⟩, h5⟩
      · rintro ⟨h1, h2, h3, h4, h5⟩
        exact ⟨⟨h1, h2, h3.symm, fun h => ⟨(h4 h).1, (h4 h).2⟩⟩, h5⟩
    · constructor
      · rintro ⟨⟨h1, h2, h3, h4⟩, h5⟩
        refine ⟨h2, h1, h3, fun h => ⟨(h4 h).2, (h4 h).1⟩, ?_⟩
        rw [← h3]; exact h5
      · rintro ⟨h1, h2, h3, h4, h5⟩
        refine ⟨⟨h2, h1, h3, fun h => ⟨(h4 h).2, (h4 h).1⟩⟩, ?_⟩
        rw [h3]; exact h5

theorem col_plug : ∀ (Γ : List (Frame K V)) (S : PT K V),
    (plug Γ S).col = rootCol Γ S.col
  | [], S => rfl
  | f :: Φ, S => by
    rw [plug, col_plug Φ]
    cases hd : f.d <;> simp [Frame.fill, hd, rootCol]

theorem sizeOK_plug : ∀ {Γ : List (Frame K V)} {S : PT K V},
    (plug Γ S).SizeOK ↔ S.SizeOK ∧ CtxSize Γ S.rsz
  | [], S => by simp [plug, CtxSize]
  | f :: Φ, S => by
    rw [plug, sizeOK_plug (Γ := Φ)]
    cases hd : f.d <;> simp [Frame.fill, hd, CtxSize] <;> tauto

theorem CtxSize.sibOK : ∀ {Γ : List (Frame K V)} {s : Int}, CtxSize Γ s → CtxSibOK Γ
  | [], _, _ => trivial
  | _ :: _, _, h => ⟨h.2.1, CtxSize.sibOK h.2.2⟩

theorem ctxSize_resize : ∀ {Γ : List (Frame K V)} (s : Int), CtxSibOK Γ →
    CtxSize (resize Γ s) s
  | [], _, _ => trivial
  | f :: Φ, s, h => by
    refine ⟨rfl, h.1, ?_⟩
    exact ctxSize_resize _ h.2

theorem ctxBal_resize : ∀ (Γ : List (Frame K V)) (s : Int) (h : Nat) (c : Bool),
    CtxBal (resize Γ s) h c ↔ CtxBal Γ h c
  | [], _, _, _ => Iff.rfl
  | f :: Φ, s, h, c => by
    simp only [resize, CtxBal]
    rw [ctxBal_resize Φ]

theorem rootCol_resize : ∀ (Γ : List (Frame K V)) (s : Int) (c : Bool),
    rootCol (resize Γ s) c = rootCol Γ c
  | [], _, _ => rfl
  | f :: Φ, s, c => by
    simp only [resize, rootCol]
    rw [rootCol_resize Φ]

theorem ctxL_resize : ∀ (Γ : List (Frame K V)) (s : Int), ctxL (resize Γ s) = ctxL Γ
  | [], _ => rfl
  | f :: Φ, s => by
    simp only [resize, ctxL]
    rw [ctxL_resize Φ]

theorem ctxR_resize : ∀ (Γ : List (Frame K V)) (s : Int), ctxR (resize Γ s) = ctxR Γ
  | [], _ => rfl
  | f :: Φ, s => by
    simp only [resize, ctxR]
    rw [ctxR_resize Φ]

theorem rsz_plug : ∀ (Γ : List (Frame K V)) (S : PT K V),
    (plug Γ S).rsz = ctxRsz Γ S.rsz
  | [], S => rfl
  | f :: Φ, S => by
    rw [plug, rsz_plug Φ]
    cases hd : f.d <;> simp [Frame.fill, hd, ctxRsz]

theorem LEquiv.lequiv_refl (S : PT K V) : LEquiv S S := ⟨rfl, List.Perm.refl _, fun h => ⟨h, rfl⟩⟩

theorem LEquiv.lequiv_trans {S S2 S3 : PT K V} (h1 : LEquiv S S2) (h2 : LEquiv S2 S3) : LEquiv S S3 :=
  ⟨h2.toList.trans h1.toList, h2.perm.trans h1.perm, fun h =>
    ⟨(h2.size (h1.size h).1).1, (h2.size (h1.size h).1).2.trans (h1.size h).2⟩⟩

theorem LEquiv.plug {S S2 : PT K V} (h : LEquiv S S2) (Γ : List (Frame K V)) :
    LEquiv (plug Γ S) (plug Γ S2) := by
  refine ⟨toList_plug Γ _ _ h.toList, addrs_plug_congr Γ h.perm, ?_⟩
  intro hs
  rw [sizeOK_plug] at hs
  have := h.size hs.1
  refine ⟨sizeOK_plug.2 ⟨this.1, by rw [this.2]; exact hs.2⟩, ?_⟩
  rw [rsz_plug, rsz_plug]
  cases Γ with
  | nil => exact this.2
  | cons f Φ => rfl

end sjtu

namespace sjtu

open RB_Tree

variable {K V : Type}

theorem read_frame {t : RB_Tree K V} {f : Frame K V} {Φ : List (Frame K V)} {S : PT K V}
    {np : Nat} (hM : Models t (plug (f :: Φ) S) np) :
    t.rd f.a = .ok ⟨some f.kv, f.sz, f.c, if f.d then f.sib.ptr t.null else S.ptr t.null,
      if f.d then S.ptr t.null else f.sib.ptr t.null, ctxPar t.null Φ⟩ := by
  obtain ⟨fd, fa, fsz, fc, fkv, fsib⟩ := f
  cases fd
  · exact read_focus (Γ := Φ) (a := fa) (l := S) (r := fsib) hM
  · exact read_focus (Γ := Φ) (a := fa) (l := fsib) (r := S) hM

theorem frame_ne {t : RB_Tree K V} {f : Frame K V} {Φ : List (Frame K V)} {S : PT K V}
    {np : Nat} (hM : Models t (plug (f :: Φ) S) np) : f.a ≠ t.null ∧ f.a ≠ 0 := by
  obtain ⟨fd, fa, fsz, fc, fkv, fsib⟩ := f
  cases fd
  · exact focus_ne (Γ := Φ) (a := fa) (l := S) (r := fsib) hM
  · exact focus_ne (Γ := Φ) (a := fa) (l := fsib) (r := S) hM

theorem write_frame_color {t : RB_Tree K V} {f : Frame K V} {Φ : List (Frame K V)}
    {S : PT K V} {np : Nat} (hM : Models t (plug (f :: Φ) S) np) (c : Bool) :
    ∃ t2, t.wr f.a (fun m => { m with color := c }) = .ok t2 ∧
      Models t2 (plug ({ f with c := c } :: Φ) S) np ∧
      Same t t2 (plug (f :: Φ) S) (plug ({ f with c := c } :: Φ) S) := by
  obtain ⟨fd, fa, fsz, fc, fkv, fsib⟩ := f
  cases fd
  · obtain ⟨t2, h1, h2, h3, -⟩ := write_focus (Γ := Φ) (a := fa) (l := S) (r := fsib) hM
      (fun m => { m with color := c }) fsz c fkv (fun _ _ _ => rfl)
    exact ⟨t2, h1, h2, h3⟩
  · obtain ⟨t2, h1, h2, h3, -⟩ := write_focus (Γ := Φ) (a := fa) (l := fsib) (r := S) hM
      (fun m => { m with color := c }) fsz c fkv (fun _ _ _ => rfl)
    exact ⟨t2, h1, h2, h3⟩

theorem plug_flip (f : Frame K V) (Φ : List (Frame K V)) (S : PT K V) :
    plug (f :: Φ) S = plug (f.flip S :: Φ) f.sib := by
  obtain ⟨fd, fa, fsz, fc, fkv, fsib⟩ := f
  cases fd <;> rfl

theorem ptr_ne_of_models {t : RB_Tree K V} {Γ : List (Frame K V)} {a : Nat} {sz : Int}
    {c : Bool} {l : PT K V} {kv : K × V} {r : PT K V} {np : Nat}
    (hM : Models t (plug Γ (.node a sz c l kv r)) np) :
    a ≠ l.ptr t.null ∧ a ≠ r.ptr t.null := by
  have hn := (models_plug.1 hM).nodup
  simp [List.nodup_append] at hn
  have h1 : a ≠ t.null := fun e => hn.1.2.2.1 e.symm
  exact ⟨PT.ptr_ne h1 hn.2.2.2.1.1.1, PT.ptr_ne h1 hn.2.2.2.1.1.2⟩

/-- The node above the hole differs from the root pointer of the hole's
subtree and from the root pointer of the sibling. -/
theorem frame_ptr_ne {t : RB_Tree K V} {f : Frame K V} {Φ : List (Frame K V)} {S : PT K V}
    {np : Nat} (hM : Models t (plug (f :: Φ) S) np) :
    f.a ≠ S.ptr t.null ∧ f.a ≠ f.sib.ptr t.null := by
  obtain ⟨fd, fa, fsz, fc, fkv, fsib⟩ := f
  cases fd
  · exact ptr_ne_of_models (Γ := Φ) (a := fa) (l := S) (r := fsib) hM
  · exact (ptr_ne_of_models (Γ := Φ) (a := fa) (l := fsib) (r := S) hM).symm

/-- The root pointer of a non-empty subtree in the hole differs from the
root pointer of the sibling. -/
theorem hole_ne_sib {t : RB_Tree K V} {f : Frame K V} {Φ : List (Frame K V)} {a : Nat}
    {sz : Int} {c : Bool} {l : PT K V} {kv : K × V} {r : PT K V} {np : Nat}
    (hM : Models t (plug (f :: Φ) (.node a sz c l kv r)) np) : a ≠ f.sib.ptr t.null := by
  have hn := (models_plug.1 hM).nodup
  have hd := List.disjoint_of_nodup_append hn.of_cons.of_cons
  have h1 : a ≠ t.null := (focus_ne hM).1
  refine PT.ptr_ne h1 ?_
  intro h
  exact hd (a := a) (by simp [ctxAddrs, h]) (by simp)

end sjtu

namespace sjtu

open RB_Tree

variable {K V : Type}

theorem fixup_exit_nil {t : RB_Tree K V} {n : Nat} {so : Int} {c : Bool} {l : PT K V}
    {kv : K × V} {r : PT K V} {np : Nat}
    (hM : Models t (plug [] (.node n so c l kv r)) np) (fuel : Nat) :
    insertFixupLoop (fuel + 1) t n = .ok t := by
  simp [insertFixupLoop, read_focus hM, read_null hM]

theorem fixup_exit_black {t : RB_Tree K V} {f : Frame K V} {Φ : List (Frame K V)} {n : Nat}
    {so : Int} {c : Bool} {l : PT K V} {kv : K × V} {r : PT K V} {np : Nat}
    (hM : Models t (plug (f :: Φ) (.node n so c l kv r)) np) (hc : f.c = false)
    (fuel : Nat) :
    insertFixupLoop (fuel + 1) t n = .ok t := by
  simp [insertFixupLoop, read_focus hM, read_frame hM, hc]

theorem fixup_LL {t : RB_Tree K V} {rest : List (Frame K V)} {n : Nat} {so : Int}
    {l : PT K V} {kv : K × V} {r : PT K V} {P : Nat} {sP : Int} {kvP : K × V} {A : PT K V}
    {G : Nat} {sG : Int} {kvG : K × V} {U : PT K V} {np : Nat} (fuel : Nat)
    (hM : Models t (plug rest (.node G sG false
      (.node P sP true (.node n so true l kv r) kvP A) kvG U)) np)
    (hU : U.col = false) :
    ∃ t2 np2, insertFixupLoop (fuel + 2) t n = .ok t2 ∧
      Models t2 (plug rest (rotT true G true U kvG P false A kvP (.node n so true l kv r))) np2 ∧
      Same t t2 (plug rest (.node G sG false
        (.node P sP true (.node n so true l kv r) kvP A) kvG U))
        (plug rest (rotT true G true U kvG P false A kvP (.node n so true l kv r))) := by
  -- reads in the initial state
  have r1 := read_focus (Γ := frameL P sP true kvP A :: frameL G sG false kvG U :: rest) hM
  have r2 := read_focus (Γ := frameL G sG false kvG U :: rest) hM
  have r3 := read_focus (Γ := rest) hM
  obtain ⟨nu, r4, r4c, -⟩ := read_any (Γ := frameR G sG false
    (.node P sP true (.node n so true l kv r) kvP A) kvG :: rest) (S := U) hM
  have e1 : P ≠ U.ptr t.null :=
    hole_ne_sib (f := frameL G sG false kvG U) (Φ := rest) hM
  have e2 : n ≠ A.ptr t.null :=
    hole_ne_sib (f := frameL P sP true kvP A) (Φ := frameL G sG false kvG U :: rest) hM
  -- o->parent->color = 0
  obtain ⟨t1, w1, hM1, hS1⟩ := write_frame_color
    (f := frameL P sP true kvP A) (Φ := frameL G sG false kvG U :: rest) hM false
  have r5 := read_focus (Γ := frameL P sP false kvP A :: frameL G sG false kvG U :: rest) hM1
  have r6 := read_focus (Γ := frameL G sG false kvG U :: rest) hM1
  -- o->parent->parent->color = 1
  obtain ⟨t2, w2, hM2, hS2⟩ := write_frame_color
    (f := frameL G sG false kvG U) (Φ := rest) hM1 true
  have r7 := read_focus (Γ := frameL P sP false kvP A :: frameL G sG true kvG U :: rest) hM2
  have r8 := read_focus (Γ := frameL G sG true kvG U :: rest) hM2
  -- rotate(o->parent->parent, 1)
  obtain ⟨t3, w3, hM3, hS3⟩ := rotate_focus t2 rest true G sG true U kvG P sP false A kvP
    (.node n so true l kv r) np hM2
  have hM3b : Models t3 (plug (frameL P (U.rsz + A.rsz + 1 + so + 1) false kvP
      (.node G (U.rsz + A.rsz + 1) true A kvG U) :: rest) (.node n so true l kv r))
      (npAfter A G np) := hM3
  have r9 := fixup_exit_black hM3b rfl fuel
  refine ⟨t3, _, ?_, hM3, ?_⟩
  · rw [insertFixupLoop]
    simp only [r1, r2, r3, r4, ok_bind, frameL, PT.ptr_node, ctxPar_cons, if_true, e1,
      decide_False, Bool.not_false, Node.ch, r4c, hU, Bool.false_eq_true, if_false, e2,
      pure_eq_ok, w1, r5, r6, w2, r7, r8, w3, Bool.not_true]
    exact r9
  · exact (hS1.same_trans hS2).same_trans hS3

theorem fixup_LR {t : RB_Tree K V} {rest : List (Frame K V)} {n : Nat} {so : Int}
    {l : PT K V} {kv : K × V} {r : PT K V} {P : Nat} {sP : Int} {kvP : K × V} {A : PT K V}
    {G : Nat} {sG : Int} {kvG : K × V} {U : PT K V} {np : Nat} (fuel : Nat)
    (hM : Models t (plug rest (.node G sG false
      (.node P sP true A kvP (.node n so true l kv r)) kvG U)) np)
    (hU : U.col = false) :
    ∃ t2 np2, insertFixupLoop (fuel + 2) t n = .ok t2 ∧
      Models t2 (plug rest (rotT true G true U kvG n false r kv
        (.node P (A.rsz + l.rsz + 1) true A kvP l))) np2 ∧
      Same t t2 (plug rest (.node G sG false
        (.node P sP true A kvP (.node n so true l kv r)) kvG U))
        (plug rest (rotT true G true U kvG n false r kv
          (.node P (A.rsz + l.rsz + 1) true A kvP l))) := by
  have r1 := read_focus (Γ := frameR P sP true A kvP :: frameL G sG false kvG U :: rest) hM
  have r2 := read_focus (Γ := frameL G sG false kvG U :: rest) hM
  have r3 := read_focus (Γ := rest) hM
  obtain ⟨nu, r4, r4c, -⟩ := read_any (Γ := frameR G sG false
    (.node P sP true A kvP (.node n so true l kv r)) kvG :: rest) (S := U) hM
  have e1 : P ≠ U.ptr t.null :=
    hole_ne_sib (f := frameL G sG false kvG U) (Φ := rest) hM
  -- o = o->parent; rotate(o, 0)
  obtain ⟨t1, w1, hM1, hS1⟩ := rotate_focus t (frameL G sG false kvG U :: rest) false P sP true
    A kvP n so true l kv r np hM
  have hM1b : Models t1 (plug (frameL n (A.rsz + l.rsz + 1 + r.rsz + 1) true kv r ::
      frameL G sG false kvG U :: rest) (.node P (A.rsz + l.rsz + 1) true A kvP l))
      (npAfter l P np) := hM1
  have r5 := read_focus hM1b
  -- o->parent->color = 0
  obtain ⟨t2, w2, hM2, hS2⟩ := write_frame_color hM1b false
  have r6 := read_focus hM2
  have r7 := read_focus (Γ := frameL G sG false kvG U :: rest)
    (a := n) (l := .node P (A.rsz + l.rsz + 1) true A kvP l) (r := r) hM2
  -- o->parent->parent->color = 1
  obtain ⟨t3, w3, hM3, hS3⟩ := write_frame_color
    (f := frameL G sG false kvG U) (Φ := rest)
    (S := .node n (A.rsz + l.rsz + 1 + r.rsz + 1) false
      (.node P (A.rsz + l.rsz + 1) true A kvP l) kv r) hM2 true
  have r8 := read_focus (Γ := frameL n (A.rsz + l.rsz + 1 + r.rsz + 1) false kv r ::
    frameL G sG true kvG U :: rest) (a := P) hM3
  have r9 := read_focus (Γ := frameL G sG true kvG U :: rest)
    (a := n) (l := .node P (A.rsz + l.rsz + 1) true A kvP l) (r := r) hM3
  -- rotate(o->parent->parent, 1)
  obtain ⟨t4, w4, hM4, hS4⟩ := rotate_focus t3 rest true G sG true U kvG n
    (A.rsz + l.rsz + 1 + r.rsz + 1) false r kv (.node P (A.rsz + l.rsz + 1) true A kvP l)
    (npAfter l P np) hM3
  have hM4b : Models t4 (plug (frameL n (U.rsz + r.rsz + 1 + (A.rsz + l.rsz + 1) + 1) false kv
      (.node G (U.rsz + r.rsz + 1) true r kvG U) :: rest)
      (.node P (A.rsz + l.rsz + 1) true A kvP l)) (npAfter r G (npAfter l P np)) := hM4
  have r10 := fixup_exit_black hM4b rfl fuel
  refine ⟨t4, _, ?_, hM4, ?_⟩
  · rw [insertFixupLoop]
    simp only [r1, r2, r3, r4, ok_bind, PT.ptr_node, ctxPar_cons, if_true, e1,
      decide_False, Bool.not_false, Node.ch, r4c, hU, Bool.false_eq_true, if_false,
      pure_eq_ok, w1, r5, r6, w2, r7, r8, w3, r9, w4, Bool.not_true]
    exact r10
  · exact ((hS1.same_trans hS2).same_trans hS3).same_trans hS4

/-- Parent is a right child and the node is a right child: the loop runs the
left-child code (a rotation at the parent, then at the grandparent), which
leaves a red node below a red node, and repairs it in the next iteration. -/
theorem fixup_RR {t : RB_Tree K V} {rest : List (Frame K V)} {n : Nat} {so : Int}
    {l : PT K V} {kv : K × V} {r : PT K V} {P : Nat} {sP : Int} {kvP : K × V} {A : PT K V}
    {G : Nat} {sG : Int} {kvG : K × V} {U : PT K V} {np : Nat} (fuel : Nat)
    (hM : Models t (plug rest (.node G sG false U kvG
      (.node P sP true A kvP (.node n so true l kv r)))) np)
    (hU : U.col = false) (hr : r.col = false) :
    ∃ t2 np2, insertFixupLoop (fuel + 3) t n = .ok t2 ∧
      Models t2 (plug rest (rotT true n true r kv P false l kvP
        (.node G (U.rsz + A.rsz + 1) true U kvG A))) np2 ∧
      Same t t2 (plug rest (.node G sG false U kvG
        (.node P sP true A kvP (.node n so true l kv r))))
        (plug rest (rotT true n true r kv P false l kvP
          (.node G (U.rsz + A.rsz + 1) true U kvG A))) := by
  have r1 := read_focus (Γ := frameR P sP true A kvP :: frameR G sG false U kvG :: rest) hM
  have r2 := read_focus (Γ := frameR G sG false U kvG :: rest) hM
  have r3 := read_focus (Γ := rest) hM
  obtain ⟨nu, r4, r4c, -⟩ := read_any (Γ := frameL G sG false kvG
    (.node P sP true A kvP (.node n so true l kv r)) :: rest) (S := U) hM
  -- o = o->parent; rotate(o, 0)
  obtain ⟨t1, w1, hM1, hS1⟩ := rotate_focus t (frameR G sG false U kvG :: rest) false P sP true
    A kvP n so true l kv r np hM
  have hM1b : Models t1 (plug (frameL n (A.rsz + l.rsz + 1 + r.rsz + 1) true kv r ::
      frameR G sG false U kvG :: rest) (.node P (A.rsz + l.rsz + 1) true A kvP l))
      (npAfter l P np) := hM1
  have r5 := read_focus hM1b
  -- o->parent->color = 0
  obtain ⟨t2, w2, hM2, hS2⟩ := write_frame_color hM1b false
  have r6 := read_focus hM2
  have r7 := read_focus (Γ := frameR G sG false U kvG :: rest)
    (a := n) (l := .node P (A.rsz + l.rsz + 1) true A kvP l) (r := r) hM2
  -- o->parent->parent->color = 1
  obtain ⟨t3, w3, hM3, hS3⟩ := write_frame_color
    (f := frameR G sG false U kvG) (Φ := rest)
    (S := .node n (A.rsz + l.rsz + 1 + r.rsz + 1) false
      (.node P (A.rsz + l.rsz + 1) true A kvP l) kv r) hM2 true
  have r8 := read_focus (Γ := frameL n (A.rsz + l.rsz + 1 + r.rsz + 1) false kv r ::
    frameR G sG true U kvG :: rest) (a := P) hM3
  have r9 := read_focus (Γ := frameR G sG true U kvG :: rest)
    (a := n) (l := .node P (A.rsz + l.rsz + 1) true A kvP l) (r := r) hM3
  -- rotate(o->parent->parent, 0)
  obtain ⟨t4, w4, hM4, hS4⟩ := rotate_focus t3 rest false G sG true U kvG n
    (A.rsz + l.rsz + 1 + r.rsz + 1) false (.node P (A.rsz + l.rsz + 1) true A kvP l) kv r
    (npAfter l P np) hM3
  -- the next iteration is the left-child case with the node a right child
  have hM4b : Models t4 (plug rest (.node n
      (U.rsz + (A.rsz + l.rsz + 1) + 1 + r.rsz + 1) false
      (.node G (U.rsz + (A.rsz + l.rsz + 1) + 1) true U kvG
        (.node P (A.rsz + l.rsz + 1) true A kvP l)) kv r))
      (npAfter (.node P (A.rsz + l.rsz + 1) true A kvP l) G (npAfter l P np)) := hM4
  obtain ⟨t5, np5, w5, hM5, hS5⟩ := fixup_LR fuel hM4b hr
  refine ⟨t5, np5, ?_, hM5, ?_⟩
  · rw [insertFixupLoop]
    simp only [r1, r2, r3, r4, ok_bind, PT.ptr_node, ctxPar_cons, if_true,
      decide_True, Bool.not_true, Node.ch, r4c, hU, Bool.false_eq_true, if_false,
      pure_eq_ok, w1, r5, r6, w2, r7, r8, w3, r9, w4, Bool.not_false]
    exact w5
  · exact (((hS1.same_trans hS2).same_trans hS3).same_trans hS4).same_trans hS5

/-- Parent is a right child and the node is a left child: the loop skips the
rotation at the parent, rotates at the grandparent, and repairs the red node
left below a red node in the next iteration. -/
theorem fixup_RL {t : RB_Tree K V} {rest : List (Frame K V)} {n : Nat} {so : Int}
    {l : PT K V} {kv : K × V} {r : PT K V} {P : Nat} {sP : Int} {kvP : K × V} {A : PT K V}
    {G : Nat} {sG : Int} {kvG : K × V} {U : PT K V} {np : Nat} (fuel : Nat)
    (hM : Models t (plug rest (.node G sG false U kvG
      (.node P sP true (.node n so true l kv r) kvP A))) np)
    (hU : U.col = false) (hA : A.col = false) :
    ∃ t2 np2, insertFixupLoop (fuel + 3) t n = .ok t2 ∧
      Models t2 (plug rest (rotT true P true A kvP n false r kv
        (.node G (U.rsz + l.rsz + 1) true U kvG l))) np2 ∧
      Same t t2 (plug rest (.node G sG false U kvG
        (.node P sP true (.node n so true l kv r) kvP A)))
        (plug rest (rotT true P true A kvP n false r kv
          (.node G (U.rsz + l.rsz + 1) true U kvG l))) := by
  have r1 := read_focus (Γ := frameL P sP true kvP A :: frameR G sG false U kvG :: rest) hM
  have r2 := read_focus (Γ := frameR G sG false U kvG :: rest) hM
  have r3 := read_focus (Γ := rest) hM
  obtain ⟨nu, r4, r4c, -⟩ := read_any (Γ := frameL G sG false kvG
    (.node P sP true (.node n so true l kv r) kvP A) :: rest) (S := U) hM
  have e2 : n ≠ A.ptr t.null :=
    hole_ne_sib (f := frameL P sP true kvP A) (Φ := frameR G sG false U kvG :: rest) hM
  -- o->parent->color = 0
  obtain ⟨t1, w1, hM1, hS1⟩ := write_frame_color
    (f := frameL P sP true kvP A) (Φ := frameR G sG false U kvG :: rest) hM false
  have r5 := read_focus (Γ := frameL P sP false kvP A :: frameR G sG false U kvG :: rest) hM1
  have r6 := read_focus (Γ := frameR G sG false U kvG :: rest) hM1
  -- o->parent->parent->color = 1
  obtain ⟨t2, w2, hM2, hS2⟩ := write_frame_color
    (f := frameR G sG false U kvG) (Φ := rest) hM1 true
  have r7 := read_focus (Γ := frameL P sP false kvP A :: frameR G sG true U kvG :: rest) hM2
  have r8 := read_focus (Γ := frameR G sG true U kvG :: rest) hM2
  -- rotate(o->parent->parent, 0)
  obtain ⟨t3, w3, hM3, hS3⟩ := rotate_focus t2 rest false G sG true U kvG P sP false
    (.node n so true l kv r) kvP A np hM2
  have hM3b : Models t3 (plug rest (.node P (U.rsz + so + 1 + A.rsz + 1) false
      (.node G (U.rsz + so + 1) true U kvG (.node n so true l kv r)) kvP A))
      (npAfter (.node n so true l kv r) G np) := hM3
  obtain ⟨t5, np5, w5, hM5, hS5⟩ := fixup_LR fuel hM3b hA
  refine ⟨t5, np5, ?_, hM5, ?_⟩
  · rw [insertFixupLoop]
    simp only [r1, r2, r3, r4, ok_bind, PT.ptr_node, ctxPar_cons, if_true,
      decide_True, Bool.not_true, Node.ch, r4c, hU, Bool.false_eq_true, if_false, e2,
      pure_eq_ok, w1, r5, r6, w2, r7, r8, w3, Bool.not_false]
    exact w5
  · exact ((hS1.same_trans hS2).same_trans hS3).same_trans hS5

/-- Red uncle: the parent and the uncle become black, the grandparent red,
and the loop continues at the grandparent. -/
theorem fixup_red {t : RB_Tree K V} {rest : List (Frame K V)} (d1 d2 : Bool) {n : Nat} {so : Int}
    {cn : Bool} {l : PT K V} {kv : K × V} {r : PT K V} {P : Nat} {sP : Int} {kvP : K × V}
    {A : PT K V} {G : Nat} {sG : Int} {cG : Bool} {kvG : K × V} {u : Nat} {su : Int}
    {ul : PT K V} {kvu : K × V} {ur : PT K V} {np : Nat}
    (hM : Models t (plug rest (PT.mk d2 G sG cG
      (PT.mk d1 P sP true (.node n so cn l kv r) kvP A) kvG (.node u su true ul kvu ur))) np) :
    ∃ t2, (∀ fuel, insertFixupLoop (fuel + 1) t n = insertFixupLoop fuel t2 G) ∧
      Models t2 (plug rest (PT.mk d2 G sG true
        (PT.mk d1 P sP false (.node n so cn l kv r) kvP A) kvG (.node u su false ul kvu ur))) np ∧
      Same t t2 (plug rest (PT.mk d2 G sG cG
          (PT.mk d1 P sP true (.node n so cn l kv r) kvP A) kvG (.node u su true ul kvu ur)))
        (plug rest (PT.mk d2 G sG true
          (PT.mk d1 P sP false (.node n so cn l kv r) kvP A) kvG (.node u su false ul kvu ur))) := by
  cases d1 <;> cases d2
  · simp only [PT.mk_false, PT.mk_true] at hM ⊢
    have r1 := read_focus (Γ := (frameL P sP true kvP A) :: (frameL G sG cG kvG (.node u su true ul kvu ur)) :: rest) hM
    have r2 := read_focus (Γ := (frameL G sG cG kvG (.node u su true ul kvu ur)) :: rest) hM
    have r3 := read_focus (Γ := rest) hM
    have r4 := read_focus (Γ := (frameR G sG cG (.node P sP true (.node n so cn l kv r) kvP A) kvG) :: rest) (a := u) hM
    have e1 : P ≠ u := hole_ne_sib (f := (frameL G sG cG kvG (.node u su true ul kvu ur))) (Φ := rest) hM
    obtain ⟨t1, w1, hM1, hS1⟩ := write_frame_color
      (f := (frameL P sP true kvP A)) (Φ := (frameL G sG cG kvG (.node u su true ul kvu ur)) :: rest) hM false
    obtain ⟨t2, w2, hM2, hS2, -⟩ := write_focus (Γ := (frameR G sG cG (.node P sP false (.node n so cn l kv r) kvP A) kvG) :: rest) (a := u)
      hM1 (fun m => { m with color := false }) su false kvu (fun _ _ _ => rfl)
    have r5 := read_focus (Γ := (frameL P sP false kvP A) :: (frameL G sG cG kvG (.node u su false ul kvu ur)) :: rest) hM2
    have r6 := read_focus (Γ := (frameL G sG cG kvG (.node u su false ul kvu ur)) :: rest) hM2
    obtain ⟨t3, w3, hM3, hS3⟩ := write_frame_color
      (f := (frameL G sG cG kvG (.node u su false ul kvu ur))) (Φ := rest) hM2 true
    have r7 := read_focus (Γ := (frameL P sP false kvP A) :: (frameL G sG true kvG (.node u su false ul kvu ur)) :: rest) hM3
    have r8 := read_focus (Γ := (frameL G sG true kvG (.node u su false ul kvu ur)) :: rest) hM3
    refine ⟨t3, ?_, hM3, (hS1.same_trans hS2).same_trans hS3⟩
    intro fuel
    rw [insertFixupLoop]
    simp only [r1, r2, r3, r4, ok_bind, PT.ptr_node, ctxPar_cons, if_true, e1,
      decide_False, Bool.not_false, Bool.not_true, Node.ch, Bool.false_eq_true, if_false,
      pure_eq_ok, w1, r5, r6, w2, r7, r8, w3]
  · simp only [PT.mk_false, PT.mk_true] at hM ⊢
    have r1 := read_focus (Γ := (frameL P sP true kvP A) :: (frameR G sG cG (.node u su true ul kvu ur) kvG) :: rest) hM
    have r2 := read_focus (Γ := (frameR G sG cG (.node u su true ul kvu ur) kvG) :: rest) hM
    have r3 := read_focus (Γ := rest) hM
    have r4 := read_focus (Γ := (frameL G sG cG kvG (.node P sP true (.node n so cn l kv r) kvP A)) :: rest) (a := u) hM
    have e1 : P ≠ u := hole_ne_sib (f := (frameR G sG cG (.node u su true ul kvu ur) kvG)) (Φ := rest) hM
    obtain ⟨t1, w1, hM1, hS1⟩ := write_frame_color
      (f := (frameL P sP true kvP A)) (Φ := (frameR G sG cG (.node u su true ul kvu ur) kvG) :: rest) hM false
    obtain ⟨t2, w2, hM2, hS2, -⟩ := write_focus (Γ := (frameL G sG cG kvG (.node P sP false (.node n so cn l kv r) kvP A)) :: rest) (a := u)
      hM1 (fun m => { m with color := false }) su false kvu (fun _ _ _ => rfl)
    have r5 := read_focus (Γ := (frameL P sP false kvP A) :: (frameR G sG cG (.node u su false ul kvu ur) kvG) :: rest) hM2
    have r6 := read_focus (Γ := (frameR G sG cG (.node u su false ul kvu ur) kvG) :: rest) hM2
    obtain ⟨t3, w3, hM3, hS3⟩ := write_frame_color
      (f := (frameR G sG cG (.node u su false ul kvu ur) kvG)) (Φ := rest) hM2 true
    have r7 := read_focus (Γ := (frameL P sP false kvP A) :: (frameR G sG true (.node u su false ul kvu ur) kvG) :: rest) hM3
    have r8 := read_focus (Γ := (frameR G sG true (.node u su false ul kvu ur) kvG) :: rest) hM3
    refine ⟨t3, ?_, hM3, (hS1.same_trans hS2).same_trans hS3⟩
    intro fuel
    rw [insertFixupLoop]
    simp only [r1, r2, r3, r4, ok_bind, PT.ptr_node, ctxPar_cons, if_true, e1,
      decide_True, Bool.not_false, Bool.not_true, Node.ch, Bool.false_eq_true, if_false,
      pure_eq_ok, w1, r5, r6, w2, r7, r8, w3]
  · simp only [PT.mk_false, PT.mk_true] at hM ⊢
    have r1 := read_focus (Γ := (frameR P sP true A kvP) :: (frameL G sG cG kvG (.node u su true ul kvu ur)) :: rest) hM
    have r2 := read_focus (Γ := (frameL G sG cG kvG (.node u su true ul kvu ur)) :: rest) hM
    have r3 := read_focus (Γ := rest) hM
    have r4 := read_focus (Γ := (frameR G sG cG (.node P sP true A kvP (.node n so cn l kv r)) kvG) :: rest) (a := u) hM
    have e1 : P ≠ u := hole_ne_sib (f := (frameL G sG cG kvG (.node u su true ul kvu ur))) (Φ := rest) hM
    obtain ⟨t1, w1, hM1, hS1⟩ := write_frame_color
      (f := (frameR P sP true A kvP)) (Φ := (frameL G sG cG kvG (.node u su true ul kvu ur)) :: rest) hM false
    obtain ⟨t2, w2, hM2, hS2, -⟩ := write_focus (Γ := (frameR G sG cG (.node P sP false A kvP (.node n so cn l kv r)) kvG) :: rest) (a := u)
      hM1 (fun m => { m with color := false }) su false kvu (fun _ _ _ => rfl)
    have r5 := read_focus (Γ := (frameR P sP false A kvP) :: (frameL G sG cG kvG (.node u su false ul kvu ur)) :: rest) hM2
    have r6 := read_focus (Γ := (frameL G sG cG kvG (.node u su false ul kvu ur)) :: rest) hM2
    obtain ⟨t3, w3, hM3, hS3⟩ := write_frame_color
      (f := (frameL G sG cG kvG (.node u su false ul kvu ur))) (Φ := rest) hM2 true
    have r7 := read_focus (Γ := (frameR P sP false A kvP) :: (frameL G sG true kvG (.node u su false ul kvu ur)) :: rest) hM3
    have r8 := read_focus (Γ := (frameL G sG true kvG (.node u su false ul kvu ur)) :: rest) hM3
    refine ⟨t3, ?_, hM3, (hS1.same_trans hS2).same_trans hS3⟩
    intro fuel
    rw [insertFixupLoop]
    simp only [r1, r2, r3, r4, ok_bind, PT.ptr_node, ctxPar_cons, if_true, e1,
      decide_False, Bool.not_false, Bool.not_true, Node.ch, Bool.false_eq_true, if_false,
      pure_eq_ok, w1, r5, r6, w2, r7, r8, w3]
  · simp only [PT.mk_false, PT.mk_true] at hM ⊢
    have r1 := read_focus (Γ := (frameR P sP true A kvP) :: (frameR G sG cG (.node u su true ul kvu ur) kvG) :: rest) hM
    have r2 := read_focus (Γ := (frameR G sG cG (.node u su true ul kvu ur) kvG) :: rest) hM
    have r3 := read_focus (Γ := rest) hM
    have r4 := read_focus (Γ := (frameL G sG cG kvG (.node P sP true A kvP (.node n so cn l kv r))) :: rest) (a := u) hM
    have e1 : P ≠ u := hole_ne_sib (f := (frameR G sG cG (.node u su true ul kvu ur) kvG)) (Φ := rest) hM
    obtain ⟨t1, w1, hM1, hS1⟩ := write_frame_color
      (f := (frameR P sP true A kvP)) (Φ := (frameR G sG cG (.node u su true ul kvu ur) kvG) :: rest) hM false
    obtain ⟨t2, w2, hM2, hS2, -⟩ := write_focus (Γ := (frameL G sG cG kvG (.node P sP false A kvP (.node n so cn l kv r))) :: rest) (a := u)
      hM1 (fun m => { m with color := false }) su false kvu (fun _ _ _ => rfl)
    have r5 := read_focus (Γ := (frameR P sP false A kvP) :: (frameR G sG cG (.node u su false ul kvu ur) kvG) :: rest) hM2
    have r6 := read_focus (Γ := (frameR G sG cG (.node u su false ul kvu ur) kvG) :: rest) hM2
    obtain ⟨t3, w3, hM3, hS3⟩ := write_frame_color
      (f := (frameR G sG cG (.node u su false ul kvu ur) kvG)) (Φ := rest) hM2 true
    have r7 := read_focus (Γ := (frameR P sP false A kvP) :: (frameR G sG true (.node u su false ul kvu ur) kvG) :: rest) hM3
    have r8 := read_focus (Γ := (frameR G sG true (.node u su false ul kvu ur) kvG) :: rest) hM3
    refine ⟨t3, ?_, hM3, (hS1.same_trans hS2).same_trans hS3⟩
    intro fuel
    rw [insertFixupLoop]
    simp only [r1, r2, r3, r4, ok_bind, PT.ptr_node, ctxPar_cons, if_true, e1,
      decide_True, Bool.not_false, Bool.not_true, Node.ch, Bool.false_eq_true, if_false,
      pure_eq_ok, w1, r5, r6, w2, r7, r8, w3]

end sjtu

namespace sjtu

open RB_Tree

variable {K V : Type}

theorem perm_of_count {l1 l2 : List Nat} (h : ∀ a, l1.count a = l2.count a) : l1.Perm l2 :=
  List.perm_iff_count.2 h

theorem lequiv_recolor (d1 d2 : Bool) (n : Nat) (so : Int) (cn : Bool) (l : PT K V) (kv : K × V)
    (r : PT K V) (P : Nat) (sP : Int) (kvP : K × V) (A : PT K V) (G : Nat) (sG : Int)
    (cG : Bool) (kvG : K × V) (u : Nat) (su : Int) (ul : PT K V) (kvu : K × V) (ur : PT K V) :
    LEquiv (PT.mk d2 G sG cG (PT.mk d1 P sP true (.node n so cn l kv r) kvP A) kvG
        (.node u su true ul kvu ur))
      (PT.mk d2 G sG true (PT.mk d1 P sP false (.node n so cn l kv r) kvP A) kvG
        (.node u su false ul kvu ur)) := by
  cases d1 <;> cases d2 <;>
    exact ⟨by simp, by simp, fun h => ⟨by simpa using h, by simp⟩⟩

theorem lequiv_rot (d : Bool) (o : Nat) (so : Int) (co co2 : Bool) (A : PT K V) (kvo : K × V)
    (p : Nat) (sp : Int) (cp cp2 : Bool) (B : PT K V) (kvp : K × V) (C : PT K V) :
    LEquiv (PT.mk d o so co A kvo (PT.mk d p sp cp B kvp C))
      (rotT d o co2 A kvo p cp2 B kvp C) := by
  cases d
  · refine ⟨by simp [rotT], ?_, ?_⟩
    · apply perm_of_count; intro a
      simp [rotT, List.count_append, List.count_cons]; omega
    · intro h
      simp [rotT] at h ⊢
      repeat' apply And.intro
      all_goals first | omega | tauto
  · refine ⟨by simp [rotT], ?_, ?_⟩
    · apply perm_of_count; intro a
      simp [rotT, List.count_append, List.count_cons]; omega
    · intro h
      simp [rotT] at h ⊢
      repeat' apply And.intro
      all_goals first | omega | tauto

theorem bal_red_of_inv {Γ : List (Frame K V)} {l r : PT K V} (h : FixInv Γ l r)
    (n : Nat) (so : Int) (kv : K × V) : (PT.node n so true l kv r).Bal := by
  simp [h.bl, h.br, h.hh, h.cl, h.cr]

theorem insertFixupLoop_spec : ∀ (N : Nat) (Γ : List (Frame K V)), Γ.length ≤ N →
    ∀ (t : RB_Tree K V) (n : Nat) (so : Int) (l : PT K V) (kv : K × V) (r : PT K V) (np : Nat)
      (fuel : Nat), Models t (plug Γ (.node n so true l kv r)) np → FixInv Γ l r →
      Γ.length + 3 ≤ fuel →
      ∃ t2 T2 np2, insertFixupLoop fuel t n = .ok t2 ∧ Models t2 T2 np2 ∧
        Same t t2 (plug Γ (.node n so true l kv r)) T2 ∧
        LEquiv (plug Γ (.node n so true l kv r)) T2 ∧ T2.Bal := by
  intro N
  induction N using Nat.strong_induction_on with
  | _ N ih =>
    intro Γ hlen t n so l kv r np fuel hM hI hfuel
    obtain ⟨f, rfl⟩ : ∃ f, fuel = f + 3 := ⟨fuel - 3, by omega⟩
    have hS := bal_red_of_inv hI n so kv
    match Γ, hlen, hM, hI, hfuel with
    | [], _, hM, hI, _ =>
      exact ⟨t, _, np, fixup_exit_nil hM _, hM, Same.same_refl _ _, LEquiv.lequiv_refl _,
        bal_plug.2 ⟨hS, trivial⟩⟩
    | [f1], _, hM, hI, _ =>
      have hc : f1.c = false := hI.rc
      refine ⟨t, _, np, fixup_exit_black hM hc _, hM, Same.same_refl _ _, LEquiv.lequiv_refl _,
        bal_plug.2 ⟨hS, ?_⟩⟩
      have := hI.cb
      simp only [CtxBal, hc, PT.bh_node, if_true, Nat.add_zero] at this ⊢
      simpa using this
    | f1 :: f2 :: rest, hlen, hM, hI, hfuel =>
      cases hc : f1.c
      · refine ⟨t, _, np, fixup_exit_black hM hc _, hM, Same.same_refl _ _, LEquiv.lequiv_refl _,
          bal_plug.2 ⟨hS, ?_⟩⟩
        have := hI.cb
        simp only [CtxBal, hc, PT.bh_node, if_true, Nat.add_zero] at this ⊢
        simpa using this
      · obtain ⟨d1, P, sP, cP, kvP, A⟩ := f1
        obtain ⟨d2, G, sG, cG, kvG, U⟩ := f2
        simp only at hc
        subst hc
        have hcb := hI.cb
        have hrc : rootCol rest cG = false := hI.rc
        simp only [CtxBal, if_true, Nat.add_zero, true_implies, forall_const] at hcb
        obtain ⟨hA1, hA2, ⟨-, hA3⟩, hU1, hU2, hG, hrest⟩ := hcb
        have hcG : cG = false := by
          cases cG
          · rfl
          · simp at hG
        subst hcG
        simp only [Bool.false_eq_true, if_false] at hrest
        simp only [List.length_cons] at hlen hfuel
        have hM0 : Models t (plug rest (PT.mk d2 G sG false
            (PT.mk d1 P sP true (.node n so true l kv r) kvP A) kvG U)) np := hM
        by_cases hUc : U.col = true
        · -- red uncle
          obtain _ | ⟨u, su, cu, ul, kvu, ur⟩ := U
          · simp at hUc
          simp only [PT.col_node] at hUc
          subst hUc
          obtain ⟨t2, h2, hM2, hS2⟩ := fixup_red d1 d2 hM0
          have hL2 := (lequiv_recolor d1 d2 n so true l kv r P sP kvP A G sG false kvG u su ul
            kvu ur).plug rest
          simp only [PT.bal_node, PT.bh_node, if_true, Nat.add_zero, true_implies,
            forall_const, PT.col_node] at hU1 hU2
          have hX : (PT.mk d1 P sP false (.node n so true l kv r) kvP A).Bal ∧
              (PT.mk d1 P sP false (.node n so true l kv r) kvP A).bh = l.bh + 1 ∧
              (PT.mk d1 P sP false (.node n so true l kv r) kvP A).col = false := by
            cases d1 <;> simp [hS, hA1, hA2, hI.hh, hI.bl, hI.br, hI.cl, hI.cr]
          have key : ∀ (L R : PT K V), PT.mk d2 G sG true
              (PT.mk d1 P sP false (.node n so true l kv r) kvP A) kvG
              (.node u su false ul kvu ur) = .node G sG true L kvG R →
              FixInv rest L R := by
            intro L R hLR
            cases d2
            · simp only [PT.mk_false, PT.node.injEq, true_and] at hLR
              obtain ⟨rfl, rfl⟩ := hLR
              refine ⟨hX.1, ?_, ?_, hX.2.2, rfl, ?_, hrc⟩
              · simp [hU1]
              · simp [hX.2.1, hU2]
              · rw [hX.2.1]; exact hrest
            · simp only [PT.mk_true, PT.node.injEq, true_and] at hLR
              obtain ⟨rfl, rfl⟩ := hLR
              refine ⟨?_, hX.1, ?_, rfl, hX.2.2, ?_, hrc⟩
              · simp [hU1]
              · simp [hX.2.1, hU2]
              · simp [hU2]; exact hrest
          obtain ⟨L, R, hLR⟩ : ∃ L R, PT.mk d2 G sG true
              (PT.mk d1 P sP false (.node n so true l kv r) kvP A) kvG
              (.node u su false ul kvu ur) = .node G sG true L kvG R := by
            cases d2 <;> exact ⟨_, _, rfl⟩
          rw [hLR] at hM2 hS2 hL2
          obtain ⟨t3, T3, np3, h3, hM3, hS3, hL3, hB3⟩ :=
            ih rest.length (by omega) rest le_rfl t2 G sG L kvG R np (f + 2) hM2 (key L R hLR)
              (by omega)
          refine ⟨t3, T3, np3, ?_, hM3, hS2.same_trans hS3, hL2.lequiv_trans hL3, hB3⟩
          rw [h2]; exact h3
        · have hU0 : U.col = false := by simpa using hUc
          have hbl := hI.bl
          have hbr := hI.br
          have hhh := hI.hh
          have hcl := hI.cl
          have hcr := hI.cr
          cases d1 <;> cases d2
          · have hM1 : Models t (plug rest (.node G sG false (.node P sP true (.node n so true l kv r) kvP A) kvG U)) np := hM0
            obtain ⟨t2, np2, h2, hM2, hS2⟩ := fixup_LL (f + 1) hM1 hU0
            have hL : LEquiv (.node G sG false (.node P sP true (.node n so true l kv r) kvP A) kvG U)
                (rotT true G true U kvG P false A kvP (.node n so true l kv r)) := by
              refine ⟨by simp [rotT], perm_of_count ?_, fun h => ?_⟩
              · intro a
                simp [rotT, List.count_append, List.count_cons]; omega
              · simp [rotT] at h ⊢
                repeat' apply And.intro
                all_goals first | omega | tauto
            refine ⟨t2, _, np2, h2, hM2, hS2, hL.plug rest, bal_plug.2 ⟨?_, ?_⟩⟩
            · simp [rotT, hbl, hbr, hhh, hcl, hcr, hA1, hA2, hA3, hU1, hU2, hU0]
              try omega
            · have e1 : (rotT true G true U kvG P false A kvP (.node n so true l kv r)).bh = l.bh + 1 := by
                simp [rotT, hbl, hbr, hhh, hcl, hcr, hA1, hA2, hA3, hU1, hU2, hU0]
                try omega
              have e2 : (rotT true G true U kvG P false A kvP (.node n so true l kv r)).col = false := by simp [rotT]
              rw [e1, e2]; exact hrest
          · have hM1 : Models t (plug rest (.node G sG false U kvG (.node P sP true (.node n so true l kv r) kvP A))) np := hM0
            obtain ⟨t2, np2, h2, hM2, hS2⟩ := fixup_RL f hM1 hU0 hA3
            have hL : LEquiv (.node G sG false U kvG (.node P sP true (.node n so true l kv r) kvP A))
                (rotT true P true A kvP n false r kv (.node G (U.rsz + l.rsz + 1) true U kvG l)) := by
              refine ⟨by simp [rotT], perm_of_count ?_, fun h => ?_⟩
              · intro a
                simp [rotT, List.count_append, List.count_cons]; omega
              · simp [rotT] at h ⊢
                repeat' apply And.intro
                all_goals first | omega | tauto
            refine ⟨t2, _, np2, h2, hM2, hS2, hL.plug rest, bal_plug.2 ⟨?_, ?_⟩⟩
            · simp [rotT, hbl, hbr, hhh, hcl, hcr, hA1, hA2, hA3, hU1, hU2, hU0]
              try omega
            · have e1 : (rotT true P true A kvP n false r kv (.node G (U.rsz + l.rsz + 1) true U kvG l)).bh = l.bh + 1 := by
                simp [rotT, hbl, hbr, hhh, hcl, hcr, hA1, hA2, hA3, hU1, hU2, hU0]
                try omega
              have e2 : (rotT true P true A kvP n false r kv (.node G (U.rsz + l.rsz + 1) true U kvG l)).col = false := by simp [rotT]
              rw [e1, e2]; exact hrest
          · have hM1 : Models t (plug rest (.node G sG false (.node P sP true A kvP (.node n so true l kv r)) kvG U)) np := hM0
            obtain ⟨t2, np2, h2, hM2, hS2⟩ := fixup_LR (f + 1) hM1 hU0
            have hL : LEquiv (.node G sG false (.node P sP true A kvP (.node n so true l kv r)) kvG U)
                (rotT true G true U kvG n false r kv (.node P (A.rsz + l.rsz + 1) true A kvP l)) := by
              refine ⟨by simp [rotT], perm_of_count ?_, fun h => ?_⟩
              · intro a
                simp [rotT, List.count_append, List.count_cons]; omega
              · simp [rotT] at h ⊢
                repeat' apply And.intro
                all_goals first | omega | tauto
            refine ⟨t2, _, np2, h2, hM2, hS2, hL.plug rest, bal_plug.2 ⟨?_, ?_⟩⟩
            · simp [rotT, hbl, hbr, hhh, hcl, hcr, hA1, hA2, hA3, hU1, hU2, hU0]
              try omega
            · have e1 : (rotT true G true U kvG n false r kv (.node P (A.rsz + l.rsz + 1) true A kvP l)).bh = l.bh + 1 := by
                simp [rotT, hbl, hbr, hhh, hcl, hcr, hA1, hA2, hA3, hU1, hU2, hU0]
                try omega
              have e2 : (rotT true G true U kvG n false r kv (.node P (A.rsz + l.rsz + 1) true A kvP l)).col = false := by simp [rotT]
              rw [e1, e2]; exact hrest
          · have hM1 : Models t (plug rest (.node G sG false U kvG (.node P sP true A kvP (.node n so true l kv r)))) np := hM0
            obtain ⟨t2, np2, h2, hM2, hS2⟩ := fixup_RR f hM1 hU0 hI.cr
            have hL : LEquiv (.node G sG false U kvG (.node P sP true A kvP (.node n so true l kv r)))
                (rotT true n true r kv P false l kvP (.node G (U.rsz + A.rsz + 1) true U kvG A)) := by
              refine ⟨by simp [rotT], perm_of_count ?_, fun h => ?_⟩
              · intro a
                simp [rotT, List.count_append, List.count_cons]; omega
              · simp [rotT] at h ⊢
                repeat' apply And.intro
                all_goals first | omega | tauto
            refine ⟨t2, _, np2, h2, hM2, hS2, hL.plug rest, bal_plug.2 ⟨?_, ?_⟩⟩
            · simp [rotT, hbl, hbr, hhh, hcl, hcr, hA1, hA2, hA3, hU1, hU2, hU0]
              try omega
            · have e1 : (rotT true n true r kv P false l kvP (.node G (U.rsz + A.rsz + 1) true U kvG A)).bh = l.bh + 1 := by
                simp [rotT, hbl, hbr, hhh, hcl, hcr, hA1, hA2, hA3, hU1, hU2, hU0]
                try omega
              have e2 : (rotT true n true r kv P false l kvP (.node G (U.rsz + A.rsz + 1) true U kvG A)).col = false := by simp [rotT]
              rw [e1, e2]; exact hrest

end sjtu

namespace sjtu

open RB_Tree

variable {K V : Type}

theorem insert_fixup_spec {Γ : List (Frame K V)} {t : RB_Tree K V} {n : Nat} {so : Int}
    {l : PT K V} {kv : K × V} {r : PT K V} {np : Nat} {fuel : Nat}
    (hM : Models t (plug Γ (.node n so true l kv r)) np) (hI : FixInv Γ l r)
    (hf : Γ.length + 3 ≤ fuel) :
    ∃ t2 T2 np2, t.insert_fixup fuel n = .ok t2 ∧ Models t2 T2 np2 ∧
      Same t t2 (plug Γ (.node n so true l kv r)) T2 ∧
      LEquiv (plug Γ (.node n so true l kv r)) T2 ∧ T2.Bal ∧ T2.col = false := by
  obtain ⟨t1, T1, np1, h1, hM1, hS1, hL1, hB1⟩ :=
    insertFixupLoop_spec Γ.length Γ le_rfl t n so l kv r np fuel hM hI hf
  obtain _ | ⟨a, sz, c, tl, tkv, tr⟩ := T1
  · have hp := hL1.perm
    have : n ∈ (plug Γ (.node n so true l kv r)).addrs :=
      mem_addrs_plug.2 (Or.inr (by simp))
    have := hp.mem_iff.2 this
    simp at this
  · have hM1b : Models t1 (plug [] (.node a sz c tl tkv tr)) np1 := hM1
    obtain ⟨t2, h2, hM2, hS2, -⟩ := write_focus hM1b (fun m => { m with color := false })
      sz false tkv (fun _ _ _ => rfl)
    refine ⟨t2, _, np1, ?_, hM2, hS1.same_trans hS2, hL1.lequiv_trans ?_, ?_, rfl⟩
    · have hr : t1.root = a := hM1.root
      simp only [insert_fixup, h1, ok_bind, hr]
      exact h2
    · exact ⟨by simp [plug], by simp [plug], fun h => ⟨by simpa [plug] using h, by simp [plug]⟩⟩
    · simp only [plug, PT.bal_node] at hB1 ⊢
      exact ⟨hB1.1, hB1.2.1, hB1.2.2.1, by simp⟩

theorem zoom_length [LinearOrder K] (k : K) : ∀ (S : PT K V) (Γ : List (Frame K V)),
    (zoom k S Γ).1.length + (zoom k S Γ).2.height ≤ Γ.length + S.height
  | .nil, Γ => by simp [zoom]
  | .node a sz c l kv r, Γ => by
    unfold zoom
    split
    · have := zoom_length k r (frameR a sz c l kv :: Γ)
      simp only [List.length_cons, PT.height] at this ⊢
      omega
    · split
      · have := zoom_length k l (frameL a sz c kv r :: Γ)
        simp only [List.length_cons, PT.height] at this ⊢
        omega
      · exact le_rfl

theorem insert_eq [LinearOrder K] (t : RB_Tree K V) (fuel : Nat) (value : K × V) :
    t.insert fuel value = (do
      let r ← t.insertDescend value.1 fuel t.root t.null 0
      match r with
      | .inl cur => pure (cur, t)
      | .inr (parent, d) => do
        let (new_node, t1) ← t.attach parent d value
        let t2 ← t1.updatePath fuel parent
        let t3 ← t2.insert_fixup fuel new_node
        pure (new_node, t3)) := by
  unfold RB_Tree.insert
  congr 1
  funext r
  cases r with
  | inl cur => rfl
  | inr pd =>
    obtain ⟨parent, d⟩ := pd
    simp only [attach, alloc, bind_assoc, pure_bind]

section order

variable [LinearOrder K]

theorem pairwise_insert {L R : List (K × V)} {k : K} (v : V)
    (h : ((L ++ R).map Prod.fst).Pairwise (· < ·))
    (hL : ∀ x ∈ L, x.1 < k) (hR : ∀ x ∈ R, k < x.1) :
    ((L ++ (k, v) :: R).map Prod.fst).Pairwise (· < ·) := by
  simp only [List.map_append, List.map_cons, List.pairwise_append, List.pairwise_cons,
    List.mem_map, List.mem_cons, forall_exists_index, and_imp, forall_apply_eq_imp_iff₂,
    forall_eq_or_imp] at h ⊢
  exact ⟨h.1, ⟨hR, h.2.1⟩, fun x hx => ⟨hL x hx, h.2.2 x hx⟩⟩

/-- Insertion of a key that the search does not find. -/
theorem insert_new {t : RB_Tree K V} {T : PT K V} {np : Nat} {fuel : Nat} (k : K) (v : V)
    (hM : Models t T np) (hW : T.WF) (hz : (zoom k T []).2 = .nil)
    (hf : T.height + 3 ≤ fuel) :
    ∃ t2 T2 np2, t.insert fuel (k, v) = .ok (t.brk, t2) ∧ Models t2 T2 np2 ∧ T2.WF ∧
      T2.toList = ctxL (zoom k T []).1 ++ (k, v) :: ctxR (zoom k T []).1 ∧
      T.toList = ctxL (zoom k T []).1 ++ ctxR (zoom k T []).1 ∧
      Bounds (zoom k T []).1 k ∧
      T2.addrs.Perm (t.brk :: T.addrs) ∧ t2.null = t.null ∧ t2.brk = t.brk + 1 := by
  have hplug := zoom_plug k T []
  have hlen := zoom_length k T []
  have hbd := zoom_bounds k T [] hW.ord (bounds_nil k)
  obtain ⟨res, hres, hout⟩ := insertDescend_spec k T t [] np fuel 0 hM (by omega)
    (by intro f Φ h; cases h)
  obtain ⟨Γ, hctx⟩ : ∃ Γ, (zoom k T []).1 = Γ := ⟨_, rfl⟩
  rw [hctx] at hplug hlen hbd hout ⊢
  rw [hz] at hplug hlen hout
  simp only [List.length_nil, PT.height, Nat.add_zero, Nat.zero_add] at hlen
  have hplug2 : sjtu.plug Γ PT.nil = T := hplug
  have hMp : Models t (sjtu.plug Γ .nil) np := by rw [hplug2]; exact hM
  obtain ⟨d, rfl, hd⟩ := hout
  -- attachment of the new node
  obtain ⟨t1, h1, hM1, hn1, hb1⟩ := attach_focus t Γ np d (k, v) hMp hd
  -- sizes along the path
  obtain ⟨t2, h2, hM2, hS2⟩ := updatePath_spec Γ _ t1 np fuel hM1 (by omega)
  rw [hn1] at h2
  -- invariants of the path
  have hTb : (sjtu.plug Γ (PT.nil : PT K V)).Bal := by rw [hplug2]; exact hW.bal
  have hTc : (sjtu.plug Γ (PT.nil : PT K V)).col = false := by rw [hplug2]; exact hW.black
  have hTs : (sjtu.plug Γ (PT.nil : PT K V)).SizeOK := by rw [hplug2]; exact hW.size
  rw [bal_plug] at hTb
  rw [col_plug] at hTc
  rw [sizeOK_plug] at hTs
  have hI : FixInv (resize Γ (PT.node t.brk 1 true .nil (k, v) .nil).rsz)
      (.nil : PT K V) .nil :=
    ⟨trivial, trivial, rfl, rfl, rfl, (ctxBal_resize _ _ _ _).2 hTb.2,
      (rootCol_resize _ _ _).trans hTc⟩
  obtain ⟨t3, T3, np3, h3, hM3, hS3, hL3, hB3, hC3⟩ :=
    insert_fixup_spec hM2 hI (show _ + 3 ≤ fuel by rw [length_resize]; omega)
  have hsz : (sjtu.plug (resize Γ (PT.node t.brk 1 true .nil (k, v) .nil).rsz)
      (PT.node t.brk 1 true .nil (k, v) .nil)).SizeOK :=
    sizeOK_plug.2 ⟨by simp, ctxSize_resize _ hTs.2.sibOK⟩
  have hT : T.toList = ctxL Γ ++ ctxR Γ := by
    rw [← hplug2, toList_plug_eq]; simp
  have hT3 : T3.toList = ctxL Γ ++ (k, v) :: ctxR Γ := by
    rw [hL3.toList, toList_plug_eq, ctxL_resize, ctxR_resize]; simp
  refine ⟨t3, T3, np3, ?_, hM3, ⟨?_, hB3, hC3, (hL3.size hsz).1⟩, hT3, hT, hbd, ?_, ?_, ?_⟩
  · rw [insert_eq]
    simp only [hM.root, PT.ptr_nil, ctxPar_nil] at hres ⊢
    simp only [hres, ok_bind, h1, h2, h3, pure_eq_ok]
  · rw [PT.Ord, PT.keys, hT3]
    have := hW.ord
    rw [PT.Ord, PT.keys, hT] at this
    exact pairwise_insert v this hbd.1 hbd.2
  · refine hL3.perm.trans ((addrs_plug_perm _ _).trans ?_)
    rw [addrs_resize]
    refine List.Perm.trans ?_ (List.Perm.cons _ (hplug2 ▸ (addrs_plug_perm Γ .nil).symm))
    simp
  · rw [hS3.null, hS2.null, hn1]
  · rw [hS3.brk, hS2.brk, hb1]

/-- Insertion of a key that the search finds: the tree is left as it is and
the node holding the key is returned. -/
theorem insert_dup {t : RB_Tree K V} {T : PT K V} {np : Nat} {fuel : Nat} (k : K) (v : V)
    {a : Nat} {sz : Int} {c : Bool} {l : PT K V} {kv : K × V} {r : PT K V}
    (hM : Models t T np) (hz : (zoom k T []).2 = .node a sz c l kv r)
    (hf : T.height < fuel) :
    t.insert fuel (k, v) = .ok (a, t) := by
  obtain ⟨res, hres, hout⟩ := insertDescend_spec k T t [] np fuel 0 hM hf
    (by intro f Φ h; cases h)
  rw [hz] at hout
  simp only [DescendOut] at hout
  subst hout
  rw [insert_eq]
  simp only [hM.root, PT.ptr_nil, ctxPar_nil] at hres ⊢
  simp only [hres, ok_bind, pure_eq_ok]

end order

end sjtu

namespace sjtu

open RB_Tree

variable {K V : Type}

set_option maxHeartbeats 3200000 in
theorem spliceOut_focus (t : RB_Tree K V) (Γ : List (Frame K V)) (y : Nat) (sy : Int)
    (cy : Bool) (L : PT K V) (kvy : K × V) (R : PT K V) (np : Nat)
    (hM : Models t (plug Γ (.node y sy cy L kvy R)) np) (hLR : L = .nil ∨ R = .nil) :
    ∃ t2, t.spliceOut y = .ok (t2, (onlyChild L R).ptr t.null) ∧
      Models t2 (plug Γ (onlyChild L R)) (npSplice (onlyChild L R) (ctxPar t.null Γ) np) ∧
      t2.null = t.null ∧ t2.brk = t.brk ∧
      t2.mem y = some ⟨some kvy, sy, cy, L.ptr t.null, R.ptr t.null, ctxPar t.null Γ⟩ ∧
      (∀ a, a ∉ (plug Γ (.node y sy cy L kvy R)).addrs → a ≠ t.null → t2.mem a = t.mem a) := by
  obtain ⟨h0, hnull, hroot, hrepc, hreps, hnd, hlt, hfresh⟩ := models_plug.1 hM
  have hnd0 := hnd
  have hpw := nodup_sym hnd
  have hout : ∀ a, a ∉ (plug Γ (.node y sy cy L kvy R)).addrs →
      a ∉ ctxAddrs Γ ∧ a ≠ y ∧ a ∉ L.addrs ∧ a ∉ R.addrs := by
    intro a ha
    simp only [mem_addrs_plug, PT.addrs_node, List.mem_cons, List.mem_append, not_or] at ha
    exact ⟨ha.1, ha.2.1, ha.2.2.1, ha.2.2.2⟩
  have hshape : (L = .nil ∧ R = .nil) ∨ (L = .nil ∧ ∃ a sz c l kv r, R = .node a sz c l kv r) ∨
      (R = .nil ∧ ∃ a sz c l kv r, L = .node a sz c l kv r) := by
    cases L <;> cases R <;> simp at hLR ⊢
  have hsub : (onlyChild L R).addrs.Sublist (PT.node y sy cy L kvy R).addrs := by
    rcases hshape with ⟨rfl, rfl⟩ | ⟨rfl, a, sz, c, l, kv, r, rfl⟩ | ⟨rfl, a, sz, c, l, kv, r, rfl⟩
    · simp [onlyChild]
    · simp [onlyChild]
    · simp [onlyChild]
  have hsub2 : (t.null :: 0 :: (ctxAddrs Γ ++ (onlyChild L R).addrs)).Sublist
      (t.null :: 0 :: (ctxAddrs Γ ++ (PT.node y sy cy L kvy R).addrs)) :=
    ((List.Sublist.append (List.Sublist.refl _) hsub).cons₂ _).cons₂ _
  have hnd2 := hnd0.sublist hsub2
  have hfresh2 : ∀ a ∈ ctxAddrs Γ ++ (onlyChild L R).addrs, a < t.brk := fun a ha =>
    hfresh a ((List.Sublist.append (List.Sublist.refl _) hsub).subset ha)
  obtain _ | ⟨⟨fd, fa, fsz, fc, fkv, fsib⟩, Φ⟩ := Γ
  · rcases hshape with ⟨rfl, rfl⟩ | ⟨rfl, a, sz, c, l, kv, r, rfl⟩ | ⟨rfl, a, sz, c, l, kv, r, rfl⟩
    all_goals
      simp only [Rep, PT.ptr_nil, PT.ptr_node, PT.addrs_nil,
        PT.addrs_node, ctxAddrs, ctxPar_nil, ctxPar_cons, ctxRoot, RepCtx, Bool.false_eq_true,
        if_true, if_false, List.nil_append, List.append_nil] at hreps hnd hroot hrepc hpw
      simp only [List.nodup_append, List.nodup_cons, List.mem_append, List.mem_cons, not_or,
        List.cons_append, List.disjoint_cons_right, List.disjoint_append_right,
        List.disjoint_cons_left, List.disjoint_append_left,
        List.not_mem_nil, not_false_eq_true, List.nodup_nil, true_and, and_true,
        List.disjoint_nil_right, List.disjoint_nil_left, List.nil_append] at hnd
      simp only [List.pairwise_cons, List.pairwise_append, List.mem_cons, List.mem_append,
        forall_eq_or_imp, List.not_mem_nil, List.cons_append, List.nil_append,
        List.mem_singleton, forall_eq, or_imp, forall_and, ne_eq, false_implies, implies_true,
        and_true, true_and, List.Pairwise.nil] at hpw
      simp [spliceOut, rd, wr, hreps, hrepc, hnull, hpw, onlyChild]
      refine ⟨models_plug.2 ⟨?_, ?_, ?_, ?_, ?_, ?_, ?_, ?_⟩, ?_⟩
      · simpa using h0
      · simp [hnull, npSplice, hpw]
      · simp [ctxRoot, hroot]
      · simp [RepCtx, Rep_set, RepCtx_set, hnd, hrepc, hpw]
      · simp [Rep, Rep_set, hnd, hreps, hpw]
      · simpa [onlyChild] using hnd2
      · simpa using hlt
      · simpa [onlyChild] using hfresh2
      · intro b hb1 hb2
        have := hout b hb1
        simp only [PT.addrs_node, PT.addrs_nil, ctxAddrs, List.mem_cons, List.mem_append,
          not_or, List.not_mem_nil, not_false_eq_true, and_true, true_and] at this
        simp [hb2, this]
  · have hsib : ¬ y = fsib.ptr t.null := by
      have e1 : y ≠ t.null := (focus_ne hM).1
      refine PT.ptr_ne e1 ?_
      intro h
      exact List.disjoint_of_nodup_append hnd0.of_cons.of_cons (a := y)
        (by simp [ctxAddrs, h]) (by simp)
    rcases hshape with ⟨rfl, rfl⟩ | ⟨rfl, a, sz, c, l, kv, r, rfl⟩ | ⟨rfl, a, sz, c, l, kv, r, rfl⟩ <;>
      cases fd
    all_goals
      simp only [Rep, PT.ptr_nil, PT.ptr_node, PT.addrs_nil,
        PT.addrs_node, ctxAddrs, ctxPar_nil, ctxPar_cons, ctxRoot, RepCtx, Bool.false_eq_true,
        if_true, if_false, List.nil_append, List.append_nil] at hreps hnd hroot hrepc hpw
      simp only [List.nodup_append, List.nodup_cons, List.mem_append, List.mem_cons, not_or,
        List.cons_append, List.disjoint_cons_right, List.disjoint_append_right,
        List.disjoint_cons_left, List.disjoint_append_left,
        List.not_mem_nil, not_false_eq_true, List.nodup_nil, true_and, and_true,
        List.disjoint_nil_right, List.disjoint_nil_left, List.nil_append] at hnd
      simp only [List.pairwise_cons, List.pairwise_append, List.mem_cons, List.mem_append,
        forall_eq_or_imp, List.not_mem_nil, List.cons_append, List.nil_append,
        List.mem_singleton, forall_eq, or_imp, forall_and, ne_eq, false_implies, implies_true,
        and_true, true_and, List.Pairwise.nil] at hpw
      simp [spliceOut, rd, wr, hreps, hrepc, hnull, hpw, onlyChild, hsib]
      refine ⟨models_plug.2 ⟨?_, ?_, ?_, ?_, ?_, ?_, ?_, ?_⟩, ?_⟩
      · simpa using h0
      · simp [hnull, npSplice, hpw]
      · simp [ctxRoot, hroot]
      · simp [RepCtx, Rep_set, RepCtx_set, hnd, hrepc, hpw]
      · simp [Rep, Rep_set, hnd, hreps, hpw]
      · simpa [onlyChild] using hnd2
      · simpa using hlt
      · simpa [onlyChild] using hfresh2
      · intro b hb1 hb2
        have := hout b hb1
        simp only [PT.addrs_node, PT.addrs_nil, ctxAddrs, List.mem_cons, List.mem_append,
          not_or, List.not_mem_nil, not_false_eq_true, and_true, true_and] at this
        simp [hb2, this]

end sjtu

namespace sjtu

open RB_Tree

variable {K V : Type}

theorem deleteFixupLoop_eq (fuel : Nat) (t : RB_Tree K V) (o : Nat) :
    deleteFixupLoop (fuel + 1) t o = (do
      let no ← t.rd o
      if o ≠ t.root ∧ no.color = false then do
        let np ← t.rd no.parent
        let d : Bool := decide (np.right = o)
        let brother := np.ch (!d)
        let nb ← t.rd brother
        let (t, brother) ← (if nb.color = true then t.deleteFixupRed o d brother
          else pure (t, brother))
        t.deleteFixupRest fuel d brother
      else pure (t, o)) := by
  rw [deleteFixupLoop]
  rfl

theorem ctxRoot_mem : ∀ (f : Frame K V) (Φ : List (Frame K V)) (q : Nat),
    ctxRoot (f :: Φ) q ∈ ctxAddrs (f :: Φ)
  | f, [], q => by simp [ctxRoot, ctxAddrs]
  | f, g :: gs, q => by
    have := ctxRoot_mem g gs f.a
    simp only [ctxRoot, ctxAddrs, List.mem_cons, List.mem_append] at this ⊢
    tauto

theorem hole_ptr_not_mem {t : RB_Tree K V} {Γ : List (Frame K V)} {X : PT K V} {np : Nat}
    (hM : Models t (plug Γ X) np) : X.ptr t.null ∉ ctxAddrs Γ := by
  have hn := (models_plug.1 hM).nodup
  cases X with
  | nil =>
    simp only [PT.ptr_nil]
    intro h
    have := (List.nodup_cons.1 hn).1
    exact this (by simp [h])
  | node a sz c l kv r =>
    simp only [PT.ptr_node]
    intro h
    exact List.disjoint_of_nodup_append hn.of_cons.of_cons h (by simp)

theorem hole_ne_root {t : RB_Tree K V} {f : Frame K V} {Φ : List (Frame K V)} {X : PT K V}
    {np : Nat} (hM : Models t (plug (f :: Φ) X) np) : X.ptr t.null ≠ t.root := by
  intro h
  have hr := (models_plug.1 hM).root
  rw [← h] at hr
  have := ctxRoot_mem f Φ (X.ptr t.null)
  rw [← hr] at this
  exact hole_ptr_not_mem hM this

theorem read_hole {t : RB_Tree K V} {f : Frame K V} {Φ : List (Frame K V)} {X : PT K V}
    {np : Nat} (hM : Models t (plug (f :: Φ) X) np) (hnp : X = .nil → np = f.a) :
    ∃ no, t.rd (X.ptr t.null) = .ok no ∧ no.color = X.col ∧ no.parent = f.a := by
  cases X with
  | nil => exact ⟨_, read_null hM, rfl, hnp rfl⟩
  | node a sz c l kv r => exact ⟨_, read_focus hM, rfl, rfl⟩

/-- The loop of `delete_fixup` stops at once at the root. -/
theorem dfix_stop_root {t : RB_Tree K V} {T : PT K V} {np : Nat} (hM : Models t T np)
    (fuel : Nat) : deleteFixupLoop (fuel + 1) t t.root = .ok (t, t.root) := by
  obtain ⟨no, h1, -, -⟩ := read_any (Γ := []) hM
  rw [deleteFixupLoop]
  have h2 : t.rd t.root = .ok no := by rw [hM.root]; exact h1
  rw [h2]
  simp

/-- The loop of `delete_fixup` stops at once at a red node. -/
theorem dfix_stop_red {t : RB_Tree K V} {Γ : List (Frame K V)} {X : PT K V} {np : Nat}
    (hM : Models t (plug Γ X) np) (hc : X.col = true) (fuel : Nat) :
    deleteFixupLoop (fuel + 1) t (X.ptr t.null) = .ok (t, X.ptr t.null) := by
  obtain ⟨no, h1, h2, -⟩ := read_any hM
  rw [deleteFixupLoop, h1]
  simp [h2, hc]

theorem write_null_color {t : RB_Tree K V} {T : PT K V} {np : Nat} (hM : Models t T np) :
    ∃ t2, t.wr t.null (fun m => { m with color := false }) = .ok t2 ∧ Models t2 T np ∧
      Same t t2 T T := by
  refine ⟨_, wr_eq _ hM.null_ne hM.null_mem, ⟨hM.null_ne, by simp, hM.root, ?_, hM.nodup,
    hM.null_lt, hM.fresh⟩, ⟨rfl, rfl, ?_, List.Perm.refl _⟩⟩
  · refine Rep.congr_store hM.rep ?_
    intro a ha
    have : a ≠ t.null := by
      rintro rfl
      exact (List.nodup_cons.1 hM.nodup).1 (by simp [ha])
    simp [this]
  · intro a _ ha
    simp [ha]

end sjtu

namespace sjtu

open RB_Tree

variable {K V : Type}

theorem dfix_red_L {t : RB_Tree K V} {Φ : List (Frame K V)} {X : PT K V} {P : Nat} {sP : Int}
    {cP : Bool} {kvP : K × V} {w : Nat} {sw : Int} {Wn : PT K V} {kvW : K × V} {Wf : PT K V}
    {np : Nat}
    (hM : Models t (plug Φ (.node P sP cP X kvP (.node w sw true Wn kvW Wf))) np)
    (hnp : X = .nil → np = P) :
    ∃ t2 np2, t.deleteFixupRed (X.ptr t.null) false w = .ok (t2, Wn.ptr t.null) ∧
      Models t2 (plug Φ (rotT false P true X kvP w false Wn kvW Wf)) np2 ∧
      (X = .nil → np2 = P) ∧
      Same t t2 (plug Φ (.node P sP cP X kvP (.node w sw true Wn kvW Wf)))
        (plug Φ (rotT false P true X kvP w false Wn kvW Wf)) := by
  obtain ⟨t1, w1, hM1, hS1, -⟩ := write_focus (Γ := (frameR P sP cP X kvP) :: Φ)
    (a := w) hM (fun m => { m with color := false }) sw false kvW (fun _ _ _ => rfl)
  have hM1b : Models t1 (plug ((frameL P sP cP kvP (.node w sw false Wn kvW Wf)) :: Φ) X) np := hM1
  have hn1 : t1.null = t.null := hS1.null
  obtain ⟨no1, r1, -, r1p⟩ := read_hole hM1b hnp
  obtain ⟨t2, w2, hM2, hS2⟩ := write_frame_color hM1b true
  have hM2b : Models t2 (plug ((frameL P sP true kvP (.node w sw false Wn kvW Wf)) :: Φ) X) np := hM2
  have hn2 : t2.null = t.null := hS2.null.trans hn1
  obtain ⟨no2, r2, -, r2p⟩ := read_hole hM2b hnp
  obtain ⟨t3, w3, hM3, hS3⟩ := rotate_focus t2 Φ false P sP true X kvP w sw false Wn kvW Wf np hM2
  have hn3 : t3.null = t.null := hS3.null.trans hn2
  have hnp3 : X = .nil → npAfter Wn P np = P := by
    intro h; cases Wn <;> simp [npAfter, hnp h]
  have hM3b : Models t3 (plug ((frameL P (X.rsz + Wn.rsz + 1) true kvP Wn) ::
      (frameL w (X.rsz + Wn.rsz + 1 + Wf.rsz + 1) false kvW Wf) :: Φ) X) (npAfter Wn P np) := hM3
  obtain ⟨no3, r3, -, r3p⟩ := read_hole hM3b hnp3
  have r4 := read_frame hM3b
  rw [hn1] at r1
  rw [hn2] at r2
  rw [hn3] at r3 r4
  refine ⟨t3, _, ?_, hM3, hnp3, (hS1.same_trans hS2).same_trans hS3⟩
  simp only [deleteFixupRed, w1, r1, r1p, w2, r2, r2p, w3, r3, r3p, r4, ok_bind, pure_eq_ok, Node.ch, PT.ptr_node, ctxPar_cons, Bool.not_false, Bool.not_true, Bool.false_eq_true, Bool.true_eq_false, if_true, if_false, and_self, and_true, true_and, and_false, false_and, not_true_eq_false, not_false_eq_true, ne_eq, decide_True, decide_False]

theorem dfix_rest2_L {t : RB_Tree K V} {Φ : List (Frame K V)} {X : PT K V} {P : Nat} {sP : Int}
    {cP : Bool} {kvP : K × V} {w : Nat} {sw : Int} {Wn : PT K V} {kvW : K × V} {Wf : PT K V}
    {np : Nat}
    (hM : Models t (plug Φ (.node P sP cP X kvP (.node w sw false Wn kvW Wf))) np)
    (hn : Wn.col = false) (hf : Wf.col = false) (fuel : Nat) :
    ∃ t2, t.deleteFixupRest fuel false w = deleteFixupLoop fuel t2 P ∧
      Models t2 (plug Φ (.node P sP cP X kvP (.node w sw true Wn kvW Wf))) np ∧
      Same t t2 (plug Φ (.node P sP cP X kvP (.node w sw false Wn kvW Wf)))
        (plug Φ (.node P sP cP X kvP (.node w sw true Wn kvW Wf))) := by
  have rb := read_focus (Γ := (frameR P sP cP X kvP) :: Φ) (a := w) hM
  obtain ⟨n1, r1, r1c, -⟩ := read_any (Γ := (frameL w sw false kvW Wf) ::
    (frameR P sP cP X kvP) :: Φ) (S := Wn) hM
  obtain ⟨n2, r2, r2c, -⟩ := read_any (Γ := (frameR w sw false Wn kvW) ::
    (frameR P sP cP X kvP) :: Φ) (S := Wf) hM
  obtain ⟨t1, w1, hM1, hS1, -⟩ := write_focus (Γ := (frameR P sP cP X kvP) :: Φ)
    (a := w) hM (fun m => { m with color := true }) sw true kvW (fun _ _ _ => rfl)
  have rb1 := read_focus (Γ := (frameR P sP cP X kvP) :: Φ) (a := w) hM1
  refine ⟨t1, ?_, hM1, hS1⟩
  simp only [deleteFixupRest, rb, r1, r2, r1c, r2c, hn, hf, w1, rb1, ok_bind, pure_eq_ok, Node.ch, PT.ptr_node, ctxPar_cons, Bool.not_false, Bool.not_true, Bool.false_eq_true, Bool.true_eq_false, if_true, if_false, and_self, and_true, true_and, and_false, false_and, not_true_eq_false, not_false_eq_true, ne_eq, decide_True, decide_False]

theorem dfix_rest4_L {t : RB_Tree K V} {Φ : List (Frame K V)} {X : PT K V} {P : Nat} {sP : Int}
    {cP : Bool} {kvP : K × V} {w : Nat} {sw : Int} {Wn : PT K V} {kvW : K × V} {wf : Nat}
    {swf : Int} {FL : PT K V} {kvf : K × V} {FR : PT K V} {np : Nat}
    (hM : Models t (plug Φ (.node P sP cP X kvP (.node w sw false Wn kvW (.node wf swf true FL kvf FR)))) np) (fuel : Nat) :
    ∃ t2 np2, t.deleteFixupRest (fuel + 1) false w = .ok (t2, t2.root) ∧
      Models t2 (plug Φ (rotT false P false X kvP w cP Wn kvW (.node wf swf false FL kvf FR))) np2 ∧
      Same t t2 (plug Φ (.node P sP cP X kvP (.node w sw false Wn kvW (.node wf swf true FL kvf FR))))
        (plug Φ (rotT false P false X kvP w cP Wn kvW (.node wf swf false FL kvf FR))) := by
  have rb := read_focus (Γ := (frameR P sP cP X kvP) :: Φ) (a := w) hM
  obtain ⟨n1, r1, r1c, -⟩ := read_any (Γ := (frameL w sw false kvW (.node wf swf true FL kvf FR)) ::
    (frameR P sP cP X kvP) :: Φ) (S := Wn) hM
  have r2 := read_focus (Γ := (frameR w sw false Wn kvW) ::
    (frameR P sP cP X kvP) :: Φ) (a := wf) hM
  have rP := read_focus (Γ := Φ) (a := P) hM
  obtain ⟨t1, w1, hM1, hS1, -⟩ := write_focus (Γ := (frameR P sP cP X kvP) :: Φ)
    (a := w) hM (fun m => { m with color := cP }) sw cP kvW (fun _ _ _ => rfl)
  have rb1 := read_focus (Γ := (frameR P sP cP X kvP) :: Φ) (a := w) hM1
  obtain ⟨t2, w2, hM2, hS2, -⟩ := write_focus (Γ := Φ)
    (a := P) hM1 (fun m => { m with color := false }) sP false kvP (fun _ _ _ => rfl)
  have rb2 := read_focus (Γ := (frameR P sP false X kvP) :: Φ) (a := w) hM2
  obtain ⟨t3, w3, hM3, hS3, -⟩ := write_focus (Γ := (frameR w sw cP Wn kvW) ::
    (frameR P sP false X kvP) :: Φ)
    (a := wf) hM2 (fun m => { m with color := false }) swf false kvf (fun _ _ _ => rfl)
  have rb3 := read_focus (Γ := (frameR P sP false X kvP) :: Φ) (a := w) hM3
  obtain ⟨t4, w4, hM4, hS4⟩ := rotate_focus t3 Φ false P sP false X kvP w sw cP Wn kvW
    (.node wf swf false FL kvf FR) np hM3
  have r5 := dfix_stop_root hM4 fuel
  refine ⟨t4, _, ?_, hM4, ((hS1.same_trans hS2).same_trans hS3).same_trans hS4⟩
  simp only [deleteFixupRest, rb, r1, r2, rP, w1, rb1, w2, rb2, w3, rb3, w4, ok_bind, pure_eq_ok, Node.ch, PT.ptr_node, ctxPar_cons, Bool.not_false, Bool.not_true, Bool.false_eq_true, Bool.true_eq_false, if_true, if_false, and_self, and_true, true_and, and_false, false_and, not_true_eq_false, not_false_eq_true, ne_eq, decide_True, decide_False]
  exact r5

theorem dfix_rest3_L {t : RB_Tree K V} {Φ : List (Frame K V)} {X : PT K V} {P : Nat} {sP : Int}
    {cP : Bool} {kvP : K × V} {w : Nat} {sw : Int} {wn : Nat} {swn : Int} {NL : PT K V}
    {kvn : K × V} {NR : PT K V} {kvW : K × V} {Wf : PT K V} {np : Nat}
    (hM : Models t (plug Φ (.node P sP cP X kvP (.node w sw false (.node wn swn true NL kvn NR) kvW Wf))) np) (hf : Wf.col = false) (fuel : Nat) :
    ∃ t2 np2, t.deleteFixupRest (fuel + 1) false w = .ok (t2, t2.root) ∧
      Models t2 (plug Φ (rotT false P false X kvP wn cP NL kvn (.node w (Wf.rsz + NR.rsz + 1) false NR kvW Wf))) np2 ∧
      Same t t2 (plug Φ (.node P sP cP X kvP (.node w sw false (.node wn swn true NL kvn NR) kvW Wf)))
        (plug Φ (rotT false P false X kvP wn cP NL kvn (.node w (Wf.rsz + NR.rsz + 1) false NR kvW Wf))) := by
  have rb := read_focus (Γ := (frameR P sP cP X kvP) :: Φ) (a := w) hM
  have r1 := read_focus (Γ := (frameL w sw false kvW Wf) :: (frameR P sP cP X kvP) :: Φ) (a := wn) hM
  obtain ⟨n2, r2, r2c, -⟩ := read_any (Γ := (frameR w sw false (.node wn swn true NL kvn NR) kvW) ::
    (frameR P sP cP X kvP) :: Φ) (S := Wf) hM
  obtain ⟨t1, w1, hM1, hS1, -⟩ := write_focus (Γ := (frameL w sw false kvW Wf) ::
    (frameR P sP cP X kvP) :: Φ) (a := wn) hM (fun m => { m with color := false }) swn false kvn
    (fun _ _ _ => rfl)
  obtain ⟨t2, w2, hM2, hS2, -⟩ := write_focus (Γ := (frameR P sP cP X kvP) :: Φ)
    (a := w) hM1 (fun m => { m with color := true }) sw true kvW (fun _ _ _ => rfl)
  obtain ⟨t3, w3, hM3, hS3⟩ := rotate_focus t2 ((frameR P sP cP X kvP) :: Φ) true w sw true Wf kvW wn swn
    false NR kvn NL np hM2
  have hM3b : Models t3 (plug Φ (.node P sP cP X kvP (.node wn (Wf.rsz + NR.rsz + 1 + NL.rsz + 1) false NL kvn (.node w (Wf.rsz + NR.rsz + 1) true NR kvW Wf))))
      (npAfter NR w np) := hM3
  have rw3 := read_focus (Γ := (frameR wn (Wf.rsz + NR.rsz + 1 + NL.rsz + 1) false NL kvn) :: (frameR P sP cP X kvP) :: Φ) (a := w) hM3b
  have rn3 := read_focus (Γ := (frameR P sP cP X kvP) :: Φ) (a := wn) hM3b
  have rP3 := read_focus (Γ := Φ) (a := P) hM3b
  obtain ⟨t4, w4, hM4, hS4, -⟩ := write_focus (Γ := (frameR P sP cP X kvP) :: Φ)
    (a := wn) hM3b (fun m => { m with color := cP }) (Wf.rsz + NR.rsz + 1 + NL.rsz + 1) cP kvn (fun _ _ _ => rfl)
  have rn4 := read_focus (Γ := (frameR P sP cP X kvP) :: Φ) (a := wn) hM4
  obtain ⟨t5, w5, hM5, hS5, -⟩ := write_focus (Γ := Φ)
    (a := P) hM4 (fun m => { m with color := false }) sP false kvP (fun _ _ _ => rfl)
  have rn5 := read_focus (Γ := (frameR P sP false X kvP) :: Φ) (a := wn) hM5
  obtain ⟨t6, w6, hM6, hS6, -⟩ := write_focus (Γ := (frameR wn (Wf.rsz + NR.rsz + 1 + NL.rsz + 1) cP NL kvn) ::
    (frameR P sP false X kvP) :: Φ) (a := w) hM5 (fun m => { m with color := false }) (Wf.rsz + NR.rsz + 1) false kvW
    (fun _ _ _ => rfl)
  have rn6 := read_focus (Γ := (frameR P sP false X kvP) :: Φ) (a := wn) hM6
  obtain ⟨t7, w7, hM7, hS7⟩ := rotate_focus t6 Φ false P sP false X kvP wn (Wf.rsz + NR.rsz + 1 + NL.rsz + 1) cP
    NL kvn (.node w (Wf.rsz + NR.rsz + 1) false NR kvW Wf) (npAfter NR w np) hM6
  have r8 := dfix_stop_root hM7 fuel
  refine ⟨t7, _, ?_, hM7, ?_⟩
  · simp only [deleteFixupRest, rb, r1, r2, r2c, hf, w1, w2, w3, rw3, rn3, rP3, w4, rn4, w5,
      rn5, w6, rn6, w7, ok_bind, pure_eq_ok, Node.ch, PT.ptr_node, ctxPar_cons, Bool.not_false, Bool.not_true, Bool.false_eq_true, Bool.true_eq_false, if_true, if_false, and_self, and_true, true_and, and_false, false_and, not_true_eq_false, not_false_eq_true, ne_eq, decide_True, decide_False]
    exact r8
  · exact ((((((hS1.same_trans hS2).same_trans hS3).same_trans hS4).same_trans hS5).same_trans hS6).same_trans hS7)

theorem dfix_red_R {t : RB_Tree K V} {Φ : List (Frame K V)} {X : PT K V} {P : Nat} {sP : Int}
    {cP : Bool} {kvP : K × V} {w : Nat} {sw : Int} {Wn : PT K V} {kvW : K × V} {Wf : PT K V}
    {np : Nat}
    (hM : Models t (plug Φ (.node P sP cP (.node w sw true Wf kvW Wn) kvP X)) np)
    (hnp : X = .nil → np = P) :
    ∃ t2 np2, t.deleteFixupRed (X.ptr t.null) true w = .ok (t2, Wn.ptr t.null) ∧
      Models t2 (plug Φ (rotT true P true X kvP w false Wn kvW Wf)) np2 ∧
      (X = .nil → np2 = P) ∧
      Same t t2 (plug Φ (.node P sP cP (.node w sw true Wf kvW Wn) kvP X))
        (plug Φ (rotT true P true X kvP w false Wn kvW Wf)) := by
  obtain ⟨t1, w1, hM1, hS1, -⟩ := write_focus (Γ := (frameL P sP cP kvP X) :: Φ)
    (a := w) hM (fun m => { m with color := false }) sw false kvW (fun _ _ _ => rfl)
  have hM1b : Models t1 (plug ((frameR P sP cP (.node w sw false Wf kvW Wn) kvP) :: Φ) X) np := hM1
  have hn1 : t1.null = t.null := hS1.null
  obtain ⟨no1, r1, -, r1p⟩ := read_hole hM1b hnp
  obtain ⟨t2, w2, hM2, hS2⟩ := write_frame_color hM1b true
  have hM2b : Models t2 (plug ((frameR P sP true (.node w sw false Wf kvW Wn) kvP) :: Φ) X) np := hM2
  have hn2 : t2.null = t.null := hS2.null.trans hn1
  obtain ⟨no2, r2, -, r2p⟩ := read_hole hM2b hnp
  obtain ⟨t3, w3, hM3, hS3⟩ := rotate_focus t2 Φ true P sP true X kvP w sw false Wn kvW Wf np hM2
  have hn3 : t3.null = t.null := hS3.null.trans hn2
  have hnp3 : X = .nil → npAfter Wn P np = P := by
    intro h; cases Wn <;> simp [npAfter, hnp h]
  have hM3b : Models t3 (plug ((frameR P (X.rsz + Wn.rsz + 1) true Wn kvP) ::
      (frameR w (X.rsz + Wn.rsz + 1 + Wf.rsz + 1) false Wf kvW) :: Φ) X) (npAfter Wn P np) := hM3
  obtain ⟨no3, r3, -, r3p⟩ := read_hole hM3b hnp3
  have r4 := read_frame hM3b
  rw [hn1] at r1
  rw [hn2] at r2
  rw [hn3] at r3 r4
  refine ⟨t3, _, ?_, hM3, hnp3, (hS1.same_trans hS2).same_trans hS3⟩
  simp only [deleteFixupRed, w1, r1, r1p, w2, r2, r2p, w3, r3, r3p, r4, ok_bind, pure_eq_ok, Node.ch, PT.ptr_node, ctxPar_cons, Bool.not_false, Bool.not_true, Bool.false_eq_true, Bool.true_eq_false, if_true, if_false, and_self, and_true, true_and, and_false, false_and, not_true_eq_false, not_false_eq_true, ne_eq, decide_True, decide_False]

theorem dfix_rest2_R {t : RB_Tree K V} {Φ : List (Frame K V)} {X : PT K V} {P : Nat} {sP : Int}
    {cP : Bool} {kvP : K × V} {w : Nat} {sw : Int} {Wn : PT K V} {kvW : K × V} {Wf : PT K V}
    {np : Nat}
    (hM : Models t (plug Φ (.node P sP cP (.node w sw false Wf kvW Wn) kvP X)) np)
    (hn : Wn.col = false) (hf : Wf.col = false) (fuel : Nat) :
    ∃ t2, t.deleteFixupRest fuel true w = deleteFixupLoop fuel t2 P ∧
      Models t2 (plug Φ (.node P sP cP (.node w sw true Wf kvW Wn) kvP X)) np ∧
      Same t t2 (plug Φ (.node P sP cP (.node w sw false Wf kvW Wn) kvP X))
        (plug Φ (.node P sP cP (.node w sw true Wf kvW Wn) kvP X)) := by
  have rb := read_focus (Γ := (frameL P sP cP kvP X) :: Φ) (a := w) hM
  obtain ⟨n1, r1, r1c, -⟩ := read_any (Γ := (frameR w sw false Wf kvW) ::
    (frameL P sP cP kvP X) :: Φ) (S := Wn) hM
  obtain ⟨n2, r2, r2c, -⟩ := read_any (Γ := (frameL w sw false kvW Wn) ::
    (frameL P sP cP kvP X) :: Φ) (S := Wf) hM
  obtain ⟨t1, w1, hM1, hS1, -⟩ := write_focus (Γ := (frameL P sP cP kvP X) :: Φ)
    (a := w) hM (fun m => { m with color := true }) sw true kvW (fun _ _ _ => rfl)
  have rb1 := read_focus (Γ := (frameL P sP cP kvP X) :: Φ) (a := w) hM1
  refine ⟨t1, ?_, hM1, hS1⟩
  simp only [deleteFixupRest, rb, r1, r2, r1c, r2c, hn, hf, w1, rb1, ok_bind, pure_eq_ok, Node.ch, PT.ptr_node, ctxPar_cons, Bool.not_false, Bool.not_true, Bool.false_eq_true, Bool.true_eq_false, if_true, if_false, and_self, and_true, true_and, and_false, false_and, not_true_eq_false, not_false_eq_true, ne_eq, decide_True, decide_False]

theorem dfix_rest4_R {t : RB_Tree K V} {Φ : List (Frame K V)} {X : PT K V} {P : Nat} {sP : Int}
    {cP : Bool} {kvP : K × V} {w : Nat} {sw : Int} {Wn : PT K V} {kvW : K × V} {wf : Nat}
    {swf : Int} {FL : PT K V} {kvf : K × V} {FR : PT K V} {np : Nat}
    (hM : Models t (plug Φ (.node P sP cP (.node w sw false (.node wf swf true FL kvf FR) kvW Wn) kvP X)) np) (fuel : Nat) :
    ∃ t2 np2, t.deleteFixupRest (fuel + 1) true w = .ok (t2, t2.root) ∧
      Models t2 (plug Φ (rotT true P false X kvP w cP Wn kvW (.node wf swf false FL kvf FR))) np2 ∧
      Same t t2 (plug Φ (.node P sP cP (.node w sw false (.node wf swf true FL kvf FR) kvW Wn) kvP X))
        (plug Φ (rotT true P false X kvP w cP Wn kvW (.node wf swf false FL kvf FR))) := by
  have rb := read_focus (Γ := (frameL P sP cP kvP X) :: Φ) (a := w) hM
  obtain ⟨n1, r1, r1c, -⟩ := read_any (Γ := (frameR w sw false (.node wf swf true FL kvf FR) kvW) ::
    (frameL P sP cP kvP X) :: Φ) (S := Wn) hM
  have r2 := read_focus (Γ := (frameL w sw false kvW Wn) ::
    (frameL P sP cP kvP X) :: Φ) (a := wf) hM
  have rP := read_focus (Γ := Φ) (a := P) hM
  obtain ⟨t1, w1, hM1, hS1, -⟩ := write_focus (Γ := (frameL P sP cP kvP X) :: Φ)
    (a := w) hM (fun m => { m with color := cP }) sw cP kvW (fun _ _ _ => rfl)
  have rb1 := read_focus (Γ := (frameL P sP cP kvP X) :: Φ) (a := w) hM1
  obtain ⟨t2, w2, hM2, hS2, -⟩ := write_focus (Γ := Φ)
    (a := P) hM1 (fun m => { m with color := false }) sP false kvP (fun _ _ _ => rfl)
  have rb2 := read_focus (Γ := (frameL P sP false kvP X) :: Φ) (a := w) hM2
  obtain ⟨t3, w3, hM3, hS3, -⟩ := write_focus (Γ := (frameL w sw cP kvW Wn) ::
    (frameL P sP false kvP X) :: Φ)
    (a := wf) hM2 (fun m => { m with color := false }) swf false kvf (fun _ _ _ => rfl)
  have rb3 := read_focus (Γ := (frameL P sP false kvP X) :: Φ) (a := w) hM3
  obtain ⟨t4, w4, hM4, hS4⟩ := rotate_focus t3 Φ true P sP false X kvP w sw cP Wn kvW
    (.node wf swf false FL kvf FR) np hM3
  have r5 := dfix_stop_root hM4 fuel
  refine ⟨t4, _, ?_, hM4, ((hS1.same_trans hS2).same_trans hS3).same_trans hS4⟩
  simp only [deleteFixupRest, rb, r1, r2, rP, w1, rb1, w2, rb2, w3, rb3, w4, ok_bind, pure_eq_ok, Node.ch, PT.ptr_node, ctxPar_cons, Bool.not_false, Bool.not_true, Bool.false_eq_true, Bool.true_eq_false, if_true, if_false, and_self, and_true, true_and, and_false, false_and, not_true_eq_false, not_false_eq_true, ne_eq, decide_True, decide_False]
  exact r5

theorem dfix_rest3_R {t : RB_Tree K V} {Φ : List (Frame K V)} {X : PT K V} {P : Nat} {sP : Int}
    {cP : Bool} {kvP : K × V} {w : Nat} {sw : Int} {wn : Nat} {swn : Int} {NL : PT K V}
    {kvn : K × V} {NR : PT K V} {kvW : K × V} {Wf : PT K V} {np : Nat}
    (hM : Models t (plug Φ (.node P sP cP (.node w sw false Wf kvW (.node wn swn true NL kvn NR)) kvP X)) np) (hf : Wf.col = false) (fuel : Nat) :
    ∃ t2 np2, t.deleteFixupRest (fuel + 1) true w = .ok (t2, t2.root) ∧
      Models t2 (plug Φ (rotT true P false X kvP wn cP NR kvn (.node w (Wf.rsz + NL.rsz + 1) false Wf kvW NL))) np2 ∧
      Same t t2 (plug Φ (.node P sP cP (.node w sw false Wf kvW (.node wn swn true NL kvn NR)) kvP X))
        (plug Φ (rotT true P false X kvP wn cP NR kvn (.node w (Wf.rsz + NL.rsz + 1) false Wf kvW NL))) := by
  have rb := read_focus (Γ := (frameL P sP cP kvP X) :: Φ) (a := w) hM
  have r1 := read_focus (Γ := (frameR w sw false Wf kvW) :: (frameL P sP cP kvP X) :: Φ) (a := wn) hM
  obtain ⟨n2, r2, r2c, -⟩ := read_any (Γ := (frameL w sw false kvW (.node wn swn true NL kvn NR)) ::
    (frameL P sP cP kvP X) :: Φ) (S := Wf) hM
  obtain ⟨t1, w1, hM1, hS1, -⟩ := write_focus (Γ := (frameR w sw false Wf kvW) ::
    (frameL P sP cP kvP X) :: Φ) (a := wn) hM (fun m => { m with color := false }) swn false kvn
    (fun _ _ _ => rfl)
  obtain ⟨t2, w2, hM2, hS2, -⟩ := write_focus (Γ := (frameL P sP cP kvP X) :: Φ)
    (a := w) hM1 (fun m => { m with color := true }) sw true kvW (fun _ _ _ => rfl)
  obtain ⟨t3, w3, hM3, hS3⟩ := rotate_focus t2 ((frameL P sP cP kvP X) :: Φ) false w sw true Wf kvW wn swn
    false NL kvn NR np hM2
  have hM3b : Models t3 (plug Φ (.node P sP cP (.node wn (Wf.rsz + NL.rsz + 1 + NR.rsz + 1) false (.node w (Wf.rsz + NL.rsz + 1) true Wf kvW NL) kvn NR) kvP X))
      (npAfter NL w np) := hM3
  have rw3 := read_focus (Γ := (frameL wn (Wf.rsz + NL.rsz + 1 + NR.rsz + 1) false kvn NR) :: (frameL P sP cP kvP X) :: Φ) (a := w) hM3b
  have rn3 := read_focus (Γ := (frameL P sP cP kvP X) :: Φ) (a := wn) hM3b
  have rP3 := read_focus (Γ := Φ) (a := P) hM3b
  obtain ⟨t4, w4, hM4, hS4, -⟩ := write_focus (Γ := (frameL P sP cP kvP X) :: Φ)
    (a := wn) hM3b (fun m => { m with color := cP }) (Wf.rsz + NL.rsz + 1 + NR.rsz + 1) cP kvn (fun _ _ _ => rfl)
  have rn4 := read_focus (Γ := (frameL P sP cP kvP X) :: Φ) (a := wn) hM4
  obtain ⟨t5, w5, hM5, hS5, -⟩ := write_focus (Γ := Φ)
    (a := P) hM4 (fun m => { m with color := false }) sP false kvP (fun _ _ _ => rfl)
  have rn5 := read_focus (Γ := (frameL P sP false kvP X) :: Φ) (a := wn) hM5
  obtain ⟨t6, w6, hM6, hS6, -⟩ := write_focus (Γ := (frameL wn (Wf.rsz + NL.rsz + 1 + NR.rsz + 1) cP kvn NR) ::
    (frameL P sP false kvP X) :: Φ) (a := w) hM5 (fun m => { m with color := false }) (Wf.rsz + NL.rsz + 1) false kvW
    (fun _ _ _ => rfl)
  have rn6 := read_focus (Γ := (frameL P sP false kvP X) :: Φ) (a := wn) hM6
  obtain ⟨t7, w7, hM7, hS7⟩ := rotate_focus t6 Φ true P sP false X kvP wn (Wf.rsz + NL.rsz + 1 + NR.rsz + 1) cP
    NR kvn (.node w (Wf.rsz + NL.rsz + 1) false Wf kvW NL) (npAfter NL w np) hM6
  have r8 := dfix_stop_root hM7 fuel
  refine ⟨t7, _, ?_, hM7, ?_⟩
  · simp only [deleteFixupRest, rb, r1, r2, r2c, hf, w1, w2, w3, rw3, rn3, rP3, w4, rn4, w5,
      rn5, w6, rn6, w7, ok_bind, pure_eq_ok, Node.ch, PT.ptr_node, ctxPar_cons, Bool.not_false, Bool.not_true, Bool.false_eq_true, Bool.true_eq_false, if_true, if_false, and_self, and_true, true_and, and_false, false_and, not_true_eq_false, not_false_eq_true, ne_eq, decide_True, decide_False]
    exact r8
  · exact ((((((hS1.same_trans hS2).same_trans hS3).same_trans hS4).same_trans hS5).same_trans hS6).same_trans hS7)

end sjtu

namespace sjtu

open RB_Tree

variable {K V : Type}

theorem ctxBal_weaken : ∀ {Γ : List (Frame K V)} {h : Nat} {c : Bool},
    CtxBal Γ h c → CtxBal Γ h false
  | [], _, _, _ => trivial
  | _ :: _, _, _, hc => ⟨hc.1, hc.2.1, fun e => ⟨rfl, (hc.2.2.1 e).2⟩, hc.2.2.2⟩

theorem rootCol_weaken : ∀ {Γ : List (Frame K V)} {c : Bool},
    rootCol Γ c = false → rootCol Γ false = false
  | [], _, _ => rfl
  | _ :: _, _, h => h

theorem PT.blacken_of_black : ∀ {X : PT K V}, X.col = false → X.blacken = X
  | .nil, _ => rfl
  | .node _ _ c _ _ _, h => by
    simp only [PT.col_node] at h
    subst h
    rfl

@[simp] theorem PT.col_blacken : ∀ (X : PT K V), X.blacken.col = false
  | .nil => rfl
  | .node _ _ _ _ _ _ => rfl

@[simp] theorem PT.ptr_blacken (null : Nat) : ∀ (X : PT K V), X.blacken.ptr null = X.ptr null
  | .nil => rfl
  | .node _ _ _ _ _ _ => rfl

theorem PT.bh_blacken_red : ∀ {X : PT K V}, X.col = true → X.blacken.bh = X.bh + 1
  | .nil, h => by simp at h
  | .node _ _ c _ _ _, h => by
    simp only [PT.col_node] at h
    subst h
    simp [PT.blacken]

theorem lequiv_blacken : ∀ (X : PT K V), LEquiv X X.blacken
  | .nil => LEquiv.lequiv_refl _
  | .node _ _ _ _ _ _ => ⟨by simp [PT.blacken], by simp [PT.blacken],
      fun h => ⟨by simpa [PT.blacken] using h, by simp [PT.blacken]⟩⟩

theorem write_blacken {t : RB_Tree K V} {Γ : List (Frame K V)} {X : PT K V} {np : Nat}
    (hM : Models t (plug Γ X) np) :
    ∃ t2, t.wr (X.ptr t.null) (fun m => { m with color := false }) = .ok t2 ∧
      Models t2 (plug Γ X.blacken) np ∧ Same t t2 (plug Γ X) (plug Γ X.blacken) := by
  cases X with
  | nil => exact write_null_color hM
  | node a sz c l kv r =>
    obtain ⟨t2, h1, h2, h3, -⟩ := write_focus hM (fun m => { m with color := false }) sz false kv
      (fun _ _ _ => rfl)
    exact ⟨t2, h1, h2, h3⟩

theorem write_root_black {t : RB_Tree K V} {T : PT K V} {np : Nat} (hM : Models t T np)
    (hc : T.col = false) :
    ∃ t2, t.wr t.root (fun m => { m with color := false }) = .ok t2 ∧
      Models t2 T np ∧ Same t t2 T T := by
  have := write_blacken (Γ := []) hM
  rw [PT.blacken_of_black hc] at this
  rw [hM.root]
  exact this

theorem DFixGoal.goal_trans {t t1 : RB_Tree K V} {T T1 : PT K V}
    {res : Except Fault (RB_Tree K V × Nat)} (hS : Same t t1 T T1) (hL : LEquiv T T1)
    (h : DFixGoal t1 T1 res) : DFixGoal t T res := by
  obtain ⟨t2, o2, t3, T2, np2, h1, h2, h3, h4, h5, h6, h7⟩ := h
  exact ⟨t2, o2, t3, T2, np2, h1, h2, h3, hS.same_trans h4, hL.lequiv_trans h5, h6, h7⟩

/-- The loop stops at once at the root and at a red node; the final
assignment makes that node black. -/
theorem dfix_finish {t : RB_Tree K V} {Γ : List (Frame K V)} {X : PT K V} {np : Nat}
    (hM : Models t (plug Γ X) np) (h : X.col = true ∨ Γ = [])
    (hX : X.blacken.Bal) (hC : CtxBal Γ (X.bh + 1) false) (hr : rootCol Γ false = false)
    (fuel : Nat) :
    DFixGoal t (plug Γ X) (deleteFixupLoop (fuel + 1) t (X.ptr t.null)) := by
  obtain ⟨t3, h3, hM3, hS3⟩ := write_blacken hM
  have hstop : deleteFixupLoop (fuel + 1) t (X.ptr t.null) = .ok (t, X.ptr t.null) := by
    rcases h with h | rfl
    · exact dfix_stop_red hM h fuel
    · have := dfix_stop_root hM fuel
      rw [hM.root] at this
      exact this
  refine ⟨t, _, t3, _, np, hstop, h3, hM3, hS3, (lequiv_blacken X).plug Γ,
    bal_plug.2 ⟨hX, ?_⟩, ?_⟩
  · rcases h with h | rfl
    · rw [PT.bh_blacken_red h, PT.col_blacken]; exact hC
    · trivial
  · rw [col_plug, PT.col_blacken]; exact hr

/-- Terminal cases of the loop: the repaired tree is handed back with the
root as the node to blacken. -/
theorem dfix_done {t t2 : RB_Tree K V} {T T2 : PT K V} {np2 : Nat}
    {res : Except Fault (RB_Tree K V × Nat)} (hres : res = .ok (t2, t2.root))
    (hM2 : Models t2 T2 np2) (hS : Same t t2 T T2) (hL : LEquiv T T2) (hB : T2.Bal)
    (hc : T2.col = false) : DFixGoal t T res := by
  obtain ⟨t3, h3, hM3, hS3⟩ := write_root_black hM2 hc
  exact ⟨t2, _, t3, T2, np2, hres, h3, hM3, hS.same_trans hS3, hL, hB, hc⟩

theorem hole_ne_sibnode {t : RB_Tree K V} {f : Frame K V} {Φ : List (Frame K V)} {X : PT K V}
    {np : Nat} (hM : Models t (plug (f :: Φ) X) np) {w : Nat} {sw : Int} {cw : Bool}
    {Wl : PT K V} {kvW : K × V} {Wr : PT K V} (hs : f.sib = .node w sw cw Wl kvW Wr) :
    X.ptr t.null ≠ w := by
  intro h
  apply hole_ptr_not_mem hM
  rw [h]
  simp [ctxAddrs, hs]

end sjtu

namespace sjtu

open RB_Tree

variable {K V : Type}

theorem dfix_rest_L {t : RB_Tree K V} {Φ : List (Frame K V)} {X : PT K V} {P : Nat} {sP : Int}
    {cP : Bool} {kvP : K × V} {w : Nat} {sw : Int} {Wn : PT K V} {kvW : K × V} {Wf : PT K V}
    {np : Nat}
    (hM : Models t (plug Φ (.node P sP cP X kvP (.node w sw false Wn kvW Wf))) np)
    (hX : X.Bal) (hWn : Wn.Bal) (hWf : Wf.Bal) (hh : Wn.bh = Wf.bh) (hb : Wn.bh = X.bh)
    (hC : CtxBal Φ (X.bh + 1 + (if cP then 0 else 1)) cP) (hr : rootCol Φ cP = false)
    (fuel : Nat)
    (hcont : Wn.col = false → Wf.col = false → ∀ t1, Models t1 (plug Φ (.node P sP cP X kvP (.node w sw true Wn kvW Wf))) np →
      DFixGoal t1 (plug Φ (.node P sP cP X kvP (.node w sw true Wn kvW Wf)))
        (deleteFixupLoop (fuel + 1) t1 P)) :
    DFixGoal t (plug Φ (.node P sP cP X kvP (.node w sw false Wn kvW Wf)))
      (t.deleteFixupRest (fuel + 1) false w) := by
  by_cases hfc : Wf.col = true
  · obtain _ | ⟨wf, swf, cf, FL, kvf, FR⟩ := Wf
    · simp at hfc
    simp only [PT.col_node] at hfc
    subst hfc
    obtain ⟨t2, np2, h2, hM2, hS2⟩ := dfix_rest4_L hM fuel
    simp only [PT.bal_node, PT.bh_node, if_true, Nat.add_zero, true_implies] at hWf hh
    obtain ⟨hF1, hF2, hF3, hF4, hF5⟩ := hWf
    have hL : LEquiv (.node P sP cP X kvP (.node w sw false Wn kvW (.node wf swf true FL kvf FR)))
        (rotT false P false X kvP w cP Wn kvW (.node wf swf false FL kvf FR)) := by
      refine ⟨by simp [rotT], perm_of_count ?_, fun h => ?_⟩
      · intro a
        simp [rotT, List.count_append, List.count_cons]; omega
      · simp [rotT] at h ⊢
        repeat' apply And.intro
        all_goals first | omega | tauto
    refine dfix_done h2 hM2 hS2 (hL.plug Φ) (bal_plug.2 ⟨?_, ?_⟩) ?_
    · cases cP <;> simp [rotT, hX, hWn, hF1, hF2] <;> omega
    · have e1 : (rotT false P false X kvP w cP Wn kvW (.node wf swf false FL kvf FR)).bh = X.bh + 1 + (if cP then 0 else 1) := by
        cases cP <;> simp [rotT]
      have e2 : (rotT false P false X kvP w cP Wn kvW (.node wf swf false FL kvf FR)).col = cP := by simp [rotT]
      rw [e1, e2]; exact hC
    · rw [col_plug]; simpa [rotT] using hr
  · have hf0 : Wf.col = false := by simpa using hfc
    by_cases hnc : Wn.col = true
    · obtain _ | ⟨wn, swn, cn, NL, kvn, NR⟩ := Wn
      · simp at hnc
      simp only [PT.col_node] at hnc
      subst hnc
      obtain ⟨t2, np2, h2, hM2, hS2⟩ := dfix_rest3_L hM hf0 fuel
      simp only [PT.bal_node, PT.bh_node, if_true, Nat.add_zero, true_implies] at hWn hh hb
      obtain ⟨hN1, hN2, hN3, hN4, hN5⟩ := hWn
      have hL : LEquiv (.node P sP cP X kvP (.node w sw false (.node wn swn true NL kvn NR) kvW Wf))
          (rotT false P false X kvP wn cP NL kvn (.node w (Wf.rsz + NR.rsz + 1) false NR kvW Wf)) := by
        refine ⟨by simp [rotT], perm_of_count ?_, fun h => ?_⟩
        · intro a
          simp [rotT, List.count_append, List.count_cons]; omega
        · simp [rotT] at h ⊢
          repeat' apply And.intro
          all_goals first | omega | tauto
      refine dfix_done h2 hM2 hS2 (hL.plug Φ) (bal_plug.2 ⟨?_, ?_⟩) ?_
      · cases cP <;> simp [rotT, hX, hWf, hN1, hN2, hN4, hN5, hf0] <;> omega
      · have e1 : (rotT false P false X kvP wn cP NL kvn (.node w (Wf.rsz + NR.rsz + 1) false NR kvW Wf)).bh = X.bh + 1 + (if cP then 0 else 1) := by
          cases cP <;> simp [rotT]
        have e2 : (rotT false P false X kvP wn cP NL kvn (.node w (Wf.rsz + NR.rsz + 1) false NR kvW Wf)).col = cP := by simp [rotT]
        rw [e1, e2]; exact hC
      · rw [col_plug]; simpa [rotT] using hr
    · have hn0 : Wn.col = false := by simpa using hnc
      obtain ⟨t1, h1, hM1, hS1⟩ := dfix_rest2_L hM hn0 hf0 (fuel + 1)
      rw [h1]
      have hL : LEquiv (.node P sP cP X kvP (.node w sw false Wn kvW Wf))
          (.node P sP cP X kvP (.node w sw true Wn kvW Wf)) :=
        ⟨by simp, by simp, fun h => ⟨by simpa using h, by simp⟩⟩
      exact DFixGoal.goal_trans hS1 (hL.plug Φ) (hcont hn0 hf0 t1 hM1)

theorem dfix_step_L {t : RB_Tree K V} {Φ : List (Frame K V)} {X : PT K V} {P : Nat} {sP : Int}
    {cP : Bool} {kvP : K × V} {w : Nat} {sw : Int} {cw : Bool} {Wn : PT K V} {kvW : K × V}
    {Wf : PT K V} {np : Nat}
    (hM : Models t (plug Φ (.node P sP cP X kvP (.node w sw cw Wn kvW Wf))) np)
    (hnp : X = .nil → np = P) (hXc : X.col = false)
    (hX : X.Bal) (hWn : Wn.Bal) (hWf : Wf.Bal) (hh : Wn.bh = Wf.bh)
    (hb : Wn.bh + (if cw then 0 else 1) = X.bh + 1)
    (hcw : cw = true → cP = false ∧ Wn.col = false ∧ Wf.col = false)
    (hC : CtxBal Φ (X.bh + 1 + (if cP then 0 else 1)) cP) (hr : rootCol Φ cP = false)
    (fuel : Nat)
    (hcont : cw = false → Wn.col = false → Wf.col = false → ∀ t1, Models t1 (plug Φ (.node P sP cP X kvP (.node w sw true Wn kvW Wf))) np →
      DFixGoal t1 (plug Φ (.node P sP cP X kvP (.node w sw true Wn kvW Wf)))
        (deleteFixupLoop (fuel + 1) t1 P)) :
    DFixGoal t (plug Φ (.node P sP cP X kvP (.node w sw cw Wn kvW Wf)))
      (deleteFixupLoop (fuel + 2) t (X.ptr t.null)) := by
  have hM0 : Models t (plug ((frameL P sP cP kvP (.node w sw cw Wn kvW Wf)) :: Φ) X) np := hM
  obtain ⟨no, r0, r0c, r0p⟩ := read_hole hM0 hnp
  have hne := hole_ne_root hM0
  have hXw : ¬ w = X.ptr t.null := fun e => hole_ne_sibnode hM0 rfl e.symm
  have rP := read_focus (Γ := Φ) (a := P) hM
  have rW := read_focus (Γ := (frameR P sP cP X kvP) :: Φ) (a := w) hM
  rw [deleteFixupLoop_eq]
  simp only [r0, r0c, r0p, hXc, hne, rP, rW, hXw, ok_bind, pure_eq_ok, Node.ch, PT.ptr_node, ctxPar_cons, Bool.not_false, Bool.not_true, Bool.false_eq_true, Bool.true_eq_false, if_true, if_false, and_self, and_true, true_and, and_false, false_and, not_true_eq_false, not_false_eq_true, ne_eq, decide_True, decide_False]
  cases cw
  · simp only [Bool.false_eq_true, if_false, ok_bind, pure_eq_ok]
    exact dfix_rest_L hM hX hWn hWf hh (by simpa using hb) hC hr fuel (hcont rfl)
  · obtain ⟨rfl, hnc, hfc⟩ := hcw rfl
    obtain _ | ⟨wn, swn, cwn, NL, kvn, NR⟩ := Wn
    · simp at hb
    simp only [PT.col_node] at hnc
    subst hnc
    obtain ⟨t2, np2, h2, hM2, hnp2, hS2⟩ := dfix_red_L hM hnp
    simp only [h2, if_true, ok_bind, PT.ptr_node]
    have hL := (lequiv_rot false P sP false true X kvP w sw true false (.node wn swn false NL kvn NR) kvW Wf).plug Φ
    refine DFixGoal.goal_trans hS2 hL ?_
    have hM2b : Models t2 (plug ((frameL w (X.rsz + swn + 1 + Wf.rsz + 1) false kvW Wf) :: Φ)
        (.node P (X.rsz + swn + 1) true X kvP (.node wn swn false NL kvn NR))) np2 := hM2
    simp only [PT.bal_node, PT.bh_node, if_true, if_false, Bool.false_eq_true, Nat.add_zero] at hWn hh hb
    obtain ⟨hN1, hN2, hN3, -⟩ := hWn
    have hC2 : CtxBal ((frameL w (X.rsz + swn + 1 + Wf.rsz + 1) false kvW Wf) :: Φ) (X.bh + 1 + (if true then 0 else 1)) true := by
      simp only [CtxBal, Bool.false_eq_true, if_false, if_true, Nat.add_zero] at hC ⊢
      exact ⟨hWf, by omega, by simp, hC⟩
    show DFixGoal t2 (plug ((frameL w (X.rsz + swn + 1 + Wf.rsz + 1) false kvW Wf) :: Φ)
        (.node P (X.rsz + swn + 1) true X kvP (.node wn swn false NL kvn NR))) _
    refine dfix_rest_L hM2b hX hN1 hN2 (by omega) (by omega) hC2 hr fuel ?_
    intro hc1 hc2 t1 hM1
    refine dfix_finish hM1 (Or.inl rfl) ?_ ?_ hr fuel
    · simp [PT.blacken, hX, hN1, hN2, hc1, hc2]
      omega
    · simp only [CtxBal, Bool.false_eq_true, if_false, if_true, Nat.add_zero, PT.bh_node] at hC ⊢
      refine ⟨hWf, by omega, by simp, ?_⟩
      exact hC

theorem dfix_rest_R {t : RB_Tree K V} {Φ : List (Frame K V)} {X : PT K V} {P : Nat} {sP : Int}
    {cP : Bool} {kvP : K × V} {w : Nat} {sw : Int} {Wn : PT K V} {kvW : K × V} {Wf : PT K V}
    {np : Nat}
    (hM : Models t (plug Φ (.node P sP cP (.node w sw false Wf kvW Wn) kvP X)) np)
    (hX : X.Bal) (hWn : Wn.Bal) (hWf : Wf.Bal) (hh : Wn.bh = Wf.bh) (hb : Wn.bh = X.bh)
    (hC : CtxBal Φ (X.bh + 1 + (if cP then 0 else 1)) cP) (hr : rootCol Φ cP = false)
    (fuel : Nat)
    (hcont : Wn.col = false → Wf.col = false → ∀ t1, Models t1 (plug Φ (.node P sP cP (.node w sw true Wf kvW Wn) kvP X)) np →
      DFixGoal t1 (plug Φ (.node P sP cP (.node w sw true Wf kvW Wn) kvP X))
        (deleteFixupLoop (fuel + 1) t1 P)) :
    DFixGoal t (plug Φ (.node P sP cP (.node w sw false Wf kvW Wn) kvP X))
      (t.deleteFixupRest (fuel + 1) true w) := by
  by_cases hfc : Wf.col = true
  · obtain _ | ⟨wf, swf, cf, FL, kvf, FR⟩ := Wf
    · simp at hfc
    simp only [PT.col_node] at hfc
    subst hfc
    obtain ⟨t2, np2, h2, hM2, hS2⟩ := dfix_rest4_R hM fuel
    simp only [PT.bal_node, PT.bh_node, if_true, Nat.add_zero, true_implies] at hWf hh
    obtain ⟨hF1, hF2, hF3, hF4, hF5⟩ := hWf
    have hL : LEquiv (.node P sP cP (.node w sw false (.node wf swf true FL kvf FR) kvW Wn) kvP X)
        (rotT true P false X kvP w cP Wn kvW (.node wf swf false FL kvf FR)) := by
      refine ⟨by simp [rotT], perm_of_count ?_, fun h => ?_⟩
      · intro a
        simp [rotT, List.count_append, List.count_cons]; omega
      · simp [rotT] at h ⊢
        repeat' apply And.intro
        all_goals first | omega | tauto
    refine dfix_done h2 hM2 hS2 (hL.plug Φ) (bal_plug.2 ⟨?_, ?_⟩) ?_
    · cases cP <;> simp [rotT, hX, hWn, hF1, hF2] <;> omega
    · have e1 : (rotT true P false X kvP w cP Wn kvW (.node wf swf false FL kvf FR)).bh = X.bh + 1 + (if cP then 0 else 1) := by
        cases cP <;> simp [rotT] <;> omega
      have e2 : (rotT true P false X kvP w cP Wn kvW (.node wf swf false FL kvf FR)).col = cP := by simp [rotT]
      rw [e1, e2]; exact hC
    · rw [col_plug]; simpa [rotT] using hr
  · have hf0 : Wf.col = false := by simpa using hfc
    by_cases hnc : Wn.col = true
    · obtain _ | ⟨wn, swn, cn, NL, kvn, NR⟩ := Wn
      · simp at hnc
      simp only [PT.col_node] at hnc
      subst hnc
      obtain ⟨t2, np2, h2, hM2, hS2⟩ := dfix_rest3_R hM hf0 fuel
      simp only [PT.bal_node, PT.bh_node, if_true, Nat.add_zero, true_implies] at hWn hh hb
      obtain ⟨hN1, hN2, hN3, hN4, hN5⟩ := hWn
      have hL : LEquiv (.node P sP cP (.node w sw false Wf kvW (.node wn swn true NL kvn NR)) kvP X)
          (rotT true P false X kvP wn cP NR kvn (.node w (Wf.rsz + NL.rsz + 1) false Wf kvW NL)) := by
        refine ⟨by simp [rotT], perm_of_count ?_, fun h => ?_⟩
        · intro a
          simp [rotT, List.count_append, List.count_cons]; omega
        · simp [rotT] at h ⊢
          repeat' apply And.intro
          all_goals first | omega | tauto
      refine dfix_done h2 hM2 hS2 (hL.plug Φ) (bal_plug.2 ⟨?_, ?_⟩) ?_
      · cases cP <;> simp [rotT, hX, hWf, hN1, hN2, hN4, hN5, hf0] <;> omega
      · have e1 : (rotT true P false X kvP wn cP NR kvn (.node w (Wf.rsz + NL.rsz + 1) false Wf kvW NL)).bh = X.bh + 1 + (if cP then 0 else 1) := by
          cases cP <;> simp [rotT] <;> omega
        have e2 : (rotT true P false X kvP wn cP NR kvn (.node w (Wf.rsz + NL.rsz + 1) false Wf kvW NL)).col = cP := by simp [rotT]
        rw [e1, e2]; exact hC
      · rw [col_plug]; simpa [rotT] using hr
    · have hn0 : Wn.col = false := by simpa using hnc
      obtain ⟨t1, h1, hM1, hS1⟩ := dfix_rest2_R hM hn0 hf0 (fuel + 1)
      rw [h1]
      have hL : LEquiv (.node P sP cP (.node w sw false Wf kvW Wn) kvP X)
          (.node P sP cP (.node w sw true Wf kvW Wn) kvP X) :=
        ⟨by simp, by simp, fun h => ⟨by simpa using h, by simp⟩⟩
      exact DFixGoal.goal_trans hS1 (hL.plug Φ) (hcont hn0 hf0 t1 hM1)

theorem dfix_step_R {t : RB_Tree K V} {Φ : List (Frame K V)} {X : PT K V} {P : Nat} {sP : Int}
    {cP : Bool} {kvP : K × V} {w : Nat} {sw : Int} {cw : Bool} {Wn : PT K V} {kvW : K × V}
    {Wf : PT K V} {np : Nat}
    (hM : Models t (plug Φ (.node P sP cP (.node w sw cw Wf kvW Wn) kvP X)) np)
    (hnp : X = .nil → np = P) (hXc : X.col = false)
    (hX : X.Bal) (hWn : Wn.Bal) (hWf : Wf.Bal) (hh : Wn.bh = Wf.bh)
    (hb : Wn.bh + (if cw then 0 else 1) = X.bh + 1)
    (hcw : cw = true → cP = false ∧ Wn.col = false ∧ Wf.col = false)
    (hC : CtxBal Φ (X.bh + 1 + (if cP then 0 else 1)) cP) (hr : rootCol Φ cP = false)
    (fuel : Nat)
    (hcont : cw = false → Wn.col = false → Wf.col = false → ∀ t1, Models t1 (plug Φ (.node P sP cP (.node w sw true Wf kvW Wn) kvP X)) np →
      DFixGoal t1 (plug Φ (.node P sP cP (.node w sw true Wf kvW Wn) kvP X))
        (deleteFixupLoop (fuel + 1) t1 P)) :
    DFixGoal t (plug Φ (.node P sP cP (.node w sw cw Wf kvW Wn) kvP X))
      (deleteFixupLoop (fuel + 2) t (X.ptr t.null)) := by
  have hM0 : Models t (plug ((frameR P sP cP (.node w sw cw Wf kvW Wn) kvP) :: Φ) X) np := hM
  obtain ⟨no, r0, r0c, r0p⟩ := read_hole hM0 hnp
  have hne := hole_ne_root hM0
  have hXw : ¬ w = X.ptr t.null := fun e => hole_ne_sibnode hM0 rfl e.symm
  have rP := read_focus (Γ := Φ) (a := P) hM
  have rW := read_focus (Γ := (frameL P sP cP kvP X) :: Φ) (a := w) hM
  rw [deleteFixupLoop_eq]
  simp only [r0, r0c, r0p, hXc, hne, rP, rW, hXw, ok_bind, pure_eq_ok, Node.ch, PT.ptr_node, ctxPar_cons, Bool.not_false, Bool.not_true, Bool.false_eq_true, Bool.true_eq_false, if_true, if_false, and_self, and_true, true_and, and_false, false_and, not_true_eq_false, not_false_eq_true, ne_eq, decide_True, decide_False]
  cases cw
  · simp only [Bool.false_eq_true, if_false, ok_bind, pure_eq_ok]
    exact dfix_rest_R hM hX hWn hWf hh (by simpa using hb) hC hr fuel (hcont rfl)
  · obtain ⟨rfl, hnc, hfc⟩ := hcw rfl
    obtain _ | ⟨wn, swn, cwn, NL, kvn, NR⟩ := Wn
    · simp at hb
    simp only [PT.col_node] at hnc
    subst hnc
    obtain ⟨t2, np2, h2, hM2, hnp2, hS2⟩ := dfix_red_R hM hnp
    simp only [h2, if_true, ok_bind, PT.ptr_node]
    have hL := (lequiv_rot true P sP false true X kvP w sw true false (.node wn swn false NL kvn NR) kvW Wf).plug Φ
    refine DFixGoal.goal_trans hS2 hL ?_
    have hM2b : Models t2 (plug ((frameR w (X.rsz + swn + 1 + Wf.rsz + 1) false Wf kvW) :: Φ)
        (.node P (X.rsz + swn + 1) true (.node wn swn false NL kvn NR) kvP X)) np2 := hM2
    simp only [PT.bal_node, PT.bh_node, if_true, if_false, Bool.false_eq_true, Nat.add_zero] at hWn hh hb
    obtain ⟨hN1, hN2, hN3, -⟩ := hWn
    have hC2 : CtxBal ((frameR w (X.rsz + swn + 1 + Wf.rsz + 1) false Wf kvW) :: Φ) (X.bh + 1 + (if true then 0 else 1)) true := by
      simp only [CtxBal, Bool.false_eq_true, if_false, if_true, Nat.add_zero] at hC ⊢
      exact ⟨hWf, by omega, by simp, hC⟩
    show DFixGoal t2 (plug ((frameR w (X.rsz + swn + 1 + Wf.rsz + 1) false Wf kvW) :: Φ)
        (.node P (X.rsz + swn + 1) true (.node wn swn false NL kvn NR) kvP X)) _
    refine dfix_rest_R hM2b hX hN2 hN1 (by omega) (by omega) hC2 hr fuel ?_
    intro hc1 hc2 t1 hM1
    refine dfix_finish hM1 (Or.inl rfl) ?_ ?_ hr fuel
    · simp [PT.blacken, hX, hN1, hN2, hc1, hc2]
      omega
    · simp only [CtxBal, Bool.false_eq_true, if_false, if_true, Nat.add_zero, PT.bh_node] at hC ⊢
      refine ⟨hWf, by omega, by simp, ?_⟩
      have e : NL.bh + 1 + 1 = X.bh + 1 + 1 := by omega
      rw [e]; exact hC

end sjtu

namespace sjtu

open RB_Tree

variable {K V : Type}

theorem deleteFixupLoop_spec : ∀ (Γ : List (Frame K V)) (t : RB_Tree K V) (X : PT K V)
    (np : Nat) (fuel : Nat), Models t (plug Γ X) np → (X = .nil → np = ctxPar t.null Γ) →
    X.blacken.Bal → CtxBal Γ (X.bh + 1) false → rootCol Γ false = false →
    Γ.length + 2 ≤ fuel →
    DFixGoal t (plug Γ X) (deleteFixupLoop fuel t (X.ptr t.null))
  | [], t, X, np, fuel, hM, _, hX, hC, hr, hf => by
    obtain ⟨f, rfl⟩ : ∃ f, fuel = f + 1 := ⟨fuel - 1, by omega⟩
    exact dfix_finish hM (Or.inr rfl) hX hC hr f
  | g :: Φ, t, X, np, fuel, hM, hnp, hX, hC, hr, hf => by
    simp only [List.length_cons] at hf
    obtain ⟨f, rfl⟩ : ∃ f, fuel = f + 2 := ⟨fuel - 2, by omega⟩
    by_cases hXc : X.col = true
    · exact dfix_finish hM (Or.inl hXc) hX hC hr (f + 1)
    have hXc0 : X.col = false := by simpa using hXc
    rw [PT.blacken_of_black hXc0] at hX
    obtain ⟨d, P, sP, cP, kvP, W⟩ := g
    have hr2 : rootCol Φ cP = false := hr
    simp only [CtxBal] at hC
    obtain ⟨hW, hWb, hWc, hC2⟩ := hC
    obtain _ | ⟨w, sw, cw, Wl, kvW, Wr⟩ := W
    · simp at hWb
    simp only [PT.bal_node, PT.bh_node, PT.col_node] at hW hWb hWc
    obtain ⟨hWl, hWr, hh, hcc⟩ := hW
    have ih := deleteFixupLoop_spec Φ
    cases d
    · have hM1 : Models t (plug Φ (.node P sP cP X kvP (.node w sw cw Wl kvW Wr))) np := hM
      refine dfix_step_L hM1 hnp hXc0 hX hWl hWr hh hWb ?_ hC2 hr2 f ?_
      · rintro rfl
        cases cP
        · exact ⟨rfl, hcc rfl⟩
        · simp at hWc
      · rintro rfl hc1 hc2 t1 hM2
        refine ih t1 _ np (f + 1) hM2 (fun e => by cases e) ?_ ?_ (rootCol_weaken hr2) (by omega)
        · simp [PT.blacken, hX, hWl, hWr, hh, hc1, hc2]
          simp at hWb
          omega
        · simp only [PT.bh_node]
          have e : X.bh + (if cP = true then 0 else 1) + 1 =
              X.bh + 1 + (if cP = true then 0 else 1) := by omega
          rw [e]
          exact ctxBal_weaken hC2
    · have hM1 : Models t (plug Φ (.node P sP cP (.node w sw cw Wl kvW Wr) kvP X)) np := hM
      refine dfix_step_R hM1 hnp hXc0 hX hWr hWl hh.symm (by rw [← hh]; exact hWb) ?_ hC2 hr2
        f ?_
      · rintro rfl
        cases cP
        · exact ⟨rfl, (hcc rfl).2, (hcc rfl).1⟩
        · simp at hWc
      · rintro rfl hc1 hc2 t1 hM2
        refine ih t1 _ np (f + 1) hM2 (fun e => by cases e) ?_ ?_ (rootCol_weaken hr2) (by omega)
        · simp [PT.blacken, hX, hWl, hWr, hh, hc1, hc2]
          simp at hWb
          omega
        · simp only [PT.bh_node, Bool.false_eq_true, if_false, if_true, Nat.add_zero] at hWb ⊢
          have e : Wl.bh + (if cP = true then 0 else 1) + 1 =
              X.bh + 1 + (if cP = true then 0 else 1) := by omega
          rw [e]
          exact ctxBal_weaken hC2

/-- Specification of `delete_fixup` at a subtree `X` whose black height is one
short of what its path expects. -/
theorem delete_fixup_spec {t : RB_Tree K V} {Γ : List (Frame K V)} {X : PT K V} {np : Nat}
    {fuel : Nat} (hM : Models t (plug Γ X) np) (hnp : X = .nil → np = ctxPar t.null Γ)
    (hX : X.blacken.Bal) (hC : CtxBal Γ (X.bh + 1) false) (hr : rootCol Γ false = false)
    (hf : Γ.length + 2 ≤ fuel) :
    ∃ t2 T2 np2, t.delete_fixup fuel (X.ptr t.null) = .ok t2 ∧ Models t2 T2 np2 ∧
      Same t t2 (plug Γ X) T2 ∧ LEquiv (plug Γ X) T2 ∧ T2.Bal ∧ T2.col = false := by
  obtain ⟨t2, o2, t3, T2, np2, h1, h2, h3, h4, h5, h6, h7⟩ :=
    deleteFixupLoop_spec Γ t X np fuel hM hnp hX hC hr hf
  refine ⟨t3, T2, np2, ?_, h3, h4, h5, h6, h7⟩
  simp only [delete_fixup, h1, ok_bind]
  exact h2

end sjtu

namespace sjtu

open RB_Tree

variable {K V : Type}

theorem plug_append : ∀ (c1 c2 : List (Frame K V)) (S : PT K V),
    plug (c1 ++ c2) S = plug c2 (plug c1 S)
  | [], _, _ => rfl
  | f :: Φ, c2, S => by
    simp only [List.cons_append, plug]
    exact plug_append Φ c2 _

theorem ctxL_append : ∀ (c1 c2 : List (Frame K V)), ctxL (c1 ++ c2) = ctxL c2 ++ ctxL c1
  | [], c2 => by simp [ctxL]
  | f :: Φ, c2 => by simp [ctxL, ctxL_append Φ c2]

theorem ctxR_append : ∀ (c1 c2 : List (Frame K V)), ctxR (c1 ++ c2) = ctxR c1 ++ ctxR c2
  | [], c2 => by simp [ctxR]
  | f :: Φ, c2 => by simp [ctxR, ctxR_append Φ c2]

theorem height_plug : ∀ (Γ : List (Frame K V)) (S : PT K V),
    Γ.length + S.height ≤ (plug Γ S).height
  | [], S => by simp [plug]
  | f :: Φ, S => by
    have := height_plug Φ (f.fill S)
    rw [plug]
    have h2 : S.height + 1 ≤ (f.fill S).height := by
      cases hd : f.d <;> simp [Frame.fill, hd, PT.height, PT.mk]
    simp only [List.length_cons]
    omega

theorem zoomMin_eq : ∀ (S : PT K V) (Γ : List (Frame K V)),
    zoomMin S Γ = ((zoomMin S []).1 ++ Γ, (zoomMin S []).2)
  | .nil, Γ => rfl
  | .node a sz c .nil kv r, Γ => rfl
  | .node a sz c (.node la lsz lc ll lkv lr) kv r, Γ => by
    rw [zoomMin, zoomMin_eq _ (_ :: Γ), zoomMin, zoomMin_eq _ [_]]
    simp

theorem zoomMin_plug : ∀ (S : PT K V) (Γ : List (Frame K V)),
    plug (zoomMin S Γ).1 (zoomMin S Γ).2 = plug Γ S
  | .nil, Γ => rfl
  | .node a sz c .nil kv r, Γ => rfl
  | .node a sz c (.node la lsz lc ll lkv lr) kv r, Γ => by
    rw [zoomMin, zoomMin_plug]
    rfl

theorem zoomMin_node : ∀ (S : PT K V) (Γ : List (Frame K V)), S ≠ .nil →
    ∃ y sy cy kvy Ry, (zoomMin S Γ).2 = .node y sy cy .nil kvy Ry
  | .nil, _, h => absurd rfl h
  | .node a sz c .nil kv r, Γ, _ => ⟨a, sz, c, kv, r, rfl⟩
  | .node a sz c (.node la lsz lc ll lkv lr) kv r, Γ, _ => by
    rw [zoomMin]
    exact zoomMin_node _ _ (by simp)

theorem zoomMin_ctxL : ∀ (S : PT K V) (Γ : List (Frame K V)),
    ctxL (zoomMin S Γ).1 = ctxL Γ
  | .nil, Γ => rfl
  | .node a sz c .nil kv r, Γ => rfl
  | .node a sz c (.node la lsz lc ll lkv lr) kv r, Γ => by
    rw [zoomMin, zoomMin_ctxL]
    simp [ctxL]

theorem descendLoop_spec : ∀ (S : PT K V) (Γ : List (Frame K V)) (t : RB_Tree K V)
    (np : Nat) (fuel : Nat), Models t (plug Γ S) np → S ≠ .nil → S.height ≤ fuel →
    t.descendLoop true fuel (S.ptr t.null) = .ok ((zoomMin S Γ).2.ptr t.null)
  | .nil, _, _, _, _, _, h, _ => absurd rfl h
  | .node a sz c .nil kv r, Γ, t, np, fuel, hM, _, hf => by
    obtain ⟨f, rfl⟩ : ∃ f, fuel = f + 1 := ⟨fuel - 1, by simp [PT.height] at hf; omega⟩
    simp [descendLoop, read_focus hM, Node.ch, zoomMin]
  | .node a sz c (.node la lsz lc ll lkv lr) kv r, Γ, t, np, fuel, hM, _, hf => by
    obtain ⟨f, rfl⟩ : ∃ f, fuel = f + 1 := ⟨fuel - 1, by simp [PT.height] at hf; omega⟩
    have hM2 : Models t (plug (frameL a sz c kv r :: Γ) (.node la lsz lc ll lkv lr)) np := hM
    have hne := (focus_ne hM2).1
    have ih := descendLoop_spec (.node la lsz lc ll lkv lr) (frameL a sz c kv r :: Γ) t np f
      hM2 (by simp) (by simp only [PT.height] at hf ⊢; omega)
    simp only [PT.ptr_node] at ih
    simp [descendLoop, read_focus hM, Node.ch, zoomMin, hne, ih]

/-- Assignment of the value of a node on the path. -/
theorem write_frame_kv {t : RB_Tree K V} {c1 : List (Frame K V)} {f : Frame K V}
    {Φ : List (Frame K V)} {S : PT K V} {np : Nat}
    (hM : Models t (plug (c1 ++ f :: Φ) S) np) (kv : K × V) :
    ∃ t2, t.wr f.a (fun m => { m with value := some kv }) = .ok t2 ∧
      Models t2 (plug (c1 ++ { f with kv := kv } :: Φ) S) np ∧
      Same t t2 (plug (c1 ++ f :: Φ) S) (plug (c1 ++ { f with kv := kv } :: Φ) S) := by
  rw [plug_append] at hM ⊢
  rw [plug_append]
  obtain ⟨fd, fa, fsz, fc, fkv, fsib⟩ := f
  cases fd
  · obtain ⟨t2, h1, h2, h3, -⟩ := write_focus (Γ := Φ) (a := fa) (l := plug c1 S)
      (r := fsib) hM (fun m => { m with value := some kv }) fsz fc kv (fun _ _ _ => rfl)
    exact ⟨t2, h1, h2, h3⟩
  · obtain ⟨t2, h1, h2, h3, -⟩ := write_focus (Γ := Φ) (a := fa) (l := fsib)
      (r := plug c1 S) hM (fun m => { m with value := some kv }) fsz fc kv (fun _ _ _ => rfl)
    exact ⟨t2, h1, h2, h3⟩

/-- Deallocation of a node that is no longer part of the tree. -/
theorem free_spec {t : RB_Tree K V} {T : PT K V} {np : Nat} {y : Nat} {n : Node K V}
    (hM : Models t T np) (hy : y ∉ T.addrs) (hn : y ≠ t.null) (h0 : y ≠ 0)
    (hm : t.mem y = some n) :
    ∃ t2, t.free y = .ok t2 ∧ Models t2 T np ∧ t2.null = t.null ∧ t2.brk = t.brk ∧
      t2.root = t.root := by
  refine ⟨{ t with mem := fun q => if q = y then none else t.mem q },
    by simp [free, rd, h0, hm], ⟨hM.null_ne, ?_, hM.root, ?_, hM.nodup, hM.null_lt,
    hM.fresh⟩, rfl, rfl, rfl⟩
  · simp [hM.null_mem, Ne.symm hn]
  · refine Rep.congr_store hM.rep ?_
    intro a ha
    have : a ≠ y := by
      rintro rfl
      exact hy ha
    simp [this]

end sjtu

namespace sjtu

open RB_Tree

variable {K V : Type}

theorem erase_eq [LinearOrder K] (t : RB_Tree K V) (fuel : Nat) (key : K) :
    t.erase fuel key = (do
      let o ← t.find fuel key
      let no ← t.rd o
      let y ← (if no.left = t.null ∨ no.right = t.null then pure o else t.neighbour fuel o true)
      t.eraseAt fuel o y) := by
  simp only [erase, eraseAt, spliceOut, copyValue, eraseTail, bind_assoc, pure_bind]

theorem PT.bal_blacken : ∀ {X : PT K V}, X.Bal → X.blacken.Bal
  | .nil, _ => trivial
  | .node _ _ _ _ _ _, h => ⟨h.1, h.2.1, h.2.2.1, by simp⟩

theorem read_parent {t : RB_Tree K V} {Γ : List (Frame K V)} {X : PT K V} {np : Nat}
    (hM : Models t (plug Γ X) np) (hnp : X = .nil → np = ctxPar t.null Γ) :
    ∃ n, t.rd (X.ptr t.null) = .ok n ∧ n.parent = ctxPar t.null Γ ∧ n.color = X.col := by
  cases X with
  | nil => exact ⟨_, read_null hM, hnp rfl, rfl⟩
  | node a sz c l kv r => exact ⟨_, read_focus hM, rfl, rfl⟩

theorem toList_plug_resize (Γ : List (Frame K V)) (s : Int) (X : PT K V) :
    (plug (resize Γ s) X).toList = (plug Γ X).toList := by
  rw [toList_plug_eq, toList_plug_eq, ctxL_resize, ctxR_resize]

theorem addrs_plug_resize (Γ : List (Frame K V)) (s : Int) (X : PT K V) :
    (plug (resize Γ s) X).addrs.Perm (plug Γ X).addrs := by
  refine (addrs_plug_perm _ _).trans ?_
  rw [addrs_resize]
  exact (addrs_plug_perm _ _).symm

theorem eraseTail_spec {t : RB_Tree K V} {Γ : List (Frame K V)} {X : PT K V} {np : Nat}
    {y : Nat} {ny : Node K V} {fuel : Nat}
    (hM : Models t (plug Γ X) np) (hnp : X = .nil → np = ctxPar t.null Γ)
    (hy : t.mem y = some ny) (hy1 : y ∉ (plug Γ X).addrs) (hyn : y ≠ t.null) (hy0 : y ≠ 0)
    (hXs : X.SizeOK) (hCs : CtxSibOK Γ)
    (hb : ny.color = false →
      X.blacken.Bal ∧ CtxBal Γ (X.bh + 1) false ∧ rootCol Γ false = false)
    (hr : ny.color = true → (plug Γ X).Bal ∧ (plug Γ X).col = false)
    (hf : Γ.length + 2 ≤ fuel) :
    ∃ t3 T3 np3, t.eraseTail fuel (X.ptr t.null) y = .ok t3 ∧ Models t3 T3 np3 ∧ T3.Bal ∧
      T3.col = false ∧ T3.SizeOK ∧ T3.toList = (plug Γ X).toList ∧
      T3.addrs.Perm (plug Γ X).addrs ∧ t3.null = t.null ∧ t3.brk = t.brk := by
  obtain ⟨nx, r1, r1p, -⟩ := read_parent hM hnp
  obtain ⟨t2, h2, hM2, hS2⟩ := updatePath_spec Γ X t np fuel hM (by omega)
  have hy2 : t2.mem y = some ny := by rw [hS2.out y hy1 hyn]; exact hy
  have r3 : t2.rd y = .ok ny := rd_eq hy0 hy2
  have hsz : (plug (resize Γ X.rsz) X).SizeOK :=
    sizeOK_plug.2 ⟨hXs, ctxSize_resize _ hCs⟩
  have hy3 : y ∉ (plug (resize Γ X.rsz) X).addrs := fun h =>
    hy1 ((addrs_plug_resize Γ _ X).mem_iff.1 h)
  cases hc : ny.color
  · obtain ⟨hb1, hb2, hb3⟩ := hb hc
    obtain ⟨t3, T3, np3, h3, hM3, hS3, hL3, hB3, hC3⟩ :=
      delete_fixup_spec hM2
        (by intro e; rw [ctxPar_resize, hS2.null]; exact hnp e) hb1
        ((ctxBal_resize _ _ _ _).2 hb2) ((rootCol_resize _ _ _).trans hb3)
        (show _ + 2 ≤ fuel by rw [length_resize]; exact hf)
    have hy4 : y ∉ T3.addrs := fun h => hy3 (hL3.perm.mem_iff.1 h)
    have hy5 : t3.mem y = some ny := by
      rw [hS3.out y hy3 (by rw [hS2.null]; exact hyn)]; exact hy2
    obtain ⟨t4, h4, hM4, hn4, hb4, -⟩ := free_spec hM3 hy4
      (by rw [hS3.null, hS2.null]; exact hyn) hy0 hy5
    refine ⟨t4, T3, np3, ?_, hM4, hB3, hC3, (hL3.size hsz).1, ?_, ?_, ?_, ?_⟩
    · rw [hS2.null] at h3
      simp only [eraseTail, r1, ok_bind, r1p, h2, r3, hc, if_true, h3]
      exact h4
    · rw [hL3.toList, toList_plug_resize]
    · exact hL3.perm.trans (addrs_plug_resize _ _ _)
    · rw [hn4, hS3.null, hS2.null]
    · rw [hb4, hS3.brk, hS2.brk]
  · obtain ⟨hr1, hr2⟩ := hr hc
    obtain ⟨t4, h4, hM4, hn4, hb4, -⟩ := free_spec hM2 hy3
      (by rw [hS2.null]; exact hyn) hy0 hy2
    refine ⟨t4, _, np, ?_, hM4, ?_, ?_, hsz, toList_plug_resize _ _ _,
      addrs_plug_resize _ _ _, ?_, ?_⟩
    · simp only [eraseTail, r1, ok_bind, r1p, h2, r3, hc, Bool.true_eq_false, if_false,
        pure_eq_ok]
      exact h4
    · rw [bal_plug] at hr1 ⊢
      exact ⟨hr1.1, (ctxBal_resize _ _ _ _).2 hr1.2⟩
    · rw [col_plug] at hr2 ⊢
      rw [rootCol_resize]; exact hr2
    · rw [hn4, hS2.null]
    · rw [hb4, hS2.brk]

end sjtu

namespace sjtu

open RB_Tree

variable {K V : Type}

theorem sizeOK_onlyChild {L R : PT K V} (hL : L.SizeOK) (hR : R.SizeOK) :
    (onlyChild L R).SizeOK := by
  cases L <;> simp [onlyChild, hL, hR]

/-- What unlinking a node with at most one child leaves for the rest of
`erase` to repair. -/
theorem erase_pure {Γ : List (Frame K V)} {y : Nat} {sy : Int} {cy : Bool} {L : PT K V}
    {kvy : K × V} {R : PT K V} (hB : (plug Γ (.node y sy cy L kvy R)).Bal)
    (hC : (plug Γ (.node y sy cy L kvy R)).col = false)
    (hS : (plug Γ (.node y sy cy L kvy R)).SizeOK) (hLR : L = .nil ∨ R = .nil) :
    (onlyChild L R).SizeOK ∧ CtxSibOK Γ ∧
    (cy = false → (onlyChild L R).blacken.Bal ∧ CtxBal Γ ((onlyChild L R).bh + 1) false ∧
      rootCol Γ false = false) ∧
    (cy = true → (plug Γ (onlyChild L R)).Bal ∧ (plug Γ (onlyChild L R)).col = false) := by
  rw [bal_plug] at hB
  rw [col_plug] at hC
  rw [sizeOK_plug] at hS
  obtain ⟨⟨hL, hR, hh, hcc⟩, hCB⟩ := hB
  simp only [PT.sizeOK_node] at hS
  refine ⟨sizeOK_onlyChild hS.1.2.1 hS.1.2.2, hS.2.sibOK, ?_, ?_⟩
  · rintro rfl
    simp only [PT.bh_node, PT.col_node, Bool.false_eq_true, if_false] at hCB hC
    refine ⟨?_, ?_, hC⟩
    · cases L with
      | nil => exact PT.bal_blacken hR
      | node _ _ _ _ _ _ => exact PT.bal_blacken hL
    · rcases hLR with rfl | rfl
      · simp only [onlyChild]
        rw [← hh]; exact hCB
      · cases L with
        | nil => exact hCB
        | node _ _ _ _ _ _ => exact hCB
  · rintro rfl
    obtain ⟨hcl, hcr⟩ := hcc rfl
    simp only [PT.bh_node, PT.col_node, if_true, Nat.add_zero] at hCB hC
    have hnil : onlyChild L R = .nil := by
      rcases hLR with rfl | rfl
      · cases R with
        | nil => rfl
        | node a sz c l kv r =>
          simp only [PT.col_node] at hcr
          subst hcr
          simp at hh
      · cases L with
        | nil => rfl
        | node a sz c l kv r =>
          simp only [PT.col_node] at hcl
          subst hcl
          simp at hh
    have hL0 : L.bh = 0 := by
      rcases hLR with rfl | rfl
      · rfl
      · rw [hh]; rfl
    rw [hnil, bal_plug, col_plug]
    rw [hL0] at hCB
    refine ⟨⟨trivial, ctxBal_weaken hCB⟩, ?_⟩
    cases Γ with
    | nil => simp [rootCol] at hC
    | cons f Φ => exact hC

theorem onlyChild_ptr_ne {L R : PT K V} {y null : Nat} (hy : y ≠ null) (hL : y ∉ L.addrs)
    (hR : y ∉ R.addrs) : y ≠ (onlyChild L R).ptr null := by
  cases L with
  | nil => exact PT.ptr_ne hy hR
  | node _ _ _ _ _ _ => exact PT.ptr_ne hy hL

/-- The body of `erase` at a node `y` with at most one child, the copy of its
value being described by `hcopy`. -/
theorem eraseAt_spec {t : RB_Tree K V} {Γ Δ : List (Frame K V)} {o y : Nat} {sy : Int}
    {cy : Bool} {L : PT K V} {kvy : K × V} {R : PT K V} {np : Nat} {fuel : Nat}
    (hM : Models t (plug Γ (.node y sy cy L kvy R)) np) (hLR : L = .nil ∨ R = .nil)
    (hcopy : ∀ (t1 : RB_Tree K V) (np1 : Nat), t1.null = t.null → t1.brk = t.brk →
      Models t1 (plug Γ (onlyChild L R)) np1 →
      t1.mem y = some ⟨some kvy, sy, cy, L.ptr t.null, R.ptr t.null, ctxPar t.null Γ⟩ →
      ∃ t2, t1.copyValue o y = .ok t2 ∧ Models t2 (plug Δ (onlyChild L R)) np1 ∧
        Same t1 t2 (plug Γ (onlyChild L R)) (plug Δ (onlyChild L R)) ∧
        ctxPar t.null Δ = ctxPar t.null Γ)
    (hB : (plug Δ (.node y sy cy L kvy R)).Bal)
    (hC : (plug Δ (.node y sy cy L kvy R)).col = false)
    (hS : (plug Δ (.node y sy cy L kvy R)).SizeOK)
    (hf : Δ.length + 2 ≤ fuel) :
    ∃ t3 T3 np3, t.eraseAt fuel o y = .ok t3 ∧ Models t3 T3 np3 ∧ T3.Bal ∧
      T3.col = false ∧ T3.SizeOK ∧ T3.toList = (plug Δ (onlyChild L R)).toList ∧
      T3.addrs.Perm (plug Δ (onlyChild L R)).addrs ∧ t3.null = t.null ∧ t3.brk = t.brk := by
  obtain ⟨t1, h1, hM1, hn1, hb1, hy1, -⟩ := spliceOut_focus t Γ y sy cy L kvy R np hM hLR
  obtain ⟨t2, h2, hM2, hS2, hpar⟩ := hcopy t1 _ hn1 hb1 hM1 hy1
  have hnd := (models_plug.1 hM).nodup
  have hyne := focus_ne hM
  have hyout : y ∉ (plug Γ (onlyChild L R)).addrs := by
    have h1 : y ∉ ctxAddrs Γ := fun h =>
      List.disjoint_of_nodup_append hnd.of_cons.of_cons h (by simp)
    have h2 : y ∉ L.addrs ∧ y ∉ R.addrs := by
      have := (List.nodup_append.1 hnd.of_cons.of_cons).2.1
      simp only [PT.addrs_node, List.nodup_cons, List.mem_append, not_or] at this
      exact this.1
    rw [mem_addrs_plug]
    rintro (h | h)
    · exact h1 h
    · cases L with
      | nil => exact h2.2 h
      | node _ _ _ _ _ _ => exact h2.1 h
  have hyout2 : y ∉ (plug Δ (onlyChild L R)).addrs := fun h =>
    hyout (hS2.perm.mem_iff.1 h)
  have hy2 : t2.mem y = some ⟨some kvy, sy, cy, L.ptr t.null, R.ptr t.null,
      ctxPar t.null Γ⟩ := by
    rw [hS2.out y hyout (by rw [hn1]; exact hyne.1)]; exact hy1
  obtain ⟨p1, p2, p3, p4⟩ := erase_pure hB hC hS hLR
  obtain ⟨t3, T3, np3, h3, hM3, hB3, hC3, hS3, hT3, hP3, hn3, hb3⟩ :=
    eraseTail_spec hM2
      (by
        intro e
        rw [hS2.null, hn1, hpar]
        simp only [e, npSplice])
      hy2 hyout2 (by rw [hS2.null, hn1]; exact hyne.1) hyne.2 p1 p2 p3 p4 hf
  refine ⟨t3, T3, np3, ?_, hM3, hB3, hC3, hS3, hT3, hP3, ?_, ?_⟩
  · rw [hS2.null, hn1] at h3
    simp only [eraseAt, h1, ok_bind, h2]
    exact h3
  · rw [hn3, hS2.null, hn1]
  · rw [hb3, hS2.brk, hb1]

end sjtu

namespace sjtu

open RB_Tree

variable {K V : Type}

theorem toList_onlyChild {L R : PT K V} (h : L = .nil ∨ R = .nil) :
    (onlyChild L R).toList = L.toList ++ R.toList := by
  rcases h with rfl | rfl
  · simp [onlyChild]
  · cases L <;> simp [onlyChild]

theorem mem_ctxAddrs_mid (c1 : List (Frame K V)) (f : Frame K V) (Φ : List (Frame K V)) :
    f.a ∈ ctxAddrs (c1 ++ f :: Φ) := by
  induction c1 with
  | nil => simp [ctxAddrs]
  | cons g gs ih => simp [ctxAddrs, ih]

theorem ctxPar_mid (null : Nat) (c1 : List (Frame K V)) (f : Frame K V) (kv : K × V)
    (Φ : List (Frame K V)) :
    ctxPar null (c1 ++ { f with kv := kv } :: Φ) = ctxPar null (c1 ++ f :: Φ) := by
  cases c1 <;> rfl

theorem copyValue_same {t : RB_Tree K V} (o : Nat) : t.copyValue o o = .ok t := by
  simp [copyValue]

/-- Erasing with the node of the key having at most one child. -/
theorem erase_leaf {t : RB_Tree K V} {Γ : List (Frame K V)} {o : Nat}
    {so : Int} {co : Bool} {L : PT K V} {kvo : K × V} {R : PT K V} {np : Nat} {fuel : Nat}
    (hM : Models t (plug Γ (.node o so co L kvo R)) np)
    (hB : (plug Γ (.node o so co L kvo R)).Bal)
    (hC : (plug Γ (.node o so co L kvo R)).col = false)
    (hS : (plug Γ (.node o so co L kvo R)).SizeOK)
    (hLR : L = .nil ∨ R = .nil) (hf : Γ.length + 2 ≤ fuel) :
    ∃ t3 T3 np3, t.eraseAt fuel o o = .ok t3 ∧ Models t3 T3 np3 ∧ T3.Bal ∧
      T3.col = false ∧ T3.SizeOK ∧
      (∃ l1 l2, (plug Γ (.node o so co L kvo R)).toList = l1 ++ kvo :: l2 ∧
        T3.toList = l1 ++ l2) ∧ t3.null = t.null ∧ t3.brk = t.brk := by
  obtain ⟨t3, T3, np3, h3, hM3, hB3, hC3, hS3, hT3, -, hn3, hb3⟩ :=
    eraseAt_spec (o := o) (Δ := Γ) hM hLR
      (fun t1 np1 _ _ hM1 _ => ⟨t1, copyValue_same o, hM1, Same.same_refl _ _, rfl⟩) hB hC hS hf
  refine ⟨t3, T3, np3, h3, hM3, hB3, hC3, hS3, ⟨ctxL Γ ++ L.toList, R.toList ++ ctxR Γ, ?_, ?_⟩,
    hn3, hb3⟩
  · rw [toList_plug_eq]; simp
  · rw [hT3, toList_plug_eq, toList_onlyChild hLR]; simp

/-- Erasing with the node of the key having two children: the leftmost node
`y` of the right subtree is unlinked and its value moved to `o`. -/
theorem erase_inner {t : RB_Tree K V} {Γ c1 : List (Frame K V)} {o : Nat}
    {so : Int} {co : Bool} {L : PT K V} {kvo : K × V} {y : Nat} {sy : Int} {cy : Bool}
    {kvy : K × V} {Ry : PT K V} {np : Nat} {fuel : Nat}
    (hM : Models t (plug (c1 ++ frameR o so co L kvo :: Γ) (.node y sy cy .nil kvy Ry)) np)
    (hc1 : ctxL c1 = [])
    (hB : (plug (c1 ++ frameR o so co L kvo :: Γ) (.node y sy cy .nil kvy Ry)).Bal)
    (hC : (plug (c1 ++ frameR o so co L kvo :: Γ) (.node y sy cy .nil kvy Ry)).col = false)
    (hS : (plug (c1 ++ frameR o so co L kvo :: Γ) (.node y sy cy .nil kvy Ry)).SizeOK)
    (hf : c1.length + Γ.length + 3 ≤ fuel) :
    ∃ t3 T3 np3, t.eraseAt fuel o y = .ok t3 ∧ Models t3 T3 np3 ∧ T3.Bal ∧
      T3.col = false ∧ T3.SizeOK ∧
      (∃ l1 l2, (plug (c1 ++ frameR o so co L kvo :: Γ) (.node y sy cy .nil kvy Ry)).toList =
          l1 ++ kvo :: l2 ∧ T3.toList = l1 ++ l2) ∧ t3.null = t.null ∧ t3.brk = t.brk := by
  have hyo : y ≠ o := by
    intro e
    have h1 := hole_ptr_not_mem hM
    have h2 := mem_ctxAddrs_mid c1 (frameR o so co L kvo) Γ
    simp only [PT.ptr_node] at h1
    rw [e] at h1
    exact h1 h2
  have hy0 := (focus_ne hM).2
  have key : ∀ (Y : PT K V), ((plug (c1 ++ frameR o so co L kvo :: Γ) Y).Bal ↔
        (plug (c1 ++ frameR o so co L kvy :: Γ) Y).Bal) ∧
      (plug (c1 ++ frameR o so co L kvo :: Γ) Y).col =
        (plug (c1 ++ frameR o so co L kvy :: Γ) Y).col ∧
      ((plug (c1 ++ frameR o so co L kvo :: Γ) Y).SizeOK ↔
        (plug (c1 ++ frameR o so co L kvy :: Γ) Y).SizeOK) := by
    intro Y
    rw [plug_append, plug_append]
    refine ⟨?_, ?_, ?_⟩
    · rw [show plug (frameR o so co L kvo :: Γ) (plug c1 Y) =
          plug Γ (.node o so co L kvo (plug c1 Y)) from rfl,
        show plug (frameR o so co L kvy :: Γ) (plug c1 Y) =
          plug Γ (.node o so co L kvy (plug c1 Y)) from rfl, bal_plug, bal_plug]
      exact Iff.rfl
    · rw [show plug (frameR o so co L kvo :: Γ) (plug c1 Y) =
          plug Γ (.node o so co L kvo (plug c1 Y)) from rfl,
        show plug (frameR o so co L kvy :: Γ) (plug c1 Y) =
          plug Γ (.node o so co L kvy (plug c1 Y)) from rfl, col_plug, col_plug]
      rfl
    · rw [show plug (frameR o so co L kvo :: Γ) (plug c1 Y) =
          plug Γ (.node o so co L kvo (plug c1 Y)) from rfl,
        show plug (frameR o so co L kvy :: Γ) (plug c1 Y) =
          plug Γ (.node o so co L kvy (plug c1 Y)) from rfl, sizeOK_plug, sizeOK_plug]
      exact Iff.rfl
  obtain ⟨k1, k2, k3⟩ := key (.node y sy cy .nil kvy Ry)
  obtain ⟨t3, T3, np3, h3, hM3, hB3, hC3, hS3, hT3, -, hn3, hb3⟩ :=
    eraseAt_spec (o := o) (Δ := c1 ++ frameR o so co L kvy :: Γ) hM
      (Or.inl rfl)
      (by
        intro t1 np1 hn1 _ hM1 hy1
        obtain ⟨t2, w2, hM2, hS2⟩ := write_frame_kv hM1 kvy
        refine ⟨t2, ?_, hM2, hS2, ctxPar_mid _ c1 (frameR o so co L kvo) kvy Γ⟩
        simp only [copyValue, ne_eq, hyo, not_false_eq_true, if_true, rd_eq hy0 hy1, ok_bind]
        exact w2)
      (k1.1 hB) (k2 ▸ hC) (k3.1 hS)
      (show _ ≤ fuel by simp only [List.length_append, List.length_cons]; omega)
  refine ⟨t3, T3, np3, h3, hM3, hB3, hC3, hS3, ⟨ctxL Γ ++ L.toList, kvy :: (Ry.toList ++
    ctxR c1 ++ ctxR Γ), ?_, ?_⟩, hn3, hb3⟩
  · rw [toList_plug_eq, ctxL_append, ctxR_append, hc1]
    simp [ctxL, ctxR]
  · rw [hT3, toList_plug_eq, ctxL_append, ctxR_append, hc1]
    simp [ctxL, ctxR, onlyChild]

end sjtu

namespace sjtu

open RB_Tree

variable {K V : Type}

section order

variable [LinearOrder K]

/-- Specification of `erase(key)` for a key that the search finds. -/
theorem erase_spec {t : RB_Tree K V} {T : PT K V} {np : Nat} {fuel : Nat} (k : K)
    {o : Nat} {so : Int} {co : Bool} {L : PT K V} {kvo : K × V} {R : PT K V}
    (hM : Models t T np) (hW : T.WF) (hz : (zoom k T []).2 = .node o so co L kvo R)
    (hf : T.height + 3 ≤ fuel) :
    ∃ t3 T3 np3, t.erase fuel k = .ok t3 ∧ Models t3 T3 np3 ∧ T3.WF ∧
      (∃ l1 l2, T.toList = l1 ++ kvo :: l2 ∧ T3.toList = l1 ++ l2) ∧
      t3.null = t.null ∧ t3.brk = t.brk := by
  have hplug := zoom_plug k T []
  have hlen := zoom_length k T []
  obtain ⟨Γ, hctx⟩ : ∃ Γ, (zoom k T []).1 = Γ := ⟨_, rfl⟩
  rw [hctx, hz] at hplug hlen
  simp only [List.length_nil, PT.height, Nat.zero_add] at hlen
  have hplug2 : sjtu.plug Γ (.node o so co L kvo R) = T := hplug
  have hfind := find_spec k hM (by omega : T.height < fuel)
  rw [hz] at hfind
  simp only [PT.ptr_node] at hfind
  subst hplug2
  have ro := read_focus hM
  have hwf : ∀ {T3 : PT K V}, T3.Bal → T3.col = false → T3.SizeOK →
      (∃ l1 l2, (sjtu.plug Γ (.node o so co L kvo R)).toList = l1 ++ kvo :: l2 ∧
        T3.toList = l1 ++ l2) → T3.WF := by
    intro T3 h1 h2 h3 ⟨l1, l2, e1, e2⟩
    refine ⟨?_, h1, h2, h3⟩
    have := hW.ord
    rw [PT.Ord, PT.keys, e1] at this
    rw [PT.Ord, PT.keys, e2]
    refine this.sublist ?_
    exact ((List.Sublist.refl l1).append (List.sublist_cons_self _ _)).map _
  by_cases hLR : L = .nil ∨ R = .nil
  · have hcond : L.ptr t.null = t.null ∨ R.ptr t.null = t.null := by
      rcases hLR with rfl | rfl <;> simp
    obtain ⟨t3, T3, np3, h3, hM3, hB3, hC3, hS3, hT3, hn3, hb3⟩ :=
      erase_leaf hM hW.bal hW.black hW.size hLR (show _ ≤ fuel by omega)
    refine ⟨t3, T3, np3, ?_, hM3, hwf hB3 hC3 hS3 hT3, hT3, hn3, hb3⟩
    rw [erase_eq]
    simp only [hfind, ok_bind, ro, hcond, if_true, pure_eq_ok]
    exact h3
  · obtain ⟨la, lsz, lc, ll, lkv, lr, rfl⟩ : ∃ la lsz lc ll lkv lr, L = .node la lsz lc ll lkv lr := by
      cases L with
      | nil => simp at hLR
      | node la lsz lc ll lkv lr => exact ⟨_, _, _, _, _, _, rfl⟩
    obtain ⟨ra, rsz, rc, rl, rkv, rr, hR⟩ : ∃ ra rsz rc rl rkv rr, R = .node ra rsz rc rl rkv rr := by
      cases R with
      | nil => simp at hLR
      | node ra rsz rc rl rkv rr => exact ⟨_, _, _, _, _, _, rfl⟩
    have hMl : Models t (sjtu.plug (frameL o so co kvo R :: Γ) (.node la lsz lc ll lkv lr)) np :=
      hM
    have hMr : Models t (sjtu.plug (frameR o so co (.node la lsz lc ll lkv lr) kvo :: Γ) R)
        np := hM
    have hla := (focus_ne hMl).1
    have hRne : R ≠ .nil := by rw [hR]; simp
    have hra : R.ptr t.null ≠ t.null := by
      rw [hR] at hMr ⊢
      exact (focus_ne hMr).1
    have hdesc := descendLoop_spec R _ t np fuel hMr hRne (by simp only [PT.height] at hlen; omega)
    rw [zoomMin_eq] at hdesc
    obtain ⟨y, sy, cy, kvy, Ry, hY⟩ := zoomMin_node R [] hRne
    obtain ⟨c1, hc1⟩ : ∃ c1, (zoomMin R []).1 = c1 := ⟨_, rfl⟩
    have hpl := zoomMin_plug R []
    have hcl := zoomMin_ctxL R []
    rw [hc1, hY] at hpl
    rw [hc1] at hcl
    rw [hY] at hdesc
    simp only [PT.ptr_node] at hdesc
    have hpl2 : sjtu.plug c1 (.node y sy cy .nil kvy Ry) = R := hpl
    have hT : sjtu.plug (c1 ++ frameR o so co (.node la lsz lc ll lkv lr) kvo :: Γ)
        (.node y sy cy .nil kvy Ry) =
        sjtu.plug Γ (.node o so co (.node la lsz lc ll lkv lr) kvo R) := by
      rw [plug_append, hpl2]; rfl
    have hh := height_plug c1 (.node y sy cy .nil kvy Ry)
    rw [hpl2] at hh
    simp only [PT.height] at hh hlen
    obtain ⟨t3, T3, np3, h3, hM3, hB3, hC3, hS3, hT3, hn3, hb3⟩ :=
      erase_inner
        (show Models t (sjtu.plug (c1 ++ frameR o so co (.node la lsz lc ll lkv lr) kvo :: Γ)
          (.node y sy cy .nil kvy Ry)) np from hT ▸ hM) hcl
        (show (sjtu.plug (c1 ++ frameR o so co (.node la lsz lc ll lkv lr) kvo :: Γ)
          (.node y sy cy .nil kvy Ry)).Bal from hT ▸ hW.bal)
        (show (sjtu.plug (c1 ++ frameR o so co (.node la lsz lc ll lkv lr) kvo :: Γ)
          (.node y sy cy .nil kvy Ry)).col = false from hT ▸ hW.black)
        (show (sjtu.plug (c1 ++ frameR o so co (.node la lsz lc ll lkv lr) kvo :: Γ)
          (.node y sy cy .nil kvy Ry)).SizeOK from hT ▸ hW.size) (show _ ≤ fuel by omega)
    rw [hT] at hT3
    refine ⟨t3, T3, np3, ?_, hM3, hwf hB3 hC3 hS3 hT3, hT3, hn3, hb3⟩
    rw [erase_eq]
    simp only [hfind, ok_bind, ro, PT.ptr_node, hla, or_self, if_false, neighbour, Node.ch,
      if_true, ne_eq, hra, not_false_eq_true, hdesc]
    exact h3

end order

end sjtu

namespace sjtu

open RB_Tree

variable {K V : Type}

theorem PT.toList_eq_nodes : ∀ (T : PT K V), T.toList = T.nodes.map Prod.snd
  | .nil => rfl
  | .node _ _ _ l _ r => by simp [PT.toList, PT.nodes, PT.toList_eq_nodes l, PT.toList_eq_nodes r]

theorem PT.nodes_length : ∀ (T : PT K V), T.nodes.length = T.card
  | .nil => rfl
  | .node _ _ _ l _ r => by
    simp [PT.nodes, PT.card, PT.nodes_length l, PT.nodes_length r]; omega

theorem PT.keys_length (T : PT K V) : T.keys.length = T.card := by
  rw [PT.keys, List.length_map, PT.card_eq_length]

theorem PT.addrs_perm_nodes : ∀ (T : PT K V), T.addrs.Perm (T.nodes.map Prod.fst)
  | .nil => List.Perm.refl _
  | .node a _ _ l _ r => by
    have h1 := PT.addrs_perm_nodes l
    have h2 := PT.addrs_perm_nodes r
    simp only [PT.addrs, PT.nodes, List.map_append, List.map_cons]
    refine List.Perm.trans ?_ List.perm_middle.symm
    exact List.Perm.cons _ (h1.append h2)

theorem size_spec {t : RB_Tree K V} {T : PT K V} {np : Nat} (hM : Models t T np)
    (hS : T.SizeOK) : t.size = .ok (T.toList.length : Int) := by
  cases T with
  | nil => simp [size, hM.root]
  | node a sz c l kv r =>
    have hM1 : Models t (plug [] (.node a sz c l kv r)) np := hM
    have hne := (focus_ne hM1).1
    have e := PT.rsz_eq_card hS
    rw [PT.card_eq_length] at e
    simp only [PT.rsz] at e
    simp only [size, hM.root, PT.ptr_node, hne, if_false, read_focus hM1, ok_bind, pure_eq_ok]
    exact congrArg _ e

theorem rankNode_focus {t : RB_Tree K V} {Γ : List (Frame K V)} {a : Nat} {sz : Int}
    {c : Bool} {l : PT K V} {kv : K × V} {r : PT K V} {np : Nat}
    (hM : Models t (plug Γ (.node a sz c l kv r)) np) (hl : l.SizeOK) :
    t.rankNode a = .ok ((l.card : Int) + 1) := by
  obtain ⟨n, h1, -, h2⟩ := read_any (Γ := frameL a sz c kv r :: Γ) (S := l) hM
  simp [rankNode, read_focus hM, h1, h2, PT.rsz_eq_card hl]

theorem kthLoop_spec : ∀ (S : PT K V) (Γ : List (Frame K V)) (t : RB_Tree K V) (np : Nat)
    (fuel : Nat) (k : Int), Models t (plug Γ S) np → S.SizeOK → S.height < fuel →
    t.kthLoop fuel (S.ptr t.null) k = .ok (S.kthPtr t.null k)
  | .nil, Γ, t, np, fuel, k, _, _, hf => by
    obtain ⟨f, rfl⟩ : ∃ f, fuel = f + 1 := ⟨fuel - 1, by omega⟩
    simp [kthLoop, PT.kthPtr, PT.nodes]
  | .node a sz c l kv r, Γ, t, np, fuel, k, hM, hS, hf => by
    obtain ⟨f, rfl⟩ : ∃ f, fuel = f + 1 := ⟨fuel - 1, by omega⟩
    simp only [PT.height] at hf
    have hne := (focus_ne hM).1
    obtain ⟨hs1, hs2, hs3⟩ := hS
    have hl := kthLoop_spec l (frameL a sz c kv r :: Γ) t np f k hM hs2 (by omega)
    have hr := kthLoop_spec r (frameR a sz c l kv :: Γ) t np f (k - ((l.card : Int) + 1)) hM hs3
      (by omega)
    simp only [kthLoop, PT.ptr_node, hne, if_false, rankNode_focus hM hs2, ok_bind,
      read_focus hM]
    have hlen := PT.nodes_length l
    by_cases h1 : k = (l.card : Int) + 1
    · simp only [h1, if_true, pure_eq_ok]
      congr 1
      simp only [PT.kthPtr, PT.nodes]
      have : ((l.card : Int) + 1 - 1).toNat = l.nodes.length := by rw [hlen]; simp
      rw [if_pos (by omega), this, List.getElem?_append_right (le_refl _)]
      simp
    · simp only [h1, if_false]
      by_cases h2 : k < (l.card : Int) + 1
      · simp only [h2, if_true, hl]
        congr 1
        simp only [PT.kthPtr, PT.nodes]
        by_cases h3 : 1 ≤ k
        · rw [if_pos h3, if_pos h3]
          rw [List.getElem?_append_left (by rw [hlen]; omega)]
        · rw [if_neg h3, if_neg h3]
      · simp only [h2, if_false, hr]
        congr 1
        simp only [PT.kthPtr, PT.nodes]
        rw [if_pos (by omega), if_pos (by omega)]
        have e : (k - 1).toNat = l.nodes.length + ((k - ((l.card : Int) + 1) - 1).toNat + 1) := by
          rw [hlen]; omega
        rw [e, List.getElem?_append_right (by omega)]
        simp

theorem kth_spec {t : RB_Tree K V} {T : PT K V} {np : Nat} {fuel : Nat} (k : Int)
    (hM : Models t T np) (hS : T.SizeOK) (hf : T.height < fuel) :
    t.kth fuel k = .ok (T.kthPtr t.null k) := by
  rw [kth, hM.root]
  exact kthLoop_spec T [] t np fuel k hM hS hf

section order

variable [LinearOrder K]

theorem rankLoop_spec (key : K) : ∀ (S : PT K V) (Γ : List (Frame K V)) (t : RB_Tree K V)
    (np : Nat) (fuel : Nat) (acc : Int), Models t (plug Γ S) np → S.SizeOK → S.Ord →
    S.height < fuel →
    t.rankLoop key fuel (S.ptr t.null) acc = .ok (S.rankOf key acc)
  | .nil, Γ, t, np, fuel, acc, _, _, _, hf => by
    obtain ⟨f, rfl⟩ : ∃ f, fuel = f + 1 := ⟨fuel - 1, by omega⟩
    simp [rankLoop, PT.rankOf, PT.keys, PT.toList]
  | .node a sz c l kv r, Γ, t, np, fuel, acc, hM, hS, hO, hf => by
    obtain ⟨f, rfl⟩ : ∃ f, fuel = f + 1 := ⟨fuel - 1, by omega⟩
    simp only [PT.height] at hf
    have hne := (focus_ne hM).1
    obtain ⟨hs1, hs2, hs3⟩ := hS
    obtain ⟨ho1, ho2, ho3, ho4, ho5⟩ := ord_node.1 hO
    have hkl : ∀ x ∈ l.keys, x < kv.1 := by
      intro x hx
      simp only [PT.keys, List.mem_map] at hx
      obtain ⟨p, hp, rfl⟩ := hx
      exact ho3 p hp
    have hkr : ∀ x ∈ r.keys, kv.1 < x := by
      intro x hx
      simp only [PT.keys, List.mem_map] at hx
      obtain ⟨p, hp, rfl⟩ := hx
      exact ho4 p hp
    have hkeys : (PT.node a sz c l kv r).keys = l.keys ++ kv.1 :: r.keys := by
      simp [PT.keys, PT.toList]
    simp only [rankLoop, PT.ptr_node, hne, if_false, key_focus hM, ok_bind,
      rankNode_focus hM hs2, read_focus hM]
    by_cases h1 : kv.1 < key
    · have hl := rankLoop_spec key r (frameR a sz c l kv :: Γ) t np f (acc + ((l.card : Int) + 1))
        hM hs3 ho2 (by omega)
      have hnl : key ∉ l.keys := fun h => absurd (hkl _ h) (not_lt.2 h1.le)
      simp only [cmp_lt h1, if_true, Node.ch]
      simp only [show ((1 : Int) = -1) = False from by simp, if_false, show ((1 : Int) != 0) = true from rfl,
        if_true, hl]
      congr 1
      simp only [PT.rankOf, hkeys, List.mem_append, List.mem_cons, hnl, false_or, h1.ne', false_or]
      by_cases hm : key ∈ r.keys
      · rw [if_pos hm, if_pos hm, List.indexOf_append_of_not_mem hnl,
          List.indexOf_cons_ne _ h1.ne, PT.keys_length]
        push_cast
        omega
      · rw [if_neg hm, if_neg hm]
    · by_cases h2 : key < kv.1
      · have hl := rankLoop_spec key l (frameL a sz c kv r :: Γ) t np f acc hM hs2 ho1 (by omega)
        have hnr : key ∉ r.keys := fun h => absurd (hkr _ h) (not_lt.2 h2.le)
        simp only [cmp_gt h1 h2, Node.ch]
        simp only [show ((0 : Int) = -1) = False from by simp, if_false,
          show ((0 : Int) != 0) = false from rfl, show ((0 : Int) = 1) = False from by simp,
          Bool.false_eq_true, hl]
        congr 1
        simp only [PT.rankOf, hkeys, List.mem_append, List.mem_cons, hnr, or_false, h2.ne]
        by_cases hm : key ∈ l.keys
        · rw [if_pos hm, if_pos hm, List.indexOf_append_of_mem hm]
        · rw [if_neg hm, if_neg hm]
      · have he : kv.1 = key := le_antisymm (not_lt.1 h2) (not_lt.1 h1)
        have hnl : key ∉ l.keys := fun h => absurd (hkl _ h) (by rw [he]; exact lt_irrefl _)
        simp only [cmp_eq h1 h2, if_true, pure_eq_ok]
        congr 1
        simp only [PT.rankOf, hkeys, List.mem_append, List.mem_cons, he, true_or, or_true, if_true]
        rw [List.indexOf_append_of_not_mem hnl, List.indexOf_cons_self, PT.keys_length]
        push_cast
        omega

theorem rank_spec (key : K) {t : RB_Tree K V} {T : PT K V} {np : Nat} {fuel : Nat}
    (hM : Models t T np) (hW : T.WF) (hf : T.height < fuel) :
    t.rank fuel key = .ok (T.rankOf key 0) := by
  rw [rank, hM.root]
  exact rankLoop_spec key T [] t np fuel 0 hM hW.size hW.ord hf

end order

end sjtu

namespace sjtu

open RB_Tree

variable {K V : Type}

theorem nodes_plug_eq : ∀ (Γ : List (Frame K V)) (S : PT K V),
    (plug Γ S).nodes = ctxLn Γ ++ S.nodes ++ ctxRn Γ
  | [], S => by simp [plug, ctxLn, ctxRn]
  | f :: Φ, S => by
    rw [plug, nodes_plug_eq Φ]
    cases hd : f.d <;> simp [Frame.fill, hd, ctxLn, ctxRn, PT.nodes, PT.mk]

theorem zoomMin_head : ∀ (S : PT K V) (Γ : List (Frame K V)) (y : Nat) (sy : Int) (cy : Bool)
    (Ly : PT K V) (kvy : K × V) (Ry : PT K V), (zoomMin S Γ).2 = .node y sy cy Ly kvy Ry →
    ∃ rest, S.nodes = (y, kvy) :: rest
  | .nil, _, _, _, _, _, _, _, h => by simp [zoomMin] at h
  | .node a sz c .nil kv r, Γ, y, sy, cy, Ly, kvy, Ry, h => by
    simp only [zoomMin, PT.node.injEq] at h
    obtain ⟨rfl, -, -, -, rfl, -⟩ := h
    exact ⟨_, rfl⟩
  | .node a sz c (.node la lsz lc ll lkv lr) kv r, Γ, y, sy, cy, Ly, kvy, Ry, h => by
    rw [zoomMin] at h
    obtain ⟨rest, hr⟩ := zoomMin_head _ _ _ _ _ _ _ _ h
    refine ⟨rest ++ (a, kv) :: r.nodes, ?_⟩
    rw [PT.nodes, hr]
    rfl

theorem climbLoop_spec : ∀ (Γ : List (Frame K V)) (t : RB_Tree K V) (a : Nat) (sz : Int)
    (c : Bool) (l : PT K V) (kv : K × V) (r : PT K V) (np : Nat) (fuel : Nat),
    Models t (plug Γ (.node a sz c l kv r)) np → Γ.length < fuel →
    t.climbLoop true fuel a (ctxPar t.null Γ) =
      .ok (((ctxRn Γ).head?.map Prod.fst).getD t.null)
  | [], t, a, sz, c, l, kv, r, np, fuel, _, hf => by
    obtain ⟨f, rfl⟩ : ∃ f, fuel = f + 1 := ⟨fuel - 1, by omega⟩
    simp [climbLoop, ctxRn]
  | g :: Φ, t, a, sz, c, l, kv, r, np, fuel, hM, hf => by
    obtain ⟨f, rfl⟩ : ∃ f, fuel = f + 1 := ⟨fuel - 1, by omega⟩
    simp only [List.length_cons] at hf
    have hne := (frame_ne hM).1
    have rg := read_frame hM
    have hsib := hole_ne_sib hM
    obtain ⟨gd, ga, gsz, gc, gkv, gsib⟩ := g
    cases gd
    · simp only [Bool.false_eq_true, if_false] at rg
      simp only at hsib hne
      simp [climbLoop, hne, rg, Node.ch, hsib, ctxRn]
    · simp only [if_true] at rg
      simp only at hne
      have hM2 : Models t (plug Φ (.node ga gsz gc gsib gkv (.node a sz c l kv r))) np := hM
      have ih := climbLoop_spec Φ t ga gsz gc gsib gkv (.node a sz c l kv r) np f hM2 (by omega)
      simp [climbLoop, hne, rg, Node.ch, ctxRn, ih]

/-- The in-order successor, as `neighbour(o, 1)` finds it. -/
theorem neighbour_focus {t : RB_Tree K V} {Γ : List (Frame K V)} {o : Nat} {so : Int}
    {co : Bool} {L : PT K V} {kvo : K × V} {R : PT K V} {np : Nat} {fuel : Nat}
    (hM : Models t (plug Γ (.node o so co L kvo R)) np)
    (hf : Γ.length + R.height < fuel) :
    t.neighbour fuel o true = .ok (((R.nodes ++ ctxRn Γ).head?.map Prod.fst).getD t.null) := by
  have ro := read_focus hM
  cases R with
  | nil =>
    have := climbLoop_spec Γ t o so co L kvo .nil np fuel hM (by omega)
    simp [neighbour, ro, Node.ch, PT.nodes, this]
  | node ra rsz rc rl rkv rr =>
    have hMr : Models t (plug (frameR o so co L kvo :: Γ) (.node ra rsz rc rl rkv rr)) np := hM
    have hra := (focus_ne hMr).1
    have hd := descendLoop_spec _ _ t np fuel hMr (by simp) (by omega)
    obtain ⟨y, sy, cy, kvy, Ry, hY⟩ := zoomMin_node (.node ra rsz rc rl rkv rr)
      (frameR o so co L kvo :: Γ) (by simp)
    obtain ⟨rest, hrest⟩ := zoomMin_head _ _ _ _ _ _ _ _ hY
    rw [hY] at hd
    simp only [PT.ptr_node] at hd
    simp [neighbour, ro, Node.ch, hra, hd, hrest]

theorem append_cons_unique {α : Type} {x : α} : ∀ {l1 l2 l3 l4 : List α},
    l1 ++ x :: l2 = l3 ++ x :: l4 → x ∉ l1 → x ∉ l3 → l1 = l3 ∧ l2 = l4
  | [], _, [], _, h, _, _ => by simpa using h
  | [], _, b :: l3, _, h, _, h3 => by
    simp only [List.nil_append, List.cons_append, List.cons.injEq] at h
    exact absurd (by simp [h.1]) h3
  | b :: l1, _, [], _, h, h1, _ => by
    simp only [List.nil_append, List.cons_append, List.cons.injEq] at h
    exact absurd (by simp [h.1]) h1
  | b :: l1, l2, c :: l3, l4, h, h1, h3 => by
    simp only [List.cons_append, List.cons.injEq] at h
    obtain ⟨rfl, h⟩ := h
    obtain ⟨e1, e2⟩ := append_cons_unique h (fun m => h1 (List.mem_cons_of_mem _ m))
      (fun m => h3 (List.mem_cons_of_mem _ m))
    exact ⟨by rw [e1], e2⟩

theorem not_mem_of_nodup_mid {l1 l2 : List (Nat × K × V)} {x : Nat × K × V}
    (h : ((l1 ++ x :: l2).map Prod.fst).Nodup) : x ∉ l1 := by
  intro hx
  rw [List.map_append, List.map_cons, List.nodup_append] at h
  exact h.2.2 (List.mem_map.2 ⟨x, hx, rfl⟩) (List.mem_cons_self _ _)

theorem nodes_nodup {t : RB_Tree K V} {T : PT K V} {np : Nat} (hM : Models t T np) :
    (T.nodes.map Prod.fst).Nodup :=
  (PT.addrs_perm_nodes T).nodup_iff.1 hM.nodup.of_cons.of_cons

section order

variable [LinearOrder K]

theorem zoom_nodes : ∀ (S : PT K V) (Γ : List (Frame K V)) (a : Nat) (kv : K × V),
    S.Ord → (a, kv) ∈ S.nodes → (S.nodes.map Prod.fst).Nodup →
    ∃ sz c l r, (zoom kv.1 S Γ).2 = .node a sz c l kv r
  | .nil, _, _, _, _, h, _ => by simp [PT.nodes] at h
  | .node b sz c l kv2 r, Γ, a, kv, hO, h, hn => by
    obtain ⟨ho1, ho2, ho3, ho4, -⟩ := ord_node.1 hO
    simp only [PT.nodes, List.mem_append, List.mem_cons] at h
    simp only [PT.nodes, List.map_append, List.map_cons, List.nodup_append,
      List.nodup_cons] at hn
    unfold zoom
    rcases h with h | h | h
    · have hlt : kv.1 < kv2.1 := ho3 kv (by
        rw [PT.toList_eq_nodes]; exact List.mem_map.2 ⟨_, h, rfl⟩)
      rw [if_neg (not_lt.2 hlt.le), if_pos hlt]
      exact zoom_nodes l _ a kv ho1 h hn.1
    · simp only [Prod.mk.injEq] at h
      obtain ⟨rfl, rfl⟩ := h
      rw [if_neg (lt_irrefl _), if_neg (lt_irrefl _)]
      exact ⟨_, _, _, _, rfl⟩
    · have hlt : kv2.1 < kv.1 := ho4 kv (by
        rw [PT.toList_eq_nodes]; exact List.mem_map.2 ⟨_, h, rfl⟩)
      rw [if_pos hlt]
      exact zoom_nodes r _ a kv ho2 h hn.2.1.2

/-- From the node at a position of the in-order sequence, `find` of its key
gives the node back and `neighbour(o, 1)` the node at the next position. -/
theorem next_spec {t : RB_Tree K V} {T : PT K V} {np : Nat} {fuel : Nat}
    {pre suf : List (Nat × K × V)} {a : Nat} {kv : K × V}
    (hM : Models t T np) (hO : T.Ord) (hn : T.nodes = pre ++ (a, kv) :: suf)
    (hf : T.height < fuel) :
    t.find fuel kv.1 = .ok a ∧
      t.neighbour fuel a true = .ok ((suf.head?.map Prod.fst).getD t.null) := by
  have hnd := nodes_nodup hM
  obtain ⟨sz, c, l, r, hz⟩ := zoom_nodes T [] a kv hO (by rw [hn]; simp) hnd
  have hfind := find_spec kv.1 hM hf
  rw [hz] at hfind
  refine ⟨hfind, ?_⟩
  have hplug := zoom_plug kv.1 T []
  have hlen := zoom_length kv.1 T []
  obtain ⟨Γ, hctx⟩ : ∃ Γ, (zoom kv.1 T []).1 = Γ := ⟨_, rfl⟩
  rw [hctx, hz] at hplug hlen
  simp only [List.length_nil, PT.height, Nat.zero_add] at hlen
  have hplug2 : sjtu.plug Γ (.node a sz c l kv r) = T := hplug
  subst hplug2
  have hnb := neighbour_focus hM (show _ < fuel by omega)
  rw [hnb]
  rw [nodes_plug_eq] at hn hnd
  simp only [PT.nodes, List.append_assoc, List.cons_append] at hn hnd
  rw [← List.append_assoc] at hn hnd
  have hnd2 := hnd
  rw [hn] at hnd2
  obtain ⟨-, e⟩ := append_cons_unique hn (not_mem_of_nodup_mid hnd) (not_mem_of_nodup_mid hnd2)
  rw [e]

end order

end sjtu

namespace sjtu

open RB_Tree

variable {K V : Type}

theorem bind_mono {ε α β : Type} {x x2 : Except ε α} {f g : α → Except ε β} {r : β}
    (hx : ∀ a, x = .ok a → x2 = .ok a) (h : ∀ a, f a = .ok r → g a = .ok r) :
    (x >>= f) = .ok r → (x2 >>= g) = .ok r := by
  cases x with
  | error e => intro h2; cases h2
  | ok a =>
    intro h2
    rw [hx a rfl]
    exact h a h2

theorem ite_mono {ε α : Type} {c : Prop} [Decidable c] {A A2 B B2 : Except ε α} {r : α}
    (h1 : A = .ok r → A2 = .ok r) (h2 : B = .ok r → B2 = .ok r) :
    (if c then A else B) = .ok r → (if c then A2 else B2) = .ok r := by
  split
  · exact h1
  · exact h2

theorem bind_mono_pair {ε α β γ : Type} {x x2 : Except ε (α × β)} {f g : α × β → Except ε γ}
    {r : γ} (hx : ∀ a, x = .ok a → x2 = .ok a)
    (h : ∀ a b, f (a, b) = .ok r → g (a, b) = .ok r) :
    (x >>= f) = .ok r → (x2 >>= g) = .ok r :=
  bind_mono hx (fun p => h p.1 p.2)

theorem kthLoop_mono (t : RB_Tree K V) : ∀ (fuel : Nat) (o : Nat) (k : Int) (r : Nat),
    t.kthLoop fuel o k = .ok r → t.kthLoop (fuel + 1) o k = .ok r := by
  intro fuel
  induction fuel with
  | zero => intro _ _ r h; simp [kthLoop] at h
  | succ n ih =>
    intro _ _ r
    rw [kthLoop, kthLoop]
    repeat (first
      | with_reducible exact fun h => h
      | with_reducible exact ih _ _ _
      | refine ite_mono ?_ ?_
      | refine bind_mono (fun _ h => h) (fun _ => ?_))

theorem kth_mono (t : RB_Tree K V) (fuel : Nat) (k : Int) (r : Nat) :
    t.kth fuel k = .ok r → t.kth (fuel + 1) k = .ok r := by
  unfold kth
  repeat (first
    | with_reducible exact fun h => h
    | with_reducible exact kthLoop_mono t fuel _ _ _
    | (refine bind_mono (kthLoop_mono t fuel _ _) (fun _ => ?_))
    | refine ite_mono ?_ ?_
    | refine bind_mono (fun _ h => h) (fun _ => ?_))

theorem updatePath_mono : ∀ (fuel : Nat) (t : RB_Tree K V) (parent : Nat) (r : RB_Tree K V),
    t.updatePath fuel parent = .ok r → t.updatePath (fuel + 1) parent = .ok r := by
  intro fuel
  induction fuel with
  | zero => intro _ _ r h; simp [updatePath] at h
  | succ n ih =>
    intro _ _ r
    rw [updatePath, updatePath]
    repeat (first
      | with_reducible exact fun h => h
      | with_reducible exact ih _ _ _
      | refine ite_mono ?_ ?_
      | refine bind_mono (fun _ h => h) (fun _ => ?_))

theorem insertFixupLoop_mono : ∀ (fuel : Nat) (t : RB_Tree K V) (o : Nat) (r : RB_Tree K V),
    insertFixupLoop fuel t o = .ok r → insertFixupLoop (fuel + 1) t o = .ok r := by
  intro fuel
  induction fuel with
  | zero => intro _ _ r h; simp [insertFixupLoop] at h
  | succ n ih =>
    intro _ _ r
    rw [insertFixupLoop, insertFixupLoop]
    repeat (first
      | with_reducible exact fun h => h
      | with_reducible exact ih _ _ _
      | refine ite_mono ?_ ?_
      | (refine bind_mono_pair (fun _ h => h) (fun _ _ => ?_); dsimp only)
      | refine bind_mono (fun _ h => h) (fun _ => ?_))

theorem insert_fixup_mono (fuel : Nat) (t : RB_Tree K V) (o : Nat) (r : RB_Tree K V) :
    t.insert_fixup fuel o = .ok r → t.insert_fixup (fuel + 1) o = .ok r := by
  unfold insert_fixup
  repeat (first
    | with_reducible exact fun h => h
    | with_reducible exact insertFixupLoop_mono fuel _ _ _
    | (refine bind_mono (insertFixupLoop_mono fuel _ _) (fun _ => ?_))
    | refine ite_mono ?_ ?_
    | refine bind_mono (fun _ h => h) (fun _ => ?_))

theorem descendLoop_mono (t : RB_Tree K V) (d : Bool) : ∀ (fuel : Nat) (o : Nat) (r : Nat),
    t.descendLoop d fuel o = .ok r → t.descendLoop d (fuel + 1) o = .ok r := by
  intro fuel
  induction fuel with
  | zero => intro _ r h; simp [descendLoop] at h
  | succ n ih =>
    intro _ r
    rw [descendLoop, descendLoop]
    repeat (first
      | with_reducible exact fun h => h
      | with_reducible exact ih _ _
      | refine ite_mono ?_ ?_
      | refine bind_mono (fun _ h => h) (fun _ => ?_))

theorem climbLoop_mono (t : RB_Tree K V) (d : Bool) : ∀ (fuel : Nat) (o parent : Nat) (r : Nat),
    t.climbLoop d fuel o parent = .ok r → t.climbLoop d (fuel + 1) o parent = .ok r := by
  intro fuel
  induction fuel with
  | zero => intro _ _ r h; simp [climbLoop] at h
  | succ n ih =>
    intro _ _ r
    rw [climbLoop, climbLoop]
    repeat (first
      | with_reducible exact fun h => h
      | with_reducible exact ih _ _ _
      | refine ite_mono ?_ ?_
      | refine bind_mono (fun _ h => h) (fun _ => ?_))

theorem neighbour_mono (t : RB_Tree K V) (fuel : Nat) (o : Nat) (d : Bool) (r : Nat) :
    t.neighbour fuel o d = .ok r → t.neighbour (fuel + 1) o d = .ok r := by
  unfold neighbour
  repeat (first
    | with_reducible exact fun h => h
    | with_reducible exact descendLoop_mono t _ fuel _ _
    | with_reducible exact climbLoop_mono t _ fuel _ _ _
    | (refine bind_mono (descendLoop_mono t _ fuel _) (fun _ => ?_))
    | (refine bind_mono (climbLoop_mono t _ fuel _ _) (fun _ => ?_))
    | refine ite_mono ?_ ?_
    | refine bind_mono (fun _ h => h) (fun _ => ?_))

theorem deleteFixupLoop_mono : ∀ (fuel : Nat) (t : RB_Tree K V) (o : Nat) (r : RB_Tree K V × Nat),
    deleteFixupLoop fuel t o = .ok r → deleteFixupLoop (fuel + 1) t o = .ok r := by
  intro fuel
  induction fuel with
  | zero => intro _ _ r h; simp [deleteFixupLoop] at h
  | succ n ih =>
    intro _ _ r
    rw [deleteFixupLoop, deleteFixupLoop]
    repeat (first
      | with_reducible exact fun h => h
      | with_reducible exact ih _ _ _
      | refine ite_mono ?_ ?_
      | (refine bind_mono_pair (fun _ h => h) (fun _ _ => ?_); dsimp only)
      | refine bind_mono (fun _ h => h) (fun _ => ?_))

theorem delete_fixup_mono (fuel : Nat) (t : RB_Tree K V) (o : Nat) (r : RB_Tree K V) :
    t.delete_fixup fuel o = .ok r → t.delete_fixup (fuel + 1) o = .ok r := by
  unfold delete_fixup
  repeat (first
    | with_reducible exact fun h => h
    | with_reducible exact deleteFixupLoop_mono fuel _ _ _
    | (refine bind_mono_pair (deleteFixupLoop_mono fuel _ _) (fun _ _ => ?_); dsimp only)
    | refine ite_mono ?_ ?_
    | refine bind_mono (fun _ h => h) (fun _ => ?_))

theorem eraseTail_mono (fuel : Nat) (t : RB_Tree K V) (x y : Nat) (r : RB_Tree K V) :
    t.eraseTail fuel x y = .ok r → t.eraseTail (fuel + 1) x y = .ok r := by
  unfold eraseTail
  refine bind_mono (fun _ h => h) (fun _ => ?_)
  refine bind_mono (updatePath_mono fuel _ _) (fun _ => ?_)
  refine bind_mono (fun _ h => h) (fun _ => ?_)
  refine bind_mono ?_ (fun _ h => h)
  intro a
  refine ite_mono (delete_fixup_mono fuel _ _ _) (fun h => h)

theorem eraseAt_mono (fuel : Nat) (t : RB_Tree K V) (o y : Nat) (r : RB_Tree K V) :
    t.eraseAt fuel o y = .ok r → t.eraseAt (fuel + 1) o y = .ok r := by
  unfold eraseAt
  refine bind_mono_pair (fun _ h => h) (fun _ _ => ?_)
  dsimp only
  refine bind_mono (fun _ h => h) (fun _ => ?_)
  exact eraseTail_mono fuel _ _ _ _

section order

variable [LinearOrder K]

theorem rankLoop_mono (t : RB_Tree K V) (key : K) : ∀ (fuel : Nat) (o : Nat) (k : Int) (r : Int),
    t.rankLoop key fuel o k = .ok r → t.rankLoop key (fuel + 1) o k = .ok r := by
  intro fuel
  induction fuel with
  | zero => intro _ _ r h; simp [rankLoop] at h
  | succ n ih =>
    intro _ _ r
    rw [rankLoop, rankLoop]
    repeat (first
      | with_reducible exact fun h => h
      | with_reducible exact ih _ _ _
      | refine ite_mono ?_ ?_
      | refine bind_mono (fun _ h => h) (fun _ => ?_))

theorem rank_mono (t : RB_Tree K V) (fuel : Nat) (key : K) (r : Int) :
    t.rank fuel key = .ok r → t.rank (fuel + 1) key = .ok r := by
  unfold rank
  repeat (first
    | with_reducible exact fun h => h
    | with_reducible exact rankLoop_mono t _ fuel _ _ _
    | (refine bind_mono (rankLoop_mono t _ fuel _ _) (fun _ => ?_))
    | refine ite_mono ?_ ?_
    | refine bind_mono (fun _ h => h) (fun _ => ?_))

theorem findLoop_mono (t : RB_Tree K V) (key : K) : ∀ (fuel : Nat) (o : Nat) (r : Nat),
    t.findLoop key fuel o = .ok r → t.findLoop key (fuel + 1) o = .ok r := by
  intro fuel
  induction fuel with
  | zero => intro _ r h; simp [findLoop] at h
  | succ n ih =>
    intro _ r
    rw [findLoop, findLoop]
    repeat (first
      | with_reducible exact fun h => h
      | with_reducible exact ih _ _
      | refine ite_mono ?_ ?_
      | refine bind_mono (fun _ h => h) (fun _ => ?_))

theorem find_mono (t : RB_Tree K V) (fuel : Nat) (key : K) (r : Nat) :
    t.find fuel key = .ok r → t.find (fuel + 1) key = .ok r := by
  unfold find
  repeat (first
    | with_reducible exact fun h => h
    | with_reducible exact findLoop_mono t _ fuel _ _
    | (refine bind_mono (findLoop_mono t _ fuel _) (fun _ => ?_))
    | refine ite_mono ?_ ?_
    | refine bind_mono (fun _ h => h) (fun _ => ?_))

theorem insertDescend_mono (t : RB_Tree K V) (key : K) : ∀ (fuel : Nat) (cur parent : Nat) (d : Int) (r : Nat ⊕ (Nat × Int)),
    t.insertDescend key fuel cur parent d = .ok r → t.insertDescend key (fuel + 1) cur parent d = .ok r := by
  intro fuel
  induction fuel with
  | zero => intro _ _ _ r h; simp [insertDescend] at h
  | succ n ih =>
    intro _ _ _ r
    rw [insertDescend, insertDescend]
    repeat (first
      | with_reducible exact fun h => h
      | with_reducible exact ih _ _ _ _
      | refine ite_mono ?_ ?_
      | refine bind_mono (fun _ h => h) (fun _ => ?_))

theorem insert_mono (fuel : Nat) (t : RB_Tree K V) (value : K × V) (r : Nat × RB_Tree K V) :
    t.insert fuel value = .ok r → t.insert (fuel + 1) value = .ok r := by
  rw [insert_eq, insert_eq]
  refine bind_mono (insertDescend_mono t _ fuel _ _ _) (fun x => ?_)
  cases x with
  | inl cur => exact fun h => h
  | inr pd =>
    obtain ⟨parent, d⟩ := pd
    dsimp only
    refine bind_mono_pair (fun _ h => h) (fun _ _ => ?_)
    dsimp only
    refine bind_mono (updatePath_mono fuel _ _) (fun _ => ?_)
    refine bind_mono (insert_fixup_mono fuel _ _) (fun _ => ?_)
    exact fun h => h

theorem erase_mono (fuel : Nat) (t : RB_Tree K V) (key : K) (r : RB_Tree K V) :
    t.erase fuel key = .ok r → t.erase (fuel + 1) key = .ok r := by
  rw [erase_eq, erase_eq]
  refine bind_mono (find_mono t fuel _) (fun _ => ?_)
  refine bind_mono (fun _ h => h) (fun _ => ?_)
  refine bind_mono ?_ (fun _ => eraseAt_mono fuel _ _ _ _)
  intro a
  refine ite_mono (fun h => h) (neighbour_mono t fuel _ _ _)

end order

/-- A result obtained with some fuel is obtained with any larger fuel. -/
theorem mono_le {α : Type} {F : Nat → Except Fault α}
    (h : ∀ n r, F n = .ok r → F (n + 1) = .ok r) {n m : Nat} {r : α}
    (h1 : F n = .ok r) (h2 : n ≤ m) : F m = .ok r := by
  induction h2 with
  | refl => exact h1
  | step _ ih => exact h _ _ ih

end sjtu

namespace sjtu

open RB_Tree

variable {K V : Type}

theorem models_empty : Models (RB_Tree.empty : RB_Tree K V) .nil 0 :=
  ⟨by simp [RB_Tree.empty], rfl, rfl, trivial, by simp [RB_Tree.empty, PT.addrs],
    by simp [RB_Tree.empty], by simp [PT.addrs]⟩

theorem mem_keys_of_nodes {T : PT K V} {a : Nat} {kv : K × V} (h : (a, kv) ∈ T.nodes) :
    kv.1 ∈ T.keys := by
  rw [PT.keys, PT.toList_eq_nodes]
  simp only [List.map_map, List.mem_map, Function.comp]
  exact ⟨_, h, rfl⟩

theorem mem_toList_of_nodes {T : PT K V} {a : Nat} {kv : K × V} (h : (a, kv) ∈ T.nodes) :
    kv ∈ T.toList := by
  rw [PT.toList_eq_nodes]
  exact List.mem_map.2 ⟨_, h, rfl⟩

/-- Stored keys are found at exactly one node. -/
theorem node_of_key {T : PT K V} {k : K} (hk : k ∈ T.keys) : ∃ a v, (a, (k, v)) ∈ T.nodes := by
  rw [PT.keys, PT.toList_eq_nodes] at hk
  simp only [List.map_map, List.mem_map, Function.comp] at hk
  obtain ⟨⟨a, k2, v⟩, hm, rfl⟩ := hk
  exact ⟨a, v, hm⟩

section order

variable [LinearOrder K]

theorem wf_nil : (PT.nil : PT K V).WF :=
  ⟨by simp [PT.Ord, PT.keys, PT.toList], trivial, rfl, trivial⟩

theorem filter_of_bounds {l L R : List (K × V)} {k : K} (h : l = L ++ R)
    (hL : ∀ x ∈ L, x.1 < k) (hR : ∀ x ∈ R, k < x.1) :
    l.filter (fun p => decide (p.1 < k)) = L ∧ l.filter (fun p => decide (k < p.1)) = R := by
  subst h
  rw [List.filter_append, List.filter_append]
  have a1 : L.filter (fun p => decide (p.1 < k)) = L :=
    List.filter_eq_self.2 (fun x hx => by simpa using hL x hx)
  have a2 : R.filter (fun p => decide (p.1 < k)) = [] :=
    List.filter_eq_nil_iff.2 (fun x hx => by simpa using (hR x hx).le)
  have a3 : L.filter (fun p => decide (k < p.1)) = [] :=
    List.filter_eq_nil_iff.2 (fun x hx => by simpa using (hL x hx).le)
  have a4 : R.filter (fun p => decide (k < p.1)) = R :=
    List.filter_eq_self.2 (fun x hx => by simpa using hR x hx)
  rw [a1, a2, a3, a4]
  simp

theorem filter_ne_of_sorted {l1 l2 : List (K × V)} {kv : K × V}
    (h : ((l1 ++ kv :: l2).map Prod.fst).Pairwise (· < ·)) :
    (l1 ++ kv :: l2).filter (fun p => decide (p.1 ≠ kv.1)) = l1 ++ l2 := by
  simp only [List.map_append, List.map_cons, List.pairwise_append, List.pairwise_cons,
    List.mem_map, List.mem_cons, forall_exists_index, and_imp, forall_apply_eq_imp_iff₂,
    forall_eq_or_imp] at h
  obtain ⟨-, ⟨h2, -⟩, h3⟩ := h
  rw [List.filter_append, List.filter_cons]
  have a1 : l1.filter (fun p => decide (p.1 ≠ kv.1)) = l1 :=
    List.filter_eq_self.2 (fun x hx => by simpa using (h3 x hx).1.ne)
  have a2 : l2.filter (fun p => decide (p.1 ≠ kv.1)) = l2 :=
    List.filter_eq_self.2 (fun x hx => by simpa using (h2 x hx).ne')
  rw [a1, a2]
  simp

/-- The search path of a key ends at the sentinel exactly when the key is
not stored, and at the node holding the key otherwise. -/
theorem zoom_cases {T : PT K V} (hO : T.Ord) (k : K) :
    (k ∉ T.keys ∧ (zoom k T []).2 = .nil) ∨
    (∃ a sz c l v r, (zoom k T []).2 = .node a sz c l (k, v) r ∧ (a, (k, v)) ∈ T.nodes) := by
  have hplug := zoom_plug k T []
  have hbd := zoom_bounds k T [] hO (bounds_nil k)
  obtain ⟨Γ, hctx⟩ : ∃ Γ, (zoom k T []).1 = Γ := ⟨_, rfl⟩
  rw [hctx] at hplug hbd
  cases hz : (zoom k T []).2 with
  | nil =>
    left
    refine ⟨?_, rfl⟩
    rw [hz] at hplug
    have hT : T.toList = ctxL Γ ++ ctxR Γ := by
      rw [← show sjtu.plug Γ PT.nil = T from hplug, toList_plug_eq]; simp
    intro hk
    simp only [PT.keys, hT, List.map_append, List.mem_append, List.mem_map] at hk
    rcases hk with ⟨x, hx, rfl⟩ | ⟨x, hx, rfl⟩
    · exact lt_irrefl _ (hbd.1 x hx)
    · exact lt_irrefl _ (hbd.2 x hx)
  | node a sz c l kv r =>
    right
    have hk := zoom_key k T [] a sz c l kv r hz
    obtain ⟨k2, v⟩ := kv
    simp only at hk
    subst hk
    refine ⟨a, sz, c, l, v, r, rfl, ?_⟩
    rw [hz] at hplug
    rw [← show sjtu.plug Γ (.node a sz c l (k2, v) r) = T from hplug, nodes_plug_eq]
    simp [PT.nodes]

/-- What the search path gives for the key of a stored node. -/
theorem zoom_of_node {t : RB_Tree K V} {T : PT K V} {np : Nat} (hM : Models t T np)
    (hO : T.Ord) {a : Nat} {kv : K × V} (h : (a, kv) ∈ T.nodes) :
    ∃ sz c l r, (zoom kv.1 T []).2 = .node a sz c l kv r :=
  zoom_nodes T [] a kv hO h (nodes_nodup hM)

theorem read_node {t : RB_Tree K V} {T : PT K V} {np : Nat} (hM : Models t T np)
    (hO : T.Ord) {a : Nat} {kv : K × V} (h : (a, kv) ∈ T.nodes) :
    ∃ n, t.rd a = .ok n ∧ n.value = some kv ∧ a ≠ t.null ∧ a ≠ 0 := by
  obtain ⟨sz, c, l, r, hz⟩ := zoom_of_node hM hO h
  have hplug := zoom_plug kv.1 T []
  rw [hz] at hplug
  have hM2 : Models t (sjtu.plug (zoom kv.1 T []).1 (.node a sz c l kv r)) np := by
    rw [hplug]; exact hM
  exact ⟨_, read_focus hM2, rfl, focus_ne hM2⟩

theorem find_absent {t : RB_Tree K V} {T : PT K V} {np : Nat} {fuel : Nat} (hM : Models t T np)
    (hO : T.Ord) {k : K} (hk : k ∉ T.keys) (hf : T.height < fuel) :
    t.find fuel k = .ok t.null := by
  rw [find_spec k hM hf]
  rcases zoom_cases hO k with ⟨-, hz⟩ | ⟨a, sz, c, l, v, r, -, hm⟩
  · rw [hz]; rfl
  · exact absurd (mem_keys_of_nodes hm) hk

theorem find_present {t : RB_Tree K V} {T : PT K V} {np : Nat} {fuel : Nat}
    (hM : Models t T np) (hO : T.Ord) {a : Nat} {kv : K × V} (h : (a, kv) ∈ T.nodes)
    (hf : T.height < fuel) : t.find fuel kv.1 = .ok a := by
  rw [find_spec kv.1 hM hf]
  obtain ⟨sz, c, l, r, hz⟩ := zoom_of_node hM hO h
  rw [hz]; rfl

theorem rankOf_pos {T : PT K V} {k : K} (hk : k ∈ T.keys) : 0 < T.rankOf k 0 := by
  simp only [PT.rankOf, hk, if_true]
  omega

theorem rankOf_neg {T : PT K V} {k : K} (hk : k ∉ T.keys) : T.rankOf k 0 = -0x3f3f3f3f := by
  simp only [PT.rankOf, hk, if_false]

end order

end sjtu

namespace sjtu

open RB_Tree

variable {K V : Type}

section order

variable [LinearOrder K]

theorem holds_empty {self : Nat} (h : self ≠ 0) : Holds (map.empty self : map K V) .nil :=
  ⟨h, 0, models_empty, wf_nil⟩

theorem holds_size {m : map K V} {T : PT K V} (h : Holds m T) :
    m.size = .ok (T.toList.length : Int) := by
  obtain ⟨-, np, hM, hW⟩ := h
  exact size_spec hM hW.size

theorem holds_count {m : map K V} {T : PT K V} {fuel : Nat} (h : Holds m T) (k : K)
    (hf : T.height < fuel) : m.count fuel k = .ok (if k ∈ T.keys then 1 else 0) := by
  obtain ⟨-, np, hM, hW⟩ := h
  simp only [map.count, rank_spec k hM hW hf, ok_bind, pure_eq_ok]
  by_cases hk : k ∈ T.keys
  · simp [hk, rankOf_pos hk]
  · simp [hk, rankOf_neg hk]

theorem holds_find_absent {m : map K V} {T : PT K V} {fuel : Nat} (h : Holds m T) {k : K}
    (hk : k ∉ T.keys) (hf : T.height < fuel) : m.find fuel k = .ok m.end := by
  obtain ⟨-, np, hM, hW⟩ := h
  simp only [map.find, find_absent hM hW.ord hk hf, ok_bind, pure_eq_ok, map.end]

theorem holds_find_present {m : map K V} {T : PT K V} {fuel : Nat} (h : Holds m T) {a : Nat}
    {kv : K × V} (hn : (a, kv) ∈ T.nodes) (hf : T.height < fuel) :
    m.find fuel kv.1 = .ok ⟨a, m.self⟩ ∧ (⟨a, m.self⟩ : map.iterator) ≠ m.end := by
  obtain ⟨-, np, hM, hW⟩ := h
  obtain ⟨n, -, -, hne, -⟩ := read_node hM hW.ord hn
  refine ⟨?_, ?_⟩
  · simp only [map.find, find_present hM hW.ord hn hf, ok_bind, pure_eq_ok]
  · intro e
    simp only [map.end, map.iterator.mk.injEq, and_true] at e
    exact hne e

theorem holds_at_present {m : map K V} {T : PT K V} {fuel : Nat} (h : Holds m T) {a : Nat}
    {kv : K × V} (hn : (a, kv) ∈ T.nodes) (hf : T.height < fuel) :
    m.at fuel kv.1 = .ok kv.2 := by
  obtain ⟨-, np, hM, hW⟩ := h
  obtain ⟨n, hr, hv, -, -⟩ := read_node hM hW.ord hn
  simp only [map.at, find_present hM hW.ord hn hf, ok_bind, hr, hv, pure_eq_ok]

theorem holds_at_absent {m : map K V} {T : PT K V} {fuel : Nat} (h : Holds m T) {k : K}
    (hk : k ∉ T.keys) (hf : T.height < fuel) :
    m.at fuel k = .error .index_out_of_bound := by
  obtain ⟨-, np, hM, hW⟩ := h
  simp only [map.at, find_absent hM hW.ord hk hf, ok_bind, read_null hM]

theorem holds_insert_new {m : map K V} {T : PT K V} {fuel : Nat} (h : Holds m T) {k : K}
    (v : V) (hk : k ∉ T.keys) (hf : T.height + 3 ≤ fuel) :
    ∃ m2 T2, m.insert fuel (k, v) = .ok ((⟨m.rb_tree.brk, 0⟩, true), m2) ∧ Holds m2 T2 ∧
      m2.self = m.self ∧
      T2.toList = T.toList.filter (fun p => decide (p.1 < k)) ++
        (k, v) :: T.toList.filter (fun p => decide (k < p.1)) := by
  have hc := holds_count h k (by omega : T.height < fuel)
  obtain ⟨h0, np, hM, hW⟩ := h
  have hz : (zoom k T []).2 = .nil := by
    rcases zoom_cases hW.ord k with ⟨-, hz⟩ | ⟨a, sz, c, l, v2, r, -, hm⟩
    · exact hz
    · exact absurd (mem_keys_of_nodes hm) hk
  obtain ⟨t2, T2, np2, h2, hM2, hW2, hT2, hT, hB, -, -, -⟩ := insert_new k v hM hW hz hf
  obtain ⟨e1, e2⟩ := filter_of_bounds hT hB.1 hB.2
  refine ⟨⟨t2, m.self⟩, T2, ?_, ⟨h0, np2, hM2, hW2⟩, rfl, ?_⟩
  · simp only [map.insert, hc, hk, if_false, ok_bind, h2, pure_eq_ok]
    rfl
  · rw [e1, e2]; exact hT2

theorem holds_insert_dup {m : map K V} {T : PT K V} {fuel : Nat} (h : Holds m T) {a : Nat}
    {kv : K × V} (hn : (a, kv) ∈ T.nodes) (v : V) (hf : T.height + 3 ≤ fuel) :
    m.insert fuel (kv.1, v) = .ok ((⟨a, 0⟩, false), m) := by
  have hc := holds_count h kv.1 (by omega : T.height < fuel)
  obtain ⟨h0, np, hM, hW⟩ := h
  obtain ⟨sz, c, l, r, hz⟩ := zoom_of_node hM hW.ord hn
  have h2 := insert_dup kv.1 v hM hz (by omega : T.height < fuel)
  simp only [map.insert, hc, mem_keys_of_nodes hn, if_true, ok_bind, h2, pure_eq_ok]
  rfl

theorem holds_erase {m : map K V} {T : PT K V} {fuel : Nat} (h : Holds m T) {a : Nat}
    {kv : K × V} (hn : (a, kv) ∈ T.nodes) (hf : T.height + 3 ≤ fuel) :
    ∃ m2 T2, m.erase fuel ⟨a, m.self⟩ = .ok m2 ∧ Holds m2 T2 ∧ m2.self = m.self ∧
      T2.toList = T.toList.filter (fun p => decide (p.1 ≠ kv.1)) := by
  obtain ⟨h0, np, hM, hW⟩ := h
  obtain ⟨n, hr, hv, -, ha0⟩ := read_node hM hW.ord hn
  obtain ⟨sz, c, l, r, hz⟩ := zoom_of_node hM hW.ord hn
  obtain ⟨t3, T3, np3, h3, hM3, hW3, ⟨l1, l2, e1, e2⟩, -, -⟩ := erase_spec kv.1 hM hW hz hf
  refine ⟨⟨t3, m.self⟩, T3, ?_, ⟨h0, np3, hM3, hW3⟩, rfl, ?_⟩
  · simp only [map.erase, ne_eq, not_true_eq_false, ha0, or_self, if_false, hr, hv, ok_bind,
      h3, pure_eq_ok]
  · have ho := hW.ord
    rw [PT.Ord, PT.keys, e1] at ho
    rw [e1, e2, filter_ne_of_sorted ho]

theorem map.count_fuel_mono (m : map K V) (fuel : Nat) (key : K) (r : Nat) :
    m.count fuel key = .ok r → m.count (fuel + 1) key = .ok r := by
  unfold map.count
  exact bind_mono (sjtu.rank_mono m.rb_tree fuel key) (fun _ h => h)

theorem map.find_fuel_mono (m : map K V) (fuel : Nat) (key : K) (r : map.iterator) :
    m.find fuel key = .ok r → m.find (fuel + 1) key = .ok r := by
  unfold map.find
  exact bind_mono (sjtu.find_mono m.rb_tree fuel key) (fun _ h => h)

theorem map.insert_fuel_mono (m : map K V) (fuel : Nat) (value : K × V)
    (r : (map.iterator × Bool) × map K V) :
    m.insert fuel value = .ok r → m.insert (fuel + 1) value = .ok r := by
  unfold map.insert
  refine bind_mono (map.count_fuel_mono m fuel _) (fun _ => ?_)
  exact bind_mono (sjtu.insert_mono fuel _ _) (fun _ h => h)

theorem map.erase_fuel_mono (m : map K V) (fuel : Nat) (pos : map.iterator) (r : map K V) :
    m.erase fuel pos = .ok r → m.erase (fuel + 1) pos = .ok r := by
  unfold map.erase
  refine ite_mono (fun h => h) ?_
  refine bind_mono (fun _ h => h) (fun n => ?_)
  cases n.value with
  | none => exact fun h => h
  | some kv => exact bind_mono (sjtu.erase_mono fuel _ _) (fun _ h => h)

/-- Whatever the fuel, an `insert` that returns leaves a well-formed tree,
with the pair added when its key was not stored. -/
theorem holds_insert_any {m : map K V} {T : PT K V} {fuel : Nat} (h : Holds m T)
    {value : K × V} {r : (map.iterator × Bool) × map K V} (hr : m.insert fuel value = .ok r) :
    ∃ T2, Holds r.2 T2 ∧ r.2.self = m.self ∧
      T2.toList = (if value.1 ∈ T.keys then T.toList
        else T.toList.filter (fun p => decide (p.1 < value.1)) ++
          value :: T.toList.filter (fun p => decide (value.1 < p.1))) := by
  have hbig := mono_le (F := fun n => m.insert n value) (fun n r => map.insert_fuel_mono m n value r)
    hr (Nat.le_max_left fuel (T.height + 3))
  obtain ⟨k, v⟩ := value
  by_cases hk : k ∈ T.keys
  · obtain ⟨a, v2, hn⟩ := node_of_key hk
    have := holds_insert_dup h hn v (Nat.le_max_right fuel (T.height + 3))
    simp only at this hbig
    rw [this] at hbig
    cases hbig
    exact ⟨T, h, rfl, by simp [hk]⟩
  · obtain ⟨m2, T2, h2, hH, hs, hT⟩ := holds_insert_new h v hk (Nat.le_max_right fuel (T.height + 3))
    simp only at hbig
    rw [h2] at hbig
    cases hbig
    exact ⟨T2, hH, hs, by simp [hk, hT]⟩

/-- Whatever the fuel, an `erase` at the position of a stored key that
returns leaves a well-formed tree without that key. -/
theorem holds_erase_any {m : map K V} {T : PT K V} {fuel fuel2 : Nat} (h : Holds m T) {key : K}
    {pos : map.iterator} {m2 : map K V} (hf : m.find fuel key = .ok pos) (hp : pos ≠ m.end)
    (hr : m.erase fuel2 pos = .ok m2) :
    ∃ T2, Holds m2 T2 ∧ m2.self = m.self ∧ key ∈ T.keys ∧
      T2.toList = T.toList.filter (fun p => decide (p.1 ≠ key)) := by
  have hfb := mono_le (F := fun n => m.find n key) (fun n r => map.find_fuel_mono m n key r)
    hf (Nat.le_max_left fuel (T.height + 3))
  have heb := mono_le (F := fun n => m.erase n pos) (fun n r => map.erase_fuel_mono m n pos r)
    hr (Nat.le_max_left fuel2 (T.height + 3))
  by_cases hk : key ∈ T.keys
  · obtain ⟨a, v, hn⟩ := node_of_key hk
    have h1 := (holds_find_present h hn
      (lt_of_lt_of_le (by omega) (Nat.le_max_right fuel (T.height + 3)))).1
    simp only at hfb h1
    rw [h1] at hfb
    cases hfb
    obtain ⟨m3, T3, h3, hH, hs, hT⟩ := holds_erase h hn (Nat.le_max_right fuel2 (T.height + 3))
    simp only at heb
    rw [h3] at heb
    cases heb
    exact ⟨T3, hH, hs, hk, hT⟩
  · have h1 := holds_find_absent h hk
      (lt_of_lt_of_le (by omega) (Nat.le_max_right fuel (T.height + 3)))
    simp only at hfb
    rw [h1] at hfb
    cases hfb
    exact absurd rfl hp

theorem reachable_holds {m : map K V} (h : Reachable m) : ∃ T, Holds m T := by
  induction h with
  | empty self h => exact ⟨_, holds_empty h⟩
  | insert _ fuel value r hr ih =>
    obtain ⟨T, hT⟩ := ih
    obtain ⟨T2, h2, -, -⟩ := holds_insert_any hT hr
    exact ⟨T2, h2⟩
  | erase _ fuel fuel2 key pos m2 hf hp hr ih =>
    obtain ⟨T, hT⟩ := ih
    obtain ⟨T2, h2, -, -, -⟩ := holds_erase_any hT hf hp hr
    exact ⟨T2, h2⟩

end order

end sjtu

namespace sjtu

open RB_Tree

variable {K V : Type}

theorem headPtr_nil (null : Nat) : headPtr null ([] : List (Nat × K × V)) = null := rfl

theorem headPtr_cons (null : Nat) (x : Nat × K × V) (l : List (Nat × K × V)) :
    headPtr null (x :: l) = x.1 := rfl

theorem kthPtr_one (null : Nat) (T : PT K V) : T.kthPtr null 1 = headPtr null T.nodes := by
  simp only [PT.kthPtr, headPtr, le_refl, if_true, sub_self, Int.toNat_zero]
  cases T.nodes <;> simp

section order

variable [LinearOrder K]

theorem holds_begin {m : map K V} {T : PT K V} {fuel : Nat} (h : Holds m T)
    (hf : T.height < fuel) :
    m.begin fuel = .ok ⟨headPtr m.rb_tree.null T.nodes, m.self⟩ := by
  obtain ⟨-, np, hM, hW⟩ := h
  simp only [map.begin, kth_spec 1 hM hW.size hf, ok_bind, pure_eq_ok, kthPtr_one]

theorem holds_inc {m : map K V} {T : PT K V} {fuel : Nat} (h : Holds m T)
    {pre suf : List (Nat × K × V)} {a : Nat} {kv : K × V}
    (hn : T.nodes = pre ++ (a, kv) :: suf) (hf : T.height < fuel) :
    m.inc fuel ⟨a, m.self⟩ = .ok ⟨headPtr m.rb_tree.null suf, m.self⟩ := by
  obtain ⟨h0, np, hM, hW⟩ := h
  obtain ⟨n, hr, hv, -, ha0⟩ := read_node hM hW.ord (show (a, kv) ∈ T.nodes by rw [hn]; simp)
  obtain ⟨h1, h2⟩ := next_spec hM hW.ord hn hf
  simp only [map.inc, ha0, if_false, hr, ok_bind, hv, h0, ne_eq, not_true_eq_false, or_self,
    h1, h2, pure_eq_ok, headPtr]

theorem holds_walk {m : map K V} {T : PT K V} {fuel : Nat} (h : Holds m T)
    (hf : T.height < fuel) : ∀ (suf pre : List (Nat × K × V)) (n : Nat),
    T.nodes = pre ++ suf → suf.length ≤ n →
    m.walk fuel n ⟨headPtr m.rb_tree.null suf, m.self⟩ = .ok (suf.map (fun p => p.2.1))
  | [], pre, n, _, _ => by
    cases n <;> simp [map.walk, headPtr, map.end]
  | (a, kv) :: suf, pre, n, hn, hl => by
    obtain ⟨n, rfl⟩ : ∃ n2, n = n2 + 1 := ⟨n - 1, by simp at hl; omega⟩
    have hinc := holds_inc h hn hf
    have ih := holds_walk h hf suf (pre ++ [(a, kv)]) n (by rw [hn]; simp)
      (by simp at hl; omega)
    obtain ⟨h0, np, hM, hW⟩ := h
    obtain ⟨nd, hr, hv, hne, -⟩ := read_node hM hW.ord (show (a, kv) ∈ T.nodes by rw [hn]; simp)
    simp only [map.walk, headPtr_cons, map.end, map.iterator.mk.injEq, and_true, hne, if_false, hr,
      ok_bind, hv, hinc, ih, pure_eq_ok, List.map_cons]

theorem holds_traverse {m : map K V} {T : PT K V} {fuel : Nat} (h : Holds m T)
    (hf : T.height < fuel) (hl : T.toList.length ≤ fuel) :
    m.traverse fuel = .ok T.keys := by
  have hw := holds_walk h hf T.nodes [] fuel rfl
    (by rw [PT.nodes_length, PT.card_eq_length]; exact hl)
  simp only [map.traverse, holds_begin h hf, ok_bind, hw]
  rw [PT.keys, PT.toList_eq_nodes, List.map_map]
  rfl

/-- Inserting a list of pairs with enough fuel: the keys stored afterwards
are those stored before and those of the list. -/
theorem holds_insertAll : ∀ (kvs : List (K × V)) {m : map K V} {T : PT K V}, Holds m T →
    ∃ N m2 T2, Holds m2 T2 ∧ m2.self = m.self ∧
      (∀ k, k ∈ T2.keys ↔ k ∈ T.keys ∨ k ∈ kvs.map Prod.fst) ∧
      ∀ fuel, N ≤ fuel → map.insertAll fuel kvs m = .ok m2
  | [], m, T, h => ⟨0, m, T, h, rfl, by simp, fun _ _ => rfl⟩
  | (k, v) :: rest, m, T, h => by
    by_cases hk : k ∈ T.keys
    · obtain ⟨a, v2, hn⟩ := node_of_key hk
      obtain ⟨N, m2, T2, hH, hs, hm, hN⟩ := holds_insertAll rest h
      refine ⟨max N (T.height + 3), m2, T2, hH, hs, ?_, fun fuel hf => ?_⟩
      · intro x
        rw [hm x]
        simp only [List.map_cons, List.mem_cons]
        constructor
        · rintro (h1 | h1)
          · exact Or.inl h1
          · exact Or.inr (Or.inr h1)
        · rintro (h1 | rfl | h1)
          · exact Or.inl h1
          · exact Or.inl hk
          · exact Or.inr h1
      · have h2 := hN fuel (le_trans (le_max_left _ _) hf)
        have hi := holds_insert_dup h hn v (le_trans (le_max_right _ _) hf)
        simp only at hi
        simp only [map.insertAll, hi, ok_bind]
        exact h2
    · have hex : ∃ m1 T1, Holds (K := K) (V := V) m1 T1 ∧ m1.self = m.self ∧
          (∀ fuel, T.height + 3 ≤ fuel →
            m.insert fuel (k, v) = .ok ((⟨m.rb_tree.brk, 0⟩, true), m1)) ∧
          ∀ x, x ∈ T1.keys ↔ x ∈ T.keys ∨ x = k := by
        obtain ⟨m1, T1, h1, hH1, hs1, hT1⟩ := holds_insert_new h v hk (le_refl (T.height + 3))
        refine ⟨m1, T1, hH1, hs1, ?_, ?_⟩
        · intro fuel hf
          exact mono_le (F := fun n => m.insert n (k, v))
            (fun n r => map.insert_fuel_mono m n (k, v) r) h1 hf
        · intro x
          simp only [PT.keys, hT1, List.map_append, List.map_cons, List.mem_append,
            List.mem_cons, List.mem_map, List.mem_filter, decide_eq_true_eq]
          constructor
          · rintro (⟨p, ⟨hp, -⟩, rfl⟩ | rfl | ⟨p, ⟨hp, -⟩, rfl⟩)
            · exact Or.inl ⟨p, hp, rfl⟩
            · exact Or.inr rfl
            · exact Or.inl ⟨p, hp, rfl⟩
          · rintro (⟨p, hp, rfl⟩ | rfl)
            · rcases lt_trichotomy p.1 k with h3 | h3 | h3
              · exact Or.inl ⟨p, ⟨hp, h3⟩, rfl⟩
              · exact Or.inr (Or.inl h3)
              · exact Or.inr (Or.inr ⟨p, ⟨hp, h3⟩, rfl⟩)
            · exact Or.inr (Or.inl rfl)
      obtain ⟨m1, T1, hH1, hs1, hi, hk1⟩ := hex
      obtain ⟨N, m2, T2, hH, hs, hm, hN⟩ := holds_insertAll rest hH1
      refine ⟨max N (T.height + 3), m2, T2, hH, hs.trans hs1, ?_, fun fuel hf => ?_⟩
      · intro x
        rw [hm x, hk1 x]
        simp only [List.map_cons, List.mem_cons]
        tauto
      · have h2 := hN fuel (le_trans (le_max_left _ _) hf)
        simp only [map.insertAll, hi fuel (le_trans (le_max_right _ _) hf), ok_bind]
        exact h2

theorem reachable_insertAll : ∀ (kvs : List (K × V)) {m m2 : map K V} {fuel : Nat},
    Reachable m → map.insertAll fuel kvs m = .ok m2 → Reachable m2
  | [], m, m2, fuel, h, hr => by
    simp only [map.insertAll, pure_eq_ok, Except.ok.injEq] at hr
    exact hr ▸ h
  | kv :: rest, m, m2, fuel, h, hr => by
    simp only [map.insertAll] at hr
    cases hi : m.insert fuel kv with
    | error e => rw [hi] at hr; cases hr
    | ok r =>
      rw [hi] at hr
      exact reachable_insertAll rest (Reachable.insert h fuel kv r hi) hr

end order

end sjtu

namespace sjtu

variable {T : Type}

theorem init_fields {d : deque T} (h : d = deque.init d.self) :
    d.head.pointer = 0 ∧ d.tail.pointer = 0 ∧ ∀ q, d.mem q = none := by
  rw [h]
  exact ⟨rfl, rfl, fun _ => rfl⟩

@[simp] theorem hdPtr_nil (e : Nat) : hdPtr e ([] : List (Nat × Option T)) = e := rfl

@[simp] theorem hdPtr_cons (e : Nat) (c : Nat × Option T) (l : List (Nat × Option T)) :
    hdPtr e (c :: l) = c.1 := rfl

@[simp] theorem lastPtr_nil (p : Nat) : lastPtr p ([] : List (Nat × Option T)) = p := rfl

@[simp] theorem lastPtr_append_singleton (p : Nat) (l : List (Nat × Option T))
    (c : Nat × Option T) : lastPtr p (l ++ [c]) = c.1 := by
  simp [lastPtr]

theorem lastPtr_cons (p : Nat) (c : Nat × Option T) (l : List (Nat × Option T)) :
    lastPtr p (c :: l) = lastPtr c.1 l := by
  cases l with
  | nil => simp [lastPtr]
  | cons c2 l2 =>
    have hx : (c2 :: l2).getLast? = some ((c2 :: l2).getLast (by simp)) :=
      List.getLast?_eq_getLast _ (by simp)
    simp only [lastPtr, List.getLast?_cons_cons, hx, Option.map_some', Option.getD_some]

theorem hdPtr_append (e : Nat) (l1 l2 : List (Nat × Option T)) :
    hdPtr e (l1 ++ l2) = hdPtr (hdPtr e l2) l1 := by
  cases l1 <;> simp

theorem dchain_append (mem : Nat → Option (DNode T)) : ∀ (l1 l2 : List (Nat × Option T))
    (p e : Nat), DChain mem p (l1 ++ l2) e ↔
      DChain mem p l1 (hdPtr e l2) ∧ DChain mem (lastPtr p l1) l2 e
  | [], l2, p, e => by simp [DChain]
  | c :: l1, l2, p, e => by
    have ih := dchain_append mem l1 l2 c.1 e
    show (mem c.1 = some ⟨c.2, p, hdPtr e (l1 ++ l2)⟩ ∧ DChain mem c.1 (l1 ++ l2) e) ↔
      (mem c.1 = some ⟨c.2, p, hdPtr (hdPtr e l2) l1⟩ ∧ DChain mem c.1 l1 (hdPtr e l2)) ∧
        DChain mem (lastPtr p (c :: l1)) l2 e
    rw [ih, lastPtr_cons, hdPtr_append, and_assoc]

theorem dchain_frame {mem mem2 : Nat → Option (DNode T)} : ∀ (l : List (Nat × Option T))
    (p e : Nat), (∀ a ∈ l.map Prod.fst, mem2 a = mem a) → DChain mem p l e → DChain mem2 p l e
  | [], _, _, _, _ => trivial
  | c :: l, p, e, h, hc => by
    refine ⟨?_, dchain_frame l c.1 e (fun a ha => h a (by simp at ha ⊢; exact Or.inr ha)) hc.2⟩
    rw [h c.1 (by simp)]
    exact hc.1

/-- The `next` field of the last cell of a chain redirected. -/
theorem dchain_set_next (mem : Nat → Option (DNode T)) : ∀ (l : List (Nat × Option T))
    (c : Nat × Option T) (p e e2 : Nat), DChain mem p (l ++ [c]) e →
    ((l ++ [c]).map Prod.fst).Nodup →
    DChain (fun q => if q = c.1 then some ⟨c.2, lastPtr p l, e2⟩ else mem q) p (l ++ [c]) e2
  | [], c, p, e, e2, _, _ => by simp [DChain]
  | b :: l, c, p, e, e2, h, hn => by
    simp only [List.cons_append, DChain, List.map_cons, List.nodup_cons] at h hn ⊢
    have hbc : b.1 ≠ c.1 := by
      intro e
      exact hn.1 (by simp [e])
    refine ⟨?_, ?_⟩
    · rw [if_neg hbc, h.1]
      simp [hdPtr_append]
    · rw [lastPtr_cons]
      exact dchain_set_next mem l c b.1 e e2 h.2 hn.2

/-- The `prev` field of the first cell of a chain redirected. -/
theorem dchain_set_prev (mem : Nat → Option (DNode T)) (c : Nat × Option T)
    (l : List (Nat × Option T)) (p p2 e : Nat) (h : DChain mem p (c :: l) e)
    (hn : ((c :: l).map Prod.fst).Nodup) :
    DChain (fun q => if q = c.1 then some ⟨c.2, p2, hdPtr e l⟩ else mem q) p2 (c :: l) e := by
  simp only [DChain, List.map_cons, List.nodup_cons] at h hn ⊢
  refine ⟨by simp, dchain_frame l c.1 e ?_ h.2⟩
  intro a ha
  have : a ≠ c.1 := by
    rintro rfl
    exact hn.1 ha
  simp [this]

theorem dchain_read {mem : Nat → Option (DNode T)} {l1 l2 : List (Nat × Option T)}
    {c : Nat × Option T} {p e : Nat} (h : DChain mem p (l1 ++ c :: l2) e) :
    mem c.1 = some ⟨c.2, lastPtr p l1, hdPtr e l2⟩ := by
  rw [dchain_append] at h
  exact h.2.1

theorem cellsOf_ne_nil (xs : List (Nat × T)) (tl : Nat) : cellsOf xs tl ≠ [] := by
  simp [cellsOf]

theorem mem_cellsOf_split {xs : List (Nat × T)} {tl q : Nat}
    (h : q ∈ (cellsOf xs tl).map Prod.fst) :
    (q = tl ∧ ∃ pre, cellsOf xs tl = pre ++ [(tl, none)] ∧ pre = xs.map (fun p => (p.1, some p.2))) ∨
    (∃ l1 v l2, xs = l1 ++ (q, v) :: l2) := by
  simp only [cellsOf, List.map_append, List.map_map, List.map_cons, List.map_nil,
    List.mem_append, List.mem_map, Function.comp, List.mem_singleton] at h
  rcases h with ⟨⟨a, v⟩, hm, rfl⟩ | rfl
  · right
    obtain ⟨l1, l2, rfl⟩ := List.append_of_mem hm
    exact ⟨l1, v, l2, rfl⟩
  · left
    exact ⟨rfl, _, rfl, rfl⟩

end sjtu

namespace sjtu

open deque

variable {T : Type}

theorem deque.stepNext_one (d : deque T) (p : Nat) :
    d.stepNext 1 p = (do
      let nd ← d.rd p
      if nd.next = 0 then .error .invalid_iterator else pure nd.next) := rfl

theorem deque.stepPrev_one (d : deque T) (p : Nat) :
    d.stepPrev 1 p = (do
      let nd ← d.rd p
      if nd.prev = 0 then .error .invalid_iterator else pure nd.prev) := rfl

theorem deque.add_one (d : deque T) (it : deque.iterator) :
    iterator.add d it 1 = (do
      let p ← d.stepNext 1 it.pointer
      pure ⟨p, it.belong⟩) := rfl

theorem deque.sub_one (d : deque T) (it : deque.iterator) :
    iterator.sub d it 1 = (do
      let p ← d.stepPrev 1 it.pointer
      pure ⟨p, it.belong⟩) := rfl

theorem deque.rd_some {d : deque T} {p : Nat} {n : DNode T} (h0 : p ≠ 0) (h : d.mem p = some n) :
    d.rd p = .ok n := by
  simp [deque.rd, h0, h]

/-- Run of `erase` at the first node `a`, followed by the node `c`. -/
theorem erase_exec_first {d : deque T} {a c : Nat} {v : T} {nc : DNode T}
    (hp : d.head.pointer = a) (ha0 : a ≠ 0) (hc0 : c ≠ 0) (hac : a ≠ c)
    (hb : d.head.belong = d.self)
    (hma : d.mem a = some ⟨some v, 0, c⟩) (hmc : d.mem c = some nc) :
    d.erase d.head = .ok (⟨c, d.self⟩,
      { d with
        mem := fun q => if q = a then none else if q = c then some { nc with prev := 0 }
          else d.mem q
        leak := d.leak - 1
        size_n := d.size_n - 1
        head := ⟨c, d.self⟩ }) := by
  have hca : c ≠ a := fun e => hac e.symm
  simp [deque.erase, deque.rd, deque.wr, deque.set, deque.free, hp, ha0, hc0, hac, hca, hb, hma,
    hmc, deque.add_one, deque.stepNext_one]

/-- Run of `erase` at a node `a` between the nodes `b` and `c`. -/
theorem erase_exec_mid {d : deque T} {a b c : Nat} {v : T} {nb nc : DNode T} {pos : deque.iterator}
    (hpos : pos = ⟨a, d.self⟩) (hh : d.head.pointer ≠ a)
    (ha0 : a ≠ 0) (hb0 : b ≠ 0) (hc0 : c ≠ 0) (hab : a ≠ b) (hac : a ≠ c) (hbc : b ≠ c)
    (hma : d.mem a = some ⟨some v, b, c⟩) (hmb : d.mem b = some nb) (hmc : d.mem c = some nc) :
    d.erase pos = .ok (⟨c, d.self⟩,
      { d with
        mem := fun q => if q = a then none else if q = c then some { nc with prev := b }
          else if q = b then some { nb with next := c } else d.mem q
        leak := d.leak - 1
        size_n := d.size_n - 1 }) := by
  subst hpos
  have hca : c ≠ a := fun e => hac e.symm
  have hba : b ≠ a := fun e => hab e.symm
  have hcb : c ≠ b := fun e => hbc e.symm
  have hne : ¬ (⟨a, d.self⟩ : deque.iterator) = d.head := by
    intro e
    exact hh (by rw [← e])
  simp [deque.erase, deque.rd, deque.wr, deque.set, deque.free, ha0, hb0, hc0, hab, hac, hbc,
    hca, hba, hcb, hma, hmb, hmc, hne]

/-- Run of `insertAt` before the first node `b`. -/
theorem insertAt_exec_first {d : deque T} {b : Nat} {nb : DNode T} (value : T)
    (hp : d.head.pointer = b) (hb0 : b ≠ 0) (hbk : b ≠ d.brk) (hk0 : d.brk ≠ 0)
    (hmb : d.mem b = some nb) (hpv : nb.prev = 0) :
    d.insertAt d.head value = .ok (⟨d.brk, d.self⟩,
      { d with
        mem := fun q => if q = b then some { nb with prev := d.brk }
          else if q = d.brk then some ⟨some value, 0, b⟩ else d.mem q
        brk := d.brk + 1
        leak := d.leak + 1
        size_n := d.size_n + 1
        head := ⟨d.brk, d.head.belong⟩ }) := by
  have hkb : d.brk ≠ b := fun e => hbk e.symm
  simp [deque.insertAt, deque.rd, deque.wr, deque.set, deque.alloc, hp, hb0, hbk, hkb, hk0, hmb,
    hpv, deque.sub_one, deque.stepPrev_one]

/-- Run of `insertAt` before a node `b` that follows the node `a`. -/
theorem insertAt_exec_mid {d : deque T} {a b : Nat} {na nb : DNode T} {pos : deque.iterator}
    (value : T) (hpos : pos.pointer = b) (hh : d.head.pointer ≠ b)
    (ha0 : a ≠ 0) (hb0 : b ≠ 0) (hab : a ≠ b) (hak : a ≠ d.brk) (hbk : b ≠ d.brk)
    (hma : d.mem a = some na) (hmb : d.mem b = some nb) (hpv : nb.prev = a) :
    d.insertAt pos value = .ok (⟨d.brk, d.self⟩,
      { d with
        mem := fun q => if q = b then some { nb with prev := d.brk }
          else if q = a then some { na with next := d.brk }
          else if q = d.brk then some ⟨some value, a, b⟩ else d.mem q
        brk := d.brk + 1
        leak := d.leak + 1
        size_n := d.size_n + 1 }) := by
  have hkb : d.brk ≠ b := fun e => hbk e.symm
  have hka : d.brk ≠ a := fun e => hak e.symm
  have hba : b ≠ a := fun e => hab e.symm
  have hne : ¬ pos = d.head := by
    intro e
    exact hh (by rw [← e, hpos])
  simp [deque.insertAt, deque.rd, deque.wr, deque.set, deque.alloc, hpos, hb0, ha0, hab, hba,
    hbk, hkb, hak, hka, hma, hmb, hpv, hne]

end sjtu

namespace sjtu

open deque

variable {T : Type}

theorem list_nil_or_concat {α : Type} (l : List α) : l = [] ∨ ∃ l2 b, l = l2 ++ [b] := by
  induction l using List.reverseRecOn with
  | nil => exact Or.inl rfl
  | append_singleton l2 b _ => exact Or.inr ⟨l2, b, rfl⟩

theorem mem_drop_cell {l1 l2 : List (Nat × Option T)} {x : Nat × Option T} {q : Nat}
    (h : q ∈ (l1 ++ l2).map Prod.fst) : q ∈ (l1 ++ x :: l2).map Prod.fst := by
  simp only [List.map_append, List.map_cons, List.mem_append, List.mem_cons] at h ⊢
  tauto

theorem mem_add_cell {l1 l2 : List (Nat × Option T)} {x : Nat × Option T} {q : Nat}
    (h : q ∈ (l1 ++ x :: l2).map Prod.fst) : q = x.1 ∨ q ∈ (l1 ++ l2).map Prod.fst := by
  simp only [List.map_append, List.map_cons, List.mem_append, List.mem_cons] at h ⊢
  tauto

theorem nodup_drop_cell {l1 l2 : List (Nat × Option T)} {x : Nat × Option T}
    (h : ((l1 ++ x :: l2).map Prod.fst).Nodup) : ((l1 ++ l2).map Prod.fst).Nodup :=
  h.sublist (((List.Sublist.refl l1).append (List.sublist_cons_self x l2)).map _)

theorem not_mem_of_nodup_cell {l1 l2 : List (Nat × Option T)} {x : Nat × Option T}
    (h : ((l1 ++ x :: l2).map Prod.fst).Nodup) : x.1 ∉ (l1 ++ l2).map Prod.fst := by
  simp only [List.map_append, List.map_cons, List.nodup_append, List.nodup_cons,
    List.mem_append, List.disjoint_cons_right] at h ⊢
  tauto

theorem nodup_append_disjoint {l1 l2 : List (Nat × Option T)}
    (h : ((l1 ++ l2).map Prod.fst).Nodup) {q : Nat} (h1 : q ∈ l1.map Prod.fst)
    (h2 : q ∈ l2.map Prod.fst) : False := by
  rw [List.map_append, List.nodup_append] at h
  exact h.2.2 h1 h2

/-- Effect of `erase` at a node with data: the cell is taken out of the
chain, the returned iterator is at the cell that followed it. -/
theorem dpop_erase {d : deque T} {l1 l2 : List (Nat × Option T)} {a : Nat} {v : T}
    {c : Nat × Option T} (h : DPop d (l1 ++ (a, some v) :: c :: l2))
    (hb : d.head.belong = d.self) :
    ∃ d2, d.erase ⟨a, d.self⟩ = .ok (⟨c.1, d.self⟩, d2) ∧ DPop d2 (l1 ++ c :: l2) ∧
      d2.self = d.self ∧ d2.tail = d.tail ∧ d2.size_n = d.size_n - 1 ∧
      d2.head.belong = d.head.belong ∧ d2.brk = d.brk ∧ d2.leak = d.leak - 1 := by
  obtain ⟨hh, hc, hn, hz, hcl, hf⟩ := h
  have hnew := not_mem_of_nodup_cell hn
  have hn2 := nodup_drop_cell hn
  have hz2 : 0 ∉ (l1 ++ c :: l2).map Prod.fst := fun h => hz (mem_drop_cell h)
  have hf2 : ∀ q ∈ (l1 ++ c :: l2).map Prod.fst, q < d.brk := fun q h => hf q (mem_drop_cell h)
  have ha0 : a ≠ 0 := by
    intro e
    exact hz (by simp [e])
  have hc0 : c.1 ≠ 0 := by
    intro e
    exact hz2 (by simp [e])
  have hac : a ≠ c.1 := by
    intro e
    exact hnew (by simp [e])
  have hcl2 : ∀ (m2 : Nat → Option (DNode T)), m2 a = none →
      (∀ q, q ≠ a → q ∉ (l1 ++ c :: l2).map Prod.fst → m2 q = d.mem q) →
      ∀ q, q ∉ (l1 ++ c :: l2).map Prod.fst → m2 q = none := by
    intro m2 h1 h2 q hq
    by_cases hqa : q = a
    · rw [hqa]; exact h1
    · rw [h2 q hqa hq]
      refine hcl q (fun h => ?_)
      rcases mem_add_cell h with h | h
      · exact hqa h
      · exact hq h
  rcases list_nil_or_concat l1 with rfl | ⟨l0, b, rfl⟩
  · have hma : d.mem a = some ⟨some v, 0, c.1⟩ := hc.1
    have hmc : d.mem c.1 = some ⟨c.2, a, hdPtr 0 l2⟩ := hc.2.1
    have hh2 : d.head.pointer = a := hh
    have hex := erase_exec_first (d := d) hh2 ha0 hc0 hac hb hma hmc
    have hpos : (⟨a, d.self⟩ : deque.iterator) = d.head := by
      rw [show a = d.head.pointer from hh2.symm, ← hb]
    rw [hpos]
    refine ⟨_, hex, ⟨rfl, ?_, hn2, hz2, ?_, hf2⟩, rfl, rfl, rfl, hb.symm ▸ rfl, rfl, rfl⟩
    · have h1 := dchain_set_prev d.mem c l2 a 0 0 hc.2 hn2
      refine dchain_frame (c :: l2) 0 0 ?_ h1
      intro x hxm
      have hxa : x ≠ a := by
        rintro rfl
        exact hnew hxm
      simp only [hxa, if_false]
    · refine hcl2 _ (by simp) ?_
      intro q hqa hq
      have hqc : q ≠ c.1 := by
        rintro rfl
        exact hq (by simp)
      simp only [hqa, hqc, if_false]
  · have hc1 := (dchain_append d.mem (l0 ++ [b]) ((a, some v) :: c :: l2) 0 0).1 hc
    obtain ⟨hpre, hma, hsuf⟩ := hc1
    simp only [hdPtr_cons, lastPtr_append_singleton] at hpre hma hsuf
    have hmb := dchain_read hpre
    simp only [hdPtr_nil] at hmb
    have hmc : d.mem c.1 = some ⟨c.2, a, hdPtr 0 l2⟩ := hsuf.1
    have hb0 : b.1 ≠ 0 := by
      intro e
      exact hz2 (by simp [e])
    have hab : a ≠ b.1 := by
      intro e
      exact hnew (by simp [e])
    have hbc : b.1 ≠ c.1 := by
      intro e
      exact nodup_append_disjoint hn2 (q := b.1) (by simp) (by simp [e])
    have hhd : d.head.pointer ≠ a := by
      rw [hh]
      intro e
      refine hnew ?_
      rw [← e]
      cases l0 <;> simp
    have hex := erase_exec_mid (d := d) (show (⟨a, d.self⟩ : deque.iterator) = ⟨a, d.self⟩ from rfl) hhd ha0 hb0 hc0 hab hac hbc hma
      hmb hmc
    refine ⟨_, hex, ⟨?_, ?_, hn2, hz2, ?_, hf2⟩, rfl, rfl, rfl, rfl, rfl, rfl⟩
    · show d.head.pointer = _
      rw [hh]
      cases l0 <;> simp
    · rw [dchain_append]
      simp only [hdPtr_cons, lastPtr_append_singleton]
      have hn3 : ((l0 ++ [b]).map Prod.fst).Nodup := by
        refine hn2.sublist ?_
        exact (List.sublist_append_left _ _).map _
      have hn4 : ((c :: l2).map Prod.fst).Nodup := by
        refine hn2.sublist ?_
        exact (List.sublist_append_right _ _).map _
      constructor
      · have h1 := dchain_set_next d.mem l0 b 0 a c.1 hpre hn3
        refine dchain_frame _ 0 c.1 ?_ h1
        intro x hxm
        have hxa : x ≠ a := by
          rintro rfl
          exact hnew (by
            simp only [List.map_append, List.mem_append] at hxm ⊢
            exact Or.inl hxm)
        have hxc : x ≠ c.1 := by
          rintro rfl
          exact nodup_append_disjoint hn2 hxm (by simp)
        simp only [hxa, hxc, if_false]
      · have h2 : DChain d.mem a (c :: l2) 0 := ⟨hmc, hsuf.2⟩
        have h3 := dchain_set_prev d.mem c l2 a b.1 0 h2 hn4
        refine dchain_frame _ b.1 0 ?_ h3
        intro x hx
        have hxa : x ≠ a := by
          rintro rfl
          exact hnew (by
            simp only [List.map_append, List.mem_append] at hx ⊢
            exact Or.inr hx)
        by_cases hxc : x = c.1
        · simp only [hxa, hxc, if_true, if_false, hac.symm]
        · have hxb : x ≠ b.1 := by
            rintro rfl
            exact nodup_append_disjoint hn2 (q := b.1) (by simp) hx
          simp only [hxa, hxc, hxb, if_false]
    · refine hcl2 _ (by simp) ?_
      intro q hqa hq
      have hqc : q ≠ c.1 := by
        rintro rfl
        exact hq (by simp)
      have hqb : q ≠ b.1 := by
        rintro rfl
        exact hq (by simp)
      simp only [hqa, hqc, hqb, if_false]

end sjtu

namespace sjtu

open deque

variable {T : Type}

theorem nodup_add_cell {l1 l2 : List (Nat × Option T)} {x : Nat × Option T}
    (h : ((l1 ++ l2).map Prod.fst).Nodup) (hx : x.1 ∉ (l1 ++ l2).map Prod.fst) :
    ((l1 ++ x :: l2).map Prod.fst).Nodup := by
  rw [List.map_append, List.map_cons, List.nodup_middle, List.nodup_cons, ← List.map_append]
  exact ⟨hx, h⟩

/-- Effect of `insertAt` before a cell of the chain: a new cell at the fresh
address is linked in front of it. -/
theorem dpop_insertAt {d : deque T} {l1 l2 : List (Nat × Option T)} {b : Nat × Option T}
    (h : DPop d (l1 ++ b :: l2)) (hk : 0 < d.brk) {pos : deque.iterator}
    (hp : pos.pointer = b.1) (hpb : pos.belong = d.head.belong) (value : T) :
    ∃ d2, d.insertAt pos value = .ok (⟨d.brk, d.self⟩, d2) ∧
      DPop d2 (l1 ++ (d.brk, some value) :: b :: l2) ∧
      d2.self = d.self ∧ d2.tail = d.tail ∧ d2.size_n = d.size_n + 1 ∧
      d2.head.belong = d.head.belong ∧ d2.brk = d.brk + 1 := by
  obtain ⟨hh, hc, hn, hz, hcl, hf⟩ := h
  have hk0 : d.brk ≠ 0 := by omega
  have hkn : (d.brk, some value).1 ∉ (l1 ++ b :: l2).map Prod.fst := by
    intro hm
    have := hf _ hm
    simp at this
  have hn2 : ((l1 ++ (d.brk, some value) :: b :: l2).map Prod.fst).Nodup :=
    nodup_add_cell hn hkn
  have hz2 : 0 ∉ (l1 ++ (d.brk, some value) :: b :: l2).map Prod.fst := by
    intro hm
    rcases mem_add_cell hm with e | hm
    · exact hk0 e.symm
    · exact hz hm
  have hf2 : ∀ q ∈ (l1 ++ (d.brk, some value) :: b :: l2).map Prod.fst, q < d.brk + 1 := by
    intro q hm
    rcases mem_add_cell hm with e | hm
    · simp only at e; omega
    · have := hf q hm; omega
  have hb0 : b.1 ≠ 0 := by
    intro e
    exact hz (by simp [e])
  have hbk : b.1 ≠ d.brk := by
    intro e
    exact hkn (by simp [e])
  have hcl2 : ∀ (m2 : Nat → Option (DNode T)),
      (∀ q, q ∉ (l1 ++ (d.brk, some value) :: b :: l2).map Prod.fst → m2 q = d.mem q) →
      ∀ q, q ∉ (l1 ++ (d.brk, some value) :: b :: l2).map Prod.fst → m2 q = none := by
    intro m2 h2 q hq
    rw [h2 q hq]
    exact hcl q (fun hm => hq (mem_drop_cell hm))
  rcases list_nil_or_concat l1 with rfl | ⟨l0, a, rfl⟩
  · have hh2 : d.head.pointer = b.1 := hh
    have hmb : d.mem b.1 = some ⟨b.2, 0, hdPtr 0 l2⟩ := hc.1
    have hpos : pos = d.head := by
      cases pos
      cases hd : d.head
      rw [hd] at hh2 hpb
      simp only at hp hpb hh2
      rw [hp, hpb, hh2]
    rw [hpos]
    have hex := insertAt_exec_first (d := d) value hh2 hb0 hbk hk0 hmb rfl
    refine ⟨_, hex, ⟨rfl, ?_, hn2, hz2, ?_, hf2⟩, rfl, rfl, rfl, rfl, rfl⟩
    · refine ⟨?_, ?_⟩
      · show (if d.brk = b.1 then _ else if d.brk = d.brk then _ else _) = _
        rw [if_neg (fun e => hbk e.symm), if_pos rfl]
        rfl
      · have h1 := dchain_set_prev d.mem b l2 0 d.brk 0 hc hn
        refine dchain_frame (b :: l2) d.brk 0 ?_ h1
        intro x hxm
        have hxk : x ≠ d.brk := by
          rintro rfl
          exact hkn hxm
        by_cases hxb : x = b.1
        · simp only [hxb, if_true]
        · simp only [hxb, hxk, if_false]
    · refine hcl2 _ ?_
      intro q hq
      have hqb : q ≠ b.1 := by
        rintro rfl
        exact hq (by simp)
      have hqk : q ≠ d.brk := by
        rintro rfl
        exact hq (by simp)
      simp only [hqb, hqk, if_false]
  · have hc1 := (dchain_append d.mem (l0 ++ [a]) (b :: l2) 0 0).1 hc
    obtain ⟨hpre, hsuf⟩ := hc1
    simp only [hdPtr_cons, lastPtr_append_singleton] at hpre hsuf
    have hma := dchain_read hpre
    simp only [hdPtr_nil] at hma
    have hmb : d.mem b.1 = some ⟨b.2, a.1, hdPtr 0 l2⟩ := hsuf.1
    have ha0 : a.1 ≠ 0 := by
      intro e
      exact hz (by simp [e])
    have hak : a.1 ≠ d.brk := by
      intro e
      exact hkn (by simp [e])
    have hab : a.1 ≠ b.1 := by
      intro e
      exact nodup_append_disjoint hn (q := a.1) (by simp) (by simp [e])
    have hhd : d.head.pointer ≠ b.1 := by
      rw [hh]
      intro e
      refine nodup_append_disjoint hn (q := b.1) ?_ (by simp)
      rw [← e]
      cases l0 <;> simp
    have hex := insertAt_exec_mid (d := d) value hp hhd ha0 hb0 hab hak hbk hma hmb
      rfl
    have hn3 : ((l0 ++ [a]).map Prod.fst).Nodup :=
      hn.sublist ((List.sublist_append_left _ _).map _)
    have hn4 : ((b :: l2).map Prod.fst).Nodup :=
      hn.sublist ((List.sublist_append_right _ _).map _)
    refine ⟨_, hex, ⟨?_, ?_, hn2, hz2, ?_, hf2⟩, rfl, rfl, rfl, rfl, rfl⟩
    · show d.head.pointer = _
      rw [hh]
      cases l0 <;> simp
    · rw [dchain_append]
      simp only [hdPtr_cons, lastPtr_append_singleton]
      refine ⟨?_, ?_, ?_⟩
      · have h1 := dchain_set_next d.mem l0 a 0 b.1 d.brk hpre hn3
        refine dchain_frame _ 0 d.brk ?_ h1
        intro x hxm
        have hxb : x ≠ b.1 := by
          rintro rfl
          exact nodup_append_disjoint hn hxm (by simp)
        have hxk : x ≠ d.brk := by
          rintro rfl
          exact hkn (by
            simp only [List.map_append, List.mem_append] at hxm ⊢
            exact Or.inl hxm)
        by_cases hxa : x = a.1
        · simp only [hxa, hab, if_true, if_false]
        · simp only [hxa, hxb, hxk, if_false]
      · show (if d.brk = b.1 then _ else if d.brk = a.1 then _ else if d.brk = d.brk then _
          else _) = _
        rw [if_neg (fun e => hbk e.symm), if_neg (fun e => hak e.symm), if_pos rfl]
        rfl
      · have h3 := dchain_set_prev d.mem b l2 a.1 d.brk 0 hsuf hn4
        refine dchain_frame _ d.brk 0 ?_ h3
        intro x hxm
        have hxk : x ≠ d.brk := by
          rintro rfl
          exact hkn (by
            simp only [List.map_append, List.mem_append] at hxm ⊢
            exact Or.inr hxm)
        by_cases hxb : x = b.1
        · simp only [hxb, if_true]
        · have hxa : x ≠ a.1 := by
            rintro rfl
            exact nodup_append_disjoint hn (q := a.1) (by simp) hxm
          simp only [hxa, hxb, hxk, if_false]
    · refine hcl2 _ ?_
      intro q hq
      have hqb : q ≠ b.1 := by
        rintro rfl
        exact hq (by simp)
      have hqa : q ≠ a.1 := by
        rintro rfl
        exact hq (by simp)
      have hqk : q ≠ d.brk := by
        rintro rfl
        exact hq (by simp)
      simp only [hqb, hqa, hqk, if_false]

end sjtu

namespace sjtu

open deque

variable {T : Type}

theorem cellsOf_append_cons (l1 l2 : List (Nat × T)) (a : Nat) (v : T) (tl : Nat) :
    cellsOf (l1 ++ (a, v) :: l2) tl =
      l1.map (fun p => (p.1, some p.2)) ++ (a, some v) :: cellsOf l2 tl := by
  simp [cellsOf]

theorem cellsOf_append (l1 l2 : List (Nat × T)) (tl : Nat) :
    cellsOf (l1 ++ l2) tl = l1.map (fun p => (p.1, some p.2)) ++ cellsOf l2 tl := by
  simp [cellsOf]

theorem cellsOf_cons (x : Nat × T) (l : List (Nat × T)) (tl : Nat) :
    cellsOf (x :: l) tl = (x.1, some x.2) :: cellsOf l tl := rfl

theorem cellsOf_exists_cons (l : List (Nat × T)) (tl : Nat) :
    ∃ c rest, cellsOf l tl = c :: rest ∧ c.1 = hdPtr 0 (cellsOf l tl) := by
  cases l with
  | nil => exact ⟨_, _, rfl, rfl⟩
  | cons x l => exact ⟨_, _, rfl, rfl⟩

theorem dinv_init {self : Nat} (h : self ≠ 0) : DInv (deque.init self : deque T) [] :=
  ⟨h, rfl, rfl, rfl, by simp [deque.init], Or.inl ⟨rfl, rfl⟩⟩

/-- Method `initialize(value)` on an empty deque. -/
theorem dinv_initialize {d : deque T} (h : DInv d []) (value : T) :
    ∃ d2, d.initialize_ value = .ok d2 ∧ DInv d2 [(d.brk, value)] ∧ d2.self = d.self := by
  obtain ⟨h0, hb, tb, hs, hk, hsh⟩ := h
  have hk0 : d.brk ≠ 0 := by omega
  have hk1 : d.brk + 1 ≠ d.brk := by omega
  have hk2 : d.brk ≠ d.brk + 1 := by omega
  rcases hsh with ⟨-, hi⟩ | ⟨hh, hc, hn, hz, hcl, hf⟩
  · obtain ⟨hh, ht, hm⟩ := init_fields hi
    simp only [deque.initialize_, hh, ne_eq, not_true_eq_false, if_false, deque.alloc,
      deque.set, deque.wr, deque.rd, pure_eq_ok, ok_bind, hk0, if_true, hk1, hk2,
      Nat.add_eq_zero, one_ne_zero, and_false, Except.ok.injEq, exists_eq_left']
    refine ⟨⟨h0, hb, tb, rfl, by simp, Or.inr ⟨rfl, ?_, ?_, ?_, ?_, ?_⟩⟩, trivial⟩
    · simp [cellsOf, DChain, hk1, hk2]
    · simp [cellsOf, hk2]
    · simp [cellsOf, hk0]
      omega
    · intro q hq
      simp only [cellsOf, List.map_cons, List.map_nil, List.nil_append, List.cons_append,
        List.mem_cons, List.not_mem_nil, or_false, not_or] at hq
      simp [hq.1, hq.2, hm]
    · intro q hq
      simp only [cellsOf, List.map_cons, List.map_nil, List.nil_append, List.cons_append,
        List.mem_cons, List.not_mem_nil, or_false] at hq
      simp only
      omega
  · have htl : d.mem d.tail.pointer = some ⟨none, 0, 0⟩ := hc.1
    have hh2 : d.head.pointer = d.tail.pointer := hh
    have ht0 : d.tail.pointer ≠ 0 := by
      intro e
      exact hz (by simp [cellsOf, e])
    simp only [deque.initialize_, hh2, ne_eq, ht0, not_false_eq_true, if_true, deque.free,
      deque.rd, htl, if_false, deque.alloc, deque.set, deque.wr, pure_eq_ok, ok_bind, hk0,
      hk1, hk2, Nat.add_eq_zero, one_ne_zero, and_false, Except.ok.injEq, exists_eq_left']
    refine ⟨⟨h0, hb, tb, rfl, by simp, Or.inr ⟨rfl, ?_, ?_, ?_, ?_, ?_⟩⟩, trivial⟩
    · simp [cellsOf, DChain, hk1, hk2]
    · simp [cellsOf, hk2]
    · simp [cellsOf, hk0]
      omega
    · intro q hq
      simp only [cellsOf, List.map_cons, List.map_nil, List.nil_append, List.cons_append,
        List.mem_cons, List.not_mem_nil, or_false, not_or] at hq
      simp only [hq.1, hq.2, if_false]
      by_cases hqt : q = d.tail.pointer
      · simp [hqt]
      · simp only [hqt, if_false]
        exact hcl q (by simpa [cellsOf] using hqt)
    · intro q hq
      simp only [cellsOf, List.map_cons, List.map_nil, List.nil_append, List.cons_append,
        List.mem_cons, List.not_mem_nil, or_false] at hq
      simp only
      omega

end sjtu

namespace sjtu

open deque

variable {T : Type}

theorem dinv_pop {d : deque T} {xs : List (Nat × T)} (h : DInv d xs) (hx : xs ≠ []) :
    DPop d (cellsOf xs d.tail.pointer) := by
  rcases h.shape with ⟨e, -⟩ | hp
  · exact absurd e hx
  · exact hp

theorem dinv_tail_ne {d : deque T} {xs : List (Nat × T)}
    (hp : DPop d (cellsOf xs d.tail.pointer)) : d.tail.pointer ≠ 0 := by
  intro e
  exact hp.nz (by simp [cellsOf, e])

theorem dpop_read_tail {d : deque T} {xs : List (Nat × T)}
    (hp : DPop d (cellsOf xs d.tail.pointer)) :
    d.mem d.tail.pointer =
      some ⟨none, lastPtr 0 (xs.map (fun p => (p.1, some p.2))), 0⟩ := by
  have := @dchain_read T d.mem (xs.map (fun p => (p.1, some p.2))) []
    (d.tail.pointer, none) _ _ hp.chain
  simpa using this

theorem dpop_mem_of_read {d : deque T} {ys : List (Nat × Option T)} (hp : DPop d ys) {q : Nat}
    {n : DNode T} (h : d.mem q = some n) : q ∈ ys.map Prod.fst := by
  by_contra hq
  rw [hp.clean q hq] at h
  cases h

/-- Effect of `erase` at the node of an element. -/
theorem dinv_erase_at {d : deque T} {l1 l2 : List (Nat × T)} {a : Nat} {v : T}
    (h : DInv d (l1 ++ (a, v) :: l2)) :
    ∃ d2, d.erase ⟨a, d.self⟩ = .ok (⟨hdPtr 0 (cellsOf l2 d.tail.pointer), d.self⟩, d2) ∧
      DInv d2 (l1 ++ l2) ∧ d2.tail = d.tail ∧ d2.self = d.self := by
  have hp := dinv_pop h (by simp)
  rw [cellsOf_append_cons] at hp
  obtain ⟨c, rest, hc, hc1⟩ := cellsOf_exists_cons l2 d.tail.pointer
  rw [hc] at hp
  obtain ⟨d2, h1, h2, h3, h4, h5, h6, h7, -⟩ := dpop_erase hp h.hb
  refine ⟨d2, ?_, ⟨by rw [h3]; exact h.self_ne, by rw [h6, h3]; exact h.hb,
    by rw [h4, h3]; exact h.tb, ?_, by rw [h7]; exact h.brk_pos, Or.inr ?_⟩, h4, h3⟩
  · rw [h1, hc1]
  · rw [h5, h.size]
    simp
  · rw [h4, cellsOf_append, hc]
    exact h2

/-- An `erase` that returns was called at the node of an element, with an
iterator of this deque. -/
theorem dinv_erase_ok {d : deque T} {xs : List (Nat × T)} (h : DInv d xs)
    {pos : deque.iterator} {r : deque.iterator × deque T} (hr : d.erase pos = .ok r) :
    ∃ l1 v l2, xs = l1 ++ (pos.pointer, v) :: l2 ∧ pos.belong = d.self ∧
      DInv r.2 (l1 ++ l2) ∧ r.2.tail = d.tail ∧ r.2.self = d.self ∧
      r.1 = ⟨hdPtr 0 (cellsOf l2 d.tail.pointer), d.self⟩ := by
  have hp0 : pos.pointer ≠ 0 := by
    intro e
    simp [deque.erase, e] at hr
  have hbel : pos.belong = d.self := by
    by_contra e
    simp [deque.erase, hp0, e] at hr
  cases hm : d.mem pos.pointer with
  | none => simp [deque.erase, deque.rd, hp0, hm, hbel] at hr
  | some np =>
    have hdat : np.data.isNone = false := by
      cases hd : np.data.isNone
      · rfl
      · simp [deque.erase, deque.rd, hp0, hm, hd] at hr
    rcases h.shape with ⟨-, hi⟩ | hp
    · rw [(init_fields hi).2.2] at hm
      cases hm
    · have hq := dpop_mem_of_read hp hm
      rcases mem_cellsOf_split hq with ⟨e, -⟩ | ⟨l1, v, l2, rfl⟩
      · have := dpop_read_tail hp
        rw [← e, hm] at this
        simp only [Option.some.injEq] at this
        rw [this] at hdat
        simp at hdat
      · obtain ⟨d2, h1, h2, h3, h4⟩ := dinv_erase_at h
        have hpos : pos = ⟨pos.pointer, d.self⟩ := by
          cases pos
          simp only at hbel
          rw [hbel]
        rw [hpos, h1] at hr
        cases hr
        exact ⟨l1, v, l2, rfl, hbel, h2, h3, h4, rfl⟩

theorem cellsOf_hd_cons (x : Nat × T) (l : List (Nat × T)) (tl : Nat) :
    hdPtr 0 (cellsOf (x :: l) tl) = x.1 := rfl

/-- A `pop_front()` that returns removed the first element. -/
theorem dinv_pop_front_ok {d : deque T} {xs : List (Nat × T)} (h : DInv d xs)
    {d2 : deque T} (hr : d.pop_front = .ok d2) :
    ∃ x l2, xs = x :: l2 ∧ DInv d2 l2 := by
  simp only [deque.pop_front] at hr
  cases he : d.erase d.head with
  | error e => rw [he] at hr; cases hr
  | ok r =>
    rw [he] at hr
    simp only [ok_bind, pure_eq_ok, Except.ok.injEq] at hr
    obtain ⟨l1, v, l2, rfl, hbel, hI, ht, hs, hr1⟩ := dinv_erase_ok h he
    have hp := dinv_pop h (by simp)
    have hl1 : l1 = [] := by
      cases l1 with
      | nil => rfl
      | cons y l1 =>
        exfalso
        have hh := hp.head
        have hn := hp.nodup
        simp only [List.cons_append, cellsOf_hd_cons] at hh
        rw [List.cons_append, cellsOf_cons, List.map_cons, List.nodup_cons] at hn
        refine hn.1 ?_
        rw [← hh]
        simp [cellsOf]
    subst hl1
    refine ⟨_, l2, rfl, ?_⟩
    subst hr
    simp only [List.nil_append] at hI
    obtain ⟨a1, a2, a3, a4, a5, a6⟩ := hI
    have hhead : r.2.head.pointer = hdPtr 0 (cellsOf l2 r.2.tail.pointer) := by
      rcases a6 with ⟨e, hi⟩ | hp2
      · subst e
        rw [(init_fields hi).1, (init_fields hi).2.1]
        rfl
      · exact hp2.head
    have e1 : r.1 = r.2.head := by
      rw [hr1, ← ht, ← hhead, ← hs, ← a2]
    rw [e1]
    exact ⟨a1, a2, a3, a4, a5, a6⟩

/-- A `pop_back()` that returns removed the last element. -/
theorem dinv_pop_back_ok {d : deque T} {xs : List (Nat × T)} (h : DInv d xs)
    {d2 : deque T} (hr : d.pop_back = .ok d2) :
    ∃ l1 x, xs = l1 ++ [x] ∧ DInv d2 l1 := by
  simp only [deque.pop_back, deque.sub_one, deque.stepPrev_one, bind_assoc] at hr
  rcases h.shape with ⟨-, hi⟩ | hp
  · simp [deque.rd, (init_fields hi).2.1] at hr
  · have ht0 := dinv_tail_ne hp
    have hrt := deque.rd_some ht0 (dpop_read_tail hp)
    rw [hrt] at hr
    simp only [ok_bind] at hr
    rcases list_nil_or_concat xs with rfl | ⟨l1, ⟨b, v⟩, rfl⟩
    · simp at hr
    · have hlast : lastPtr 0 ((l1 ++ [(b, v)]).map (fun p => (p.1, some p.2))) = b := by
        simp
      rw [hlast] at hr
      have hb0 : b ≠ 0 := by
        intro e
        exact hp.nz (by simp [cellsOf, e])
      simp only [hb0, if_false, pure_eq_ok, ok_bind] at hr
      cases he : d.erase ⟨b, d.tail.belong⟩ with
      | error e => rw [he] at hr; cases hr
      | ok r =>
        rw [he] at hr
        simp only [ok_bind, Except.ok.injEq] at hr
        obtain ⟨l3, v3, l2, hxs, hbel, hI, ht, hs, hr1⟩ := dinv_erase_ok h he
        simp only at hxs
        have hl2 : l2 = [] ∧ l3 = l1 := by
          have hn := hp.nodup
          have h1 : ((l1 ++ [(b, v)]).map Prod.fst).Nodup := by
            simp only [cellsOf, List.map_append, List.map_map] at hn
            have := (List.nodup_append.1 hn).1
            simpa [Function.comp] using this
          have h2 := h1
          rw [hxs] at h2
          have := @append_cons_unique _ (b, v) l1 [] l3 l2 (by
              rw [hxs]
              have hv : v = v3 := by
                have hm : (b, v) ∈ l3 ++ (b, v3) :: l2 := by rw [← hxs]; simp
                simp only [List.mem_append, List.mem_cons, Prod.mk.injEq, true_and] at hm
                rcases hm with hm | hm | hm
                · exfalso
                  have := h2
                  simp only [List.map_append, List.map_cons, List.nodup_append,
                    List.nodup_cons, List.disjoint_cons_right] at this
                  exact this.2.2.1 (List.mem_map.2 ⟨_, hm, rfl⟩)
                · exact hm
                · exfalso
                  have := h2
                  simp only [List.map_append, List.map_cons, List.nodup_append,
                    List.nodup_cons, List.disjoint_cons_right] at this
                  exact this.2.1.1 (List.mem_map.2 ⟨_, hm, rfl⟩)
              rw [hv])
            (fun hm => by
              have := h1
              simp only [List.map_append, List.map_cons, List.map_nil, List.nodup_append]
                at this
              exact this.2.2 (List.mem_map.2 ⟨_, hm, rfl⟩) (by simp))
            (fun hm => by
              have := h2
              simp only [List.map_append, List.map_cons, List.nodup_append,
                List.nodup_cons, List.disjoint_cons_right] at this
              refine this.2.2.1 (List.mem_map.2 ⟨(b, v), hm, rfl⟩))
          exact ⟨this.2.symm, this.1.symm⟩
        obtain ⟨rfl, rfl⟩ := hl2
        refine ⟨l3, (b, v), rfl, ?_⟩
        subst hr
        simp only [List.append_nil] at hI
        have e1 : r.1 = r.2.tail := by
          rw [hr1, ht]
          show (⟨d.tail.pointer, d.self⟩ : deque.iterator) = d.tail
          rw [← h.tb]
        rw [e1]
        exact hI

end sjtu

namespace sjtu

open deque

variable {T : Type}

theorem dinv_empty_iff {d : deque T} {xs : List (Nat × T)} (h : DInv d xs) :
    d.empty = true ↔ xs = [] := by
  simp only [deque.empty, beq_iff_eq, h.size, List.length_eq_zero]

/-- Effect of `insertAt` at a position of the chain, on the elements. -/
theorem dinv_insertAt_ok {d : deque T} {xs : List (Nat × T)} (h : DInv d xs) (hx : xs ≠ [])
    {pos : deque.iterator} (hbel : pos.belong = d.self) {value : T}
    {r : deque.iterator × deque T} (hr : d.insertAt pos value = .ok r) :
    ∃ l1 l2, xs = l1 ++ l2 ∧ pos.pointer = hdPtr 0 (cellsOf l2 d.tail.pointer) ∧
      DInv r.2 (l1 ++ (d.brk, value) :: l2) ∧ r.1 = ⟨d.brk, d.self⟩ ∧
      r.2.self = d.self ∧ r.2.tail = d.tail := by
  have hp := dinv_pop h hx
  have hp0 : pos.pointer ≠ 0 := by
    intro e
    simp [deque.insertAt, e] at hr
  cases hm : d.mem pos.pointer with
  | none => simp [deque.insertAt, deque.rd, hp0, hm] at hr
  | some np =>
    have hq := dpop_mem_of_read hp hm
    have key : ∃ l1 l2, xs = l1 ++ l2 ∧ pos.pointer = hdPtr 0 (cellsOf l2 d.tail.pointer) := by
      rcases mem_cellsOf_split hq with ⟨e, -⟩ | ⟨l1, v, l2, e⟩
      · exact ⟨xs, [], by simp, e⟩
      · exact ⟨l1, (pos.pointer, v) :: l2, e, rfl⟩
    obtain ⟨l1, l2, rfl, hptr⟩ := key
    obtain ⟨c, rest, hc, hc1⟩ := cellsOf_exists_cons l2 d.tail.pointer
    have hp2 := hp
    rw [cellsOf_append, hc] at hp2
    obtain ⟨d2, h1, h2, h3, h4, h5, h6, h7⟩ := dpop_insertAt hp2 h.brk_pos
      (show pos.pointer = _ by rw [hptr, hc1]) (by rw [hbel, h.hb]) value
    rw [h1] at hr
    cases hr
    refine ⟨l1, l2, rfl, hptr, ⟨by rw [h3]; exact h.self_ne, by rw [h6, h3]; exact h.hb,
      by rw [h4, h3]; exact h.tb, ?_, by rw [h7]; omega, Or.inr ?_⟩, rfl, h3, h4⟩
    · simp only
      rw [h5, h.size]
      simp
      omega
    · simp only
      rw [h4, cellsOf_append_cons, hc]
      exact h2

/-- Method `push_back(value)`: it returns, with the element added last. -/
theorem dinv_push_back {d : deque T} {xs : List (Nat × T)} (h : DInv d xs) (value : T) :
    ∃ d2, d.push_back value = .ok d2 ∧ DInv d2 (xs ++ [(d.brk, value)]) ∧ d2.self = d.self := by
  by_cases he : d.empty = true
  · have hx := (dinv_empty_iff h).1 he
    subst hx
    obtain ⟨d2, h1, h2, h3⟩ := dinv_initialize h value
    exact ⟨d2, by simp only [deque.push_back, he, if_true, h1], h2, h3⟩
  · have hx : xs ≠ [] := fun e => he ((dinv_empty_iff h).2 e)
    have hp := dinv_pop h hx
    have hsplit : cellsOf xs d.tail.pointer =
        xs.map (fun p => (p.1, some p.2)) ++ (d.tail.pointer, none) :: [] := rfl
    rw [hsplit] at hp
    obtain ⟨d2, h1, h2, h3, h4, h5, h6, h7⟩ := dpop_insertAt hp h.brk_pos
      (show d.tail.pointer = _ from rfl) (by rw [h.tb, h.hb]) value
    refine ⟨d2, ?_, ⟨by rw [h3]; exact h.self_ne, by rw [h6, h3]; exact h.hb,
      by rw [h4, h3]; exact h.tb, ?_, by rw [h7]; omega, Or.inr ?_⟩, h3⟩
    · simp only [deque.push_back, he, h.tb, ne_eq, not_true_eq_false, if_false, h1, ok_bind,
        pure_eq_ok, Bool.false_eq_true]
    · rw [h5, h.size]
      simp
    · rw [h4]
      have : cellsOf (xs ++ [(d.brk, value)]) d.tail.pointer =
          xs.map (fun p => (p.1, some p.2)) ++ (d.brk, some value) :: (d.tail.pointer, none) :: []
          := by simp [cellsOf]
      rw [this]
      exact h2

/-- An `insert` that returns added one element. -/
theorem dinv_insert_ok {d : deque T} {xs : List (Nat × T)} (h : DInv d xs)
    {pos : deque.iterator} {value : T} {r : deque.iterator × deque T}
    (hr : d.insert pos value = .ok r) :
    ∃ l1 l2, xs = l1 ++ l2 ∧ DInv r.2 (l1 ++ (d.brk, value) :: l2) ∧ r.2.self = d.self := by
  have hbel : pos.belong = d.self := by
    by_contra e
    simp [deque.insert, e] at hr
  by_cases he : d.empty = true
  · have hx := (dinv_empty_iff h).1 he
    subst hx
    obtain ⟨d2, h1, h2, h3⟩ := dinv_push_back h value
    simp only [deque.insert, hbel, ne_eq, not_true_eq_false, if_false, he, if_true, h1, ok_bind,
      pure_eq_ok, Except.ok.injEq] at hr
    subst hr
    exact ⟨[], [], rfl, h2, h3⟩
  · have hx : xs ≠ [] := fun e => he ((dinv_empty_iff h).2 e)
    simp only [deque.insert, hbel, ne_eq, not_true_eq_false, if_false, he,
      Bool.false_eq_true] at hr
    obtain ⟨l1, l2, e, -, hI, -, hs, -⟩ := dinv_insertAt_ok h hx hbel hr
    exact ⟨l1, l2, e, hI, hs⟩

/-- A `push_front(value)` that returns added one element. -/
theorem dinv_push_front_ok {d : deque T} {xs : List (Nat × T)} (h : DInv d xs) {value : T}
    {d2 : deque T} (hr : d.push_front value = .ok d2) :
    ∃ l1 l2, xs = l1 ++ l2 ∧ DInv d2 (l1 ++ (d.brk, value) :: l2) ∧ d2.self = d.self := by
  by_cases he : d.empty = true
  · have hx := (dinv_empty_iff h).1 he
    subst hx
    obtain ⟨d3, h1, h2, h3⟩ := dinv_initialize h value
    simp only [deque.push_front, he, if_true, h1, Except.ok.injEq] at hr
    subst hr
    exact ⟨[], [], rfl, h2, h3⟩
  · simp only [deque.push_front, he, Bool.false_eq_true, if_false] at hr
    cases hi : d.insert d.head value with
    | error e => rw [hi] at hr; cases hr
    | ok r =>
      rw [hi] at hr
      simp only [ok_bind, pure_eq_ok, Except.ok.injEq] at hr
      subst hr
      exact dinv_insert_ok h hi

theorem dreach_inv {d : deque T} (h : DReach d) : ∃ xs, DInv d xs := by
  induction h with
  | init self h => exact ⟨[], dinv_init h⟩
  | push_back _ value d2 hr ih =>
    obtain ⟨xs, hI⟩ := ih
    obtain ⟨d3, h1, h2, -⟩ := dinv_push_back hI value
    rw [h1] at hr
    cases hr
    exact ⟨_, h2⟩
  | push_front _ value d2 hr ih =>
    obtain ⟨xs, hI⟩ := ih
    obtain ⟨l1, l2, -, h2, -⟩ := dinv_push_front_ok hI hr
    exact ⟨_, h2⟩
  | pop_back _ d2 hr ih =>
    obtain ⟨xs, hI⟩ := ih
    obtain ⟨l1, x, -, h2⟩ := dinv_pop_back_ok hI hr
    exact ⟨_, h2⟩
  | pop_front _ d2 hr ih =>
    obtain ⟨xs, hI⟩ := ih
    obtain ⟨x, l2, -, h2⟩ := dinv_pop_front_ok hI hr
    exact ⟨_, h2⟩
  | insert _ pos value r hr ih =>
    obtain ⟨xs, hI⟩ := ih
    obtain ⟨l1, l2, -, h2, -⟩ := dinv_insert_ok hI hr
    exact ⟨_, h2⟩
  | erase _ pos r hr ih =>
    obtain ⟨xs, hI⟩ := ih
    obtain ⟨l1, v, l2, -, -, h2, -⟩ := dinv_erase_ok hI hr
    exact ⟨_, h2⟩

/-- On an empty deque `pop_front()` is rejected by the guard of `erase`. -/
theorem dinv_pop_front_empty {d : deque T} (h : DInv d []) :
    d.pop_front = .error .invalid_iterator := by
  rcases h.shape with ⟨-, hi⟩ | hp
  · simp [deque.pop_front, deque.erase, (init_fields hi).1]
  · have ht0 := dinv_tail_ne hp
    have hh : d.head.pointer = d.tail.pointer := hp.head
    have hrt := deque.rd_some ht0 (dpop_read_tail hp)
    simp [deque.pop_front, deque.erase, hh, ht0, hrt]

/-- On a deque that was populated and is empty again `pop_back()` is rejected
by the loop of `operator-`; on one that was never populated it dereferences the
null `tail.pointer`. -/
theorem dinv_pop_back_empty {d : deque T} (h : DInv d []) :
    d.pop_back = .error (if d.tail.pointer = 0 then .bad_pointer else .invalid_iterator) := by
  rcases h.shape with ⟨-, hi⟩ | hp
  · simp [deque.pop_back, deque.sub_one, deque.stepPrev_one, deque.rd, (init_fields hi).2.1]
  · have ht0 := dinv_tail_ne hp
    have hrt := deque.rd_some ht0 (dpop_read_tail hp)
    simp [deque.pop_back, deque.sub_one, deque.stepPrev_one, hrt, ht0]

/-- The tail sentinel is missing exactly in the state the constructor leaves:
a deque that is empty again after having held elements keeps its sentinel. -/
theorem dinv_never_iff {d : deque T} {xs : List (Nat × T)} (h : DInv d xs) :
    d.tail.pointer = 0 ↔ d = deque.init d.self := by
  constructor
  · intro e
    rcases h.shape with ⟨-, hi⟩ | hp
    · exact hi
    · exact absurd e (dinv_tail_ne hp)
  · intro hi
    exact (init_fields hi).2.1

end sjtu

namespace sjtu

variable {K V : Type}

theorem bal_noRedRed : ∀ {T : PT K V}, T.Bal → T.NoRedRed
  | .nil, _ => trivial
  | .node _ _ _ _ _ _, h => ⟨h.2.2.2, bal_noRedRed h.1, bal_noRedRed h.2.1⟩

theorem bal_blackCounts : ∀ {T : PT K V}, T.Bal → ∀ n ∈ T.blackCounts, n = T.bh
  | .nil, _, n, hn => by simpa [PT.blackCounts] using hn
  | .node _ _ c l _ r, h, n, hn => by
    simp only [PT.blackCounts, List.mem_map, List.mem_append] at hn
    obtain ⟨x, hx, rfl⟩ := hn
    rcases hx with hx | hx
    · rw [bal_blackCounts h.1 x hx]; rfl
    · rw [bal_blackCounts h.2.1 x hx, ← h.2.2.1]; rfl

theorem read_root {t : RB_Tree K V} {T : PT K V} {np : Nat} (hM : Models t T np) :
    ∃ n, t.rd t.root = .ok n ∧ n.color = T.col := by
  obtain ⟨n, h1, h2, -⟩ := read_any (Γ := []) (S := T) hM
  exact ⟨n, hM.root ▸ h1, h2⟩

theorem node_of_pair {T : PT K V} {kv : K × V} (h : kv ∈ T.toList) : ∃ a, (a, kv) ∈ T.nodes := by
  rw [PT.toList_eq_nodes, List.mem_map] at h
  obtain ⟨⟨a, kv2⟩, h1, rfl⟩ := h
  exact ⟨a, h1⟩

section order

variable [LinearOrder K]

theorem holds_kth_rank {m : map K V} {T : PT K V} {fuel : Nat} (h : Holds m T) (k : Int)
    (h1 : 1 ≤ k) (h2 : k ≤ (T.toList.length : Int)) (hf : T.height < fuel) :
    ∃ p nd kv, m.rb_tree.kth fuel k = .ok p ∧ p ≠ m.rb_tree.null ∧
      m.rb_tree.rd p = .ok nd ∧ nd.value = some kv ∧ m.rb_tree.rank fuel kv.1 = .ok k := by
  obtain ⟨-, np, hM, hW⟩ := h
  have hlen : T.nodes.length = T.toList.length := by
    rw [PT.nodes_length, PT.card_eq_length]
  have hi : (k - 1).toNat < T.nodes.length := by omega
  have hmem : (T.nodes[(k - 1).toNat].1, T.nodes[(k - 1).toNat].2) ∈ T.nodes :=
    List.getElem_mem _
  obtain ⟨nd, hr, hv, hne, -⟩ := read_node hM hW.ord hmem
  have hk : T.kthPtr m.rb_tree.null k = T.nodes[(k - 1).toNat].1 := by
    simp only [PT.kthPtr, h1, if_true, List.getElem?_eq_getElem hi, Option.map_some',
      Option.getD_some]
  have hkeys : T.keys = T.nodes.map (fun p => p.2.1) := by
    rw [PT.keys, PT.toList_eq_nodes, List.map_map]; rfl
  have hnd : T.keys.Nodup := (hW.ord : T.keys.Pairwise (· < ·)).imp (fun h => ne_of_lt h)
  have hi2 : (k - 1).toNat < T.keys.length := by rw [hkeys, List.length_map]; exact hi
  have hget : T.keys[(k - 1).toNat] = T.nodes[(k - 1).toNat].2.1 := by
    simp [hkeys]
  have hidx : T.keys.indexOf T.nodes[(k - 1).toNat].2.1 = (k - 1).toNat := by
    rw [← hget]
    exact List.indexOf_getElem hnd _ hi2
  refine ⟨_, nd, _, ?_, hne, hr, hv, ?_⟩
  · rw [kth_spec k hM hW.size hf, hk]
  · rw [rank_spec _ hM hW hf, PT.rankOf, if_pos (mem_keys_of_nodes hmem), hidx]
    congr 1
    omega

theorem length_filter_split {l : List (K × V)} {k : K} (hk : ∀ p ∈ l, p.1 ≠ k) :
    (l.filter (fun p => decide (p.1 < k))).length +
      (l.filter (fun p => decide (k < p.1))).length = l.length := by
  induction l with
  | nil => rfl
  | cons x l ih =>
    have ih2 := ih (fun p hp => hk p (List.mem_cons_of_mem _ hp))
    have hx := hk x (List.mem_cons_self _ _)
    rcases lt_or_gt_of_ne hx with h1 | h1
    · have h2 : ¬ k < x.1 := not_lt_of_gt h1
      simp only [List.filter_cons, h1, decide_True, if_true, h2, decide_False,
        Bool.false_eq_true, if_false, List.length_cons]
      omega
    · have h2 : ¬ x.1 < k := not_lt_of_gt h1
      simp only [List.filter_cons, h1, decide_True, if_true, h2, decide_False,
        Bool.false_eq_true, if_false, List.length_cons]
      omega

theorem length_filter_ne {T : PT K V} (hO : T.Ord) {kv : K × V} (h : kv ∈ T.toList) :
    (T.toList.filter (fun p => decide (p.1 ≠ kv.1))).length + 1 = T.toList.length := by
  obtain ⟨l1, l2, e⟩ := List.append_of_mem h
  have hO2 : (T.toList.map Prod.fst).Pairwise (· < ·) := hO
  rw [e] at hO2 ⊢
  rw [filter_ne_of_sorted hO2]
  simp only [List.length_append, List.length_cons]
  omega

theorem mem_filter_ne_keys {l : List (K × V)} {k x : K} :
    x ∈ (l.filter (fun p => decide (p.1 ≠ k))).map Prod.fst ↔ x ∈ l.map Prod.fst ∧ x ≠ k := by
  simp only [List.mem_map, List.mem_filter, decide_eq_true_eq]
  constructor
  · rintro ⟨p, ⟨h1, h2⟩, rfl⟩
    exact ⟨⟨p, h1, rfl⟩, h2⟩
  · rintro ⟨⟨p, h1, rfl⟩, h2⟩
    exact ⟨p, ⟨h1, h2⟩, rfl⟩

theorem find_belong {m : map K V} {fuel : Nat} {k : K} {pos : map.iterator}
    (h : m.find fuel k = .ok pos) : pos.belong = m.self := by
  simp only [map.find] at h
  cases hq : m.rb_tree.find fuel k with
  | error e => rw [hq] at h; cases h
  | ok p =>
    rw [hq] at h
    simp only [ok_bind, pure_eq_ok, Except.ok.injEq] at h
    rw [← h]

end order

end sjtu

namespace sjtu

variable {K V : Type}

theorem demoMap_eq :
    map.insertAll 8 [(5, 50), (3, 30), (8, 80), (1, 10), (4, 40)] (map.empty 1) = .ok demoMap :=
  rfl

theorem demoMap_reachable : Reachable demoMap :=
  reachable_insertAll _ (Reachable.empty 1 (by decide)) demoMap_eq

section order

variable [LinearOrder K]

/-- Claim C1: every map reachable from the empty map by inserts and by erases
of present keys stores a tree in which the root and the sentinel are black,
no red node has a red child, and every path from the root to the sentinel
carries the same number of black nodes. -/
theorem reachable_red_black (m : map K V) (h : Reachable m) :
    ∃ T np, Models m.rb_tree T np ∧
      (∃ n, m.rb_tree.rd m.rb_tree.root = .ok n ∧ n.color = false) ∧
      (∃ n, m.rb_tree.rd m.rb_tree.null = .ok n ∧ n.color = false) ∧
      T.NoRedRed ∧ ∃ b, ∀ n ∈ T.blackCounts, n = b := by
  obtain ⟨T, -, np, hM, hW⟩ := reachable_holds h
  obtain ⟨n, h1, h2⟩ := read_root hM
  exact ⟨T, np, hM, ⟨n, h1, h2.trans hW.black⟩, ⟨_, read_null hM, rfl⟩, bal_noRedRed hW.bal,
    T.bh, bal_blackCounts hW.bal⟩

/-- Claim C2: in every map reachable from the empty map by inserts and by
erases of present keys, each node of the stored tree has
`size = size(left) + size(right) + 1`, the sentinel has size `0`, and `size()`
returns the number of keys stored. -/
theorem reachable_size_fields (m : map K V) (h : Reachable m) :
    ∃ T np, Models m.rb_tree T np ∧ T.SizeOK ∧
      (∃ n, m.rb_tree.rd m.rb_tree.null = .ok n ∧ n.size = 0) ∧
      m.size = .ok (T.keys.length : Int) := by
  obtain ⟨T, hH⟩ := reachable_holds h
  have hs := holds_size hH
  obtain ⟨-, np, hM, hW⟩ := hH
  refine ⟨T, np, hM, hW.size, ⟨_, read_null hM, rfl⟩, ?_⟩
  rw [hs, PT.keys, List.length_map]

/-- Claim C3: in every map built by inserts and erases, for each `k` with
`1 ≤ k ≤ size()`, `kth(k)` returns a node other than the sentinel, and `rank`
of the key of that node is `k`. -/
theorem kth_rank_inverse (m : map K V) (h : Reachable m) :
    ∃ n N, m.size = .ok n ∧ ∀ fuel, N ≤ fuel → ∀ k : Int, 1 ≤ k → k ≤ n →
      ∃ p nd kv, m.rb_tree.kth fuel k = .ok p ∧ p ≠ m.rb_tree.null ∧
        m.rb_tree.rd p = .ok nd ∧ nd.value = some kv ∧
        m.rb_tree.rank fuel kv.1 = .ok k := by
  obtain ⟨T, hH⟩ := reachable_holds h
  exact ⟨_, T.height + 1, holds_size hH, fun fuel hf k h1 h2 =>
    holds_kth_rank hH k h1 h2 (by omega)⟩

/-- Claim C4: after the pairs of any finite list have been inserted into an
empty map, `begin()` is at the smallest inserted key (at `end()` when the list
is empty), and stepping with `++` from `begin()` up to `end()` meets exactly
the inserted keys, in strictly increasing order, hence each once. -/
theorem traverse_sorted_distinct (self : Nat) (hs : self ≠ 0) (kvs : List (K × V)) :
    ∃ N, ∀ fuel, N ≤ fuel → ∃ m b ks,
      map.insertAll fuel kvs (map.empty self) = .ok m ∧
      m.begin fuel = .ok b ∧ m.traverse fuel = .ok ks ∧
      ks.Pairwise (· < ·) ∧ (∀ k, k ∈ ks ↔ k ∈ kvs.map Prod.fst) ∧
      (kvs = [] → b = m.end) ∧
      (kvs ≠ [] → ∃ nd kv, m.rb_tree.rd b.pointer = .ok nd ∧ nd.value = some kv ∧
        kv.1 ∈ kvs.map Prod.fst ∧ ∀ k ∈ kvs.map Prod.fst, kv.1 ≤ k) := by
  obtain ⟨N, m, T, hH, -, hm, hN⟩ := holds_insertAll kvs (holds_empty (K := K) (V := V) hs)
  have hkeys : ∀ k, k ∈ T.keys ↔ k ∈ kvs.map Prod.fst := by
    intro k
    rw [hm k]
    simp [PT.keys]
  have hkn : T.keys = T.nodes.map (fun p => p.2.1) := by
    rw [PT.keys, PT.toList_eq_nodes, List.map_map]; rfl
  refine ⟨max N (T.height + 1 + T.toList.length), fun fuel hf => ?_⟩
  have hf1 : N ≤ fuel := le_trans (le_max_left _ _) hf
  have hf2 : T.height + 1 + T.toList.length ≤ fuel := le_trans (le_max_right _ _) hf
  refine ⟨m, _, T.keys, hN fuel hf1, holds_begin hH (by omega),
    holds_traverse hH (by omega) (by omega), hH.2.choose_spec.2.ord, hkeys, ?_, ?_⟩
  · rintro rfl
    have : T.keys = [] := List.eq_nil_iff_forall_not_mem.2 (fun k hk => by simpa using (hkeys k).1 hk)
    rw [hkn, List.map_eq_nil_iff] at this
    rw [this]
    rfl
  · intro hne
    obtain ⟨-, np, hM, hW⟩ := hH
    cases hn : T.nodes with
    | nil =>
      exfalso
      have hk0 : T.keys = [] := by rw [hkn, hn]; rfl
      obtain ⟨x, rest, rfl⟩ := List.exists_cons_of_ne_nil hne
      have := (hkeys x.1).2 (by simp)
      rw [hk0] at this
      cases this
    | cons x rest =>
      have hx : (x.1, x.2) ∈ T.nodes := by rw [hn]; exact List.mem_cons_self _ _
      obtain ⟨nd, hr, hv, -, -⟩ := read_node hM hW.ord hx
      refine ⟨nd, x.2, hr, hv, (hkeys _).1 (mem_keys_of_nodes hx), fun k hk => ?_⟩
      have hk2 := (hkeys k).2 hk
      have ho : T.keys.Pairwise (· < ·) := hW.ord
      rw [hkn, hn, List.map_cons, List.pairwise_cons] at ho
      rw [hkn, hn, List.map_cons, List.mem_cons] at hk2
      rcases hk2 with rfl | hk2
      · exact le_refl _
      · exact le_of_lt (ho.1 k hk2)

/-- Claim C5: on every map, `insert` of a pair with an absent key returns and
makes `size()` larger by one, `insert` of a pair with a present key returns and
leaves `size()` as it was, and `erase` at an iterator of the map that refers
to one of its nodes returns and makes `size()` smaller by one. -/
theorem size_law (m : map K V) (h : Reachable m) :
    ∃ T n, Holds m T ∧ m.size = .ok n ∧ ∀ fuel, T.height + 3 ≤ fuel →
      (∀ k, m.count fuel k = .ok (if k ∈ T.keys then 1 else 0)) ∧
      (∀ k v, k ∉ T.keys →
        ∃ it m2, m.insert fuel (k, v) = .ok ((it, true), m2) ∧ m2.size = .ok (n + 1)) ∧
      (∀ k v, k ∈ T.keys →
        ∃ it m2, m.insert fuel (k, v) = .ok ((it, false), m2) ∧ m2.size = .ok n) ∧
      (∀ pos kv, pos.belong = m.self → (pos.pointer, kv) ∈ T.nodes →
        ∃ m2, m.erase fuel pos = .ok m2 ∧ m2.size = .ok (n - 1)) := by
  obtain ⟨T, hH⟩ := reachable_holds h
  refine ⟨T, _, hH, holds_size hH, fun fuel hf => ⟨fun k => holds_count hH k (by omega),
    ?_, ?_, ?_⟩⟩
  · intro k v hk
    obtain ⟨m2, T2, hi, hH2, -, hT2⟩ := holds_insert_new hH v hk hf
    refine ⟨_, m2, hi, ?_⟩
    rw [holds_size hH2, hT2]
    have := length_filter_split (l := T.toList) (k := k) (fun p hp e => hk (by
      rw [PT.keys, ← e]; exact List.mem_map_of_mem _ hp))
    simp only [List.length_append, List.length_cons]
    congr 1
    omega
  · intro k v hk
    obtain ⟨a, v2, hn⟩ := node_of_key hk
    exact ⟨_, m, holds_insert_dup hH hn v hf, holds_size hH⟩
  · intro pos kv hb hn
    obtain ⟨m2, T2, he, hH2, -, hT2⟩ := holds_erase hH hn hf
    have hp : pos = ⟨pos.pointer, m.self⟩ := by rw [← hb]
    refine ⟨m2, by rw [hp]; exact he, ?_⟩
    rw [holds_size hH2, hT2]
    have := length_filter_ne hH.2.choose_spec.2.ord (mem_toList_of_nodes hn)
    congr 1
    omega

/-- Claim C6: on every map, `insert((k, v))` returns; its flag is `true`
exactly when `k` was absent, and then `at(k)` returns `v` afterwards; when `k`
was present the flag is `false` and the whole map is left as it was. -/
theorem insert_flag_value (m : map K V) (h : Reachable m) (k : K) (v : V) :
    ∃ T, Holds m T ∧ ∀ fuel, T.height + 3 ≤ fuel →
      ∃ it flag m2, m.insert fuel (k, v) = .ok ((it, flag), m2) ∧
        (flag = true ↔ k ∉ T.keys) ∧
        (flag = true → ∃ N, ∀ fuel2, N ≤ fuel2 → m2.at fuel2 k = .ok v) ∧
        (flag = false → m2 = m) := by
  obtain ⟨T, hH⟩ := reachable_holds h
  refine ⟨T, hH, fun fuel hf => ?_⟩
  by_cases hk : k ∈ T.keys
  · obtain ⟨a, v2, hn⟩ := node_of_key hk
    exact ⟨_, false, m, holds_insert_dup hH hn v hf, by simp [hk], by simp, fun _ => rfl⟩
  · obtain ⟨m2, T2, hi, hH2, -, hT2⟩ := holds_insert_new hH v hk hf
    refine ⟨_, true, m2, hi, by simp [hk], fun _ => ?_, by simp⟩
    obtain ⟨a, hn⟩ := node_of_pair (T := T2) (show (k, v) ∈ T2.toList by rw [hT2]; simp)
    exact ⟨T2.height + 1, fun fuel2 hf2 => holds_at_present hH2 hn (by omega)⟩

/-- Claim C7, as the code behaves: the position that `insert((k, v))` returns
has no owner (`belong` is the null pointer), so it differs from whatever
`find(k)` returns afterwards, and `erase` rejects it with `invalid_iterator`. -/
theorem insert_iterator_no_owner (m : map K V) (h : Reachable m) (k : K) (v : V) :
    ∃ N, ∀ fuel, N ≤ fuel → ∃ it flag m2, m.insert fuel (k, v) = .ok ((it, flag), m2) ∧
      it.belong = 0 ∧
      (∀ fuel2 pos, m2.find fuel2 k = .ok pos → it ≠ pos) ∧
      (∀ fuel2, m2.erase fuel2 it = .error .invalid_iterator) := by
  obtain ⟨T, hH⟩ := reachable_holds h
  refine ⟨T.height + 3, fun fuel hf => ?_⟩
  have key : ∃ a flag m2, m.insert fuel (k, v) = .ok ((⟨a, 0⟩, flag), m2) ∧ m2.self ≠ 0 := by
    by_cases hk : k ∈ T.keys
    · obtain ⟨a, v2, hn⟩ := node_of_key hk
      exact ⟨a, false, m, holds_insert_dup hH hn v hf, hH.1⟩
    · obtain ⟨m2, T2, hi, hH2, -, -⟩ := holds_insert_new hH v hk hf
      exact ⟨_, true, m2, hi, hH2.1⟩
  obtain ⟨a, flag, m2, hi, hs⟩ := key
  refine ⟨⟨a, 0⟩, flag, m2, hi, rfl, fun fuel2 pos hp e => ?_, fun fuel2 => ?_⟩
  · have := find_belong hp
    rw [← e] at this
    exact hs this.symm
  · have : (0 : Nat) ≠ m2.self := fun e => hs e.symm
    simp [map.erase, this]

/-- Claim C8: on every map and for every key `k` present in it,
`erase(find(k))` returns, after which `find(k)` is `end()` and `count(k)` is
`0`, while every other key that was present is still found and `at` returns
the value it had. -/
theorem erase_find_removes (m : map K V) (h : Reachable m) :
    ∃ T, Holds m T ∧ ∀ fuel, T.height + 3 ≤ fuel → ∀ k, k ∈ T.keys →
      ∃ pos m2, m.find fuel k = .ok pos ∧ pos ≠ m.end ∧ m.erase fuel pos = .ok m2 ∧
        ∃ N, ∀ fuel2, N ≤ fuel2 →
          m2.find fuel2 k = .ok m2.end ∧ m2.count fuel2 k = .ok 0 ∧
          ∀ k2 v2, k2 ≠ k → (k2, v2) ∈ T.toList →
            m2.at fuel2 k2 = .ok v2 ∧ ∃ p, m2.find fuel2 k2 = .ok p ∧ p ≠ m2.end := by
  obtain ⟨T, hH⟩ := reachable_holds h
  refine ⟨T, hH, fun fuel hf k hk => ?_⟩
  obtain ⟨a, v, hn⟩ := node_of_key hk
  obtain ⟨hf1, hf2⟩ := holds_find_present hH hn (show T.height < fuel by omega)
  obtain ⟨m2, T2, he, hH2, -, hT2⟩ := holds_erase hH hn hf
  simp only at hT2 hf1
  have hk2 : k ∉ T2.keys := by
    rw [PT.keys, hT2, mem_filter_ne_keys]
    exact fun h => h.2 rfl
  refine ⟨_, m2, hf1, hf2, he, T2.height + 1, fun fuel2 hf3 => ⟨?_, ?_, ?_⟩⟩
  · exact holds_find_absent hH2 hk2 (by omega)
  · rw [holds_count hH2 k (by omega), if_neg hk2]
  · intro k2 v2 hne hmem
    have hmem2 : (k2, v2) ∈ T2.toList := by
      rw [hT2, List.mem_filter]
      exact ⟨hmem, by simpa using hne⟩
    obtain ⟨b, hb⟩ := node_of_pair hmem2
    obtain ⟨g1, g2⟩ := holds_find_present hH2 hb (show T2.height < fuel2 by omega)
    exact ⟨holds_at_present hH2 hb (by omega), _, g1, g2⟩

/-- Claim C9: on every map, `at(k)` raises `index_out_of_bound` exactly when
`k` is absent, and returns the value mapped to `k` otherwise.  The method
performs no assignment, so its embedding returns a value and no new state:
contents and size are what they were. -/
theorem at_raises_iff_absent (m : map K V) (h : Reachable m) :
    ∃ T, Holds m T ∧ ∀ fuel, T.height < fuel → ∀ k,
      (m.at fuel k = .error .index_out_of_bound ↔ k ∉ T.keys) ∧
      (∀ v, (k, v) ∈ T.toList → m.at fuel k = .ok v) := by
  obtain ⟨T, hH⟩ := reachable_holds h
  refine ⟨T, hH, fun fuel hf k => ?_⟩
  have hp : ∀ v, (k, v) ∈ T.toList → m.at fuel k = .ok v := by
    intro v hv
    obtain ⟨a, hn⟩ := node_of_pair hv
    exact holds_at_present hH hn hf
  refine ⟨⟨fun he hk => ?_, fun hk => holds_at_absent hH hk hf⟩, hp⟩
  rw [PT.keys, List.mem_map] at hk
  obtain ⟨⟨k2, v⟩, hv, rfl⟩ := hk
  rw [hp v hv] at he
  cases he

end order

end sjtu

namespace sjtu

theorem demoDeque_reachable : DReach demoDeque :=
  DReach.pop_back (DReach.push_back (DReach.init 1 (by decide)) 10 demoDequeOne rfl) demoDeque rfl

theorem demoDeque_ne_init : demoDeque ≠ deque.init demoDeque.self :=
  fun h => absurd (congrArg deque.brk h) (by decide)

/-- Claim C10, as the code behaves: on every empty deque `pop_front()` raises
`invalid_iterator`, and so does `pop_back()` on every empty deque that is not
in the state the constructor leaves, that is, one emptied again after it has
held elements. -/
theorem pop_empty_invalid_iterator {T : Type} (d : deque T) (h : DReach d)
    (he : d.empty = true) :
    d.pop_front = .error .invalid_iterator ∧
      (d ≠ deque.init d.self → d.pop_back = .error .invalid_iterator) := by
  obtain ⟨xs, hI⟩ := dreach_inv h
  have hx : xs = [] := (dinv_empty_iff hI).1 he
  subst hx
  refine ⟨dinv_pop_front_empty hI, fun hne => ?_⟩
  have ht : d.tail.pointer ≠ 0 := fun e => hne ((dinv_never_iff hI).1 e)
  rw [dinv_pop_back_empty hI, if_neg ht]

end sjtu

namespace sjtu

/-- Instance for C1: the example map `demoMap`. -/
theorem reachable_red_black_witness :
    Reachable demoMap ∧
    ∃ T np, Models demoMap.rb_tree T np ∧
      (∃ n, demoMap.rb_tree.rd demoMap.rb_tree.root = .ok n ∧ n.color = false) ∧
      (∃ n, demoMap.rb_tree.rd demoMap.rb_tree.null = .ok n ∧ n.color = false) ∧
      T.NoRedRed ∧ ∃ b, ∀ n ∈ T.blackCounts, n = b :=
  ⟨demoMap_reachable, reachable_red_black demoMap demoMap_reachable⟩

/-- Instance for C2: the example map `demoMap`. -/
theorem reachable_size_fields_witness :
    Reachable demoMap ∧
    ∃ T np, Models demoMap.rb_tree T np ∧ T.SizeOK ∧
      (∃ n, demoMap.rb_tree.rd demoMap.rb_tree.null = .ok n ∧ n.size = 0) ∧
      demoMap.size = .ok (T.keys.length : Int) :=
  ⟨demoMap_reachable, reachable_size_fields demoMap demoMap_reachable⟩

/-- Instance for C3: the example map `demoMap`. -/
theorem kth_rank_inverse_witness :
    Reachable demoMap ∧
    ∃ n N, demoMap.size = .ok n ∧ ∀ fuel, N ≤ fuel → ∀ k : Int, 1 ≤ k → k ≤ n →
      ∃ p nd kv, demoMap.rb_tree.kth fuel k = .ok p ∧ p ≠ demoMap.rb_tree.null ∧
        demoMap.rb_tree.rd p = .ok nd ∧ nd.value = some kv ∧
        demoMap.rb_tree.rank fuel kv.1 = .ok k :=
  ⟨demoMap_reachable, kth_rank_inverse demoMap demoMap_reachable⟩

/-- Instance for C4: the keys 5, 3, 8, 1, 4 inserted into the empty map at
address `1`; evaluated with fuel `8`, `begin()` is at the key `1` and the
traversal is 1, 3, 4, 5, 8. -/
theorem traverse_sorted_distinct_witness :
    (1 : Nat) ≠ 0 ∧
    (∃ N, ∀ fuel, N ≤ fuel → ∃ m b ks,
      map.insertAll fuel ([(5, 50), (3, 30), (8, 80), (1, 10), (4, 40)] : List (Nat × Nat))
        (map.empty 1) = .ok m ∧
      m.begin fuel = .ok b ∧ m.traverse fuel = .ok ks ∧
      ks.Pairwise (· < ·) ∧
      (∀ k, k ∈ ks ↔
        k ∈ ([(5, 50), (3, 30), (8, 80), (1, 10), (4, 40)] : List (Nat × Nat)).map Prod.fst) ∧
      (([(5, 50), (3, 30), (8, 80), (1, 10), (4, 40)] : List (Nat × Nat)) = [] → b = m.end) ∧
      (([(5, 50), (3, 30), (8, 80), (1, 10), (4, 40)] : List (Nat × Nat)) ≠ [] →
        ∃ nd kv, m.rb_tree.rd b.pointer = .ok nd ∧ nd.value = some kv ∧
        kv.1 ∈ ([(5, 50), (3, 30), (8, 80), (1, 10), (4, 40)] : List (Nat × Nat)).map Prod.fst ∧
        ∀ k ∈ ([(5, 50), (3, 30), (8, 80), (1, 10), (4, 40)] : List (Nat × Nat)).map Prod.fst,
          kv.1 ≤ k)) ∧
    map.insertAll 8 ([(5, 50), (3, 30), (8, 80), (1, 10), (4, 40)] : List (Nat × Nat))
      (map.empty 1) = .ok demoMap ∧
    (∃ b nd, demoMap.begin 8 = .ok b ∧ demoMap.rb_tree.rd b.pointer = .ok nd ∧
      nd.value = some (1, 10)) ∧
    demoMap.traverse 8 = .ok [1, 3, 4, 5, 8] :=
  ⟨by decide, traverse_sorted_distinct 1 (by decide) _, rfl, ⟨_, _, rfl, rfl, rfl⟩, rfl⟩

/-- Instance for C5: the example map `demoMap`. -/
theorem size_law_witness :
    Reachable demoMap ∧
    ∃ T n, Holds demoMap T ∧ demoMap.size = .ok n ∧ ∀ fuel, T.height + 3 ≤ fuel →
      (∀ k, demoMap.count fuel k = .ok (if k ∈ T.keys then 1 else 0)) ∧
      (∀ k v, k ∉ T.keys →
        ∃ it m2, demoMap.insert fuel (k, v) = .ok ((it, true), m2) ∧ m2.size = .ok (n + 1)) ∧
      (∀ k v, k ∈ T.keys →
        ∃ it m2, demoMap.insert fuel (k, v) = .ok ((it, false), m2) ∧ m2.size = .ok n) ∧
      (∀ pos kv, pos.belong = demoMap.self → (pos.pointer, kv) ∈ T.nodes →
        ∃ m2, demoMap.erase fuel pos = .ok m2 ∧ m2.size = .ok (n - 1)) :=
  ⟨demoMap_reachable, size_law demoMap demoMap_reachable⟩

/-- Instance for C6: the insertion of `(9, 90)` into the example map `demoMap`. -/
theorem insert_flag_value_witness :
    Reachable demoMap ∧
    ∃ T, Holds demoMap T ∧ ∀ fuel, T.height + 3 ≤ fuel →
      ∃ it flag m2, demoMap.insert fuel (9, 90) = .ok ((it, flag), m2) ∧
        (flag = true ↔ 9 ∉ T.keys) ∧
        (flag = true → ∃ N, ∀ fuel2, N ≤ fuel2 → m2.at fuel2 9 = .ok 90) ∧
        (flag = false → m2 = demoMap) :=
  ⟨demoMap_reachable, insert_flag_value demoMap demoMap_reachable 9 90⟩

/-- Instance for C7: the insertion of `(5, 7)` into the empty map at address
`1`; the position returned is `(2, nullptr)`, `find(5)` gives `(2, this)`,
`erase` rejects the former and accepts the latter. -/
theorem insert_iterator_no_owner_witness :
    Reachable (map.empty 1 : map Nat Nat) ∧
    (∃ N, ∀ fuel, N ≤ fuel → ∃ it flag m2,
      (map.empty 1 : map Nat Nat).insert fuel (5, 7) = .ok ((it, flag), m2) ∧
      it.belong = 0 ∧
      (∀ fuel2 pos, m2.find fuel2 5 = .ok pos → it ≠ pos) ∧
      (∀ fuel2, m2.erase fuel2 it = .error .invalid_iterator)) ∧
    ∃ m2, (map.empty 1 : map Nat Nat).insert 3 (5, 7) = .ok ((⟨2, 0⟩, true), m2) ∧
      m2.find 3 5 = .ok ⟨2, 1⟩ ∧ m2.erase 3 ⟨2, 0⟩ = .error .invalid_iterator ∧
      (∃ m3, m2.erase 3 ⟨2, 1⟩ = .ok m3) :=
  ⟨Reachable.empty 1 (by decide),
    insert_iterator_no_owner (map.empty 1) (Reachable.empty 1 (by decide)) 5 7,
    ⟨_, rfl, rfl, rfl, ⟨_, rfl⟩⟩⟩

/-- Instance for C8: the example map `demoMap`. -/
theorem erase_find_removes_witness :
    Reachable demoMap ∧
    ∃ T, Holds demoMap T ∧ ∀ fuel, T.height + 3 ≤ fuel → ∀ k, k ∈ T.keys →
      ∃ pos m2, demoMap.find fuel k = .ok pos ∧ pos ≠ demoMap.end ∧
        demoMap.erase fuel pos = .ok m2 ∧
        ∃ N, ∀ fuel2, N ≤ fuel2 →
          m2.find fuel2 k = .ok m2.end ∧ m2.count fuel2 k = .ok 0 ∧
          ∀ k2 v2, k2 ≠ k → (k2, v2) ∈ T.toList →
            m2.at fuel2 k2 = .ok v2 ∧ ∃ p, m2.find fuel2 k2 = .ok p ∧ p ≠ m2.end :=
  ⟨demoMap_reachable, erase_find_removes demoMap demoMap_reachable⟩

/-- Instance for C9: the example map `demoMap`. -/
theorem at_raises_iff_absent_witness :
    Reachable demoMap ∧
    ∃ T, Holds demoMap T ∧ ∀ fuel, T.height < fuel → ∀ k,
      (demoMap.at fuel k = .error .index_out_of_bound ↔ k ∉ T.keys) ∧
      (∀ v, (k, v) ∈ T.toList → demoMap.at fuel k = .ok v) :=
  ⟨demoMap_reachable, at_raises_iff_absent demoMap demoMap_reachable⟩

/-- Counter-instance for C10: on the deque the constructor leaves, and on a
deque emptied again by `pop_back()`, the pops raise `invalid_iterator`, not
`container_is_empty`. -/
theorem pop_empty_not_container_is_empty :
    (deque.init 1 : deque Nat).empty = true ∧
    (deque.init 1 : deque Nat).pop_front = .error .invalid_iterator ∧
    (deque.init 1 : deque Nat).pop_front ≠ .error .container_is_empty ∧
    demoDeque.empty = true ∧
    demoDeque.pop_front = .error .invalid_iterator ∧
    demoDeque.pop_front ≠ .error .container_is_empty ∧
    demoDeque.pop_back = .error .invalid_iterator ∧
    demoDeque.pop_back ≠ .error .container_is_empty :=
  have ne : (Except.error Fault.invalid_iterator : Except Fault (deque Nat)) ≠
      .error .container_is_empty := fun h => by cases h
  ⟨rfl, rfl, ne, rfl, rfl, ne, rfl, ne⟩

/-- Instance for C10, as the code behaves: the example deque `demoDeque`,
emptied again by `pop_back()`. -/
theorem pop_empty_invalid_iterator_witness :
    DReach demoDeque ∧ demoDeque.empty = true ∧ demoDeque ≠ deque.init demoDeque.self ∧
    demoDeque.pop_front = .error .invalid_iterator ∧
    demoDeque.pop_back = .error .invalid_iterator :=
  ⟨demoDeque_reachable, rfl, demoDeque_ne_init,
    (pop_empty_invalid_iterator demoDeque demoDeque_reachable rfl).1,
    (pop_empty_invalid_iterator demoDeque demoDeque_reachable rfl).2 demoDeque_ne_init⟩

end sjtu

namespace sjtu

open deque

variable {T : Type}

@[simp] theorem ptrAt_cons_zero (c : Nat × Option T) (ys : List (Nat × Option T)) :
    ptrAt (c :: ys) 0 = c.1 := by simp [ptrAt]

@[simp] theorem ptrAt_cons_succ (c : Nat × Option T) (ys : List (Nat × Option T)) (k : Nat) :
    ptrAt (c :: ys) (k + 1) = ptrAt ys k := by simp [ptrAt]

@[simp] theorem ptrAt_nil (k : Nat) : ptrAt ([] : List (Nat × Option T)) k = 0 := rfl

theorem ptrAt_of_le {ys : List (Nat × Option T)} {k : Nat} (h : ys.length ≤ k) :
    ptrAt ys k = 0 := by
  simp [ptrAt, List.getElem?_eq_none h]

theorem ptrAt_mem : ∀ {ys : List (Nat × Option T)} {k : Nat}, k < ys.length →
    ptrAt ys k ∈ ys.map Prod.fst
  | [], _, h => by simp at h
  | c :: ys, 0, _ => by simp
  | c :: ys, k + 1, h => by
    have := ptrAt_mem (show k < ys.length by simpa using h)
    simp only [ptrAt_cons_succ, List.map_cons, List.mem_cons]
    exact Or.inr this

theorem hdPtr_eq_ptrAt (ys : List (Nat × Option T)) : hdPtr 0 ys = ptrAt ys 0 := by
  cases ys <;> simp [hdPtr, ptrAt]

theorem ptrAt_inj : ∀ {ys : List (Nat × Option T)} {i j : Nat}, (ys.map Prod.fst).Nodup →
    i < ys.length → j < ys.length → ptrAt ys i = ptrAt ys j → i = j
  | [], _, _, _, h, _, _ => by simp at h
  | c :: ys, 0, 0, _, _, _, _ => rfl
  | c :: ys, 0, j + 1, hn, _, hj, e => by
    exfalso
    simp only [List.map_cons, List.nodup_cons] at hn
    simp only [ptrAt_cons_zero, ptrAt_cons_succ] at e
    exact hn.1 (e ▸ ptrAt_mem (by simpa using hj))
  | c :: ys, i + 1, 0, hn, hi, _, e => by
    exfalso
    simp only [List.map_cons, List.nodup_cons] at hn
    simp only [ptrAt_cons_zero, ptrAt_cons_succ] at e
    exact hn.1 (e ▸ ptrAt_mem (by simpa using hi))
  | c :: ys, i + 1, j + 1, hn, hi, hj, e => by
    simp only [List.map_cons, List.nodup_cons] at hn
    simp only [ptrAt_cons_succ] at e
    rw [ptrAt_inj hn.2 (by simpa using hi) (by simpa using hj) e]

/-- The record of the cell of index `k` of a chain. -/
theorem dchain_at {mem : Nat → Option (DNode T)} : ∀ (ys : List (Nat × Option T)) (p e k : Nat)
    (hk : k < ys.length), DChain mem p ys e →
    mem (ptrAt ys k) = some ⟨(ys.get ⟨k, hk⟩).2, if k = 0 then p else ptrAt ys (k - 1),
      if k + 1 < ys.length then ptrAt ys (k + 1) else e⟩
  | [], _, _, _, hk, _ => by simp at hk
  | c :: ys, p, e, 0, _, h => by
    rw [ptrAt_cons_zero, h.1]
    cases ys <;> simp [hdPtr]
  | c :: ys, p, e, k + 1, hk, h => by
    have hk2 : k < ys.length := by simpa using hk
    have ih := dchain_at ys c.1 e k hk2 h.2
    have e1 : (k + 1 + 1 < (c :: ys).length) ↔ (k + 1 < ys.length) := by
      simp only [List.length_cons]; omega
    rw [ptrAt_cons_succ, ih]
    cases k with
    | zero =>
      have e2 : (2 < ys.length + 1) ↔ (1 < ys.length) := by omega
      simp [e2]
    | succ k => simp [e1]

/-- The record of the cell of index `k` in a populated deque. -/
theorem dpop_at {d : deque T} {ys : List (Nat × Option T)} (hp : DPop d ys) {k : Nat}
    (hk : k < ys.length) :
    d.rd (ptrAt ys k) = .ok ⟨(ys.get ⟨k, hk⟩).2, if k = 0 then 0 else ptrAt ys (k - 1),
      ptrAt ys (k + 1)⟩ ∧ ptrAt ys k ≠ 0 := by
  have h0 : ptrAt ys k ≠ 0 := fun e => hp.nz (e ▸ ptrAt_mem hk)
  refine ⟨?_, h0⟩
  have := dchain_at ys 0 0 k hk hp.chain
  rw [deque.rd_some h0 this]
  by_cases h1 : k + 1 < ys.length
  · simp [h1]
  · simp [h1, ptrAt_of_le (Nat.le_of_not_lt h1)]

theorem dpop_stepNext {d : deque T} {ys : List (Nat × Option T)} (hp : DPop d ys) :
    ∀ (m k : Nat), k + m < ys.length → d.stepNext m (ptrAt ys k) = .ok (ptrAt ys (k + m))
  | 0, k, _ => rfl
  | m + 1, k, h => by
    obtain ⟨hr, -⟩ := dpop_at hp (show k < ys.length by omega)
    obtain ⟨-, hn⟩ := dpop_at hp (show k + 1 < ys.length by omega)
    have ih := dpop_stepNext hp m (k + 1) (by omega)
    simp only [deque.stepNext, hr, ok_bind, hn, if_false]
    rw [ih]
    congr 2
    omega

theorem dpop_stepNext_fail {d : deque T} {ys : List (Nat × Option T)} (hp : DPop d ys) :
    ∀ (m k : Nat), k < ys.length → ys.length ≤ k + m →
      d.stepNext m (ptrAt ys k) = .error .invalid_iterator
  | 0, k, h1, h2 => by omega
  | m + 1, k, h1, h2 => by
    obtain ⟨hr, -⟩ := dpop_at hp h1
    by_cases hk : k + 1 < ys.length
    · obtain ⟨-, hn⟩ := dpop_at hp hk
      have ih := dpop_stepNext_fail hp m (k + 1) hk (by omega)
      simp only [deque.stepNext, hr, ok_bind, hn, if_false]
      exact ih
    · simp only [deque.stepNext, hr, ok_bind, ptrAt_of_le (Nat.le_of_not_lt hk), if_true]

theorem dpop_stepPrev {d : deque T} {ys : List (Nat × Option T)} (hp : DPop d ys) :
    ∀ (m k : Nat), k < ys.length → m ≤ k → d.stepPrev m (ptrAt ys k) = .ok (ptrAt ys (k - m))
  | 0, k, _, _ => rfl
  | m + 1, k, h, hm => by
    obtain ⟨hr, -⟩ := dpop_at hp h
    obtain ⟨-, hn⟩ := dpop_at hp (show k - 1 < ys.length by omega)
    have ih := dpop_stepPrev hp m (k - 1) (by omega) (by omega)
    have hk0 : k ≠ 0 := by omega
    simp only [deque.stepPrev, hr, ok_bind, hk0, if_false, hn]
    rw [ih]
    congr 2
    omega

theorem dpop_stepPrev_fail {d : deque T} {ys : List (Nat × Option T)} (hp : DPop d ys) :
    ∀ (m k : Nat), k < ys.length → k < m →
      d.stepPrev m (ptrAt ys k) = .error .invalid_iterator
  | 0, k, _, h2 => by omega
  | m + 1, k, h1, h2 => by
    obtain ⟨hr, -⟩ := dpop_at hp h1
    by_cases hk : k = 0
    · subst hk
      simp only [deque.stepPrev, hr, ok_bind, if_true]
    · obtain ⟨-, hn⟩ := dpop_at hp (show k - 1 < ys.length by omega)
      have ih := dpop_stepPrev_fail hp m (k - 1) (by omega) (by omega)
      simp only [deque.stepPrev, hr, ok_bind, hk, if_false, hn]
      exact ih

theorem dpop_advance {d : deque T} {ys : List (Nat × Option T)} (hp : DPop d ys) :
    ∀ (m k : Nat), k + m < ys.length → d.advance m (ptrAt ys k) = .ok (ptrAt ys (k + m))
  | 0, k, _ => rfl
  | m + 1, k, h => by
    obtain ⟨hr, -⟩ := dpop_at hp (show k < ys.length by omega)
    have ih := dpop_advance hp m (k + 1) (by omega)
    simp only [deque.advance, hr, ok_bind]
    rw [ih]
    congr 2
    omega

end sjtu

namespace sjtu

open deque

variable {T : Type}

theorem cellsOf_length (xs : List (Nat × T)) (tl : Nat) :
    (cellsOf xs tl).length = xs.length + 1 := by
  simp [cellsOf]

theorem ptrAt_cellsOf_last (xs : List (Nat × T)) (tl : Nat) :
    ptrAt (cellsOf xs tl) xs.length = tl := by
  induction xs with
  | nil => simp [cellsOf, ptrAt]
  | cons x xs ih =>
    rw [cellsOf_cons, List.length_cons, ptrAt_cons_succ, ih]

theorem ptrAt_cellsOf_lt : ∀ (xs : List (Nat × T)) (tl : Nat) (k : Nat) (hk : k < xs.length),
    ptrAt (cellsOf xs tl) k = (xs.get ⟨k, hk⟩).1
  | [], _, _, hk => by simp at hk
  | x :: xs, tl, 0, _ => by simp [cellsOf_cons]
  | x :: xs, tl, k + 1, hk => by
    rw [cellsOf_cons, ptrAt_cons_succ, ptrAt_cellsOf_lt xs tl k (by simpa using hk)]
    rfl

theorem cellsOf_get_lt : ∀ (xs : List (Nat × T)) (tl : Nat) (k : Nat) (hk : k < xs.length)
    (hk2 : k < (cellsOf xs tl).length), ((cellsOf xs tl).get ⟨k, hk2⟩).2 = some (xs.get ⟨k, hk⟩).2
  | [], _, _, hk, _ => by simp at hk
  | x :: xs, tl, 0, _, _ => by simp [cellsOf_cons]
  | x :: xs, tl, k + 1, hk, hk2 => by
    have := cellsOf_get_lt xs tl k (by simpa using hk) (by
      rw [cellsOf_length]; simp at hk; omega)
    simpa [cellsOf_cons] using this

theorem cellsOf_get_last : ∀ (xs : List (Nat × T)) (tl : Nat)
    (hk2 : xs.length < (cellsOf xs tl).length),
    ((cellsOf xs tl).get ⟨xs.length, hk2⟩).2 = none
  | [], _, _ => by simp [cellsOf]
  | x :: xs, tl, hk2 => by
    have := cellsOf_get_last xs tl (by rw [cellsOf_length]; omega)
    simpa [cellsOf_cons] using this

/-- In every state of the invariant `head.pointer` is the address of the
first cell: the first node, the tail sentinel of an emptied deque, or null. -/
theorem dinv_head {d : deque T} {xs : List (Nat × T)} (h : DInv d xs) :
    d.head.pointer = ptrAt (cellsOf xs d.tail.pointer) 0 := by
  rcases h.shape with ⟨rfl, hi⟩ | hp
  · rw [(init_fields hi).1, (init_fields hi).2.1]
    rfl
  · rw [hp.head, hdPtr_eq_ptrAt]

theorem dinv_nonempty_pop {d : deque T} {xs : List (Nat × T)} (h : DInv d xs)
    (ht : d.tail.pointer ≠ 0) : DPop d (cellsOf xs d.tail.pointer) := by
  rcases h.shape with ⟨-, hi⟩ | hp
  · exact absurd (init_fields hi).2.1 ht
  · exact hp

/-- The result of the loop of `operator+` started at the cell of index `i`. -/
theorem dinv_stepNext {d : deque T} {xs : List (Nat × T)} (h : DInv d xs) {i : Nat}
    (hi : i ≤ xs.length) (m : Nat) :
    d.stepNext m (ptrAt (cellsOf xs d.tail.pointer) i) =
      if i + m ≤ xs.length then .ok (ptrAt (cellsOf xs d.tail.pointer) (i + m))
      else .error (if d.tail.pointer = 0 then .bad_pointer else .invalid_iterator) := by
  by_cases ht : d.tail.pointer = 0
  · rcases h.shape with ⟨rfl, hi0⟩ | hp
    · have hi2 : i = 0 := by simpa using hi
      subst hi2
      cases m with
      | zero => simp [deque.stepNext]
      | succ m =>
        simp [deque.stepNext, ht, cellsOf, ptrAt, deque.rd]
    · exact absurd ht (dinv_tail_ne hp)
  · have hp := dinv_nonempty_pop h ht
    by_cases hm : i + m ≤ xs.length
    · rw [if_pos hm]
      exact dpop_stepNext hp m i (by rw [cellsOf_length]; omega)
    · rw [if_neg hm, if_neg ht]
      exact dpop_stepNext_fail hp m i (by rw [cellsOf_length]; omega)
        (by rw [cellsOf_length]; omega)

/-- The result of the loop of `operator-` started at the cell of index `i`. -/
theorem dinv_stepPrev {d : deque T} {xs : List (Nat × T)} (h : DInv d xs) {i : Nat}
    (hi : i ≤ xs.length) (m : Nat) :
    d.stepPrev m (ptrAt (cellsOf xs d.tail.pointer) i) =
      if m ≤ i then .ok (ptrAt (cellsOf xs d.tail.pointer) (i - m))
      else .error (if d.tail.pointer = 0 then .bad_pointer else .invalid_iterator) := by
  by_cases ht : d.tail.pointer = 0
  · rcases h.shape with ⟨rfl, hi0⟩ | hp
    · have hi2 : i = 0 := by simpa using hi
      subst hi2
      cases m with
      | zero => simp [deque.stepPrev]
      | succ m =>
        simp [deque.stepPrev, ht, cellsOf, ptrAt, deque.rd]
    · exact absurd ht (dinv_tail_ne hp)
  · have hp := dinv_nonempty_pop h ht
    by_cases hm : m ≤ i
    · rw [if_pos hm]
      exact dpop_stepPrev hp m i (by rw [cellsOf_length]; omega) hm
    · rw [if_neg hm, if_neg ht]
      exact dpop_stepPrev_fail hp m i (by rw [cellsOf_length]; omega) (by omega)

end sjtu

namespace sjtu

open deque

variable {T : Type}

theorem negInt_of_ne {n : Int} (h : n ≠ -2147483648) : negInt n = -n := by
  simp [negInt, h]

/-- Value of `operator+(n)` at the cell of index `i`. -/
theorem dinv_add {d : deque T} {xs : List (Nat × T)} (h : DInv d xs) {i : Nat}
    (hi : i ≤ xs.length) (b : Nat) (n : Int) (hn : n ≠ -2147483648) :
    iterator.add d ⟨ptrAt (cellsOf xs d.tail.pointer) i, b⟩ n =
      if 0 ≤ (i : Int) + n ∧ (i : Int) + n ≤ xs.length then
        .ok ⟨ptrAt (cellsOf xs d.tail.pointer) ((i : Int) + n).toNat, b⟩
      else .error (if d.tail.pointer = 0 then .bad_pointer else .invalid_iterator) := by
  by_cases h0 : n < 0
  · have hneg : ¬ (-n < 0) := by omega
    obtain ⟨k, hk⟩ : ∃ k : Nat, (k : Int) = -n := ⟨(-n).toNat, Int.toNat_of_nonneg (by omega)⟩
    have hk2 : (-n).toNat = k := by omega
    rw [iterator.add]
    simp only [h0, if_true, negInt_of_ne hn, hneg, if_false, hk2, dinv_stepPrev h hi]
    by_cases hc : k ≤ i
    · have hc2 : 0 ≤ (i : Int) + n ∧ (i : Int) + n ≤ xs.length := by omega
      have e : ((i : Int) + n).toNat = i - k := by omega
      rw [if_pos hc, if_pos hc2, e]
      rfl
    · have hc2 : ¬ (0 ≤ (i : Int) + n ∧ (i : Int) + n ≤ xs.length) := by omega
      rw [if_neg hc, if_neg hc2]
      rfl
  · obtain ⟨k, hk⟩ : ∃ k : Nat, (k : Int) = n := ⟨n.toNat, Int.toNat_of_nonneg (by omega)⟩
    have hk2 : n.toNat = k := by omega
    rw [iterator.add]
    simp only [h0, if_false, hk2, dinv_stepNext h hi]
    by_cases hc : i + k ≤ xs.length
    · have hc2 : 0 ≤ (i : Int) + n ∧ (i : Int) + n ≤ xs.length := by omega
      have e : ((i : Int) + n).toNat = i + k := by omega
      rw [if_pos hc, if_pos hc2, e]
      rfl
    · have hc2 : ¬ (0 ≤ (i : Int) + n ∧ (i : Int) + n ≤ xs.length) := by omega
      rw [if_neg hc, if_neg hc2]
      rfl

/-- Value of `operator-(n)` at the cell of index `i`. -/
theorem dinv_sub {d : deque T} {xs : List (Nat × T)} (h : DInv d xs) {i : Nat}
    (hi : i ≤ xs.length) (b : Nat) (n : Int) (hn : n ≠ -2147483648) :
    iterator.sub d ⟨ptrAt (cellsOf xs d.tail.pointer) i, b⟩ n =
      if 0 ≤ (i : Int) - n ∧ (i : Int) - n ≤ xs.length then
        .ok ⟨ptrAt (cellsOf xs d.tail.pointer) ((i : Int) - n).toNat, b⟩
      else .error (if d.tail.pointer = 0 then .bad_pointer else .invalid_iterator) := by
  by_cases h0 : n < 0
  · have hneg : ¬ (-n < 0) := by omega
    obtain ⟨k, hk⟩ : ∃ k : Nat, (k : Int) = -n := ⟨(-n).toNat, Int.toNat_of_nonneg (by omega)⟩
    have hk2 : (-n).toNat = k := by omega
    rw [iterator.sub]
    simp only [h0, if_true, negInt_of_ne hn, hneg, if_false, hk2, dinv_stepNext h hi]
    by_cases hc : i + k ≤ xs.length
    · have hc2 : 0 ≤ (i : Int) - n ∧ (i : Int) - n ≤ xs.length := by omega
      have e : ((i : Int) - n).toNat = i + k := by omega
      rw [if_pos hc, if_pos hc2, e]
      rfl
    · have hc2 : ¬ (0 ≤ (i : Int) - n ∧ (i : Int) - n ≤ xs.length) := by omega
      rw [if_neg hc, if_neg hc2]
      rfl
  · obtain ⟨k, hk⟩ : ∃ k : Nat, (k : Int) = n := ⟨n.toNat, Int.toNat_of_nonneg (by omega)⟩
    have hk2 : n.toNat = k := by omega
    rw [iterator.sub]
    simp only [h0, if_false, hk2, dinv_stepPrev h hi]
    by_cases hc : k ≤ i
    · have hc2 : 0 ≤ (i : Int) - n ∧ (i : Int) - n ≤ xs.length := by omega
      have e : ((i : Int) - n).toNat = i - k := by omega
      rw [if_pos hc, if_pos hc2, e]
      rfl
    · have hc2 : ¬ (0 ≤ (i : Int) - n ∧ (i : Int) - n ≤ xs.length) := by omega
      rw [if_neg hc, if_neg hc2]
      rfl

/-- The iterator `begin() + i` is at the cell of index `i`. -/
theorem dinv_begin_add {d : deque T} {xs : List (Nat × T)} (h : DInv d xs) {i : Nat}
    (hi : i ≤ xs.length) :
    iterator.add d d.begin (i : Int) = .ok ⟨ptrAt (cellsOf xs d.tail.pointer) i, d.self⟩ := by
  have hb : d.begin = ⟨ptrAt (cellsOf xs d.tail.pointer) 0, d.self⟩ := by
    show d.head = _
    rw [← dinv_head h, ← h.hb]
  rw [hb, dinv_add h (Nat.zero_le _) d.self i (by omega)]
  have hc : 0 ≤ ((0 : Nat) : Int) + i ∧ ((0 : Nat) : Int) + i ≤ xs.length := by omega
  rw [if_pos hc]
  congr 3
  omega

/-- The iterator `end()` is at the cell of index `size()`. -/
theorem dinv_end {d : deque T} {xs : List (Nat × T)} (h : DInv d xs) :
    d.end = ⟨ptrAt (cellsOf xs d.tail.pointer) xs.length, d.self⟩ := by
  show d.tail = _
  rw [ptrAt_cellsOf_last, ← h.tb]

end sjtu

namespace sjtu

open deque

variable {T : Type}

/-- The first loop of `operator-(rhs)` walks back from the cell of index `i`
to the cell of index `j` when `j ≤ i`. -/
theorem dpop_backLoop_hit {d : deque T} {ys : List (Nat × Option T)} (hp : DPop d ys) {j : Nat}
    (hj : j < ys.length) : ∀ (m fuel : Nat) (ans : Int), j + m < ys.length → m < fuel →
      d.backLoop (ptrAt ys j) fuel (ptrAt ys (j + m)) ans = .ok (ptrAt ys j, ans + m)
  | 0, fuel + 1, ans, _, _ => by
    simp [deque.backLoop]
  | m + 1, fuel + 1, ans, h1, h2 => by
    obtain ⟨hr, h0⟩ := dpop_at hp h1
    have hne : ptrAt ys (j + (m + 1)) ≠ ptrAt ys j := fun e => by
      have := ptrAt_inj hp.nodup h1 hj e
      omega
    have hk0 : j + (m + 1) ≠ 0 := by omega
    have ih := dpop_backLoop_hit hp hj m fuel (ans + 1) (by omega) (by omega)
    rw [deque.backLoop]
    simp only [ne_eq, h0, not_false_eq_true, hne, and_self, if_true, hr, ok_bind, hk0, if_false]
    rw [show j + (m + 1) - 1 = j + m by omega, ih]
    congr 2
    push_cast
    ring

/-- The first loop of `operator-(rhs)` walks back from the cell of index `i`
to the null pointer when the cell of the target lies further on. -/
theorem dpop_backLoop_miss {d : deque T} {ys : List (Nat × Option T)} (hp : DPop d ys) {j : Nat}
    (hj : j < ys.length) : ∀ (i fuel : Nat) (ans : Int), i < j → i + 1 < fuel →
      d.backLoop (ptrAt ys j) fuel (ptrAt ys i) ans = .ok (0, ans + i + 1)
  | 0, fuel + 2, ans, h1, _ => by
    obtain ⟨hr, h0⟩ := dpop_at hp (show 0 < ys.length by omega)
    have hne : ptrAt ys 0 ≠ ptrAt ys j := fun e => by
      have := ptrAt_inj hp.nodup (by omega) hj e
      omega
    rw [deque.backLoop]
    simp only [ne_eq, h0, not_false_eq_true, hne, and_self, if_true, hr, ok_bind]
    simp [deque.backLoop]
  | i + 1, fuel + 1, ans, h1, h2 => by
    obtain ⟨hr, h0⟩ := dpop_at hp (show i + 1 < ys.length by omega)
    have hne : ptrAt ys (i + 1) ≠ ptrAt ys j := fun e => by
      have := ptrAt_inj hp.nodup (by omega) hj e
      omega
    have ih := dpop_backLoop_miss hp hj i fuel (ans + 1) (by omega) (by omega)
    rw [deque.backLoop]
    simp only [ne_eq, h0, not_false_eq_true, hne, and_self, if_true, hr, ok_bind,
      Nat.add_one_ne_zero, if_false, Nat.add_sub_cancel]
    rw [ih]
    congr 2
    push_cast
    ring

/-- The second loop of `operator-(rhs)` walks forth from the cell of index
`i` to the cell of index `i + m`. -/
theorem dpop_forthLoop_hit {d : deque T} {ys : List (Nat × Option T)} (hp : DPop d ys) :
    ∀ (m i fuel : Nat) (ans : Int), i + m < ys.length → m < fuel →
      d.forthLoop (ptrAt ys (i + m)) fuel (ptrAt ys i) ans = .ok (ptrAt ys (i + m), ans - m)
  | 0, i, fuel + 1, ans, _, _ => by
    simp [deque.forthLoop]
  | m + 1, i, fuel + 1, ans, h1, h2 => by
    obtain ⟨hr, h0⟩ := dpop_at hp (show i < ys.length by omega)
    have hne : ptrAt ys i ≠ ptrAt ys (i + (m + 1)) := fun e => by
      have := ptrAt_inj hp.nodup (by omega) h1 e
      omega
    have ih := dpop_forthLoop_hit hp m (i + 1) fuel (ans - 1) (by omega) (by omega)
    rw [deque.forthLoop]
    simp only [ne_eq, h0, not_false_eq_true, hne, and_self, if_true, hr, ok_bind]
    rw [show i + (m + 1) = i + 1 + m by omega, ih]
    congr 2
    push_cast
    ring

/-- Value of `it1 - it2` for iterators of one owner at the cells of index
`i` and `j`. -/
theorem dinv_diff {d : deque T} {xs : List (Nat × T)} (h : DInv d xs) {i j : Nat}
    (hi : i ≤ xs.length) (hj : j ≤ xs.length) (b : Nat) {fuel : Nat}
    (hf : xs.length + 2 ≤ fuel) :
    iterator.diff d fuel ⟨ptrAt (cellsOf xs d.tail.pointer) i, b⟩
      ⟨ptrAt (cellsOf xs d.tail.pointer) j, b⟩ = .ok ((i : Int) - j) := by
  obtain ⟨fuel, rfl⟩ : ∃ f, fuel = f + 1 := ⟨fuel - 1, by omega⟩
  by_cases ht : d.tail.pointer = 0
  · rcases h.shape with ⟨rfl, hi0⟩ | hp
    · have hi2 : i = 0 := by simpa using hi
      have hj2 : j = 0 := by simpa using hj
      subst hi2 hj2
      simp [iterator.diff, deque.backLoop, ptrAt, cellsOf, ht]
    · exact absurd ht (dinv_tail_ne hp)
  · have hp := dinv_nonempty_pop h ht
    have hl := cellsOf_length xs d.tail.pointer
    by_cases hij : j ≤ i
    · obtain ⟨m, rfl⟩ : ∃ m, i = j + m := ⟨i - j, by omega⟩
      have := dpop_backLoop_hit hp (show j < _ by omega) m (fuel + 1) 0 (by omega) (by omega)
      simp only [iterator.diff, ne_eq, not_true_eq_false, if_false, this, ok_bind, if_true,
        pure_eq_ok]
      congr 1
      push_cast
      ring
    · have h1 := dpop_backLoop_miss hp (show j < _ by omega) i (fuel + 1) 0 (by omega) (by omega)
      obtain ⟨m, rfl⟩ : ∃ m, j = i + m := ⟨j - i, by omega⟩
      have h2 := dpop_forthLoop_hit hp m i (fuel + 1) 0 (by omega) (by omega)
      have hne : (0 : Nat) ≠ ptrAt (cellsOf xs d.tail.pointer) (i + m) :=
        fun e => (dpop_at hp (show i + m < _ by omega)).2 e.symm
      simp only [iterator.diff, ne_eq, not_true_eq_false, if_false, h1, ok_bind, hne, h2,
        if_true, pure_eq_ok]
      congr 1
      push_cast
      ring

theorem diff_owner {d : deque T} {fuel : Nat} {it rhs : deque.iterator}
    (h : it.belong ≠ rhs.belong) : iterator.diff d fuel it rhs = .error .invalid_iterator := by
  simp [iterator.diff, h]

end sjtu

namespace sjtu

open deque

variable {T : Type}

/-- The values met from the cell of index `k` on are the elements from the
index `k` on. -/
theorem dpop_valuesFrom {d : deque T} {xs : List (Nat × T)}
    (hp : DPop d (cellsOf xs d.tail.pointer)) :
    ∀ (m k fuel : Nat), k + m = xs.length → m < fuel →
      d.valuesFrom fuel (ptrAt (cellsOf xs d.tail.pointer) k) = .ok ((xs.drop k).map Prod.snd)
  | 0, k, fuel + 1, h1, _ => by
    have hk : k < (cellsOf xs d.tail.pointer).length := by rw [cellsOf_length]; omega
    obtain ⟨hr, h0⟩ := dpop_at hp hk
    have hd : ((cellsOf xs d.tail.pointer).get ⟨k, hk⟩).2 = none := by
      have e : k = xs.length := by omega
      subst e
      exact cellsOf_get_last xs _ hk
    rw [deque.valuesFrom]
    simp only [h0, if_false, hr, ok_bind, hd]
    rw [List.drop_eq_nil_of_le (by omega)]
    rfl
  | m + 1, k, fuel + 1, h1, h2 => by
    have hk : k < (cellsOf xs d.tail.pointer).length := by rw [cellsOf_length]; omega
    have hk2 : k < xs.length := by omega
    obtain ⟨hr, h0⟩ := dpop_at hp hk
    have hd := cellsOf_get_lt xs d.tail.pointer k hk2 hk
    have ih := dpop_valuesFrom hp m (k + 1) fuel (by omega) (by omega)
    rw [deque.valuesFrom]
    simp only [h0, if_false, hr, ok_bind, hd, ih, pure_eq_ok]
    rw [List.drop_eq_getElem_cons hk2]
    rfl

/-- The elements of a deque, as `toList` reads them. -/
theorem dinv_toList {d : deque T} {xs : List (Nat × T)} (h : DInv d xs) :
    d.toList = .ok (xs.map Prod.snd) := by
  rcases h.shape with ⟨rfl, hi⟩ | hp
  · simp [deque.toList, deque.valuesFrom, (init_fields hi).1]
  · have := dpop_valuesFrom hp xs.length 0 (d.size_n + 1) (by omega) (by rw [h.size]; omega)
    rw [deque.toList, dinv_head h, this]
    rfl

theorem dinv_size {d : deque T} {xs : List (Nat × T)} (h : DInv d xs) :
    d.size = (xs.map Prod.snd).length := by
  rw [List.length_map]
  exact h.size

/-- Method `at(pos)` inside the bounds. -/
theorem dinv_at {d : deque T} {xs : List (Nat × T)} (h : DInv d xs) {i : Nat}
    (hi : i < xs.length) : d.at i = .ok (xs.get ⟨i, hi⟩).2 := by
  have hx : xs ≠ [] := fun e => by rw [e] at hi; simp at hi
  have hp := dinv_pop h hx
  have hk : i < (cellsOf xs d.tail.pointer).length := by rw [cellsOf_length]; omega
  obtain ⟨hr, -⟩ := dpop_at hp hk
  have ha := dpop_advance hp i 0 (by omega)
  have hge : ¬ i ≥ d.size_n := by rw [h.size]; omega
  rw [deque.at]
  simp only [hge, if_false, dinv_head h, ha, ok_bind, Nat.zero_add, hr,
    cellsOf_get_lt xs d.tail.pointer i hi hk]
  rfl

/-- Method `at(pos)` outside the bounds. -/
theorem dinv_at_out {d : deque T} {xs : List (Nat × T)} (h : DInv d xs) {i : Nat}
    (hi : xs.length ≤ i) : d.at i = .error .index_out_of_bound := by
  have hge : i ≥ d.size_n := by rw [h.size]; omega
  simp [deque.at, hge]

/-- Method `operator*` at the cell of an element. -/
theorem dinv_deref {d : deque T} {xs : List (Nat × T)} (h : DInv d xs) {i : Nat}
    (hi : i < xs.length) (b : Nat) :
    iterator.deref d ⟨ptrAt (cellsOf xs d.tail.pointer) i, b⟩ = .ok (xs.get ⟨i, hi⟩).2 := by
  have hx : xs ≠ [] := fun e => by rw [e] at hi; simp at hi
  have hp := dinv_pop h hx
  have hk : i < (cellsOf xs d.tail.pointer).length := by rw [cellsOf_length]; omega
  obtain ⟨hr, h0⟩ := dpop_at hp hk
  simp only [iterator.deref, h0, if_false, hr, ok_bind, cellsOf_get_lt xs d.tail.pointer i hi hk]
  rfl

/-- Method `front()` on a deque that is not empty. -/
theorem dinv_front {d : deque T} {x : Nat × T} {l : List (Nat × T)} (h : DInv d (x :: l)) :
    d.front = .ok x.2 := by
  have hp := dinv_pop h (List.cons_ne_nil _ _)
  have hk : 0 < (cellsOf (x :: l) d.tail.pointer).length := by rw [cellsOf_length]; omega
  obtain ⟨hr, -⟩ := dpop_at hp hk
  have he : d.empty = false := by
    simp [deque.empty, h.size]
  rw [deque.front]
  simp only [he, Bool.false_eq_true, if_false, dinv_head h, hr, ok_bind]
  rfl

/-- Method `back()` on a deque that is not empty. -/
theorem dinv_back {d : deque T} {x : Nat × T} {l : List (Nat × T)} (h : DInv d (l ++ [x])) :
    d.back = .ok x.2 := by
  have hx : l ++ [x] ≠ [] := by simp
  have hp := dinv_pop h hx
  have hlen : (l ++ [x]).length = l.length + 1 := by simp
  have hk : l.length + 1 < (cellsOf (l ++ [x]) d.tail.pointer).length := by
    rw [cellsOf_length, hlen]; omega
  have hk1 : l.length < (cellsOf (l ++ [x]) d.tail.pointer).length := by omega
  obtain ⟨hr, -⟩ := dpop_at hp hk
  obtain ⟨hr1, -⟩ := dpop_at hp hk1
  have ht : d.tail.pointer = ptrAt (cellsOf (l ++ [x]) d.tail.pointer) (l.length + 1) := by
    have := ptrAt_cellsOf_last (l ++ [x]) d.tail.pointer
    rw [hlen] at this
    exact this.symm
  have he : d.empty = false := by
    simp [deque.empty, h.size]
  have hd := cellsOf_get_lt (l ++ [x]) d.tail.pointer l.length (by omega) hk1
  rw [deque.back]
  simp only [he, Bool.false_eq_true, if_false]
  rw [ht, hr]
  simp only [ok_bind, Nat.add_one_ne_zero, if_false, Nat.add_sub_cancel, hr1, hd]
  simp

end sjtu

namespace sjtu

open deque

variable {T : Type}

theorem ptrAt_cellsOf_append : ∀ (l1 l2 : List (Nat × T)) (tl k : Nat),
    ptrAt (cellsOf (l1 ++ l2) tl) (l1.length + k) = ptrAt (cellsOf l2 tl) k
  | [], l2, tl, k => by simp
  | x :: l1, l2, tl, k => by
    rw [List.cons_append, cellsOf_cons, List.length_cons,
      show l1.length + 1 + k = (l1.length + k) + 1 by omega, ptrAt_cons_succ,
      ptrAt_cellsOf_append l1 l2 tl k]

theorem ptrAt_cellsOf_split (l1 l2 : List (Nat × T)) (tl : Nat) :
    ptrAt (cellsOf (l1 ++ l2) tl) l1.length = hdPtr 0 (cellsOf l2 tl) := by
  have := ptrAt_cellsOf_append l1 l2 tl 0
  rw [Nat.add_zero] at this
  rw [this, hdPtr_eq_ptrAt]

/-- Method `pop_front()` on a deque that is not empty: it returns, with the
first element removed. -/
theorem dinv_pop_front {d : deque T} {x : Nat × T} {l : List (Nat × T)} (h : DInv d (x :: l)) :
    ∃ d2, d.pop_front = .ok d2 ∧ DInv d2 l ∧ d2.self = d.self := by
  obtain ⟨d2, h1, -, -, h4⟩ := dinv_erase_at (show DInv d ([] ++ (x.1, x.2) :: l) from h)
  have hh : d.head = ⟨x.1, d.self⟩ := by
    have := dinv_head h
    rw [cellsOf_cons, ptrAt_cons_zero] at this
    rw [← this, ← h.hb]
  have hr : d.pop_front = .ok { d2 with head := ⟨hdPtr 0 (cellsOf l d.tail.pointer), d.self⟩ } := by
    simp only [deque.pop_front, hh, h1, ok_bind, pure_eq_ok]
  obtain ⟨y, l2, e, hI⟩ := dinv_pop_front_ok h hr
  have e2 : l2 = l := by
    simp only [List.cons.injEq] at e
    exact e.2.symm
  exact ⟨_, hr, e2 ▸ hI, h4⟩

/-- Method `pop_back()` on a deque that is not empty: it returns, with the
last element removed. -/
theorem dinv_pop_back {d : deque T} {x : Nat × T} {l : List (Nat × T)} (h : DInv d (l ++ [x])) :
    ∃ d2, d.pop_back = .ok d2 ∧ DInv d2 l ∧ d2.self = d.self := by
  obtain ⟨d2, h1, -, -, h4⟩ := dinv_erase_at (show DInv d (l ++ (x.1, x.2) :: []) from h)
  have hlen : (l ++ [x]).length = l.length + 1 := by simp
  have hs := dinv_sub h (i := l.length + 1) (by rw [hlen]) d.self 1 (by decide)
  have hc : 0 ≤ ((l.length + 1 : Nat) : Int) - 1 ∧
      ((l.length + 1 : Nat) : Int) - 1 ≤ ((l ++ [x]).length : Nat) := by
    rw [hlen]; omega
  rw [if_pos hc, show (((l.length + 1 : Nat) : Int) - 1).toNat = l.length by omega] at hs
  have ht := dinv_end h
  rw [hlen] at ht
  have hp1 : ptrAt (cellsOf (l ++ [x]) d.tail.pointer) l.length = x.1 := by
    rw [ptrAt_cellsOf_split]
    rfl
  rw [hp1] at hs
  have hs2 : iterator.sub d d.tail 1 = .ok ⟨x.1, d.self⟩ := by
    have : d.tail = d.end := rfl
    rw [this, ht]
    exact hs
  have hr : d.pop_back = .ok { d2 with
      tail := ⟨hdPtr 0 (cellsOf ([] : List (Nat × T)) d.tail.pointer), d.self⟩ } := by
    simp only [deque.pop_back, hs2, h1, ok_bind, pure_eq_ok]
  obtain ⟨l1, y, e, hI⟩ := dinv_pop_back_ok h hr
  have e2 : l1 = l := (List.append_inj' e rfl).1.symm
  exact ⟨_, hr, e2 ▸ hI, h4⟩

/-- Method `insert(pos, value)` at the cell of index `|l1|`: it returns the
iterator at the new node, linked in before that cell. -/
theorem dinv_insert_at {d : deque T} {l1 l2 : List (Nat × T)} (h : DInv d (l1 ++ l2))
    (value : T) :
    ∃ d2, d.insert ⟨ptrAt (cellsOf (l1 ++ l2) d.tail.pointer) l1.length, d.self⟩ value =
        .ok (⟨d.brk, d.self⟩, d2) ∧
      DInv d2 (l1 ++ (d.brk, value) :: l2) ∧ d2.self = d.self := by
  by_cases he : d.empty = true
  · have hx := (dinv_empty_iff h).1 he
    have e1 : l1 = [] := (List.append_eq_nil.1 hx).1
    have e2 : l2 = [] := (List.append_eq_nil.1 hx).2
    subst e1 e2
    obtain ⟨d2, h1, h2, h3⟩ := dinv_push_back h value
    have hh : d2.head = ⟨d.brk, d.self⟩ := by
      have := dinv_head h2
      simp only [List.nil_append, cellsOf_cons, ptrAt_cons_zero] at this
      rw [← this, ← h3, ← h2.hb]
    refine ⟨d2, ?_, h2, h3⟩
    simp only [deque.insert, ne_eq, not_true_eq_false, if_false, he, if_true, h1, ok_bind,
      pure_eq_ok, hh]
  · have hx : l1 ++ l2 ≠ [] := fun e => he ((dinv_empty_iff h).2 e)
    have hp := dinv_pop h hx
    obtain ⟨c, rest, hc, hc1⟩ := cellsOf_exists_cons l2 d.tail.pointer
    have hp2 := hp
    rw [cellsOf_append, hc] at hp2
    obtain ⟨d2, h1, h2, h3, h4, h5, h6, h7⟩ := dpop_insertAt hp2 h.brk_pos
      (show (⟨ptrAt (cellsOf (l1 ++ l2) d.tail.pointer) l1.length, d.self⟩ :
          deque.iterator).pointer = c.1 by
        show ptrAt (cellsOf (l1 ++ l2) d.tail.pointer) l1.length = c.1
        rw [ptrAt_cellsOf_split, hc1])
      (show d.self = d.head.belong from h.hb.symm) value
    refine ⟨d2, ?_, ⟨by rw [h3]; exact h.self_ne, by rw [h6, h3]; exact h.hb,
      by rw [h4, h3]; exact h.tb, ?_, by rw [h7]; omega, Or.inr ?_⟩, h3⟩
    · simp only [deque.insert, ne_eq, not_true_eq_false, if_false, he, Bool.false_eq_true, h1]
    · rw [h5, h.size]
      simp
      omega
    · rw [h4, cellsOf_append_cons, hc]
      exact h2

/-- Method `push_front(value)`: it returns, with the element added first. -/
theorem dinv_push_front {d : deque T} {xs : List (Nat × T)} (h : DInv d xs) (value : T) :
    ∃ d2, d.push_front value = .ok d2 ∧ DInv d2 ((d.brk, value) :: xs) ∧ d2.self = d.self := by
  by_cases he : d.empty = true
  · have hx := (dinv_empty_iff h).1 he
    subst hx
    obtain ⟨d2, h1, h2, h3⟩ := dinv_initialize h value
    exact ⟨d2, by simp only [deque.push_front, he, if_true, h1], h2, h3⟩
  · obtain ⟨d2, h1, h2, h3⟩ := dinv_insert_at (show DInv d ([] ++ xs) from h) value
    have hh : d.head = ⟨ptrAt (cellsOf xs d.tail.pointer) 0, d.self⟩ := by
      rw [← dinv_head h, ← h.hb]
    simp only [List.nil_append, List.length_nil] at h1 h2
    rw [← hh] at h1
    exact ⟨d2, by simp only [deque.push_front, he, Bool.false_eq_true, if_false, h1, ok_bind,
      pure_eq_ok], h2, h3⟩

/-- Method `erase(pos)` at the cell of the element of index `|l1|`: it
returns the iterator at the cell that followed, which has that index now. -/
theorem dinv_erase_pos {d : deque T} {l1 l2 : List (Nat × T)} {x : Nat × T}
    (h : DInv d (l1 ++ x :: l2)) :
    ∃ d2, d.erase ⟨ptrAt (cellsOf (l1 ++ x :: l2) d.tail.pointer) l1.length, d.self⟩ =
        .ok (⟨ptrAt (cellsOf (l1 ++ l2) d2.tail.pointer) l1.length, d2.self⟩, d2) ∧
      DInv d2 (l1 ++ l2) ∧ d2.self = d.self := by
  obtain ⟨d2, h1, h2, h3, h4⟩ := dinv_erase_at (a := x.1) (v := x.2) h
  refine ⟨d2, ?_, h2, h4⟩
  rw [ptrAt_cellsOf_split, ptrAt_cellsOf_split, h3, h4]
  exact h1

end sjtu

namespace sjtu

open deque

variable {T : Type}

end sjtu

namespace sjtu

open deque

variable {T : Type}

/-- An iterator that `begin() + i` returns is the one at the cell of index
`i`. -/
theorem pos_of_add {d : deque T} {xs : List (Nat × T)} (h : DInv d xs) {i : Nat}
    (hi : i ≤ xs.length) {pos : deque.iterator}
    (hit : iterator.add d d.begin (i : Int) = .ok pos) :
    pos = ⟨ptrAt (cellsOf xs d.tail.pointer) i, d.self⟩ := by
  rw [dinv_begin_add h hi] at hit
  exact (Except.ok.inj hit).symm

theorem get_split (l1 l2 : List (Nat × T)) (x : Nat × T)
    (hk : l1.length < (l1 ++ x :: l2).length) : (l1 ++ x :: l2).get ⟨l1.length, hk⟩ = x := by
  simp only [List.get_eq_getElem]
  rw [List.getElem_append_right (le_refl _)]
  simp

/-- Method `operator*` at the cell of the element after `l1`. -/
theorem dinv_deref_split {d : deque T} {l1 l2 : List (Nat × T)} {x : Nat × T}
    (h : DInv d (l1 ++ x :: l2)) (b : Nat) :
    iterator.deref d ⟨ptrAt (cellsOf (l1 ++ x :: l2) d.tail.pointer) l1.length, b⟩ = .ok x.2 := by
  have hk : l1.length < (l1 ++ x :: l2).length := by simp
  rw [dinv_deref h hk b, get_split]

/-- Method `operator*` of `begin()` on a deque that is not empty. -/
theorem dinv_deref_begin {d : deque T} {x : Nat × T} {l : List (Nat × T)}
    (h : DInv d (x :: l)) : iterator.deref d d.begin = .ok x.2 := by
  have hb : d.begin = ⟨ptrAt (cellsOf (x :: l) d.tail.pointer) 0, d.self⟩ := by
    show d.head = _
    rw [← dinv_head h, ← h.hb]
  rw [hb]
  exact dinv_deref_split (show DInv d ([] ++ x :: l) from h) d.self

/-- Method `erase(pos)` rejects the iterator `end()`. -/
theorem dinv_erase_end {d : deque T} {xs : List (Nat × T)} (h : DInv d xs) :
    d.erase d.end = .error .invalid_iterator := by
  by_cases ht : d.tail.pointer = 0
  · show d.erase d.tail = _
    simp [deque.erase, ht]
  · have hp := dinv_nonempty_pop h ht
    have hk : xs.length < (cellsOf xs d.tail.pointer).length := by rw [cellsOf_length]; omega
    obtain ⟨hr, h0⟩ := dpop_at hp hk
    rw [dinv_end h, deque.erase]
    simp only [h0, if_false, hr, ok_bind, cellsOf_get_last xs _ hk]
    simp

/-- Method `erase(pos)` rejects the iterators without a cell. -/
theorem erase_null {d : deque T} {pos : deque.iterator} (h : pos.pointer = 0) :
    d.erase pos = .error .invalid_iterator := by
  simp [deque.erase, h]

/-- Method `erase(pos)` rejects the iterators of another owner. -/
theorem erase_owner {d : deque T} {pos : deque.iterator} (h : pos.belong ≠ d.self) :
    d.erase pos = .error .invalid_iterator := by
  by_cases h0 : pos.pointer = 0
  · exact erase_null h0
  · simp [deque.erase, h0, h]

/-- Method `insert(pos, value)` rejects the iterators of another owner. -/
theorem insert_owner {d : deque T} {pos : deque.iterator} (h : pos.belong ≠ d.self)
    (value : T) : d.insert pos value = .error .invalid_iterator := by
  simp [deque.insert, h]

end sjtu

namespace sjtu

open deque

theorem demoDequeThree_reachable : DReach demoDequeThree :=
  DReach.push_front
    (DReach.push_back (DReach.push_back (DReach.init 1 (by decide)) 10 demoDequeOne rfl)
      20 demoDequeTwo rfl)
    5 demoDequeThree rfl

variable {T : Type}

/-- Claim C11: every deque has a sequence of elements `s`, read front to
back, with `size()` its length; `push_back(x)` returns and makes the sequence
`s` followed by `x`, `push_front(x)` returns and makes it `x` followed by `s`,
and on a deque that is not empty `pop_front()` returns and removes the first
element. -/
theorem push_pop_sequence (d : deque T) (h : DReach d) :
    ∃ s, d.toList = .ok s ∧ d.size = s.length ∧
      (∀ x, ∃ d2, d.push_back x = .ok d2 ∧ d2.toList = .ok (s ++ [x]) ∧
        d2.size = s.length + 1) ∧
      (∀ x, ∃ d2, d.push_front x = .ok d2 ∧ d2.toList = .ok (x :: s) ∧
        d2.size = s.length + 1) ∧
      (s ≠ [] → ∃ d2, d.pop_front = .ok d2 ∧ d2.toList = .ok s.tail ∧
        d2.size = s.length - 1) := by
  obtain ⟨xs, hI⟩ := dreach_inv h
  refine ⟨xs.map Prod.snd, dinv_toList hI, dinv_size hI, fun x => ?_, fun x => ?_, fun hs => ?_⟩
  · obtain ⟨d2, h1, h2, -⟩ := dinv_push_back hI x
    exact ⟨d2, h1, by rw [dinv_toList h2]; simp, by rw [dinv_size h2]; simp⟩
  · obtain ⟨d2, h1, h2, -⟩ := dinv_push_front hI x
    exact ⟨d2, h1, by rw [dinv_toList h2]; simp, by rw [dinv_size h2]; simp⟩
  · cases xs with
    | nil => exact absurd rfl hs
    | cons y l =>
      obtain ⟨d2, h1, h2, -⟩ := dinv_pop_front hI
      exact ⟨d2, h1, by rw [dinv_toList h2]; simp, by rw [dinv_size h2]; simp⟩

/-- Claim C12: on every deque with sequence of elements `s`, `at(i)` (which
`operator[]` calls) returns the element of index `i` of `s` when
`i < size()`, and raises `index_out_of_bound` when `i ≥ size()`, so at
`i = size()`. -/
theorem at_index (d : deque T) (h : DReach d) :
    ∃ s, d.toList = .ok s ∧ ∀ i : Nat,
      (i < d.size → ∃ v, s[i]? = some v ∧ d.at i = .ok v) ∧
      (d.size ≤ i → d.at i = .error .index_out_of_bound) := by
  obtain ⟨xs, hI⟩ := dreach_inv h
  refine ⟨xs.map Prod.snd, dinv_toList hI, fun i => ⟨fun hi => ?_, fun hi => ?_⟩⟩
  · have hi2 : i < xs.length := by
      have := dinv_size hI
      rw [List.length_map] at this
      omega
    refine ⟨(xs.get ⟨i, hi2⟩).2, ?_, dinv_at hI hi2⟩
    rw [List.getElem?_map, List.getElem?_eq_getElem hi2]
    rfl
  · refine dinv_at_out hI ?_
    have := dinv_size hI
    rw [List.length_map] at this
    omega

/-- Claim C13: on every deque, empty or not, `push_back(x)` followed by
`pop_back()` returns and leaves the sequence of elements and `size()` as they
were, hence `back()` when there is one; likewise `push_front(x)` followed by
`pop_front()`, for the sequence, `size()` and `front()`. -/
theorem push_pop_restore (d : deque T) (h : DReach d) (x : T) :
    ∃ s, d.toList = .ok s ∧
      (∃ d1 d2, d.push_back x = .ok d1 ∧ d1.pop_back = .ok d2 ∧ d2.toList = .ok s ∧
        d2.size = d.size ∧ (s ≠ [] → ∃ v, d.back = .ok v ∧ d2.back = .ok v)) ∧
      (∃ d1 d2, d.push_front x = .ok d1 ∧ d1.pop_front = .ok d2 ∧ d2.toList = .ok s ∧
        d2.size = d.size ∧ (s ≠ [] → ∃ v, d.front = .ok v ∧ d2.front = .ok v)) := by
  obtain ⟨xs, hI⟩ := dreach_inv h
  refine ⟨xs.map Prod.snd, dinv_toList hI, ?_, ?_⟩
  · obtain ⟨d1, h1, hI1, -⟩ := dinv_push_back hI x
    obtain ⟨d2, h2, hI2, -⟩ := dinv_pop_back hI1
    refine ⟨d1, d2, h1, h2, dinv_toList hI2, by rw [dinv_size hI2, dinv_size hI], fun hs => ?_⟩
    rcases list_nil_or_concat xs with rfl | ⟨l, y, rfl⟩
    · exact absurd rfl hs
    · exact ⟨y.2, dinv_back hI, dinv_back hI2⟩
  · obtain ⟨d1, h1, hI1, -⟩ := dinv_push_front hI x
    obtain ⟨d2, h2, hI2, -⟩ := dinv_pop_front hI1
    refine ⟨d1, d2, h1, h2, dinv_toList hI2, by rw [dinv_size hI2, dinv_size hI], fun hs => ?_⟩
    cases xs with
    | nil => exact absurd rfl hs
    | cons y l => exact ⟨y.2, dinv_front hI, dinv_front hI2⟩

/-- Claim C14: for every iterator `it` at a position of a deque, `begin() + i`
with `i ≤ size()`, and every `int` `n` other than the least: when `it + n`
returns, `(it + n) - n` returns `it`; when `it - n` returns, `(it - n) + n`
returns `it`. -/
theorem add_sub_inverse (d : deque T) (h : DReach d) (i : Nat) (hi : i ≤ d.size)
    (it : deque.iterator) (hit : iterator.add d d.begin (i : Int) = .ok it) (n : Int)
    (hn1 : -2147483648 < n) (hn2 : n ≤ 2147483647) :
    (∀ r, iterator.add d it n = .ok r → iterator.sub d r n = .ok it) ∧
    (∀ r, iterator.sub d it n = .ok r → iterator.add d r n = .ok it) := by
  obtain ⟨xs, hI⟩ := dreach_inv h
  have hi2 : i ≤ xs.length := by
    have := dinv_size hI
    rw [List.length_map] at this
    omega
  have hn : n ≠ -2147483648 := by omega
  rw [pos_of_add hI hi2 hit]
  constructor
  · intro r hr
    rw [dinv_add hI hi2 d.self n hn] at hr
    by_cases hc : 0 ≤ (i : Int) + n ∧ (i : Int) + n ≤ xs.length
    · rw [if_pos hc] at hr
      rw [← Except.ok.inj hr, dinv_sub hI (show ((i : Int) + n).toNat ≤ xs.length by omega)
        d.self n hn]
      have hc2 : 0 ≤ ((((i : Int) + n).toNat : Nat) : Int) - n ∧
          ((((i : Int) + n).toNat : Nat) : Int) - n ≤ xs.length := by omega
      rw [if_pos hc2]
      congr 3
      omega
    · rw [if_neg hc] at hr
      cases hr
  · intro r hr
    rw [dinv_sub hI hi2 d.self n hn] at hr
    by_cases hc : 0 ≤ (i : Int) - n ∧ (i : Int) - n ≤ xs.length
    · rw [if_pos hc] at hr
      rw [← Except.ok.inj hr, dinv_add hI (show ((i : Int) - n).toNat ≤ xs.length by omega)
        d.self n hn]
      have hc2 : 0 ≤ ((((i : Int) - n).toNat : Nat) : Int) + n ∧
          ((((i : Int) - n).toNat : Nat) : Int) + n ≤ xs.length := by omega
      rw [if_pos hc2]
      congr 3
      omega
    · rw [if_neg hc] at hr
      cases hr

/-- Claim C15: for two iterators of a deque at the positions `i` and `j`,
`begin() + i` and `begin() + j` with `i, j ≤ size()`, the difference
`it1 - it2` returns `i - j`, so `end() - begin()` returns `size()`; for two
iterators of different owners it raises `invalid_iterator`. -/
theorem iterator_distance (d : deque T) (h : DReach d) :
    (∀ (i j : Nat) (it1 it2 : deque.iterator) (fuel : Nat), i ≤ d.size → j ≤ d.size →
      iterator.add d d.begin (i : Int) = .ok it1 → iterator.add d d.begin (j : Int) = .ok it2 →
      d.size + 2 ≤ fuel → iterator.diff d fuel it1 it2 = .ok ((i : Int) - j)) ∧
    (∀ fuel, d.size + 2 ≤ fuel → iterator.diff d fuel d.end d.begin = .ok (d.size : Int)) ∧
    (∀ (it1 it2 : deque.iterator) (fuel : Nat), it1.belong ≠ it2.belong →
      iterator.diff d fuel it1 it2 = .error .invalid_iterator) := by
  obtain ⟨xs, hI⟩ := dreach_inv h
  have hs : d.size = xs.length := by
    have := dinv_size hI
    rw [List.length_map] at this
    exact this
  refine ⟨fun i j it1 it2 fuel hi hj h1 h2 hf => ?_, fun fuel hf => ?_,
    fun it1 it2 fuel hne => diff_owner hne⟩
  · rw [pos_of_add hI (by omega) h1, pos_of_add hI (by omega) h2]
    exact dinv_diff hI (by omega) (by omega) d.self (by omega)
  · have hb : d.begin = ⟨ptrAt (cellsOf xs d.tail.pointer) 0, d.self⟩ := by
      show d.head = _
      rw [← dinv_head hI, ← hI.hb]
    rw [dinv_end hI, hb, dinv_diff hI (le_refl _) (Nat.zero_le _) d.self (by omega), hs]
    simp

end sjtu

namespace sjtu

open deque

variable {T : Type}

/-- Claim C17: on every deque with sequence of elements `s`, `insert(pos, x)`
at an iterator of the deque at the position `i ≤ size()` returns, makes the
sequence `s[0..i)`, `x`, `s[i..)` and `size()` larger by one; the iterator
returned is owned by the deque, is at the position `i` and dereferences to
`x`, and `begin()` is at the first element of the new sequence.  For an
iterator of another owner `insert` raises `invalid_iterator`, before any
assignment. -/
theorem insert_at_position (d : deque T) (h : DReach d) :
    ∃ s, d.toList = .ok s ∧
      (∀ (i : Nat) (pos : deque.iterator) (x : T), i ≤ d.size →
        iterator.add d d.begin (i : Int) = .ok pos →
        ∃ r d2, d.insert pos x = .ok (r, d2) ∧
          d2.toList = .ok (s.take i ++ x :: s.drop i) ∧ d2.size = d.size + 1 ∧
          d2.self = d.self ∧ r.belong = d2.self ∧
          iterator.add d2 d2.begin (i : Int) = .ok r ∧ iterator.deref d2 r = .ok x ∧
          ∃ v, (s.take i ++ x :: s.drop i).head? = some v ∧
            iterator.deref d2 d2.begin = .ok v) ∧
      (∀ (pos : deque.iterator) (x : T), pos.belong ≠ d.self →
        d.insert pos x = .error .invalid_iterator) := by
  obtain ⟨xs, hI⟩ := dreach_inv h
  have hs : d.size = xs.length := by
    have := dinv_size hI
    rw [List.length_map] at this
    exact this
  refine ⟨xs.map Prod.snd, dinv_toList hI, fun i pos x hi hit => ?_,
    fun pos x hne => insert_owner hne x⟩
  have hi2 : i ≤ xs.length := by omega
  have hl : (xs.take i).length = i := by simp [hi2]
  have hsplit : xs = xs.take i ++ xs.drop i := (List.take_append_drop i xs).symm
  have hI0 : DInv d (xs.take i ++ xs.drop i) := hsplit ▸ hI
  obtain ⟨d2, g1, g2, g3⟩ := dinv_insert_at hI0 x
  rw [← hsplit, hl] at g1
  rw [pos_of_add hI hi2 hit]
  have hlen2 : (xs.take i ++ (d.brk, x) :: xs.drop i).length = xs.length + 1 := by
    simp only [List.length_append, List.length_cons, List.length_take, List.length_drop]
    omega
  have hr : iterator.add d2 d2.begin (i : Int) = .ok ⟨d.brk, d.self⟩ := by
    rw [dinv_begin_add g2 (show i ≤ _ by omega)]
    have := ptrAt_cellsOf_split (xs.take i) ((d.brk, x) :: xs.drop i) d2.tail.pointer
    rw [hl] at this
    rw [this, g3]
    rfl
  have hd := dinv_deref_split g2 d.self
  rw [ptrAt_cellsOf_split] at hd
  have hd2 : iterator.deref d2 ⟨d.brk, d.self⟩ = .ok x := hd
  refine ⟨_, d2, g1, ?_, ?_, g3, g3.symm, hr, hd2, ?_⟩
  · rw [dinv_toList g2]
    simp [List.map_take, List.map_drop]
  · rw [dinv_size g2, List.length_map, hlen2, hs]
  · cases hc : xs.take i ++ (d.brk, x) :: xs.drop i with
    | nil => simp at hc
    | cons y l =>
      rw [hc] at g2
      refine ⟨y.2, ?_, dinv_deref_begin g2⟩
      have := congrArg (fun l => (l.map Prod.snd).head?) hc
      simpa [List.map_take, List.map_drop] using this

/-- Claim C18: on every deque with sequence of elements `s`, `erase(pos)` at
an iterator of the deque at the position `i < size()` returns, removes the
element of index `i` and makes `size()` smaller by one; the iterator returned
is at the position `i` of the new sequence, where the element that followed
now is, and is `end()` when there is none.  At `end()`, at an iterator without
a cell and at an iterator of another owner `erase` raises `invalid_iterator`,
before any assignment. -/
theorem erase_at_position (d : deque T) (h : DReach d) :
    ∃ s, d.toList = .ok s ∧
      (∀ (i : Nat) (pos : deque.iterator), i < d.size →
        iterator.add d d.begin (i : Int) = .ok pos →
        ∃ r d2, d.erase pos = .ok (r, d2) ∧
          d2.toList = .ok (s.eraseIdx i) ∧ d2.size = d.size - 1 ∧
          iterator.add d2 d2.begin (i : Int) = .ok r ∧
          (∀ v, s[i + 1]? = some v → iterator.deref d2 r = .ok v) ∧
          (i + 1 = d.size → r = d2.end)) ∧
      d.erase d.end = .error .invalid_iterator ∧
      (∀ pos : deque.iterator, pos.pointer = 0 → d.erase pos = .error .invalid_iterator) ∧
      (∀ pos : deque.iterator, pos.belong ≠ d.self →
        d.erase pos = .error .invalid_iterator) := by
  obtain ⟨xs, hI⟩ := dreach_inv h
  have hs : d.size = xs.length := by
    have := dinv_size hI
    rw [List.length_map] at this
    exact this
  refine ⟨xs.map Prod.snd, dinv_toList hI, fun i pos hi hit => ?_, dinv_erase_end hI,
    fun pos hp => erase_null hp, fun pos hne => erase_owner hne⟩
  have hi2 : i < xs.length := by omega
  have hl : (xs.take i).length = i := by simp; omega
  have hsplit : xs = xs.take i ++ xs.get ⟨i, hi2⟩ :: xs.drop (i + 1) := by
    rw [List.get_eq_getElem, ← List.drop_eq_getElem_cons hi2, List.take_append_drop]
  have hI0 : DInv d (xs.take i ++ xs.get ⟨i, hi2⟩ :: xs.drop (i + 1)) := hsplit ▸ hI
  obtain ⟨d2, g1, g2, g3⟩ := dinv_erase_pos hI0
  rw [← hsplit, hl] at g1
  rw [pos_of_add hI (le_of_lt hi2) hit]
  have he : xs.eraseIdx i = xs.take i ++ xs.drop (i + 1) := List.eraseIdx_eq_take_drop_succ xs i
  have hlen2 : (xs.take i ++ xs.drop (i + 1)).length = xs.length - 1 := by
    simp only [List.length_append, List.length_take, List.length_drop]
    omega
  have hr : iterator.add d2 d2.begin (i : Int) =
      .ok ⟨ptrAt (cellsOf (xs.take i ++ xs.drop (i + 1)) d2.tail.pointer) i, d2.self⟩ :=
    dinv_begin_add g2 (by omega)
  refine ⟨_, d2, g1, ?_, ?_, hr, ?_, ?_⟩
  · rw [dinv_toList g2, List.eraseIdx_eq_take_drop_succ]
    simp [List.map_take, List.map_drop]
  · rw [dinv_size g2, List.length_map, hlen2, hs]
  · intro v hv
    have hi3 : i + 1 < xs.length := by
      by_contra hc
      rw [List.getElem?_eq_none (by simpa using Nat.le_of_not_lt hc)] at hv
      cases hv
    have hsp2 : xs.drop (i + 1) = xs.get ⟨i + 1, hi3⟩ :: xs.drop (i + 2) := by
      rw [List.get_eq_getElem, ← List.drop_eq_getElem_cons hi3]
    have g2b := g2
    rw [hsp2] at g2b
    have hd := dinv_deref_split g2b d2.self
    rw [hl] at hd
    rw [hsp2, hd]
    rw [List.getElem?_map, List.getElem?_eq_getElem hi3] at hv
    simp only [Option.map_some', Option.some.injEq] at hv
    rw [← hv]
    rfl
  · intro hlast
    rw [dinv_end g2, hlen2]
    congr 2
    omega

end sjtu

namespace sjtu

open RB_Tree

variable {K V : Type}

/-- The climbing loop of `neighbour(o, 0)`: it stops at the first node of the
path whose right subtree the walk comes from. -/
theorem climbLoop_pred : ∀ (Γ : List (Frame K V)) (t : RB_Tree K V) (a : Nat) (sz : Int)
    (c : Bool) (l : PT K V) (kv : K × V) (r : PT K V) (np : Nat) (fuel : Nat),
    Models t (plug Γ (.node a sz c l kv r)) np → Γ.length < fuel →
    t.climbLoop false fuel a (ctxPar t.null Γ) =
      .ok (((ctxLn Γ).getLast?.map Prod.fst).getD t.null)
  | [], t, a, sz, c, l, kv, r, np, fuel, _, hf => by
    obtain ⟨f, rfl⟩ : ∃ f, fuel = f + 1 := ⟨fuel - 1, by omega⟩
    simp [climbLoop, ctxLn]
  | g :: Φ, t, a, sz, c, l, kv, r, np, fuel, hM, hf => by
    obtain ⟨f, rfl⟩ : ∃ f, fuel = f + 1 := ⟨fuel - 1, by omega⟩
    simp only [List.length_cons] at hf
    have hne := (frame_ne hM).1
    have rg := read_frame hM
    have hsib := hole_ne_sib hM
    obtain ⟨gd, ga, gsz, gc, gkv, gsib⟩ := g
    cases gd
    · simp only [Bool.false_eq_true, if_false] at rg
      simp only at hne
      have hM2 : Models t (plug Φ (.node ga gsz gc (.node a sz c l kv r) gkv gsib)) np := hM
      have ih := climbLoop_pred Φ t ga gsz gc (.node a sz c l kv r) gkv gsib np f hM2 (by omega)
      simp [climbLoop, hne, rg, Node.ch, ctxLn, ih]
    · simp only [if_true] at rg
      simp only at hsib hne
      simp [climbLoop, hne, rg, Node.ch, hsib, ctxLn]

/-- The in-order predecessor of a node without a left child, as
`neighbour(o, 0)` finds it. -/
theorem neighbour_pred_leaf {t : RB_Tree K V} {Γ : List (Frame K V)} {o : Nat} {so : Int}
    {co : Bool} {kvo : K × V} {R : PT K V} {np : Nat} {fuel : Nat}
    (hM : Models t (plug Γ (.node o so co .nil kvo R)) np) (hf : Γ.length < fuel) :
    t.neighbour fuel o false = .ok (((ctxLn Γ).getLast?.map Prod.fst).getD t.null) := by
  have ro := read_focus hM
  have := climbLoop_pred Γ t o so co .nil kvo R np fuel hM hf
  simp [neighbour, ro, Node.ch, this]

section order

variable [LinearOrder K]

/-- From the first node of the in-order sequence `neighbour(o, 0)` gives the
sentinel. -/
theorem prev_first {t : RB_Tree K V} {T : PT K V} {np : Nat} {fuel : Nat}
    {suf : List (Nat × K × V)} {a : Nat} {kv : K × V}
    (hM : Models t T np) (hO : T.Ord) (hn : T.nodes = (a, kv) :: suf)
    (hf : T.height < fuel) :
    t.find fuel kv.1 = .ok a ∧ t.neighbour fuel a false = .ok t.null := by
  have hnd := nodes_nodup hM
  obtain ⟨sz, c, l, r, hz⟩ := zoom_nodes T [] a kv hO (by rw [hn]; simp) hnd
  have hfind := find_spec kv.1 hM hf
  rw [hz] at hfind
  refine ⟨hfind, ?_⟩
  have hplug := zoom_plug kv.1 T []
  have hlen := zoom_length kv.1 T []
  obtain ⟨Γ, hctx⟩ : ∃ Γ, (zoom kv.1 T []).1 = Γ := ⟨_, rfl⟩
  rw [hctx, hz] at hplug hlen
  simp only [List.length_nil, PT.height, Nat.zero_add] at hlen
  have hplug2 : sjtu.plug Γ (.node a sz c l kv r) = T := hplug
  subst hplug2
  rw [nodes_plug_eq] at hn hnd
  simp only [PT.nodes, List.append_assoc, List.cons_append] at hn hnd
  rw [← List.append_assoc] at hn hnd
  have hnd2 := hnd
  rw [hn] at hnd2
  have hn2 : (ctxLn Γ ++ l.nodes) ++ (a, kv) :: (r.nodes ++ ctxRn Γ) = [] ++ (a, kv) :: suf := hn
  obtain ⟨e, -⟩ := append_cons_unique hn2 (not_mem_of_nodup_mid hnd) (by simp)
  have e1 : ctxLn Γ = [] := (List.append_eq_nil.1 e).1
  have e2 : l = .nil := by
    have := (List.append_eq_nil.1 e).2
    cases l with
    | nil => rfl
    | node _ _ _ _ _ _ => simp [PT.nodes] at this
  subst e2
  rw [neighbour_pred_leaf hM (by omega), e1]
  rfl

end order

end sjtu

namespace sjtu

open RB_Tree

variable {K V : Type}

section order

variable [LinearOrder K]

/-- An exception of `++` leaves the iterator object as it was. -/
theorem incr_keeps (m : map K V) (fuel : Nat) (it : map.iterator) (e : Fault)
    (he : (m.incr fuel it).2 = some e) : (m.incr fuel it).1 = it := by
  unfold map.incr at he ⊢
  by_cases h0 : it.pointer = 0
  · simp only [h0, if_true]
  · simp only [h0, if_false] at he ⊢
    cases hr : m.rb_tree.rd it.pointer with
    | error e2 => simp only [hr]
    | ok n =>
      simp only [hr] at he ⊢
      cases hv : n.value with
      | none => simp only [hv]
      | some kv =>
        simp only [hv] at he ⊢
        by_cases hb : it.belong = 0 ∨ it.belong ≠ m.self
        · simp only [hb, if_true]
        · simp only [hb, if_false] at he ⊢
          cases hq : m.rb_tree.find fuel kv.1 with
          | error e3 => simp only [hq, error_bind]
          | ok o =>
            simp only [hq, ok_bind] at he ⊢
            cases hnb : m.rb_tree.neighbour fuel o true with
            | error e4 => simp only [hnb]
            | ok p =>
              simp only [hnb] at he
              cases he

/-- The operator `++` with the iterator as state agrees with `inc`. -/
theorem incr_eq (m : map K V) (fuel : Nat) (it : map.iterator) :
    m.incr fuel it = match m.inc fuel it with
      | .ok it2 => (it2, none)
      | .error e => (it, some e) := by
  unfold map.incr map.inc
  by_cases h0 : it.pointer = 0
  · simp only [h0, if_true]
  · simp only [h0, if_false]
    cases hr : m.rb_tree.rd it.pointer with
    | error e2 => simp only [hr, error_bind]
    | ok n =>
      simp only [hr, ok_bind]
      cases hv : n.value with
      | none => simp only [hv]
      | some kv =>
        simp only [hv]
        by_cases hb : it.belong = 0 ∨ it.belong ≠ m.self
        · simp only [hb, if_true]
        · simp only [hb, if_false]
          cases hq : m.rb_tree.find fuel kv.1 with
          | error e3 => simp only [hq, error_bind]
          | ok o =>
            simp only [hq, ok_bind]
            cases hnb : m.rb_tree.neighbour fuel o true with
            | error e4 => simp only [hnb, error_bind]
            | ok p => simp only [hnb, ok_bind, pure_eq_ok]

/-- The operator `++` at `end()` raises `invalid_iterator`. -/
theorem holds_incr_end {m : map K V} {T : PT K V} (h : Holds m T) (fuel : Nat) :
    m.incr fuel m.end = (m.end, some .invalid_iterator) := by
  obtain ⟨-, np, hM, -⟩ := h
  have hr := read_null hM
  simp only [map.incr, map.end, hM.null_ne, if_false, hr]

/-- The operator `--` at the first node moves the iterator to `end()` and
raises `invalid_iterator`. -/
theorem holds_decr_first {m : map K V} {T : PT K V} {fuel : Nat} (h : Holds m T)
    {suf : List (Nat × K × V)} {a : Nat} {kv : K × V} (hn : T.nodes = (a, kv) :: suf)
    (hf : T.height < fuel) :
    m.decr fuel ⟨a, m.self⟩ = (m.end, some .invalid_iterator) := by
  obtain ⟨hs, np, hM, hW⟩ := h
  obtain ⟨n, hr, hv, -, ha0⟩ := read_node hM hW.ord (show (a, kv) ∈ T.nodes by rw [hn]; simp)
  obtain ⟨h1, h2⟩ := prev_first hM hW.ord hn hf
  have hnull := read_null hM
  simp only [map.decr, hs, if_false, ne_eq, not_true_eq_false, ha0, hr, ok_bind, pure_eq_ok, hv,
    h1, h2, hnull, map.end]

end order

end sjtu

namespace sjtu

open RB_Tree

variable {K V : Type}

section order

variable [LinearOrder K]

/-- The operator `--` at `end()` of an empty map raises `invalid_iterator`. -/
theorem holds_decr_empty {m : map K V} {T : PT K V} {fuel : Nat} (h : Holds m T)
    (hn : T.nodes = []) (hf : T.height < fuel) :
    m.decr fuel m.end = (m.end, some .invalid_iterator) := by
  have hsz := holds_size h
  obtain ⟨hs, np, hM, hW⟩ := h
  have hk := kth_spec (0 : Int) hM hW.size hf
  have hnull := read_null hM
  rw [PT.toList_eq_nodes, hn] at hsz
  simp only [List.map_nil, List.length_nil, Nat.cast_zero, map.size] at hsz
  have hk0 : T.kthPtr m.rb_tree.null 0 = m.rb_tree.null := by simp [PT.kthPtr]
  rw [hk0] at hk
  simp only [map.decr, map.end, hs, if_false, ne_eq, not_true_eq_false, hM.null_ne, hnull,
    ok_bind, pure_eq_ok, hsz, hk]

/-- Claim C19, as the code behaves: an exception of `++` leaves the iterator
as it was, and `++` at `end()` raises `invalid_iterator`; `--` at `begin()`
raises `invalid_iterator` too, but only after the assignment to `pointer`, so
that the iterator is `end()` afterwards, which on a map that is not empty is
another position than `begin()`. -/
theorem decr_begin_moves_to_end (m : map K V) (h : Reachable m) :
    ∃ T, Holds m T ∧
      (∀ fuel it e, (m.incr fuel it).2 = some e → (m.incr fuel it).1 = it) ∧
      (∀ fuel, m.incr fuel m.end = (m.end, some .invalid_iterator)) ∧
      ∀ fuel, T.height < fuel → ∃ b, m.begin fuel = .ok b ∧ (b = m.end ↔ T.keys = []) ∧
        m.decr fuel b = (m.end, some .invalid_iterator) := by
  obtain ⟨T, hH⟩ := reachable_holds h
  refine ⟨T, hH, fun fuel it e he => incr_keeps m fuel it e he,
    fun fuel => holds_incr_end hH fuel, fun fuel hf => ?_⟩
  refine ⟨_, holds_begin hH hf, ?_⟩
  have hk : T.keys = [] ↔ T.nodes = [] := by
    rw [PT.keys, PT.toList_eq_nodes]; simp
  cases hn : T.nodes with
  | nil =>
    rw [hk, hn, headPtr_nil]
    exact ⟨⟨fun _ => rfl, fun _ => rfl⟩, holds_decr_empty hH hn hf⟩
  | cons x suf =>
    obtain ⟨a, kv⟩ := x
    rw [hk, hn, headPtr_cons]
    refine ⟨⟨fun hb => ?_, fun hb => by cases hb⟩, holds_decr_first hH hn hf⟩
    obtain ⟨-, np, hM, hW⟩ := hH
    obtain ⟨n, -, -, hne, -⟩ := read_node hM hW.ord (show (a, kv) ∈ T.nodes by rw [hn]; simp)
    simp only [map.end, map.iterator.mk.injEq, and_true] at hb
    exact absurd hb hne

/-- Claim C20: on every tree with the red-black invariants and for every key
absent from it, the descent of `insert` ends below a parent, the new red node
is attached there and the sizes of the path are updated, and the loop of
`insert_fixup` started at the new node returns, as the whole of `insert_fixup`
does; whether the parent is a left or a right child plays no part. -/
theorem insert_fixup_terminates (t : RB_Tree K V) (T : PT K V) (np : Nat)
    (hM : Models t T np) (hW : T.WF) (k : K) (v : V) (hk : k ∉ T.keys) (fuel : Nat)
    (hf : T.height + 3 ≤ fuel) :
    ∃ parent d t1 t2 t3 t4,
      t.insertDescend k fuel t.root t.null 0 = .ok (.inr (parent, d)) ∧
      t.attach parent d (k, v) = .ok (t.brk, t1) ∧
      t1.updatePath fuel parent = .ok t2 ∧
      insertFixupLoop fuel t2 t.brk = .ok t3 ∧
      t2.insert_fixup fuel t.brk = .ok t4 := by
  have hz : (zoom k T []).2 = .nil := by
    rcases zoom_cases hW.ord k with ⟨-, hz⟩ | ⟨a, sz, c, l, v2, r, -, hin⟩
    · exact hz
    · exfalso
      apply hk
      rw [PT.keys, PT.toList_eq_nodes]
      simp only [List.map_map, List.mem_map, Function.comp_apply]
      exact ⟨_, hin, rfl⟩
  have hplug := zoom_plug k T []
  have hlen := zoom_length k T []
  obtain ⟨res, hres, hout⟩ := insertDescend_spec k T t [] np fuel 0 hM (by omega)
    (by intro f Φ h; cases h)
  obtain ⟨Γ, hctx⟩ : ∃ Γ, (zoom k T []).1 = Γ := ⟨_, rfl⟩
  rw [hctx] at hplug hlen hout
  rw [hz] at hplug hlen hout
  simp only [List.length_nil, PT.height, Nat.add_zero, Nat.zero_add] at hlen
  have hplug2 : sjtu.plug Γ PT.nil = T := hplug
  have hMp : Models t (sjtu.plug Γ .nil) np := by rw [hplug2]; exact hM
  obtain ⟨d, rfl, hd⟩ := hout
  obtain ⟨t1, h1, hM1, hn1, hb1⟩ := attach_focus t Γ np d (k, v) hMp hd
  obtain ⟨t2, h2, hM2, hS2⟩ := updatePath_spec Γ _ t1 np fuel hM1 (by omega)
  rw [hn1] at h2
  have hTb : (sjtu.plug Γ (PT.nil : PT K V)).Bal := by rw [hplug2]; exact hW.bal
  have hTc : (sjtu.plug Γ (PT.nil : PT K V)).col = false := by rw [hplug2]; exact hW.black
  rw [bal_plug] at hTb
  rw [col_plug] at hTc
  have hI : FixInv (resize Γ (PT.node t.brk 1 true .nil (k, v) .nil).rsz)
      (.nil : PT K V) .nil :=
    ⟨trivial, trivial, rfl, rfl, rfl, (ctxBal_resize _ _ _ _).2 hTb.2,
      (rootCol_resize _ _ _).trans hTc⟩
  obtain ⟨t4, T4, np4, h4, -⟩ :=
    insert_fixup_spec hM2 hI (show _ + 3 ≤ fuel by rw [length_resize]; omega)
  rw [← hM.root] at hres
  cases h3 : insertFixupLoop fuel t2 t.brk with
  | error e => simp only [insert_fixup, h3, error_bind] at h4; cases h4
  | ok t3 => exact ⟨_, d, t1, t2, t3, t4, hres, h1, h2, h3, h4⟩

end order

end sjtu

namespace sjtu

open RB_Tree

/-- Instance for C11: the example deque `demoDequeThree`, made from the empty
deque by `push_back(10)`, `push_back(20)` and `push_front(5)`: its sequence is
5, 10, 20, and `pop_front()` leaves 10, 20 with `front()` equal to `10`. -/
theorem push_pop_sequence_witness :
    DReach demoDequeThree ∧
    (∃ s, demoDequeThree.toList = .ok s ∧ demoDequeThree.size = s.length ∧
      (∀ x, ∃ d2, demoDequeThree.push_back x = .ok d2 ∧ d2.toList = .ok (s ++ [x]) ∧
        d2.size = s.length + 1) ∧
      (∀ x, ∃ d2, demoDequeThree.push_front x = .ok d2 ∧ d2.toList = .ok (x :: s) ∧
        d2.size = s.length + 1) ∧
      (s ≠ [] → ∃ d2, demoDequeThree.pop_front = .ok d2 ∧ d2.toList = .ok s.tail ∧
        d2.size = s.length - 1)) ∧
    demoDequeThree.toList = .ok [5, 10, 20] ∧ demoDequeThree.size = 3 ∧
    ∃ d2, demoDequeThree.pop_front = .ok d2 ∧ d2.toList = .ok [10, 20] ∧ d2.size = 2 ∧
      d2.front = .ok 10 :=
  ⟨demoDequeThree_reachable, push_pop_sequence demoDequeThree demoDequeThree_reachable,
    rfl, rfl, ⟨_, rfl, rfl, rfl, rfl⟩⟩

/-- Instance for C12: the example deque `demoDequeThree`, where `at(1)` is
`10` and `at(3)` raises `index_out_of_bound`. -/
theorem at_index_witness :
    DReach demoDequeThree ∧
    (∃ s, demoDequeThree.toList = .ok s ∧ ∀ i : Nat,
      (i < demoDequeThree.size → ∃ v, s[i]? = some v ∧ demoDequeThree.at i = .ok v) ∧
      (demoDequeThree.size ≤ i → demoDequeThree.at i = .error .index_out_of_bound)) ∧
    demoDequeThree.at 1 = .ok 10 ∧ demoDequeThree.at 3 = .error .index_out_of_bound :=
  ⟨demoDequeThree_reachable, at_index demoDequeThree demoDequeThree_reachable, rfl, rfl⟩

/-- Instance for C13: the example deque `demoDequeThree` and the value `7`. -/
theorem push_pop_restore_witness :
    DReach demoDequeThree ∧
    ∃ s, demoDequeThree.toList = .ok s ∧
      (∃ d1 d2, demoDequeThree.push_back 7 = .ok d1 ∧ d1.pop_back = .ok d2 ∧
        d2.toList = .ok s ∧ d2.size = demoDequeThree.size ∧
        (s ≠ [] → ∃ v, demoDequeThree.back = .ok v ∧ d2.back = .ok v)) ∧
      (∃ d1 d2, demoDequeThree.push_front 7 = .ok d1 ∧ d1.pop_front = .ok d2 ∧
        d2.toList = .ok s ∧ d2.size = demoDequeThree.size ∧
        (s ≠ [] → ∃ v, demoDequeThree.front = .ok v ∧ d2.front = .ok v)) :=
  ⟨demoDequeThree_reachable, push_pop_restore demoDequeThree demoDequeThree_reachable 7⟩

/-- Instance for C14: in the example deque `demoDequeThree` the iterator at
the position `1`, whose node is at address `1`, and `n = 1`. -/
theorem add_sub_inverse_witness :
    DReach demoDequeThree ∧ 1 ≤ demoDequeThree.size ∧
    deque.iterator.add demoDequeThree demoDequeThree.begin ((1 : Nat) : Int) = .ok ⟨1, 1⟩ ∧
    -2147483648 < (1 : Int) ∧ (1 : Int) ≤ 2147483647 ∧
    ((∀ r, deque.iterator.add demoDequeThree ⟨1, 1⟩ 1 = .ok r →
        deque.iterator.sub demoDequeThree r 1 = .ok ⟨1, 1⟩) ∧
      (∀ r, deque.iterator.sub demoDequeThree ⟨1, 1⟩ 1 = .ok r →
        deque.iterator.add demoDequeThree r 1 = .ok ⟨1, 1⟩)) ∧
    deque.iterator.add demoDequeThree ⟨1, 1⟩ 1 = .ok ⟨3, 1⟩ ∧
    deque.iterator.sub demoDequeThree ⟨3, 1⟩ 1 = .ok ⟨1, 1⟩ :=
  ⟨demoDequeThree_reachable, by decide, rfl, by decide, by decide,
    add_sub_inverse demoDequeThree demoDequeThree_reachable 1 (by decide) ⟨1, 1⟩ rfl 1
      (by decide) (by decide), rfl, rfl⟩

/-- Instance for C15: the example deque `demoDequeThree`, where
`end() - begin()` is `3`. -/
theorem iterator_distance_witness :
    DReach demoDequeThree ∧
    ((∀ (i j : Nat) (it1 it2 : deque.iterator) (fuel : Nat),
      i ≤ demoDequeThree.size → j ≤ demoDequeThree.size →
      deque.iterator.add demoDequeThree demoDequeThree.begin (i : Int) = .ok it1 →
      deque.iterator.add demoDequeThree demoDequeThree.begin (j : Int) = .ok it2 →
      demoDequeThree.size + 2 ≤ fuel →
      deque.iterator.diff demoDequeThree fuel it1 it2 = .ok ((i : Int) - j)) ∧
    (∀ fuel, demoDequeThree.size + 2 ≤ fuel →
      deque.iterator.diff demoDequeThree fuel demoDequeThree.end demoDequeThree.begin =
        .ok (demoDequeThree.size : Int)) ∧
    (∀ (it1 it2 : deque.iterator) (fuel : Nat), it1.belong ≠ it2.belong →
      deque.iterator.diff demoDequeThree fuel it1 it2 = .error .invalid_iterator)) ∧
    deque.iterator.diff demoDequeThree 5 demoDequeThree.end demoDequeThree.begin = .ok 3 :=
  ⟨demoDequeThree_reachable, iterator_distance demoDequeThree demoDequeThree_reachable, rfl⟩

/-- Instance for C17: the example deque `demoDequeThree`, where the insertion
of `7` at the position `1` makes the sequence 5, 7, 10, 20. -/
theorem insert_at_position_witness :
    DReach demoDequeThree ∧
    (∃ s, demoDequeThree.toList = .ok s ∧
      (∀ (i : Nat) (pos : deque.iterator) (x : Nat), i ≤ demoDequeThree.size →
        deque.iterator.add demoDequeThree demoDequeThree.begin (i : Int) = .ok pos →
        ∃ r d2, demoDequeThree.insert pos x = .ok (r, d2) ∧
          d2.toList = .ok (s.take i ++ x :: s.drop i) ∧ d2.size = demoDequeThree.size + 1 ∧
          d2.self = demoDequeThree.self ∧ r.belong = d2.self ∧
          deque.iterator.add d2 d2.begin (i : Int) = .ok r ∧
          deque.iterator.deref d2 r = .ok x ∧
          ∃ v, (s.take i ++ x :: s.drop i).head? = some v ∧
            deque.iterator.deref d2 d2.begin = .ok v) ∧
      (∀ (pos : deque.iterator) (x : Nat), pos.belong ≠ demoDequeThree.self →
        demoDequeThree.insert pos x = .error .invalid_iterator)) ∧
    (∃ r d2, demoDequeThree.insert ⟨1, 1⟩ 7 = .ok (r, d2) ∧ d2.toList = .ok [5, 7, 10, 20] ∧
      deque.iterator.deref d2 r = .ok 7) ∧
    demoDequeThree.insert ⟨1, 2⟩ 7 = .error .invalid_iterator :=
  ⟨demoDequeThree_reachable, insert_at_position demoDequeThree demoDequeThree_reachable,
    ⟨_, _, rfl, rfl, rfl⟩, rfl⟩

/-- Instance for C18: the example deque `demoDequeThree`, where `erase` at
the position `1` leaves 5, 20 and returns the iterator at `20`, and where
`erase` at `begin()` of the deque `demoDequeOther`, an iterator of the owner
at address `2`, raises `invalid_iterator`. -/
theorem erase_at_position_witness :
    DReach demoDequeThree ∧
    (∃ s, demoDequeThree.toList = .ok s ∧
      (∀ (i : Nat) (pos : deque.iterator), i < demoDequeThree.size →
        deque.iterator.add demoDequeThree demoDequeThree.begin (i : Int) = .ok pos →
        ∃ r d2, demoDequeThree.erase pos = .ok (r, d2) ∧
          d2.toList = .ok (s.eraseIdx i) ∧ d2.size = demoDequeThree.size - 1 ∧
          deque.iterator.add d2 d2.begin (i : Int) = .ok r ∧
          (∀ v, s[i + 1]? = some v → deque.iterator.deref d2 r = .ok v) ∧
          (i + 1 = demoDequeThree.size → r = d2.end)) ∧
      demoDequeThree.erase demoDequeThree.end = .error .invalid_iterator ∧
      (∀ pos : deque.iterator, pos.pointer = 0 →
        demoDequeThree.erase pos = .error .invalid_iterator) ∧
      (∀ pos : deque.iterator, pos.belong ≠ demoDequeThree.self →
        demoDequeThree.erase pos = .error .invalid_iterator)) ∧
    (∃ r d2, demoDequeThree.erase ⟨1, 1⟩ = .ok (r, d2) ∧ d2.toList = .ok [5, 20] ∧
      deque.iterator.deref d2 r = .ok 20) ∧
    demoDequeOther.begin.belong = 2 ∧
    demoDequeThree.erase demoDequeOther.begin = .error .invalid_iterator ∧
    demoDequeThree.erase demoDequeOther.end = .error .invalid_iterator ∧
    demoDequeThree.erase ⟨1, 2⟩ = .error .invalid_iterator ∧
    demoDequeOne.erase ⟨4, 2⟩ = .error .invalid_iterator :=
  ⟨demoDequeThree_reachable, erase_at_position demoDequeThree demoDequeThree_reachable,
    ⟨_, _, rfl, rfl, rfl⟩, rfl, rfl, rfl, rfl, rfl⟩

/-- Instance for C19, as the code behaves: in the example map `demoMap`
`begin()` is the iterator at the key `1`, whose node is at address `5`; `--`
on it raises `invalid_iterator` and leaves the iterator `end()`. -/
theorem decr_begin_moves_to_end_witness :
    Reachable demoMap ∧
    (∃ T, Holds demoMap T ∧
      (∀ fuel it e, (demoMap.incr fuel it).2 = some e → (demoMap.incr fuel it).1 = it) ∧
      (∀ fuel, demoMap.incr fuel demoMap.end = (demoMap.end, some .invalid_iterator)) ∧
      ∀ fuel, T.height < fuel → ∃ b, demoMap.begin fuel = .ok b ∧
        (b = demoMap.end ↔ T.keys = []) ∧
        demoMap.decr fuel b = (demoMap.end, some .invalid_iterator)) ∧
    demoMap.begin 8 = .ok ⟨5, 1⟩ ∧ demoMap.end = ⟨1, 1⟩ ∧
    demoMap.decr 8 ⟨5, 1⟩ = (⟨1, 1⟩, some .invalid_iterator) :=
  ⟨demoMap_reachable, decr_begin_moves_to_end demoMap demoMap_reachable, rfl, rfl, rfl⟩

/-- Instance for C20: the tree of `demoMapTwo`, with the key 1 at the root and
the key 2 in its right child, red, at address 3, and the new key 3: the new
node is attached as the right child of the node at address 3, itself a right
child, and the loop returns. -/
theorem insert_fixup_terminates_witness :
    Models demoMapTwo.rb_tree demoTreeTwo 0 ∧ demoTreeTwo.WF ∧ 3 ∉ demoTreeTwo.keys ∧
    demoTreeTwo.height + 3 ≤ 8 ∧
    (∃ parent d t1 t2 t3 t4,
      demoMapTwo.rb_tree.insertDescend 3 8 demoMapTwo.rb_tree.root demoMapTwo.rb_tree.null 0 =
        .ok (.inr (parent, d)) ∧
      demoMapTwo.rb_tree.attach parent d (3, 30) = .ok (demoMapTwo.rb_tree.brk, t1) ∧
      t1.updatePath 8 parent = .ok t2 ∧
      insertFixupLoop 8 t2 demoMapTwo.rb_tree.brk = .ok t3 ∧
      t2.insert_fixup 8 demoMapTwo.rb_tree.brk = .ok t4) ∧
    demoMapTwo.rb_tree.insertDescend 3 8 demoMapTwo.rb_tree.root demoMapTwo.rb_tree.null 0 =
      .ok (.inr (3, 1)) ∧
    (∃ n, demoMapTwo.rb_tree.rd demoMapTwo.rb_tree.root = .ok n ∧ n.right = 3) :=
  have hM : Models demoMapTwo.rb_tree demoTreeTwo 0 :=
    ⟨by decide, rfl, rfl, ⟨rfl, trivial, rfl, trivial, trivial⟩, by decide, by decide,
      by decide⟩
  have hW : demoTreeTwo.WF :=
    ⟨by simp [demoTreeTwo, PT.Ord, PT.keys, PT.toList],
      ⟨trivial, ⟨trivial, trivial, rfl, fun _ => ⟨rfl, rfl⟩⟩, rfl, fun h => by cases h⟩, rfl,
      ⟨rfl, trivial, rfl, trivial, trivial⟩⟩
  ⟨hM, hW, by decide, by decide,
    insert_fixup_terminates demoMapTwo.rb_tree demoTreeTwo 0 hM hW 3 30 (by decide) 8
      (by decide), rfl, ⟨_, rfl, rfl⟩⟩

end sjtu
